import Mathlib

/-!
# Barnes–Hut quadtree simulator: embedding and verification

Shallow embedding of `src/barneshut/barnesHut.go` and of the driver loop of
`src/main/main.go`.

* `float64` is an arbitrary linearly ordered field `F` (exact arithmetic);
  `math.Sqrt` is a parameter `sqrt : F → F`, instantiated with `Real.sqrt`
  where a claim needs its value.
* `*Particle` is a reference `PRef` into a heap `Heap F`; pointer identity is
  equality of references.
* `*BarnesHutNode` is the inductive type `BarnesHutNode F`, whose constructor
  `nil` is the nil pointer; the tree owns its nodes, so a node is a value.
* A recursion that need not terminate takes a fuel argument and returns
  `Except Fault _`; a nil dereference is `Fault.nilDeref`.
-/

namespace BarnesHut

set_option linter.unusedSectionVars false
set_option linter.unusedVariables false

/-! ## Data model -/

/-- The ways a run of the embedded program can fail to produce a value. -/
inductive Fault where
  | nilDeref
  | indexOutOfRange
  | outOfFuel
  deriving DecidableEq, Repr

/-- Go `type Particle struct { x, y, vx, vy, fx, fy float64 }` (unit mass). -/
structure Particle (F : Type) where
  x : F
  y : F
  vx : F
  vy : F
  fx : F
  fy : F
  deriving DecidableEq, Repr

/-- A `*Particle`: particles are compared by identity. -/
abbrev PRef := Nat

/-- The particle store: the contents of every `*Particle`. -/
abbrev Heap (F : Type) := PRef → Particle F

/-- The scalar fields of a Go `BarnesHutNode`. -/
structure Cell (F : Type) where
  centerX : F
  centerY : F
  totalMass : F
  comX : F
  comY : F
  leftX : F
  rightX : F
  topY : F
  botY : F
  deriving DecidableEq, Repr

/-- A `*BarnesHutNode`: `nil`, or a node with its scalar fields, its
`particle` pointer and its children `topLeft, botLeft, topRight, botRight`. -/
inductive BarnesHutNode (F : Type) where
  | nil : BarnesHutNode F
  | node (c : Cell F) (particle : Option PRef)
      (topLeft botLeft topRight botRight : BarnesHutNode F) : BarnesHutNode F
  deriving DecidableEq, Repr

section Defs

variable {F : Type} [LinearOrderedField F]

/-- Go `SOFTENING = 0.000000001`. -/
def SOFTENING : F := 1 / 1000000000

/-- Go `THETA = 0.5`. -/
def THETA : F := 1 / 2

/-- Go `NewParticle`: the value stored in the freshly allocated particle. -/
def NewParticle (x y : F) : Particle F :=
  { x := x, y := y, vx := 0, vy := 0, fx := 0, fy := 0 }

/-- The test `node == nil`. -/
def BarnesHutNode.isNil : BarnesHutNode F → Bool
  | .nil => true
  | .node _ _ _ _ _ _ => false

/-- Go `CreateNode`; `new` zeroes `totalMass`. -/
def CreateNode (leftX rightX botY topY : F) (particle : Option PRef) : BarnesHutNode F :=
  .node
    { centerX := leftX + (rightX - leftX) / 2
      centerY := botY + (topY - botY) / 2
      totalMass := 0
      comX := 0
      comY := 0
      leftX := leftX
      rightX := rightX
      topY := topY
      botY := botY }
    particle .nil .nil .nil .nil

/-- The statement `if child == nil { child = fresh }`. -/
def orCreate (child fresh : BarnesHutNode F) : BarnesHutNode F :=
  if child.isNil then fresh else child

/-- Go `InsertParticle`, with a bound `fuel` on the recursion depth. -/
def InsertParticle (h : Heap F) : Nat → BarnesHutNode F → PRef → Except Fault (BarnesHutNode F)
  | 0, _, _ => .error .outOfFuel
  | _ + 1, .nil, _ => .error .nilDeref
  | fuel + 1, .node c part tl bl tr br, particle =>
    if part.isNone && tl.isNil && tr.isNil && bl.isNil && br.isNil then
      .ok (.node c (some particle) tl bl tr br)
    else
      match part with
      | some currentNodeParticle =>
        let avgX := c.leftX + ((c.rightX - c.leftX) / 2)
        let avgY := c.botY + ((c.topY - c.botY) / 2)
        let node1 : BarnesHutNode F :=
          .node c none
            (CreateNode c.leftX avgX avgY c.topY none)
            (CreateNode c.leftX avgX c.botY avgY none)
            (CreateNode avgX c.rightX avgY c.topY none)
            (CreateNode avgX c.rightX c.botY avgY none)
        match InsertParticle h fuel node1 currentNodeParticle with
        | .error e => .error e
        | .ok node2 => InsertParticle h fuel node2 particle
      | none =>
        let avgX := c.leftX + ((c.rightX - c.leftX) / 2)
        let avgY := c.botY + ((c.topY - c.botY) / 2)
        if (h particle).x < c.centerX ∧ (h particle).y ≥ c.centerY then
          match InsertParticle h fuel
              (orCreate tl (CreateNode c.leftX avgX avgY c.topY none)) particle with
          | .error e => .error e
          | .ok tl1 => .ok (.node c none tl1 bl tr br)
        else if (h particle).x < c.centerX ∧ (h particle).y < c.centerY then
          match InsertParticle h fuel
              (orCreate bl (CreateNode c.leftX avgX c.botY avgY none)) particle with
          | .error e => .error e
          | .ok bl1 => .ok (.node c none tl bl1 tr br)
        else if (h particle).x ≥ c.centerX ∧ (h particle).y ≥ c.centerY then
          match InsertParticle h fuel
              (orCreate tr (CreateNode avgX c.rightX avgY c.topY none)) particle with
          | .error e => .error e
          | .ok tr1 => .ok (.node c none tl bl tr1 br)
        else
          match InsertParticle h fuel
              (orCreate br (CreateNode avgX c.rightX c.botY avgY none)) particle with
          | .error e => .error e
          | .ok br1 => .ok (.node c none tl bl tr br1)

/-- The insertion loop of `main`: `for i { InsertParticle(root, particles[i]) }`. -/
def insertAll (h : Heap F) (fuel : Nat) :
    BarnesHutNode F → List PRef → Except Fault (BarnesHutNode F)
  | root, [] => .ok root
  | root, p :: ps =>
    match InsertParticle h fuel root p with
    | .error e => .error e
    | .ok root1 => insertAll h fuel root1 ps

/-- The particle references held by the nodes of a tree, in the order of the
traversals `FprintDataFile` and `CalcVelocityForAll`: the node itself, then
`topLeft`, `topRight`, `botLeft`, `botRight`. -/
def particles : BarnesHutNode F → List PRef
  | .nil => []
  | .node _ part tl bl tr br =>
    part.toList ++ (particles tl ++ (particles tr ++ (particles bl ++ particles br)))

/-- The particle references held by the leaves (childless nodes) of a tree. -/
def leafParticles : BarnesHutNode F → List PRef
  | .nil => []
  | .node _ part tl bl tr br =>
    if tl.isNil && tr.isNil && bl.isNil && br.isNil then part.toList
    else leafParticles tl ++ (leafParticles tr ++ (leafParticles bl ++ leafParticles br))

/-- One child's share of the reduction in `CalcCenterOfMass`, on the triple
`(totalMass, comX, comY)`: nothing for an absent child or one without mass. -/
def accumulate (acc : F × F × F) : BarnesHutNode F → F × F × F
  | .nil => acc
  | .node cc _ _ _ _ _ =>
    if cc.totalMass > 0 then
      (acc.1 + cc.totalMass, acc.2.1 + cc.comX * cc.totalMass, acc.2.2 + cc.comY * cc.totalMass)
    else acc

/-- The closing assignment of `CalcCenterOfMass` to `totalMass, comX, comY`. -/
def storeCOM (c : Cell F) (acc : F × F × F) : Cell F :=
  if acc.1 > 0 then
    { c with totalMass := acc.1, comX := acc.2.1 / acc.1, comY := acc.2.2 / acc.1 }
  else
    { c with totalMass := acc.1, comX := 0, comY := 0 }

/-- Go `CalcCenterOfMass`: the tree after the call. -/
def CalcCenterOfMass (h : Heap F) : BarnesHutNode F → BarnesHutNode F
  | .nil => .nil
  | .node c part tl bl tr br =>
    if tl.isNil && tr.isNil && bl.isNil && br.isNil then
      match part with
      | some p =>
        .node { c with totalMass := 1, comX := (h p).x, comY := (h p).y } part tl bl tr br
      | none => .node c part tl bl tr br
    else
      let tl1 := CalcCenterOfMass h tl
      let acc1 := accumulate (0, 0, 0) tl1
      let tr1 := CalcCenterOfMass h tr
      let acc2 := accumulate acc1 tr1
      let bl1 := CalcCenterOfMass h bl
      let acc3 := accumulate acc2 bl1
      let br1 := CalcCenterOfMass h br
      let acc4 := accumulate acc3 br1
      .node (storeCOM c acc4) part tl1 bl1 tr1 br1

/-- One child's share of the reduction in `CalcCenterOfMassParallel`, which
reads `child.totalMass` without a nil test. -/
def accumulatePar (acc : F × F × F) : BarnesHutNode F → Except Fault (F × F × F)
  | .nil => .error .nilDeref
  | .node cc _ _ _ _ _ =>
    if cc.totalMass > 0 then
      .ok (acc.1 + cc.totalMass, acc.2.1 + cc.comX * cc.totalMass,
        acc.2.2 + cc.comY * cc.totalMass)
    else .ok acc

/-- Go `CalcCenterOfMassParallel`, read sequentially: a child is processed by
the same call whether a goroutine is spawned for it (counter below the cap,
incremented for the duration of the call) or it is called inline, every child
call completes before `wgChildren.Wait()` returns, and the reduction follows. -/
def CalcCenterOfMassParallel (h : Heap F) (activeThreads numThreads : Int) :
    BarnesHutNode F → Except Fault (BarnesHutNode F)
  | .nil => .ok .nil
  | .node c part tl bl tr br =>
    if tl.isNil && tr.isNil && bl.isNil && br.isNil then
      match part with
      | some p =>
        .ok (.node { c with totalMass := 1, comX := (h p).x, comY := (h p).y } part tl bl tr br)
      | none => .ok (.node c part tl bl tr br)
    else
      match (if activeThreads < numThreads
          then CalcCenterOfMassParallel h (activeThreads + 1) numThreads tl
          else CalcCenterOfMassParallel h activeThreads numThreads tl) with
      | .error e => .error e
      | .ok tl1 =>
      match (if activeThreads < numThreads
          then CalcCenterOfMassParallel h (activeThreads + 1) numThreads tr
          else CalcCenterOfMassParallel h activeThreads numThreads tr) with
      | .error e => .error e
      | .ok tr1 =>
      match (if activeThreads < numThreads
          then CalcCenterOfMassParallel h (activeThreads + 1) numThreads bl
          else CalcCenterOfMassParallel h activeThreads numThreads bl) with
      | .error e => .error e
      | .ok bl1 =>
      match (if activeThreads < numThreads
          then CalcCenterOfMassParallel h (activeThreads + 1) numThreads br
          else CalcCenterOfMassParallel h activeThreads numThreads br) with
      | .error e => .error e
      | .ok br1 =>
      match accumulatePar (0, 0, 0) tl1 with
      | .error e => .error e
      | .ok acc1 =>
      match accumulatePar acc1 tr1 with
      | .error e => .error e
      | .ok acc2 =>
      match accumulatePar acc2 bl1 with
      | .error e => .error e
      | .ok acc3 =>
      match accumulatePar acc3 br1 with
      | .error e => .error e
      | .ok acc4 => .ok (.node (storeCOM c acc4) part tl1 bl1 tr1 br1)

/-- Go `ForceByNode`, on the fields of the (non-nil) node. -/
def ForceByNode (sqrt : F → F) (h : Heap F) (particle : PRef) (c : Cell F) : Heap F :=
  let dx := c.comX - (h particle).x
  let dy := c.comY - (h particle).y
  let distSqr := dx * dx + dy * dy + SOFTENING
  let invDist := 1 / sqrt distSqr
  let invDist3 := invDist * invDist * invDist
  Function.update h particle
    { h particle with
      fx := (h particle).fx + dx * c.totalMass * invDist3
      fy := (h particle).fy + c.totalMass * dy * invDist3 }

/-- Go `ForceCalculation`: the heap after the call. -/
def ForceCalculation (sqrt : F → F) (h : Heap F) (particle : PRef) : BarnesHutNode F → Heap F
  | .nil => h
  | .node c part tl bl tr br =>
    if part = some particle then h
    else
      let dx := (h particle).x - c.comX
      let dy := (h particle).y - c.comY
      let distSqr := dx * dx + dy * dy + SOFTENING
      let D := sqrt distSqr
      let S := c.rightX - c.leftX
      let sByD := S / D
      if sByD < THETA ∨ part ≠ none then ForceByNode sqrt h particle c
      else
        let h1 := ForceCalculation sqrt h particle tl
        let h2 := ForceCalculation sqrt h1 particle tr
        let h3 := ForceCalculation sqrt h2 particle bl
        ForceCalculation sqrt h3 particle br

/-- Go `CalcVelocity`. -/
def CalcVelocity (sqrt : F → F) (h : Heap F) (particle : PRef) (root : BarnesHutNode F)
    (dt : F) : Heap F :=
  let h1 := ForceCalculation sqrt h particle root
  Function.update h1 particle
    { h1 particle with
      vx := (h1 particle).vx + dt * (h1 particle).fx
      vy := (h1 particle).vy + dt * (h1 particle).fy }

/-- The position update and force reset applied to the particle of a node, in
`CalcNewPositions` and in `processPositionSubtree`. -/
def updatePosition (h : Heap F) (particle : PRef) (dt : F) : Heap F :=
  Function.update h particle
    { h particle with
      x := (h particle).x + (h particle).vx * dt
      y := (h particle).y + (h particle).vy * dt
      fx := 0
      fy := 0 }

/-- Go `CalcNewPositions`. -/
def CalcNewPositions (h : Heap F) (dt : F) : BarnesHutNode F → Heap F
  | .nil => h
  | .node _ part tl bl tr br =>
    match part with
    | some p => updatePosition h p dt
    | none =>
      let h1 := CalcNewPositions h dt tl
      let h2 := CalcNewPositions h1 dt tr
      let h3 := CalcNewPositions h2 dt bl
      CalcNewPositions h3 dt br

/-- Go `CalcVelocityForAll`. -/
def CalcVelocityForAll (sqrt : F → F) (root : BarnesHutNode F) (dt : F) :
    Heap F → BarnesHutNode F → Heap F
  | h, .nil => h
  | h, .node _ part tl bl tr br =>
    let h0 := match part with
      | some p => CalcVelocity sqrt h p root dt
      | none => h
    let h1 := CalcVelocityForAll sqrt root dt h0 tl
    let h2 := CalcVelocityForAll sqrt root dt h1 tr
    let h3 := CalcVelocityForAll sqrt root dt h2 bl
    CalcVelocityForAll sqrt root dt h3 br

/-- Go `RecreateWithNewPos`: the new root after the call. -/
def RecreateWithNewPos (h : Heap F) (fuel : Nat) :
    BarnesHutNode F → BarnesHutNode F → Except Fault (BarnesHutNode F)
  | .nil, newRoot => .ok newRoot
  | .node _ part tl bl tr br, newRoot =>
    match part with
    | some p => InsertParticle h fuel newRoot p
    | none =>
      match RecreateWithNewPos h fuel tl newRoot with
      | .error e => .error e
      | .ok n1 =>
      match RecreateWithNewPos h fuel tr n1 with
      | .error e => .error e
      | .ok n2 =>
      match RecreateWithNewPos h fuel bl n2 with
      | .error e => .error e
      | .ok n3 => RecreateWithNewPos h fuel br n3

/-- The force `ForceCalculation(particle, root)` accumulates over the tree
when it starts from `fx = fy = 0`. -/
def netForce (sqrt : F → F) (h : Heap F) (particle : PRef) (root : BarnesHutNode F) : F × F :=
  let h0 := Function.update h particle { h particle with fx := 0, fy := 0 }
  ((ForceCalculation sqrt h0 particle root particle).fx,
    (ForceCalculation sqrt h0 particle root particle).fy)

/-! ### The work-stealing scheduler -/

/-- Go `type Task struct { Node *BarnesHutNode }`. -/
structure Task (F : Type) where
  Node : BarnesHutNode F

/-- Go `Deque`, by the tasks it holds from head to tail (the sequence the
linked list of the source, `LinkedDeque` below, is shown to behave as); every
method runs under the mutex of the deque, so it is one indivisible step. -/
structure Deque (F : Type) where
  tasks : List (Task F)

/-- Go `NewDeque`. -/
def NewDeque : Deque F := { tasks := [] }

/-- Go `(*Deque).PushFront`, on the sequence of tasks: the task is prepended. -/
def Deque.PushFront (d : Deque F) (t : Task F) : Deque F := { tasks := t :: d.tasks }

/-- Go `(*Deque).PushBack`, on the sequence of tasks: the task is appended. -/
def Deque.PushBack (d : Deque F) (t : Task F) : Deque F := { tasks := d.tasks ++ [t] }

/-- Go `(*Deque).PopFront`, on the sequence of tasks: the first task is removed
and returned; the task, the flag and the deque after the call. -/
def Deque.PopFront (d : Deque F) : Task F × Bool × Deque F :=
  match d.tasks with
  | [] => ({ Node := .nil }, false, d)
  | t :: rest => (t, true, { tasks := rest })

/-- Go `(*Deque).PopBack`, on the sequence of tasks: the last task is removed
and returned; the task, the flag and the deque after the call. -/
def Deque.PopBack (d : Deque F) : Task F × Bool × Deque F :=
  match d.tasks.reverse with
  | [] => ({ Node := .nil }, false, d)
  | t :: rest => (t, true, { tasks := rest.reverse })

/-- Go `(*Deque).Len`, on the sequence of tasks: their number. -/
def Deque.Len (d : Deque F) : Int := d.tasks.length

/-- Two's-complement wrap-around of an `int32` result. -/
def wrapInt32 (x : Int) : Int := (x + 2147483648) % 4294967296 - 2147483648

/-- Where a worker goroutine stands in `calcVelocityWorker` /
`updatePositionWorker`:
* `loop`: at the head of the `for`, before `PopFront` on its own deque;
* `steal i`: in `stealTask`, before iteration `i` of its loop;
* `check`: `stealTask` gave the null task, before the load of `tasksProcessed`;
* `proc node k`: in `processVelocitySubtree` / `processPositionSubtree` on
  `node`, before statement `k` (0..3 the four pushes in the order topLeft,
  topRight, botLeft, botRight; 4 the update of the particle; 5 the atomic add);
* `done`: returned. -/
inductive PC (F : Type) where
  | loop
  | steal (i : Nat)
  | check
  | proc (node : BarnesHutNode F) (k : Nat)
  | done

/-- The test "this worker has returned". -/
def PC.isDone : PC F → Bool
  | .done => true
  | _ => false

/-- The state of one phase of `RunSimulation`: the particle store, the deques,
the counter `tasksProcessed`, the control point of every worker, and (a ghost
field) the particles updated so far, in the order of their updates. -/
structure Phase (F : Type) where
  heap : Heap F
  deques : Nat → Deque F
  tasksProcessed : Int
  pc : Nat → PC F
  log : List PRef

/-- Move worker `w` to a control point. -/
def setPC (w : Nat) (c : PC F) (s : Phase F) : Phase F :=
  { s with pc := Function.update s.pc w c }

/-- The statement `if child != nil { deques[threadNum].PushFront(Task{child}) }`. -/
def pushChild (threadNum : Nat) (child : BarnesHutNode F) (s : Phase F) : Phase F :=
  if child.isNil then s
  else
    let d := (s.deques threadNum).PushFront { Node := child }
    { s with deques := Function.update s.deques threadNum d }

/-- The update of the particle of a node by a phase: `act` on the store. -/
def leafAction (act : Heap F → PRef → Heap F) (p : PRef) (s : Phase F) : Phase F :=
  { s with heap := act s.heap p, log := s.log ++ [p] }

/-- The statement `atomic.AddInt32(tasksProcessed, 1)`. -/
def countTask (s : Phase F) : Phase F :=
  { s with tasksProcessed := wrapInt32 (s.tasksProcessed + 1) }

/-- Go `processVelocitySubtree`, run without interruption. -/
def processVelocitySubtree (sqrt : F → F) (root node : BarnesHutNode F) (dt : F)
    (threadNum : Nat) (s : Phase F) : Phase F :=
  match node with
  | .nil => s
  | .node _ part tl bl tr br =>
    let s1 := pushChild threadNum tl s
    let s2 := pushChild threadNum tr s1
    let s3 := pushChild threadNum bl s2
    let s4 := pushChild threadNum br s3
    match part with
    | some p => countTask (leafAction (fun h p => CalcVelocity sqrt h p root dt) p s4)
    | none => s4

/-- Go `processPositionSubtree`, run without interruption. -/
def processPositionSubtree (dt : F) (node : BarnesHutNode F) (threadNum : Nat)
    (s : Phase F) : Phase F :=
  match node with
  | .nil => s
  | .node _ part tl bl tr br =>
    let s1 := pushChild threadNum tl s
    let s2 := pushChild threadNum tr s1
    let s3 := pushChild threadNum bl s2
    let s4 := pushChild threadNum br s3
    match part with
    | some p => countTask (leafAction (fun h p => updatePosition h p dt) p s4)
    | none => s4

/-- One statement of `processVelocitySubtree` / `processPositionSubtree` by
worker `w`, which stands before statement `k` on `node`. -/
def procStep (act : Heap F → PRef → Heap F) (w : Nat) (node : BarnesHutNode F) (k : Nat)
    (s : Phase F) : Phase F :=
  match node with
  | .nil => setPC w .loop s
  | .node _ part tl bl tr br =>
    match k with
    | 0 => setPC w (.proc node 1) (pushChild w tl s)
    | 1 => setPC w (.proc node 2) (pushChild w tr s)
    | 2 => setPC w (.proc node 3) (pushChild w bl s)
    | 3 => setPC w (.proc node 4) (pushChild w br s)
    | 4 =>
      match part with
      | some p => setPC w (.proc node 5) (leafAction act p s)
      | none => setPC w .loop s
    | _ => setPC w .loop (countTask s)

/-- The step of worker `w` at the head of its loop:
`task, found := deques[threadNum].PopFront()`, then into the subtree processor
with the task, or into `stealTask` when the deque was empty. -/
def loopStep (w : Nat) (s : Phase F) : Phase F :=
  let r := (s.deques w).PopFront
  if r.2.1 then
    setPC w (.proc r.1.Node 0) { s with deques := Function.update s.deques w r.2.2 }
  else setPC w (.steal 0) s

/-- Iteration `i` of the loop of `stealTask` run by worker `w`: past the last
victim the null task is returned; the worker skips itself; otherwise one
`PopBack` on the victim, whose task (if any) is returned to the worker loop,
which tests `task.Node == nil` on it. -/
def stealStep (numThreads : Nat) (w i : Nat) (s : Phase F) : Phase F :=
  if i < numThreads then
    let victim := (w + i) % numThreads
    if victim = w then setPC w (.steal (i + 1)) s
    else
      let r := (s.deques victim).PopBack
      if r.2.1 then
        setPC w (if r.1.Node.isNil then .check else .proc r.1.Node 0)
          { s with deques := Function.update s.deques victim r.2.2 }
      else setPC w (.steal (i + 1)) s
  else setPC w .check s

/-- The step `if atomic.LoadInt32(tasksProcessed) >= int32(nParticles) { return }`,
else `continue`. -/
def checkStep (nParticles : Int) (w : Nat) (s : Phase F) : Phase F :=
  if s.tasksProcessed ≥ wrapInt32 nParticles then setPC w .done s else setPC w .loop s

/-- One step of worker `w` in `calcVelocityWorker` / `updatePositionWorker`
(they differ in the update `act` only): one deque operation, one atomic
operation on the counter, or one particle update. The update of a particle is
one step: it reads the tree, which no worker writes during a phase, and
writes the fields of that particle only. -/
def workerStep (act : Heap F → PRef → Heap F) (numThreads : Nat) (nParticles : Int)
    (w : Nat) (s : Phase F) : Phase F :=
  match s.pc w with
  | .loop => loopStep w s
  | .steal i => stealStep numThreads w i s
  | .check => checkStep nParticles w s
  | .proc node k => procStep act w node k s
  | .done => s

/-- The workers run in the interleaving `sched`: its entries name the worker
that takes the next step. -/
def runWorkers (act : Heap F → PRef → Heap F) (numThreads : Nat) (nParticles : Int)
    (sched : List Nat) (s : Phase F) : Phase F :=
  sched.foldl (fun s w => if w < numThreads then workerStep act numThreads nParticles w s else s) s

/-- The state in which `RunSimulation` starts the workers of a phase: fresh
deques, the root task on deque 0, its own counter at zero. -/
def startPhase (h : Heap F) (root : BarnesHutNode F) : Phase F :=
  { heap := h
    deques := fun i => if i = 0 then (NewDeque).PushFront { Node := root } else NewDeque
    tasksProcessed := 0
    pc := fun _ => .loop
    log := [] }

/-- The test "`wg.Wait()` returns": all `numThreads` workers have returned. -/
def phaseDone (numThreads : Nat) (s : Phase F) : Bool :=
  (List.range numThreads).all (fun w => (s.pc w).isDone)

/-- Go `RunSimulation`, the aggregation read sequentially and the workers of
the velocity and position phases run in the interleavings `schedV`, `schedP`:
the particle store and the aggregated tree after the call. A schedule that
ends before all workers have returned gives `outOfFuel`. -/
def RunSimulation (sqrt : F → F) (h : Heap F) (root : BarnesHutNode F) (numThreads : Nat)
    (dt : F) (nParticles : Int) (schedV schedP : List Nat) :
    Except Fault (Heap F × BarnesHutNode F) :=
  match CalcCenterOfMassParallel h 1 numThreads root with
  | .error e => .error e
  | .ok root1 =>
    if numThreads = 0 then .error .indexOutOfRange
    else
      let sV := runWorkers (fun h p => CalcVelocity sqrt h p root1 dt) numThreads nParticles
        schedV (startPhase h root1)
      if phaseDone numThreads sV then
        let sP := runWorkers (fun h p => updatePosition h p dt) numThreads nParticles
          schedP (startPhase sV.heap root1)
        if phaseDone numThreads sP then .ok (sP.heap, root1) else .error .outOfFuel
      else .error .outOfFuel

/-- The main loop of `main`, one entry of `scheds` per iteration: run
`RunSimulation`, rebuild the tree into a fresh root with the bounds of the
first one, and continue with the new root. -/
def mainLoop (sqrt : F → F) (leftX rightX botY topY : F) (numThreads : Nat) (dt : F)
    (nParticles : Int) (fuel : Nat) :
    List (List Nat × List Nat) → Heap F → BarnesHutNode F →
      Except Fault (Heap F × BarnesHutNode F)
  | [], h, root => .ok (h, root)
  | (schedV, schedP) :: rest, h, root =>
    match RunSimulation sqrt h root numThreads dt nParticles schedV schedP with
    | .error e => .error e
    | .ok (h1, root1) =>
      match RecreateWithNewPos h1 fuel root1 (CreateNode leftX rightX botY topY none) with
      | .error e => .error e
      | .ok newRoot =>
        mainLoop sqrt leftX rightX botY topY numThreads dt nParticles fuel rest h1 newRoot

/-! ### Predicates used to state the properties -/

/-- The position of a particle. -/
def pos (h : Heap F) (p : PRef) : F × F := ((h p).x, (h p).y)

/-- The bounds `leftX, rightX, botY, topY` of a quadrant. -/
structure Bounds (F : Type) where
  leftX : F
  rightX : F
  botY : F
  topY : F

/-- The bounds stored in a node. -/
def Cell.bounds (c : Cell F) : Bounds F :=
  { leftX := c.leftX, rightX := c.rightX, botY := c.botY, topY := c.topY }

/-- A particle lies in the half-open bounds:
`leftX ≤ x < rightX` and `botY ≤ y < topY`. -/
def Bounds.Contains (B : Bounds F) (h : Heap F) (p : PRef) : Prop :=
  B.leftX ≤ (h p).x ∧ (h p).x < B.rightX ∧ B.botY ≤ (h p).y ∧ (h p).y < B.topY

instance (B : Bounds F) (h : Heap F) (p : PRef) : Decidable (B.Contains h p) := by
  unfold Bounds.Contains
  infer_instance

/-- The four quadrants of a node. -/
inductive Quad where
  | TL
  | BL
  | TR
  | BR
  deriving DecidableEq, Repr

/-- The bounds `InsertParticle` gives to the child in a quadrant. -/
def Bounds.child (B : Bounds F) : Quad → Bounds F
  | .TL => { leftX := B.leftX, rightX := B.leftX + ((B.rightX - B.leftX) / 2),
             botY := B.botY + ((B.topY - B.botY) / 2), topY := B.topY }
  | .BL => { leftX := B.leftX, rightX := B.leftX + ((B.rightX - B.leftX) / 2),
             botY := B.botY, topY := B.botY + ((B.topY - B.botY) / 2) }
  | .TR => { leftX := B.leftX + ((B.rightX - B.leftX) / 2), rightX := B.rightX,
             botY := B.botY + ((B.topY - B.botY) / 2), topY := B.topY }
  | .BR => { leftX := B.leftX + ((B.rightX - B.leftX) / 2), rightX := B.rightX,
             botY := B.botY, topY := B.botY + ((B.topY - B.botY) / 2) }

/-- The pivot stored in a node is the midpoint `CreateNode` computes. -/
def Centered (c : Cell F) : Prop :=
  c.centerX = c.leftX + (c.rightX - c.leftX) / 2 ∧ c.centerY = c.botY + (c.topY - c.botY) / 2

/-- A region quadtree over the bounds `B`: every node is an empty cell, a leaf
whose particle lies in its bounds, or a particle-free internal node with four
children over the four quadrants that holds at least two particles. -/
def WF (h : Heap F) : Bounds F → BarnesHutNode F → Prop
  | _, .nil => False
  | B, .node c part tl bl tr br =>
    c.bounds = B ∧ Centered c ∧
    ((part = none ∧ tl = .nil ∧ bl = .nil ∧ tr = .nil ∧ br = .nil) ∨
     (∃ p, part = some p ∧ B.Contains h p ∧ tl = .nil ∧ bl = .nil ∧ tr = .nil ∧ br = .nil) ∨
     (part = none ∧
      2 ≤ (particles tl ++ (particles tr ++ (particles bl ++ particles br))).length ∧
      WF h (B.child .TL) tl ∧ WF h (B.child .BL) bl ∧
      WF h (B.child .TR) tr ∧ WF h (B.child .BR) br))

/-- The quadrant rule of `InsertParticle`, as the chain of tests it runs. -/
def quadrant (c : Cell F) (x y : F) : Quad :=
  if x < c.centerX ∧ y ≥ c.centerY then .TL
  else if x < c.centerX ∧ y < c.centerY then .BL
  else if x ≥ c.centerX ∧ y ≥ c.centerY then .TR
  else .BR

/-- The node `InsertParticle` creates for a quadrant of a node with fields `c`. -/
def freshChild (c : Cell F) : Quad → BarnesHutNode F
  | .TL => CreateNode c.leftX (c.leftX + ((c.rightX - c.leftX) / 2))
      (c.botY + ((c.topY - c.botY) / 2)) c.topY none
  | .BL => CreateNode c.leftX (c.leftX + ((c.rightX - c.leftX) / 2))
      c.botY (c.botY + ((c.topY - c.botY) / 2)) none
  | .TR => CreateNode (c.leftX + ((c.rightX - c.leftX) / 2)) c.rightX
      (c.botY + ((c.topY - c.botY) / 2)) c.topY none
  | .BR => CreateNode (c.leftX + ((c.rightX - c.leftX) / 2)) c.rightX
      c.botY (c.botY + ((c.topY - c.botY) / 2)) none

/-- The child of a node in a quadrant (`nil` for `nil`). -/
def getChild : BarnesHutNode F → Quad → BarnesHutNode F
  | .nil, _ => .nil
  | .node _ _ tl _ _ _, .TL => tl
  | .node _ _ _ bl _ _, .BL => bl
  | .node _ _ _ _ tr _, .TR => tr
  | .node _ _ _ _ _ br, .BR => br

/-- The node with its child in a quadrant replaced. -/
def setChild : BarnesHutNode F → Quad → BarnesHutNode F → BarnesHutNode F
  | .nil, _, _ => .nil
  | .node c part _ bl tr br, .TL, x => .node c part x bl tr br
  | .node c part tl _ tr br, .BL, x => .node c part tl x tr br
  | .node c part tl bl _ br, .TR, x => .node c part tl bl x br
  | .node c part tl bl tr _, .BR, x => .node c part tl bl tr x

/-- The scalar fields of a node (those of `CreateNode(0, 0, 0, 0, nil)` for `nil`,
which no caller reads). -/
def BarnesHutNode.cell : BarnesHutNode F → Cell F
  | .nil => ⟨0, 0, 0, 0, 0, 0, 0, 0, 0⟩
  | .node c _ _ _ _ _ => c

/-- The `particle` field of a node. -/
def BarnesHutNode.part : BarnesHutNode F → Option PRef
  | .nil => none
  | .node _ part _ _ _ _ => part

/-- The node after the subdivision step of `InsertParticle`: the four
quadrants created and the particle cleared. -/
def splitNode (c : Cell F) : BarnesHutNode F :=
  .node c none (freshChild c .TL) (freshChild c .BL) (freshChild c .TR) (freshChild c .BR)

/-- The subtrees of a tree rooted at its nodes: every non-nil node, parent
before children. -/
def nodes : BarnesHutNode F → List (BarnesHutNode F)
  | .nil => []
  | .node c part tl bl tr br =>
    .node c part tl bl tr br :: (nodes tl ++ (nodes tr ++ (nodes bl ++ nodes br)))

/-- The shape every insertion keeps: a node is childless (and, when it holds
no particle, still has the zero aggregates `CreateNode` gave it), or it holds
no particle and has all four children. -/
def Regular : BarnesHutNode F → Prop
  | .nil => False
  | .node c part tl bl tr br =>
    (tl = .nil ∧ bl = .nil ∧ tr = .nil ∧ br = .nil ∧
      (part = none → c.totalMass = 0 ∧ c.comX = 0 ∧ c.comY = 0)) ∨
    (part = none ∧ Regular tl ∧ Regular bl ∧ Regular tr ∧ Regular br)

/-- The classification of nodes: a node that holds a particle has no children,
at every node of the tree. -/
def Classified : BarnesHutNode F → Prop
  | .nil => True
  | .node _ part tl bl tr br =>
    (part ≠ none → tl = .nil ∧ bl = .nil ∧ tr = .nil ∧ br = .nil) ∧
    Classified tl ∧ Classified bl ∧ Classified tr ∧ Classified br

/-- The tree with the aggregate fields `totalMass, comX, comY` of every node
set to zero: its shape, bounds, pivots and particle references. -/
def skeleton : BarnesHutNode F → BarnesHutNode F
  | .nil => .nil
  | .node c part tl bl tr br =>
    .node { c with totalMass := 0, comX := 0, comY := 0 } part
      (skeleton tl) (skeleton bl) (skeleton tr) (skeleton br)

/-- The particles of the tasks queued in a deque. -/
def Deque.held (d : Deque F) : List PRef := d.tasks.flatMap (fun t => particles t.Node)

/-- The particles a worker still has in hand at a control point: in the
subtree processor, those of the children it has not pushed yet and the
particle of the node while it has not updated it. -/
def PC.held : PC F → List PRef
  | .proc (.node _ part tl bl tr br) k =>
    (if k ≤ 0 then particles tl else []) ++ ((if k ≤ 1 then particles tr else []) ++
      ((if k ≤ 2 then particles bl else []) ++ ((if k ≤ 3 then particles br else []) ++
        (if k ≤ 4 then part.toList else []))))
  | _ => []

/-- One for a worker that has updated a particle and not yet counted it. -/
def PC.uncounted : PC F → Int
  | .proc (.node _ _ _ _ _ _) k => if 5 ≤ k then 1 else 0
  | _ => 0

/-- The control points at which the own deque of the worker was found empty. -/
def PC.idle : PC F → Bool
  | .steal _ => true
  | .check => true
  | .done => true
  | _ => false

/-- The invariant of a phase with `numThreads` workers on the tree `root`:
* every particle reference of the tree is, with its multiplicity, in the log
  of updated particles, in a queued task, or in the hands of a worker;
* `tasksProcessed` is the number of updates logged and counted, as an `int32`;
* a worker that found its deque empty and has not taken a task since has an
  empty deque. -/
def SchedInv (numThreads : Nat) (root : BarnesHutNode F) (s : Phase F) : Prop :=
  (∀ a, s.log.count a + (∑ i ∈ Finset.range numThreads, (s.deques i).held.count a)
      + (∑ w ∈ Finset.range numThreads, (s.pc w).held.count a) = (particles root).count a) ∧
  s.tasksProcessed
    = wrapInt32 ((s.log.length : Int) - ∑ w ∈ Finset.range numThreads, (s.pc w).uncounted) ∧
  (∀ w, w < numThreads → (s.pc w).idle = true → (s.deques w).tasks = [])

/-- The sum of the `x` coordinates of the listed particles. -/
def sumX (h : Heap F) (ps : List PRef) : F := (ps.map (fun p => (h p).x)).sum

/-- The sum of the `y` coordinates of the listed particles. -/
def sumY (h : Heap F) (ps : List PRef) : F := (ps.map (fun p => (h p).y)).sum

/-- The aggregate invariant at one node: `totalMass` is the number of
particles held in leaves of its subtree and, when that number is positive,
`(comX, comY)` is the arithmetic mean of their positions. -/
def Aggregated (h : Heap F) (n : BarnesHutNode F) : Prop :=
  n.cell.totalMass = ((leafParticles n).length : F) ∧
  (0 < (leafParticles n).length →
    n.cell.comX = sumX h (leafParticles n) / ((leafParticles n).length : F) ∧
    n.cell.comY = sumY h (leafParticles n) / ((leafParticles n).length : F))

/-- The value of `distSqr` in `ForceByNode`, of which the function takes the
square root and the reciprocal. -/
def distSqrByNode (h : Heap F) (particle : PRef) (c : Cell F) : F :=
  (c.comX - (h particle).x) * (c.comX - (h particle).x) +
    (c.comY - (h particle).y) * (c.comY - (h particle).y) + SOFTENING

/-- The value of `distSqr` in `ForceCalculation`, by whose square root `D` the
function divides the width `S`. -/
def distSqrCalc (h : Heap F) (particle : PRef) (c : Cell F) : F :=
  ((h particle).x - c.comX) * ((h particle).x - c.comX) +
    ((h particle).y - c.comY) * ((h particle).y - c.comY) + SOFTENING

/-- The loop of `stealTask` from iteration `i` on, with `n` iterations left:
the task returned and the deques after the call. -/
def stealLoop (threadNum numThreads : Nat) :
    Nat → Nat → (Nat → Deque F) → Task F × (Nat → Deque F)
  | 0, _, deques => ({ Node := .nil }, deques)
  | n + 1, i, deques =>
    let victim := (threadNum + i) % numThreads
    if victim = threadNum then stealLoop threadNum numThreads n (i + 1) deques
    else
      let r := (deques victim).PopBack
      if r.2.1 then (r.1, Function.update deques victim r.2.2)
      else stealLoop threadNum numThreads n (i + 1) deques

/-- Go `stealTask`, run without interruption: `for i := 0; i < numThreads; i++`. -/
def stealTask (threadNum : Nat) (deques : Nat → Deque F) (numThreads : Nat) :
    Task F × (Nat → Deque F) :=
  stealLoop threadNum numThreads numThreads 0 deques

/-- Particle `p` is held by a leaf of the tree, lies in the half-open bounds
stored in that leaf, and the path from the root to the leaf follows the
quadrant rule at every node above it: `topLeft` when `x < centerX` and
`y ≥ centerY`, `botLeft` when `x < centerX` and `y < centerY`, `topRight` when
`x ≥ centerX` and `y ≥ centerY`, `botRight` otherwise. -/
def Placed (h : Heap F) (p : PRef) : BarnesHutNode F → Prop
  | .nil => False
  | .node c part tl bl tr br =>
    (part = some p ∧ tl = .nil ∧ bl = .nil ∧ tr = .nil ∧ br = .nil ∧
      c.leftX ≤ (h p).x ∧ (h p).x < c.rightX ∧ c.botY ≤ (h p).y ∧ (h p).y < c.topY) ∨
    (part = none ∧
      (((h p).x < c.centerX ∧ (h p).y ≥ c.centerY ∧ Placed h p tl) ∨
       ((h p).x < c.centerX ∧ (h p).y < c.centerY ∧ Placed h p bl) ∨
       ((h p).x ≥ c.centerX ∧ (h p).y ≥ c.centerY ∧ Placed h p tr) ∨
       (¬ ((h p).x < c.centerX ∧ (h p).y ≥ c.centerY) ∧
        ¬ ((h p).x < c.centerX ∧ (h p).y < c.centerY) ∧
        ¬ ((h p).x ≥ c.centerX ∧ (h p).y ≥ c.centerY) ∧ Placed h p br)))

/-- `InsertParticle` with the four statements
`if child == nil { child = CreateNode(...) }` removed: the recursive call then
receives the child as it is, and dereferences it when it is nil. -/
def InsertParticleNoCreate (h : Heap F) :
    Nat → BarnesHutNode F → PRef → Except Fault (BarnesHutNode F)
  | 0, _, _ => .error .outOfFuel
  | _ + 1, .nil, _ => .error .nilDeref
  | fuel + 1, .node c part tl bl tr br, particle =>
    if part.isNone && tl.isNil && tr.isNil && bl.isNil && br.isNil then
      .ok (.node c (some particle) tl bl tr br)
    else
      match part with
      | some currentNodeParticle =>
        let avgX := c.leftX + ((c.rightX - c.leftX) / 2)
        let avgY := c.botY + ((c.topY - c.botY) / 2)
        let node1 : BarnesHutNode F :=
          .node c none
            (CreateNode c.leftX avgX avgY c.topY none)
            (CreateNode c.leftX avgX c.botY avgY none)
            (CreateNode avgX c.rightX avgY c.topY none)
            (CreateNode avgX c.rightX c.botY avgY none)
        match InsertParticleNoCreate h fuel node1 currentNodeParticle with
        | .error e => .error e
        | .ok node2 => InsertParticleNoCreate h fuel node2 particle
      | none =>
        if (h particle).x < c.centerX ∧ (h particle).y ≥ c.centerY then
          match InsertParticleNoCreate h fuel tl particle with
          | .error e => .error e
          | .ok tl1 => .ok (.node c none tl1 bl tr br)
        else if (h particle).x < c.centerX ∧ (h particle).y < c.centerY then
          match InsertParticleNoCreate h fuel bl particle with
          | .error e => .error e
          | .ok bl1 => .ok (.node c none tl bl1 tr br)
        else if (h particle).x ≥ c.centerX ∧ (h particle).y ≥ c.centerY then
          match InsertParticleNoCreate h fuel tr particle with
          | .error e => .error e
          | .ok tr1 => .ok (.node c none tl bl tr1 br)
        else
          match InsertParticleNoCreate h fuel br particle with
          | .error e => .error e
          | .ok br1 => .ok (.node c none tl bl tr br1)

/-! ### The linked list behind `Deque` -/

/-- Go `type node struct { task *Task; next *node; prev *node }`: a cell of the
doubly linked list. The task is the copy `&t` made by the push, which nothing
else refers to; `next` and `prev` are addresses of cells, `none` for `nil`. -/
structure DNode (F : Type) where
  task : Task F
  next : Option Nat
  prev : Option Nat

/-- Go `Deque` as the source declares it, `head`, `tail` and `size int32`,
together with the cells allocated so far: `mem` gives the contents of each
address, `fresh` is the address the next `&node{...}` returns. Every method
runs under the mutex `mu`, so it is one indivisible step. -/
structure LinkedDeque (F : Type) where
  mem : Nat → DNode F
  fresh : Nat
  head : Option Nat
  tail : Option Nat
  size : Int

/-- Go `NewDeque`: `&Deque{}`, before any cell is allocated. -/
def NewLinkedDeque : LinkedDeque F :=
  { mem := fun _ => { task := { Node := .nil }, next := none, prev := none }
    fresh := 0
    head := none
    tail := none
    size := 0 }

/-- Go `(*Deque).PushFront`, on the linked list. -/
def LinkedDeque.PushFront (d : LinkedDeque F) (t : Task F) : LinkedDeque F :=
  let newNode := d.fresh
  let mem1 := Function.update d.mem newNode { task := t, next := none, prev := none }
  match d.head with
  | none =>
    { mem := mem1, fresh := d.fresh + 1, head := some newNode, tail := some newNode,
      size := wrapInt32 (d.size + 1) }
  | some hd =>
    let mem2 := Function.update mem1 newNode { mem1 newNode with next := some hd }
    let mem3 := Function.update mem2 hd { mem2 hd with prev := some newNode }
    { mem := mem3, fresh := d.fresh + 1, head := some newNode, tail := d.tail,
      size := wrapInt32 (d.size + 1) }

/-- Go `(*Deque).PushBack`, on the linked list. -/
def LinkedDeque.PushBack (d : LinkedDeque F) (t : Task F) : LinkedDeque F :=
  let newNode := d.fresh
  let mem1 := Function.update d.mem newNode { task := t, next := none, prev := none }
  match d.tail with
  | none =>
    { mem := mem1, fresh := d.fresh + 1, head := some newNode, tail := some newNode,
      size := wrapInt32 (d.size + 1) }
  | some tl =>
    let mem2 := Function.update mem1 newNode { mem1 newNode with prev := some tl }
    let mem3 := Function.update mem2 tl { mem2 tl with next := some newNode }
    { mem := mem3, fresh := d.fresh + 1, head := d.head, tail := some newNode,
      size := wrapInt32 (d.size + 1) }

/-- Go `(*Deque).PopFront`, on the linked list: the task, the flag and the
deque after the call. -/
def LinkedDeque.PopFront (d : LinkedDeque F) : Task F × Bool × LinkedDeque F :=
  match d.head with
  | none => ({ Node := .nil }, false, d)
  | some hd =>
    let t := (d.mem hd).task
    match (d.mem hd).next with
    | some nx =>
      (t, true,
        { d with
          mem := Function.update d.mem nx { d.mem nx with prev := none }
          head := some nx
          size := wrapInt32 (d.size - 1) })
    | none => (t, true, { d with head := none, tail := none, size := wrapInt32 (d.size - 1) })

/-- Go `(*Deque).PopBack`, on the linked list: the task, the flag and the
deque after the call. -/
def LinkedDeque.PopBack (d : LinkedDeque F) : Task F × Bool × LinkedDeque F :=
  match d.tail with
  | none => ({ Node := .nil }, false, d)
  | some tl =>
    let t := (d.mem tl).task
    match (d.mem tl).prev with
    | some pv =>
      (t, true,
        { d with
          mem := Function.update d.mem pv { d.mem pv with next := none }
          tail := some pv
          size := wrapInt32 (d.size - 1) })
    | none => (t, true, { d with head := none, tail := none, size := wrapInt32 (d.size - 1) })

/-- Go `(*Deque).Len`, on the linked list: the field `size`. -/
def LinkedDeque.Len (d : LinkedDeque F) : Int := d.size

/-- A call of a method of `Deque`. -/
inductive DequeOp (F : Type) where
  | pushFront (t : Task F)
  | pushBack (t : Task F)
  | popFront
  | popBack
  | len

/-- What a call of a method of `Deque` returns: nothing for a push, the task
and the flag for a pop, the `int32` for `Len`. -/
inductive DequeRet (F : Type) where
  | pushed
  | popped (t : Task F) (found : Bool)
  | length (n : Int)

/-- One call on the linked list: what it returns and the deque after it. -/
def LinkedDeque.call (d : LinkedDeque F) : DequeOp F → DequeRet F × LinkedDeque F
  | .pushFront t => (.pushed, d.PushFront t)
  | .pushBack t => (.pushed, d.PushBack t)
  | .popFront => (.popped d.PopFront.1 d.PopFront.2.1, d.PopFront.2.2)
  | .popBack => (.popped d.PopBack.1 d.PopBack.2.1, d.PopBack.2.2)
  | .len => (.length d.Len, d)

/-- One call on the sequence of tasks: `PushFront` prepends, `PushBack`
appends, `PopFront` removes and returns the first task, `PopBack` removes and
returns the last task, a pop on the empty sequence returns `(Task{}, false)`
and leaves it as it is, `Len` is the number of tasks. -/
def Deque.call (s : Deque F) : DequeOp F → DequeRet F × Deque F
  | .pushFront t => (.pushed, s.PushFront t)
  | .pushBack t => (.pushed, s.PushBack t)
  | .popFront => (.popped s.PopFront.1 s.PopFront.2.1, s.PopFront.2.2)
  | .popBack => (.popped s.PopBack.1 s.PopBack.2.1, s.PopBack.2.2)
  | .len => (.length s.Len, s)

/-- A sequence of calls on the linked list: what the calls return, in order,
and the deque after the last one. -/
def LinkedDeque.run (d : LinkedDeque F) : List (DequeOp F) → List (DequeRet F) × LinkedDeque F
  | [] => ([], d)
  | op :: ops => ((d.call op).1 :: ((d.call op).2.run ops).1, ((d.call op).2.run ops).2)

/-- A sequence of calls on the sequence of tasks. -/
def Deque.run (s : Deque F) : List (DequeOp F) → List (DequeRet F) × Deque F
  | [] => ([], s)
  | op :: ops => ((s.call op).1 :: ((s.call op).2.run ops).1, ((s.call op).2.run ops).2)

/-- The cells at the addresses `addrs` are linked into a list in this order:
each one's `prev` is the address before it and its `next` the address after
it, `nil` at the two ends. -/
def Linked (mem : Nat → DNode F) (addrs : List Nat) : Prop :=
  ∀ l1 a l2, addrs = l1 ++ a :: l2 → (mem a).prev = l1.getLast? ∧ (mem a).next = l2.head?

/-- The linked list of `d` runs through the cells at the addresses `addrs`,
from `head` to `tail`: they are distinct allocated cells linked in this order,
and `size` is their number as an `int32`. -/
def LinkedDeque.Spine (d : LinkedDeque F) (addrs : List Nat) : Prop :=
  addrs.Nodup ∧ (∀ a ∈ addrs, a < d.fresh) ∧ d.head = addrs.head? ∧ d.tail = addrs.getLast? ∧
    Linked d.mem addrs ∧ d.size = wrapInt32 addrs.length

/-- The linked list `d` holds the sequence of tasks `s`: the tasks of its
cells, from `head` to `tail`. -/
def Refines (d : LinkedDeque F) (s : Deque F) : Prop :=
  ∃ addrs, d.Spine addrs ∧ s.tasks = addrs.map (fun a => (d.mem a).task)

/-- The linked list read from the other end: `next` and `prev` exchanged,
`head` and `tail` exchanged. -/
def LinkedDeque.mirror (d : LinkedDeque F) : LinkedDeque F :=
  { mem := fun a => { task := (d.mem a).task, next := (d.mem a).prev, prev := (d.mem a).next }
    fresh := d.fresh
    head := d.tail
    tail := d.head
    size := d.size }

/-! ### The tasks a worker takes -/

/-- The node of the task worker `w` takes from a deque in its next step, if
it takes one: by `PopFront` on its own deque at the head of its loop, or by
`PopBack` on a victim in `stealTask`. -/
def takenAt (numThreads : Nat) (w : Nat) (s : Phase F) : List (BarnesHutNode F) :=
  match s.pc w with
  | .loop => if (s.deques w).PopFront.2.1 then [(s.deques w).PopFront.1.Node] else []
  | .steal i =>
    if i < numThreads then
      if (w + i) % numThreads = w then []
      else if (s.deques ((w + i) % numThreads)).PopBack.2.1 then
        [(s.deques ((w + i) % numThreads)).PopBack.1.Node]
      else []
    else []
  | _ => []

/-- The nodes of the tasks the workers take from the deques in the
interleaving `sched`, in the order in which they take them. -/
def tasksTaken (act : Heap F → PRef → Heap F) (numThreads : Nat) (nParticles : Int) :
    List Nat → Phase F → List (BarnesHutNode F)
  | [], _ => []
  | w :: sched, s =>
    if w < numThreads then
      takenAt numThreads w s
        ++ tasksTaken act numThreads nParticles sched (workerStep act numThreads nParticles w s)
    else tasksTaken act numThreads nParticles sched s

/-- The tasks `if child != nil { PushFront(Task{child}) }` puts on a deque. -/
def optTask (t : BarnesHutNode F) : List (Task F) :=
  if t.isNil then [] else [{ Node := t }]

/-- The order in which a single worker updates the particles of a subtree:
the particle of the node, then the subtrees `botRight`, `botLeft`, `topRight`,
`topLeft`, the reverse of the order in which it pushed them at the front. -/
def workerParticles : BarnesHutNode F → List PRef
  | .nil => []
  | .node _ part tl bl tr br =>
    part.toList ++ (workerParticles br ++ (workerParticles bl ++ (workerParticles tr ++
      workerParticles tl)))

/-- The order in which a single worker takes the nodes of a subtree. -/
def workerNodes : BarnesHutNode F → List (BarnesHutNode F)
  | .nil => []
  | .node c part tl bl tr br =>
    .node c part tl bl tr br :: (workerNodes br ++ (workerNodes bl ++ (workerNodes tr ++
      workerNodes tl)))

/-- What the single worker `0` reads and writes: its control point, the tasks
on its deque, the log of updated particles, the particle store, the counter. -/
def workerView (s : Phase F) : PC F × List (Task F) × List PRef × Heap F × Int :=
  (s.pc 0, (s.deques 0).tasks, s.log, s.heap, s.tasksProcessed)

/-- The single worker `0`, run for `k` steps from `s`, is back at the head of
its loop with `rest` on its deque, having updated the particles `ps` in this
order, counted each of them, and taken the nodes `ns` in this order. -/
def Reaches (act : Heap F → PRef → Heap F) (nParticles : Int) (s : Phase F) (k : Nat)
    (rest : List (Task F)) (ps : List PRef) (ns : List (BarnesHutNode F)) : Prop :=
  (runWorkers act 1 nParticles (List.replicate k 0) s).pc 0 = .loop ∧
  ((runWorkers act 1 nParticles (List.replicate k 0) s).deques 0).tasks = rest ∧
  (runWorkers act 1 nParticles (List.replicate k 0) s).log = s.log ++ ps ∧
  (runWorkers act 1 nParticles (List.replicate k 0) s).heap = ps.foldl act s.heap ∧
  (runWorkers act 1 nParticles (List.replicate k 0) s).tasksProcessed
    = (fun x => wrapInt32 (x + 1))^[ps.length] s.tasksProcessed ∧
  tasksTaken act 1 nParticles (List.replicate k 0) s = ns

/-- What `Len` returns for a deque that holds the sequence of tasks `s`: the
number of tasks stored in the `int32` field `size`, which wraps around. -/
def Deque.LenInt32 (s : Deque F) : Int := wrapInt32 s.tasks.length

/-- One call on the sequence of tasks, `Len` returning the number of tasks as
an `int32`. -/
def Deque.callInt32 (s : Deque F) : DequeOp F → DequeRet F × Deque F
  | .pushFront t => (.pushed, s.PushFront t)
  | .pushBack t => (.pushed, s.PushBack t)
  | .popFront => (.popped s.PopFront.1 s.PopFront.2.1, s.PopFront.2.2)
  | .popBack => (.popped s.PopBack.1 s.PopBack.2.1, s.PopBack.2.2)
  | .len => (.length s.LenInt32, s)

/-- A sequence of calls on the sequence of tasks, `Len` returning the number
of tasks as an `int32`. -/
def Deque.runInt32 (s : Deque F) : List (DequeOp F) → List (DequeRet F) × Deque F
  | [] => ([], s)
  | op :: ops =>
    ((s.callInt32 op).1 :: ((s.callInt32 op).2.runInt32 ops).1,
      ((s.callInt32 op).2.runInt32 ops).2)

/-! ### Insertion over another arithmetic: `float64` overflow -/

/-- The arithmetic `CreateNode` and `InsertParticle` use on coordinates: the
constant `0.0`, `+`, `-`, `/ 2.0`, `<` and `>=`. -/
structure Arith (N : Type) where
  zero : N
  add : N → N → N
  sub : N → N → N
  half : N → N
  lt : N → N → Bool
  ge : N → N → Bool

/-- Exact arithmetic, in an ordered field. -/
def exactArith : Arith F :=
  { zero := 0
    add := fun a b => a + b
    sub := fun a b => a - b
    half := fun a => a / 2
    lt := fun a b => decide (a < b)
    ge := fun a b => decide (a ≥ b) }

/-- Go `CreateNode`, over the arithmetic `A`. -/
def CreateNodeOn {N : Type} (A : Arith N) (leftX rightX botY topY : N)
    (particle : Option PRef) : BarnesHutNode N :=
  .node
    { centerX := A.add leftX (A.half (A.sub rightX leftX))
      centerY := A.add botY (A.half (A.sub topY botY))
      totalMass := A.zero
      comX := A.zero
      comY := A.zero
      leftX := leftX
      rightX := rightX
      topY := topY
      botY := botY }
    particle .nil .nil .nil .nil

/-- Go `InsertParticle`, over the arithmetic `A`, with a bound `fuel` on the
recursion depth. -/
def InsertParticleOn {N : Type} (A : Arith N) (h : Heap N) :
    Nat → BarnesHutNode N → PRef → Except Fault (BarnesHutNode N)
  | 0, _, _ => .error .outOfFuel
  | _ + 1, .nil, _ => .error .nilDeref
  | fuel + 1, .node c part tl bl tr br, particle =>
    if part.isNone && tl.isNil && tr.isNil && bl.isNil && br.isNil then
      .ok (.node c (some particle) tl bl tr br)
    else
      match part with
      | some currentNodeParticle =>
        let avgX := A.add c.leftX (A.half (A.sub c.rightX c.leftX))
        let avgY := A.add c.botY (A.half (A.sub c.topY c.botY))
        let node1 : BarnesHutNode N :=
          .node c none
            (CreateNodeOn A c.leftX avgX avgY c.topY none)
            (CreateNodeOn A c.leftX avgX c.botY avgY none)
            (CreateNodeOn A avgX c.rightX avgY c.topY none)
            (CreateNodeOn A avgX c.rightX c.botY avgY none)
        match InsertParticleOn A h fuel node1 currentNodeParticle with
        | .error e => .error e
        | .ok node2 => InsertParticleOn A h fuel node2 particle
      | none =>
        let avgX := A.add c.leftX (A.half (A.sub c.rightX c.leftX))
        let avgY := A.add c.botY (A.half (A.sub c.topY c.botY))
        if A.lt (h particle).x c.centerX && A.ge (h particle).y c.centerY then
          match InsertParticleOn A h fuel
              (orCreate tl (CreateNodeOn A c.leftX avgX avgY c.topY none)) particle with
          | .error e => .error e
          | .ok tl1 => .ok (.node c none tl1 bl tr br)
        else if A.lt (h particle).x c.centerX && A.lt (h particle).y c.centerY then
          match InsertParticleOn A h fuel
              (orCreate bl (CreateNodeOn A c.leftX avgX c.botY avgY none)) particle with
          | .error e => .error e
          | .ok bl1 => .ok (.node c none tl bl1 tr br)
        else if A.ge (h particle).x c.centerX && A.ge (h particle).y c.centerY then
          match InsertParticleOn A h fuel
              (orCreate tr (CreateNodeOn A avgX c.rightX avgY c.topY none)) particle with
          | .error e => .error e
          | .ok tr1 => .ok (.node c none tl bl tr1 br)
        else
          match InsertParticleOn A h fuel
              (orCreate br (CreateNodeOn A avgX c.rightX c.botY avgY none)) particle with
          | .error e => .error e
          | .ok br1 => .ok (.node c none tl bl tr br1)

/-- The insertion loop of `main`, over the arithmetic `A`. -/
def insertAllOn {N : Type} (A : Arith N) (h : Heap N) (fuel : Nat) :
    BarnesHutNode N → List PRef → Except Fault (BarnesHutNode N)
  | root, [] => .ok root
  | root, p :: ps =>
    match InsertParticleOn A h fuel root p with
    | .error e => .error e
    | .ok root1 => insertAllOn A h fuel root1 ps

/-- A `float64` value with rounding left out: a finite number, held exactly,
`+Inf`, `-Inf` or NaN. The zero `-0` is not distinguished from `0`, which the
operations below do not tell apart. -/
inductive Float64 where
  | fin (q : ℚ)
  | pinf
  | ninf
  | nan

/-- The `float64` for a finite exact result: the result itself while its
magnitude is below `2^1024`, an infinity when it is not (overflow). Rounding
to 53 bits is left out. -/
def Float64.ofRat (q : ℚ) : Float64 :=
  if 2 ^ 1024 ≤ q then .pinf else if q ≤ -(2 ^ 1024) then .ninf else .fin q

/-- IEEE 754 negation. -/
def Float64.neg : Float64 → Float64
  | .fin a => .fin (-a)
  | .pinf => .ninf
  | .ninf => .pinf
  | .nan => .nan

/-- IEEE 754 addition: NaN is absorbing, `Inf + (-Inf)` is NaN, an infinity
absorbs a finite number, a finite sum may overflow. -/
def Float64.add : Float64 → Float64 → Float64
  | .nan, _ => .nan
  | _, .nan => .nan
  | .pinf, .ninf => .nan
  | .ninf, .pinf => .nan
  | .pinf, _ => .pinf
  | _, .pinf => .pinf
  | .ninf, _ => .ninf
  | _, .ninf => .ninf
  | .fin a, .fin b => Float64.ofRat (a + b)

/-- IEEE 754 subtraction. -/
def Float64.sub (x y : Float64) : Float64 := Float64.add x (Float64.neg y)

/-- IEEE 754 division by `2.0`. -/
def Float64.half : Float64 → Float64
  | .fin a => .fin (a / 2)
  | .pinf => .pinf
  | .ninf => .ninf
  | .nan => .nan

/-- IEEE 754 `<`: false when an operand is NaN. -/
def Float64.lt : Float64 → Float64 → Bool
  | .nan, _ => false
  | _, .nan => false
  | .fin a, .fin b => decide (a < b)
  | .fin _, .pinf => true
  | .fin _, .ninf => false
  | .pinf, _ => false
  | .ninf, .ninf => false
  | .ninf, _ => true

/-- IEEE 754 `>=`: false when an operand is NaN. -/
def Float64.ge : Float64 → Float64 → Bool
  | .nan, _ => false
  | _, .nan => false
  | .fin a, .fin b => decide (a ≥ b)
  | .fin _, .pinf => false
  | .fin _, .ninf => true
  | .pinf, _ => true
  | .ninf, .ninf => true
  | .ninf, _ => false

/-- The arithmetic of `float64`, rounding left out. -/
def float64Arith : Arith Float64 :=
  { zero := .fin 0
    add := Float64.add
    sub := Float64.sub
    half := Float64.half
    lt := Float64.lt
    ge := Float64.ge }

/-! ### Measures of the work left in a phase -/

/-- The number of worker steps the task of a subtree stands for: per node, one
to take the task, four for the pushes of the children, one for the test of the
particle, and one more to count it when there is one. -/
def subtreeCost : BarnesHutNode F → Nat
  | .nil => 0
  | .node _ part tl bl tr br =>
    6 + (if part.isSome then 1 else 0)
      + (subtreeCost tl + (subtreeCost tr + (subtreeCost bl + subtreeCost br)))

/-- The steps a queued task stands for (two for the task of a nil node). -/
def taskCost (t : Task F) : Nat := if t.Node.isNil then 2 else subtreeCost t.Node

/-- The steps the tasks queued in a deque stand for. -/
def Deque.cost (d : Deque F) : Nat := (d.tasks.map taskCost).sum

/-- The steps a worker in the subtree processor still has in hand: those of
its own remaining statements and of the children it has not pushed yet. -/
def PC.cost : PC F → Nat
  | .proc .nil _ => 1
  | .proc (.node _ part tl bl tr br) k =>
    match k with
    | 0 => 5 + (if part.isSome then 1 else 0)
        + (subtreeCost tl + (subtreeCost tr + (subtreeCost bl + subtreeCost br)))
    | 1 => 4 + (if part.isSome then 1 else 0)
        + (subtreeCost tr + (subtreeCost bl + subtreeCost br))
    | 2 => 3 + (if part.isSome then 1 else 0) + (subtreeCost bl + subtreeCost br)
    | 3 => 2 + (if part.isSome then 1 else 0) + subtreeCost br
    | 4 => 1 + (if part.isSome then 1 else 0)
    | _ => 1
  | _ => 0

/-- The work left in a phase: the steps the queued tasks stand for and those
the workers have in hand. -/
def workLeft (numThreads : Nat) (s : Phase F) : Nat :=
  (∑ i ∈ Finset.range numThreads, (s.deques i).cost)
    + ∑ w ∈ Finset.range numThreads, (s.pc w).cost

/-- The steps a worker needs to return once no work is left: from the head of
its loop one failed `PopFront`, the `numThreads` iterations of `stealTask`, its
exit, and the test of the counter. -/
def PC.dist (numThreads : Nat) : PC F → Nat
  | .loop => numThreads + 3
  | .steal i => (numThreads - i) + 2
  | .check => 1
  | .done => 0
  | .proc _ _ => numThreads + 4

/-- The steps the workers need to return once no work is left. -/
def stepsToReturn (numThreads : Nat) (s : Phase F) : Nat :=
  ∑ w ∈ Finset.range numThreads, (s.pc w).dist numThreads

/-- Worker `w` has work: it is in the subtree processor, or at the head of
its loop with a task on its own deque. -/
def HasWork (s : Phase F) (w : Nat) : Prop :=
  0 < (s.pc w).cost ∨ (s.pc w = .loop ∧ (s.deques w).tasks ≠ [])

/-- An infinite interleaving `sched` (entry `i` names the worker that takes
step `i`) is fair: every worker takes a step again and again. -/
def Fair (numThreads : Nat) (sched : Nat → Nat) : Prop :=
  ∀ w, w < numThreads → ∀ i, ∃ j, i ≤ j ∧ sched j = w

/-- The state of the phase after the first `i` steps of the interleaving
`sched`. -/
def stateAt (act : Heap F → PRef → Heap F) (numThreads : Nat) (nParticles : Int)
    (sched : Nat → Nat) (s : Phase F) (i : Nat) : Phase F :=
  runWorkers act numThreads nParticles ((List.range i).map sched) s

end Defs

/-- Two particles as `NewParticle` creates them: `0` at `(-1, 0)`, every other
reference at `(1, 0)`. -/
def pairHeap {F : Type} [LinearOrderedField F] : Heap F := fun i =>
  if i = 0 then NewParticle (-1) 0 else NewParticle 1 0

/-- The tree the insertion loop builds from the two particles of `pairHeap`
in a root whose pivot separates them: particle `0` in the leaf of `topLeft`,
particle `1` in the leaf of `topRight`. -/
def pairTree {F : Type} [LinearOrderedField F] (leftX rightX botY topY : F) : BarnesHutNode F :=
  .node (CreateNode leftX rightX botY topY none).cell none
    (.node (freshChild (CreateNode leftX rightX botY topY none).cell .TL).cell (some 0)
      .nil .nil .nil .nil)
    (freshChild (CreateNode leftX rightX botY topY none).cell .BL)
    (.node (freshChild (CreateNode leftX rightX botY topY none).cell .TR).cell (some 1)
      .nil .nil .nil .nil)
    (freshChild (CreateNode leftX rightX botY topY none).cell .BR)

/-- Four particles `0, 1, 2, 3` at `(1,1)`, `(1,-1)`, `(-1,1)`, `(-1,-1)`, as
`NewParticle` creates them. -/
def cornersHeap : Heap ℚ := fun i =>
  NewParticle (if i < 2 then 1 else -1) (if i % 2 = 0 then 1 else -1)

/-- Particles that all lie at `(0, 0)`, as `NewParticle(0, 0)` creates them:
distinct references, equal coordinates. -/
def coincidentHeap : Heap ℚ := fun _ => NewParticle 0 0

/-- An empty node (no particle, no children) whose aggregate fields hold
`totalMass = 5`, `comX = 1`, `comY = 1`, over the bounds `[-2, 2) × [-2, 2)`. -/
def staleEmptyNode : BarnesHutNode ℚ :=
  .node ⟨0, 0, 5, 1, 1, -2, 2, 2, -2⟩ none .nil .nil .nil .nil

/-- The tree the insertion loop builds from the four corner particles in the
root `[-2, 2) × [-2, 2)`: one leaf per quadrant. -/
def cornersTree : BarnesHutNode ℚ :=
  .node ⟨0, 0, 0, 0, 0, -2, 2, 2, -2⟩ none
    (.node ⟨-1, 1, 0, 0, 0, -2, 0, 2, 0⟩ (some 2) .nil .nil .nil .nil)
    (.node ⟨-1, -1, 0, 0, 0, -2, 0, 0, -2⟩ (some 3) .nil .nil .nil .nil)
    (.node ⟨1, 1, 0, 0, 0, 0, 2, 2, 0⟩ (some 0) .nil .nil .nil .nil)
    (.node ⟨1, -1, 0, 0, 0, 0, 2, 0, -2⟩ (some 1) .nil .nil .nil .nil)

/-- The tree the insertion loop builds from the corner particles `0` at
`(1,1)` and `1` at `(1,-1)` in the root `[-2, 2) × [-2, 2)`: the root leaf is
split, the two left quadrants stay empty. -/
def rightColumnTree : BarnesHutNode ℚ :=
  .node ⟨0, 0, 0, 0, 0, -2, 2, 2, -2⟩ none
    (.node ⟨-1, 1, 0, 0, 0, -2, 0, 2, 0⟩ none .nil .nil .nil .nil)
    (.node ⟨-1, -1, 0, 0, 0, -2, 0, 0, -2⟩ none .nil .nil .nil .nil)
    (.node ⟨1, 1, 0, 0, 0, 0, 2, 2, 0⟩ (some 0) .nil .nil .nil .nil)
    (.node ⟨1, -1, 0, 0, 0, 0, 2, 0, -2⟩ (some 1) .nil .nil .nil .nil)

/-- Calls on a deque: three pushes, `Len`, four pops (one more than there are
tasks), `Len`. -/
def dequeCalls : List (DequeOp ℚ) :=
  [.pushFront { Node := cornersTree }, .pushFront { Node := staleEmptyNode },
    .pushBack { Node := rightColumnTree }, .len, .popBack, .popFront, .popFront, .popFront,
    .len]

/-- A node with some but not all children, which no insertion produces: the
root `[-2, 2) × [-2, 2)` with the leaf of particle `2` as `topLeft` and the
other three children absent. -/
def lopsidedTree : BarnesHutNode ℚ :=
  .node ⟨0, 0, 0, 0, 0, -2, 2, 2, -2⟩ none
    (.node ⟨-1, 1, 0, 0, 0, -2, 0, 2, 0⟩ (some 2) .nil .nil .nil .nil) .nil .nil .nil

/-- Two particles with `float64` coordinates, as `NewParticle` creates them:
`0` at `(-1, 0)`, every other reference at `(1, 0)`. -/
def overflowHeap : Heap Float64 := fun i =>
  if i = 0 then ⟨.fin (-1), .fin 0, .fin 0, .fin 0, .fin 0, .fin 0⟩
  else ⟨.fin 1, .fin 0, .fin 0, .fin 0, .fin 0, .fin 0⟩

/-! ## Insertion: unfolding lemmas and fuel monotonicity -/

section InsertBasics

variable {F : Type} [LinearOrderedField F]

theorem isNil_iff (t : BarnesHutNode F) : t.isNil = true ↔ t = .nil := by
  cases t <;> simp [BarnesHutNode.isNil]

theorem isNil_false_iff (t : BarnesHutNode F) : t.isNil = false ↔ t ≠ .nil := by
  cases t <;> simp [BarnesHutNode.isNil]

theorem InsertParticle_empty (h : Heap F) (fuel : Nat) (c : Cell F) (p : PRef) :
    InsertParticle h (fuel + 1) (.node c none .nil .nil .nil .nil) p
      = .ok (.node c (some p) .nil .nil .nil .nil) := by
  simp [InsertParticle, BarnesHutNode.isNil]

theorem InsertParticle_leaf (h : Heap F) (fuel : Nat) (c : Cell F) (q p : PRef)
    (tl bl tr br : BarnesHutNode F) :
    InsertParticle h (fuel + 1) (.node c (some q) tl bl tr br) p
      = match InsertParticle h fuel
            (.node c none (freshChild c .TL) (freshChild c .BL) (freshChild c .TR)
              (freshChild c .BR)) q with
        | .error e => .error e
        | .ok node2 => InsertParticle h fuel node2 p := by
  simp [InsertParticle, freshChild]

theorem InsertParticle_internal (h : Heap F) (fuel : Nat) (c : Cell F) (p : PRef)
    (tl bl tr br : BarnesHutNode F)
    (hne : ¬ (tl = .nil ∧ tr = .nil ∧ bl = .nil ∧ br = .nil)) :
    InsertParticle h (fuel + 1) (.node c none tl bl tr br) p
      = match InsertParticle h fuel
            (orCreate (getChild (.node c none tl bl tr br) (quadrant c (h p).x (h p).y))
              (freshChild c (quadrant c (h p).x (h p).y))) p with
        | .error e => .error e
        | .ok r => .ok (setChild (.node c none tl bl tr br) (quadrant c (h p).x (h p).y) r) := by
  have hcond : (Option.isNone (none : Option PRef) && tl.isNil && tr.isNil && bl.isNil
      && br.isNil) = false := by
    cases tl <;> cases tr <;> cases bl <;> cases br <;> simp_all [BarnesHutNode.isNil]
  rw [InsertParticle]
  simp only [hcond, Bool.false_eq_true, if_false]
  unfold quadrant
  split_ifs <;> simp [getChild, setChild, freshChild]

theorem InsertParticle_mono (h : Heap F) :
    ∀ (fuel : Nat) (t : BarnesHutNode F) (p : PRef) (t' : BarnesHutNode F),
      InsertParticle h fuel t p = .ok t' → InsertParticle h (fuel + 1) t p = .ok t' := by
  intro fuel
  induction fuel with
  | zero => intro t p t' H; simp [InsertParticle] at H
  | succ n ih =>
    intro t p t' H
    cases t with
    | nil => simp [InsertParticle] at H
    | node c part tl bl tr br =>
      cases part with
      | some q =>
        rw [InsertParticle_leaf] at H ⊢
        cases h1 : InsertParticle h n (.node c none (freshChild c .TL) (freshChild c .BL)
            (freshChild c .TR) (freshChild c .BR)) q with
        | error e => simp [h1] at H
        | ok node2 =>
          simp only [h1] at H
          simp only [ih _ _ _ h1]
          exact ih _ _ _ H
      | none =>
        by_cases hne : tl = .nil ∧ tr = .nil ∧ bl = .nil ∧ br = .nil
        · obtain ⟨rfl, rfl, rfl, rfl⟩ := hne
          rw [InsertParticle_empty] at H ⊢
          exact H
        · rw [InsertParticle_internal h _ c p tl bl tr br hne] at H ⊢
          cases h1 : InsertParticle h n
              (orCreate (getChild (.node c none tl bl tr br) (quadrant c (h p).x (h p).y))
                (freshChild c (quadrant c (h p).x (h p).y))) p with
          | error e => simp [h1] at H
          | ok r =>
            simp only [h1] at H
            simp only [ih _ _ _ h1]
            exact H

theorem InsertParticle_mono_le (h : Heap F) {m n : Nat} (hmn : m ≤ n)
    {t : BarnesHutNode F} {p : PRef} {t' : BarnesHutNode F}
    (H : InsertParticle h m t p = .ok t') : InsertParticle h n t p = .ok t' := by
  induction hmn with
  | refl => exact H
  | step _ ih => exact InsertParticle_mono h _ _ _ _ ih

end InsertBasics

/-! ## Quadrants, children and well-formed trees -/

section Quadrants

variable {F : Type} [LinearOrderedField F]

theorem InsertParticle_node (h : Heap F) (fuel : Nat) (t : BarnesHutNode F) (p : PRef)
    (ht : t ≠ .nil) (hp : t.part = none) (Q : Quad) (hQ : getChild t Q ≠ .nil) :
    InsertParticle h (fuel + 1) t p
      = match InsertParticle h fuel
            (orCreate (getChild t (quadrant t.cell (h p).x (h p).y))
              (freshChild t.cell (quadrant t.cell (h p).x (h p).y))) p with
        | .error e => .error e
        | .ok r => .ok (setChild t (quadrant t.cell (h p).x (h p).y) r) := by
  cases t with
  | nil => exact absurd rfl ht
  | node c part tl bl tr br =>
    simp only [BarnesHutNode.part] at hp
    subst hp
    apply InsertParticle_internal
    rintro ⟨rfl, rfl, rfl, rfl⟩
    cases Q <;> exact hQ rfl

theorem setChild_ne_nil (t : BarnesHutNode F) (Q : Quad) (x : BarnesHutNode F)
    (ht : t ≠ .nil) : setChild t Q x ≠ .nil := by
  cases t with
  | nil => exact absurd rfl ht
  | node c part tl bl tr br => cases Q <;> simp [setChild]

theorem setChild_cell (t : BarnesHutNode F) (Q : Quad) (x : BarnesHutNode F) :
    (setChild t Q x).cell = t.cell := by
  cases t <;> cases Q <;> rfl

theorem setChild_part (t : BarnesHutNode F) (Q : Quad) (x : BarnesHutNode F) :
    (setChild t Q x).part = t.part := by
  cases t <;> cases Q <;> rfl

theorem getChild_setChild_same (t : BarnesHutNode F) (Q : Quad) (x : BarnesHutNode F)
    (ht : t ≠ .nil) : getChild (setChild t Q x) Q = x := by
  cases t with
  | nil => exact absurd rfl ht
  | node c part tl bl tr br => cases Q <;> rfl

theorem getChild_setChild_ne (t : BarnesHutNode F) (Q Q' : Quad) (x : BarnesHutNode F)
    (hne : Q' ≠ Q) : getChild (setChild t Q x) Q' = getChild t Q' := by
  cases t <;> cases Q <;> cases Q' <;> first | rfl | exact absurd rfl hne

theorem count_particles_setChild (t : BarnesHutNode F) (Q : Quad) (x : BarnesHutNode F)
    (ht : t ≠ .nil) (a : PRef) :
    (particles (setChild t Q x)).count a + (particles (getChild t Q)).count a
      = (particles t).count a + (particles x).count a := by
  cases t with
  | nil => exact absurd rfl ht
  | node c part tl bl tr br =>
    cases Q <;> simp only [setChild, getChild, particles, List.count_append] <;> omega

theorem orCreate_of_ne_nil (t fresh : BarnesHutNode F) (ht : t ≠ .nil) :
    orCreate t fresh = t := by
  cases t with
  | nil => exact absurd rfl ht
  | node c part tl bl tr br => simp [orCreate, BarnesHutNode.isNil]

theorem freshChild_spec (c : Cell F) (Q : Quad) :
    ∃ cc : Cell F, freshChild c Q = .node cc none .nil .nil .nil .nil ∧
      cc.bounds = c.bounds.child Q ∧ Centered cc ∧
      cc.totalMass = 0 ∧ cc.comX = 0 ∧ cc.comY = 0 := by
  cases Q <;>
    exact ⟨_, rfl, rfl, ⟨rfl, rfl⟩, rfl, rfl, rfl⟩

theorem freshChild_ne_nil (c : Cell F) (Q : Quad) : freshChild c Q ≠ .nil := by
  cases Q <;> simp [freshChild, CreateNode]

theorem contains_child (h : Heap F) (c : Cell F) (p : PRef) (hc : Centered c)
    (hin : c.bounds.Contains h p) :
    (c.bounds.child (quadrant c (h p).x (h p).y)).Contains h p := by
  obtain ⟨hx, hy⟩ := hc
  obtain ⟨h1, h2, h3, h4⟩ := hin
  simp only [Cell.bounds] at h1 h2 h3 h4
  unfold quadrant
  split_ifs with c1 c2 c3
  · refine ⟨h1, ?_, ?_, h4⟩
    · simp only [Bounds.child, Cell.bounds]; linarith [c1.1]
    · simp only [Bounds.child, Cell.bounds]; linarith [c1.2]
  · refine ⟨h1, ?_, h3, ?_⟩
    · simp only [Bounds.child, Cell.bounds]; linarith [c2.1]
    · simp only [Bounds.child, Cell.bounds]; linarith [c2.2]
  · refine ⟨?_, h2, ?_, h4⟩
    · simp only [Bounds.child, Cell.bounds]; linarith [c3.1]
    · simp only [Bounds.child, Cell.bounds]; linarith [c3.2]
  · have hxge : c.centerX ≤ (h p).x := by
      by_contra hlt
      push_neg at hlt
      rcases lt_or_le (h p).y c.centerY with hy' | hy'
      · exact c2 ⟨hlt, hy'⟩
      · exact c1 ⟨hlt, hy'⟩
    have hylt : (h p).y < c.centerY := by
      by_contra hge
      push_neg at hge
      exact c3 ⟨hxge, hge⟩
    refine ⟨?_, h2, h3, ?_⟩
    · simp only [Bounds.child, Cell.bounds]; linarith
    · simp only [Bounds.child, Cell.bounds]; linarith

theorem child_width (B : Bounds F) (Q : Quad) :
    (B.child Q).rightX - (B.child Q).leftX = (B.rightX - B.leftX) / 2 ∧
    (B.child Q).topY - (B.child Q).botY = (B.topY - B.botY) / 2 := by
  cases Q <;> constructor <;> simp only [Bounds.child] <;> ring

theorem WF_ne_nil (h : Heap F) (B : Bounds F) (t : BarnesHutNode F) (hw : WF h B t) :
    t ≠ .nil := by
  rintro rfl
  simp [WF] at hw

theorem WF_empty (h : Heap F) (c : Cell F) (hc : Centered c) :
    WF h c.bounds (.node c none .nil .nil .nil .nil) := by
  rw [WF]
  exact ⟨rfl, hc, Or.inl ⟨rfl, rfl, rfl, rfl, rfl⟩⟩

theorem WF_leaf (h : Heap F) (c : Cell F) (p : PRef) (hc : Centered c)
    (hin : c.bounds.Contains h p) :
    WF h c.bounds (.node c (some p) .nil .nil .nil .nil) := by
  rw [WF]
  exact ⟨rfl, hc, Or.inr (Or.inl ⟨p, rfl, hin, rfl, rfl, rfl, rfl⟩)⟩

theorem WF_freshChild (h : Heap F) (c : Cell F) (Q : Quad) :
    WF h (c.bounds.child Q) (freshChild c Q) := by
  obtain ⟨cc, he, hb, hc, -⟩ := freshChild_spec c Q
  rw [he, ← hb]
  exact WF_empty h cc hc

theorem WF_cell (h : Heap F) (B : Bounds F) (t : BarnesHutNode F) (hw : WF h B t) :
    t.cell.bounds = B ∧ Centered t.cell := by
  cases t with
  | nil => simp [WF] at hw
  | node c part tl bl tr br =>
    rw [WF] at hw
    exact ⟨hw.1, hw.2.1⟩

/-- Building an internal node from its parts. -/
theorem WF_of_children (h : Heap F) (B : Bounds F) (t : BarnesHutNode F) (ht : t ≠ .nil)
    (hp : t.part = none) (hb : t.cell.bounds = B) (hc : Centered t.cell)
    (hn : 2 ≤ (particles t).length)
    (hch : ∀ Q, WF h (B.child Q) (getChild t Q)) : WF h B t := by
  cases t with
  | nil => exact absurd rfl ht
  | node c part tl bl tr br =>
    simp only [BarnesHutNode.part] at hp
    subst hp
    rw [WF]
    refine ⟨hb, hc, Or.inr (Or.inr ⟨rfl, ?_, hch .TL, hch .BL, hch .TR, hch .BR⟩)⟩
    simpa [particles] using hn

/-- Taking an internal node apart. -/
theorem WF_children (h : Heap F) (B : Bounds F) (t : BarnesHutNode F) (hw : WF h B t)
    (Q0 : Quad) (hQ0 : getChild t Q0 ≠ .nil) :
    t.part = none ∧ 2 ≤ (particles t).length ∧ ∀ Q, WF h (B.child Q) (getChild t Q) := by
  cases t with
  | nil => simp [WF] at hw
  | node c part tl bl tr br =>
    rw [WF] at hw
    obtain ⟨-, -, hw⟩ := hw
    rcases hw with ⟨-, rfl, rfl, rfl, rfl⟩ | ⟨p, -, -, rfl, rfl, rfl, rfl⟩ | ⟨rfl, hn, h1, h2, h3, h4⟩
    · cases Q0 <;> exact absurd rfl hQ0
    · cases Q0 <;> exact absurd rfl hQ0
    · refine ⟨rfl, by simpa [particles] using hn, ?_⟩
      intro Q
      cases Q <;> assumption

end Quadrants

/-! ## Insertion into a well-formed tree -/

section InsertSpec

variable {F : Type} [LinearOrderedField F]

theorem getChild_splitNode (c : Cell F) (Q : Quad) :
    getChild (splitNode c) Q = freshChild c Q := by
  cases Q <;> rfl

theorem particles_freshChild (c : Cell F) (Q : Quad) :
    particles (freshChild c Q) = [] := by
  cases Q <;> rfl

theorem particles_splitNode (c : Cell F) : particles (splitNode c) = [] := by
  simp [splitNode, particles, particles_freshChild]

theorem InsertParticle_leaf_split (h : Heap F) (fuel : Nat) (c : Cell F) (q p : PRef) :
    InsertParticle h (fuel + 1) (.node c (some q) .nil .nil .nil .nil) p
      = match InsertParticle h fuel (splitNode c) q with
        | .error e => .error e
        | .ok node2 => InsertParticle h fuel node2 p :=
  InsertParticle_leaf h fuel c q p .nil .nil .nil .nil

/-- Reinserting the displaced particle into the freshly split node puts it in
the empty child of its quadrant. -/
theorem insert_split_first (h : Heap F) (fuel : Nat) (c : Cell F) (q : PRef) (cc : Cell F)
    (hcc : freshChild c (quadrant c (h q).x (h q).y) = .node cc none .nil .nil .nil .nil) :
    InsertParticle h (fuel + 2) (splitNode c) q
      = .ok (setChild (splitNode c) (quadrant c (h q).x (h q).y)
          (.node cc (some q) .nil .nil .nil .nil)) := by
  have hne : splitNode c ≠ .nil := by simp [splitNode]
  rw [InsertParticle_node h (fuel + 1) (splitNode c) q hne rfl .TL
    (by rw [getChild_splitNode]; exact freshChild_ne_nil c _)]
  have hcell : (splitNode c).cell = c := rfl
  rw [hcell, getChild_splitNode, orCreate_of_ne_nil _ _ (freshChild_ne_nil c _), hcc,
    InsertParticle_empty]

theorem abs_sub_lt_of_mem {l r x y : F} (hx1 : l ≤ x) (hx2 : x < r) (hy1 : l ≤ y)
    (hy2 : y < r) : |x - y| < r - l := by
  rw [abs_lt]
  constructor <;> linarith

theorem insert_into_leaf (h : Heap F) (p q : PRef) :
    ∀ (k : Nat) (c : Cell F), Centered c → c.bounds.Contains h q → c.bounds.Contains h p →
      (c.rightX - c.leftX ≤ 2 ^ k * |(h p).x - (h q).x| ∨
        c.topY - c.botY ≤ 2 ^ k * |(h p).y - (h q).y|) →
      ∃ fuel t', InsertParticle h fuel (.node c (some q) .nil .nil .nil .nil) p = .ok t' ∧
        WF h c.bounds t' ∧ t'.cell = c ∧
        ∀ a, (particles t').count a = ([p, q] : List PRef).count a := by
  intro k
  induction k with
  | zero =>
    intro c hc hq hp hk
    exfalso
    obtain ⟨q1, q2, q3, q4⟩ := hq
    obtain ⟨p1, p2, p3, p4⟩ := hp
    simp only [Cell.bounds] at q1 q2 q3 q4 p1 p2 p3 p4
    rcases hk with hk | hk
    · have := abs_sub_lt_of_mem p1 p2 q1 q2
      simp only [pow_zero, one_mul] at hk
      linarith
    · have := abs_sub_lt_of_mem p3 p4 q3 q4
      simp only [pow_zero, one_mul] at hk
      linarith
  | succ k ih =>
    intro c hc hq hp hk
    obtain ⟨Qq, hQq⟩ : ∃ Q, Q = quadrant c (h q).x (h q).y := ⟨_, rfl⟩
    obtain ⟨Qp, hQp⟩ : ∃ Q, Q = quadrant c (h p).x (h p).y := ⟨_, rfl⟩
    obtain ⟨cc, hcc, hbcc, hcencc, -⟩ := freshChild_spec c Qq
    have hqcc : cc.bounds.Contains h q := by
      rw [hbcc, hQq]; exact contains_child h c q hc hq
    have hsplit_ne : splitNode c ≠ .nil := by simp [splitNode]
    have first : ∀ fuel, InsertParticle h (fuel + 2) (splitNode c) q
        = .ok (setChild (splitNode c) Qq (.node cc (some q) .nil .nil .nil .nil)) := by
      intro fuel
      rw [hQq]
      exact insert_split_first h fuel c q cc (by rw [← hQq]; exact hcc)
    obtain ⟨node2, hnode2⟩ : ∃ n, n = setChild (splitNode c) Qq
        (.node cc (some q) .nil .nil .nil .nil) := ⟨_, rfl⟩
    have hn2_ne : node2 ≠ .nil := by rw [hnode2]; exact setChild_ne_nil _ _ _ hsplit_ne
    have hn2_part : node2.part = none := by rw [hnode2, setChild_part]; rfl
    have hn2_cell : node2.cell = c := by rw [hnode2, setChild_cell]; rfl
    have hn2_q : getChild node2 Qq = .node cc (some q) .nil .nil .nil .nil := by
      rw [hnode2]; exact getChild_setChild_same _ _ _ hsplit_ne
    have hn2_other : ∀ Q, Q ≠ Qq → getChild node2 Q = freshChild c Q := by
      intro Q hQ
      rw [hnode2, getChild_setChild_ne _ _ _ _ hQ, getChild_splitNode]
    have hn2_cnt : ∀ a, (particles node2).count a = ([q] : List PRef).count a := by
      intro a
      have := count_particles_setChild (splitNode c) Qq
        (.node cc (some q) .nil .nil .nil .nil) hsplit_ne a
      rw [← hnode2, getChild_splitNode, particles_freshChild, particles_splitNode] at this
      simpa [particles] using this
    have second : ∀ fuel, InsertParticle h (fuel + 1) node2 p
        = match InsertParticle h fuel (orCreate (getChild node2 Qp) (freshChild c Qp)) p with
          | .error e => .error e
          | .ok r => .ok (setChild node2 Qp r) := by
      intro fuel
      have := InsertParticle_node h fuel node2 p hn2_ne hn2_part Qq (by rw [hn2_q]; simp)
      rw [hn2_cell, ← hQp] at this
      exact this
    by_cases hQ : Qp = Qq
    · -- both particles fall in the same quadrant: recurse into that leaf
      have hpcc : cc.bounds.Contains h p := by
        rw [hbcc, ← hQ, hQp]; exact contains_child h c p hc hp
      have hk' : cc.rightX - cc.leftX ≤ 2 ^ k * |(h p).x - (h q).x| ∨
          cc.topY - cc.botY ≤ 2 ^ k * |(h p).y - (h q).y| := by
        have hw := child_width c.bounds Qq
        rw [← hbcc] at hw
        have hw1 : cc.rightX - cc.leftX = (c.rightX - c.leftX) / 2 := hw.1
        have hw2 : cc.topY - cc.botY = (c.topY - c.botY) / 2 := hw.2
        rw [hw1, hw2]
        rcases hk with hk | hk
        · left; rw [pow_succ] at hk; linarith
        · right; rw [pow_succ] at hk; linarith
      obtain ⟨f0, t0, hins0, hwf0, hcell0, hcnt0⟩ := ih cc hcencc hqcc hpcc hk'
      refine ⟨f0 + 3, setChild node2 Qp t0, ?_, ?_, ?_, ?_⟩
      · rw [InsertParticle_leaf_split, first (f0 + 0)]
        simp only []
        rw [← hnode2, second (f0 + 1), hQ, hn2_q, orCreate_of_ne_nil _ _ (by simp),
          InsertParticle_mono h _ _ _ _ hins0]
      · have hcnt : ∀ a, (particles (setChild node2 Qp t0)).count a
            = ([p, q] : List PRef).count a := by
          intro a
          have h1 := count_particles_setChild node2 Qp t0 hn2_ne a
          rw [hQ, hn2_q, hn2_cnt a, hcnt0 a] at h1
          rw [hQ]
          simp only [particles, Option.toList, List.append_nil] at h1
          omega
        apply WF_of_children h c.bounds _ (setChild_ne_nil _ _ _ hn2_ne)
        · rw [setChild_part]; exact hn2_part
        · rw [setChild_cell, hn2_cell]
        · rw [setChild_cell, hn2_cell]; exact hc
        · rw [(List.perm_iff_count.mpr hcnt).length_eq]; simp
        · intro Q
          by_cases hQQ : Q = Qp
          · rw [hQQ, getChild_setChild_same _ _ _ hn2_ne, hQ, ← hbcc]
            exact hwf0
          · rw [getChild_setChild_ne _ _ _ _ hQQ, hn2_other Q (by rw [← hQ]; exact hQQ)]
            exact WF_freshChild h c Q
      · rw [setChild_cell, hn2_cell]
      · intro a
        have h1 := count_particles_setChild node2 Qp t0 hn2_ne a
        rw [hQ, hn2_q, hn2_cnt a, hcnt0 a] at h1
        rw [hQ]
        simp only [particles, Option.toList, List.append_nil] at h1
        omega
    · -- different quadrants: the new particle lands in an empty child
      obtain ⟨cp, hcp, hbcp, hcencp, -⟩ := freshChild_spec c Qp
      have hpcp : cp.bounds.Contains h p := by
        rw [hbcp, hQp]; exact contains_child h c p hc hp
      have hcnt : ∀ a, (particles (setChild node2 Qp
          (.node cp (some p) .nil .nil .nil .nil))).count a = ([p, q] : List PRef).count a := by
        intro a
        have h1 := count_particles_setChild node2 Qp
          (.node cp (some p) .nil .nil .nil .nil) hn2_ne a
        rw [hn2_other Qp hQ, particles_freshChild, hn2_cnt a] at h1
        simp only [particles, Option.toList, List.append_nil, List.count_nil] at h1
        simp only [List.count_cons, List.count_nil] at h1 ⊢
        omega
      refine ⟨3, setChild node2 Qp (.node cp (some p) .nil .nil .nil .nil), ?_, ?_, ?_, hcnt⟩
      · rw [InsertParticle_leaf_split, first 0]
        simp only []
        rw [← hnode2, second 1, hn2_other Qp hQ,
          orCreate_of_ne_nil _ _ (freshChild_ne_nil c _), hcp, InsertParticle_empty]
      · apply WF_of_children h c.bounds _ (setChild_ne_nil _ _ _ hn2_ne)
        · rw [setChild_part]; exact hn2_part
        · rw [setChild_cell, hn2_cell]
        · rw [setChild_cell, hn2_cell]; exact hc
        · rw [(List.perm_iff_count.mpr hcnt).length_eq]; simp
        · intro Q
          by_cases hQQ : Q = Qp
          · rw [hQQ, getChild_setChild_same _ _ _ hn2_ne, ← hbcp]
            exact WF_leaf h cp p hcencp hpcp
          · rw [getChild_setChild_ne _ _ _ _ hQQ]
            by_cases hQQ2 : Q = Qq
            · rw [hQQ2, hn2_q, ← hbcc]
              exact WF_leaf h cc q hcencc hqcc
            · rw [hn2_other Q hQQ2]
              exact WF_freshChild h c Q
      · rw [setChild_cell, hn2_cell]

end InsertSpec

section InsertTotal

variable {F : Type} [LinearOrderedField F]

theorem exists_pow_bound [Archimedean F] (w d : F) (hd : 0 < d) :
    ∃ k : Nat, w ≤ 2 ^ k * d := by
  obtain ⟨n, hn⟩ := exists_nat_gt (w / d)
  refine ⟨n, ?_⟩
  have h1 : (n : F) < 2 ^ n := by exact_mod_cast Nat.lt_two_pow n
  have h2 : w / d < 2 ^ n := lt_trans hn h1
  rw [div_lt_iff₀ hd] at h2
  exact le_of_lt h2

theorem mem_particles_getChild (t : BarnesHutNode F) (Q : Quad) (a : PRef)
    (ha : a ∈ particles (getChild t Q)) : a ∈ particles t := by
  cases t with
  | nil => simp [getChild, particles] at ha
  | node c part tl bl tr br =>
    cases Q <;> simp only [getChild] at ha <;> simp [particles, ha]

theorem exists_sep [Archimedean F] (h : Heap F) (p q : PRef) (c : Cell F)
    (hne : pos h q ≠ pos h p) :
    ∃ k : Nat, c.rightX - c.leftX ≤ 2 ^ k * |(h p).x - (h q).x| ∨
      c.topY - c.botY ≤ 2 ^ k * |(h p).y - (h q).y| := by
  by_cases hx : (h p).x = (h q).x
  · have hy : (h p).y ≠ (h q).y := by
      intro hy
      apply hne
      simp [pos, hx, hy]
    obtain ⟨k, hk⟩ := exists_pow_bound (c.topY - c.botY) |(h p).y - (h q).y|
      (abs_pos.mpr (sub_ne_zero.mpr hy))
    exact ⟨k, Or.inr hk⟩
  · obtain ⟨k, hk⟩ := exists_pow_bound (c.rightX - c.leftX) |(h p).x - (h q).x|
      (abs_pos.mpr (sub_ne_zero.mpr hx))
    exact ⟨k, Or.inl hk⟩

/-- Insertion into a well-formed tree of a particle inside the bounds whose
position differs from those already held returns a well-formed tree over the
same bounds that holds one more reference, the new one. -/
theorem insert_WF [Archimedean F] (h : Heap F) (p : PRef) :
    ∀ (t : BarnesHutNode F) (B : Bounds F), WF h B t → B.Contains h p →
      (∀ q ∈ particles t, pos h q ≠ pos h p) →
      ∃ fuel t', InsertParticle h fuel t p = .ok t' ∧ WF h B t' ∧ t'.cell = t.cell ∧
        ∀ a, (particles t').count a = (p :: particles t).count a := by
  intro t
  induction t with
  | nil => intro B hw; simp [WF] at hw
  | node c part tl bl tr br ih_tl ih_bl ih_tr ih_br =>
    intro B hw hin hd
    have hw' := hw
    rw [WF] at hw'
    obtain ⟨hb, hc, hcase⟩ := hw'
    subst hb
    rcases hcase with ⟨rfl, rfl, rfl, rfl, rfl⟩ | ⟨q, rfl, hq, rfl, rfl, rfl, rfl⟩ |
      ⟨rfl, hn, h1, h2, h3, h4⟩
    · exact ⟨1, _, InsertParticle_empty h 0 c p, WF_leaf h c p hc hin, rfl, by
        intro a; simp [particles]⟩
    · have hne : pos h q ≠ pos h p := hd q (by simp [particles])
      obtain ⟨k, hk⟩ := exists_sep h p q c hne
      obtain ⟨fuel, t', h1, h2, h3, h4⟩ := insert_into_leaf h p q k c hc hq hin hk
      exact ⟨fuel, t', h1, h2, h3, by intro a; rw [h4 a]; simp [particles]⟩
    · obtain ⟨t, ht⟩ : ∃ t, t = BarnesHutNode.node c none tl bl tr br := ⟨_, rfl⟩
      have ihQ : ∀ Q (B : Bounds F), WF h B (getChild t Q) → B.Contains h p →
          (∀ q ∈ particles (getChild t Q), pos h q ≠ pos h p) →
          ∃ fuel t', InsertParticle h fuel (getChild t Q) p = .ok t' ∧ WF h B t' ∧
            t'.cell = (getChild t Q).cell ∧
            ∀ a, (particles t').count a = (p :: particles (getChild t Q)).count a := by
        intro Q
        subst ht
        cases Q <;> simp only [getChild] <;> assumption
      have hch : ∀ Q, WF h (c.bounds.child Q) (getChild t Q) := by
        intro Q
        subst ht
        cases Q <;> simp only [getChild] <;> assumption
      have ht_ne : t ≠ .nil := by rw [ht]; simp
      have ht_part : t.part = none := by rw [ht]; rfl
      have ht_cell : t.cell = c := by rw [ht]; rfl
      rw [← ht] at hd ⊢
      obtain ⟨Q, hQ⟩ : ∃ Q, Q = quadrant c (h p).x (h p).y := ⟨_, rfl⟩
      have hpQ : (c.bounds.child Q).Contains h p := by
        rw [hQ]; exact contains_child h c p hc hin
      obtain ⟨f0, r, hins, hwr, hcr, hcnt⟩ := ihQ Q _ (hch Q) hpQ
        (fun q hq => hd q (mem_particles_getChild t Q q hq))
      have hchild_ne := WF_ne_nil h _ _ (hch Q)
      have hcount : ∀ a, (particles (setChild t Q r)).count a
          = (p :: particles t).count a := by
        intro a
        have h5 := count_particles_setChild t Q r ht_ne a
        rw [hcnt a] at h5
        simp only [List.count_cons] at h5 ⊢
        omega
      refine ⟨f0 + 1, setChild t Q r, ?_, ?_, ?_, hcount⟩
      · rw [InsertParticle_node h f0 t p ht_ne ht_part Q hchild_ne, ht_cell, ← hQ,
          orCreate_of_ne_nil _ _ hchild_ne, hins]
      · apply WF_of_children h c.bounds _ (setChild_ne_nil _ _ _ ht_ne)
        · rw [setChild_part]; exact ht_part
        · rw [setChild_cell, ht_cell]
        · rw [setChild_cell, ht_cell]; exact hc
        · rw [(List.perm_iff_count.mpr hcount).length_eq]
          simp
          have : 2 ≤ (particles t).length := by rw [ht]; simpa [particles] using hn
          omega
        · intro Q'
          by_cases hQQ : Q' = Q
          · rw [hQQ, getChild_setChild_same _ _ _ ht_ne]; exact hwr
          · rw [getChild_setChild_ne _ _ _ _ hQQ]; exact hch Q'
      · rw [setChild_cell]

theorem insertAll_mono_le (h : Heap F) {m n : Nat} (hmn : m ≤ n) :
    ∀ (ps : List PRef) (t t' : BarnesHutNode F),
      insertAll h m t ps = .ok t' → insertAll h n t ps = .ok t' := by
  intro ps
  induction ps with
  | nil => intro t t' H; simpa [insertAll] using H
  | cons p ps ih =>
    intro t t' H
    rw [insertAll] at H ⊢
    cases h1 : InsertParticle h m t p with
    | error e => simp [h1] at H
    | ok t1 =>
      simp only [h1] at H
      simp only [InsertParticle_mono_le h hmn h1]
      exact ih _ _ H

/-- The insertion loop on a well-formed tree: every particle of the list is
inside the bounds, and positions are pairwise distinct and distinct from those
already held. -/
theorem insertAll_WF [Archimedean F] (h : Heap F) (B : Bounds F) :
    ∀ (ps : List PRef) (t : BarnesHutNode F), WF h B t →
      (∀ p ∈ ps, B.Contains h p) →
      ps.Pairwise (fun p q => pos h p ≠ pos h q) →
      (∀ p ∈ ps, ∀ q ∈ particles t, pos h q ≠ pos h p) →
      ∃ fuel t', insertAll h fuel t ps = .ok t' ∧ WF h B t' ∧ t'.cell = t.cell ∧
        ∀ a, (particles t').count a = (ps ++ particles t).count a := by
  intro ps
  induction ps with
  | nil =>
    intro t hw _ _ _
    exact ⟨0, t, rfl, hw, rfl, fun a => rfl⟩
  | cons p ps ih =>
    intro t hw hin hpw hd
    obtain ⟨f1, t1, hins1, hw1, hc1, hcnt1⟩ := insert_WF h p t B hw
      (hin p (List.mem_cons_self _ _)) (hd p (List.mem_cons_self _ _))
    rw [List.pairwise_cons] at hpw
    have hd1 : ∀ p' ∈ ps, ∀ q ∈ particles t1, pos h q ≠ pos h p' := by
      intro p' hp' q hq
      have hq' : q ∈ p :: particles t :=
        ((List.perm_iff_count.mpr hcnt1).mem_iff).mp hq
      rcases List.mem_cons.mp hq' with rfl | hq''
      · exact hpw.1 p' hp'
      · exact hd p' (List.mem_cons_of_mem _ hp') q hq''
    obtain ⟨f2, t2, hins2, hw2, hc2, hcnt2⟩ := ih t1 hw1
      (fun p' hp' => hin p' (List.mem_cons_of_mem _ hp')) hpw.2 hd1
    refine ⟨max f1 f2, t2, ?_, hw2, by rw [hc2, hc1], ?_⟩
    · rw [insertAll, InsertParticle_mono_le h (le_max_left f1 f2) hins1]
      exact insertAll_mono_le h (le_max_right f1 f2) _ _ _ hins2
    · intro a
      rw [hcnt2 a]
      simp only [List.count_append, List.count_cons] at hcnt1 ⊢
      have := hcnt1 a
      simp only [List.count_cons] at this
      omega

end InsertTotal

/-! ## C1: insertion neither loses nor duplicates a particle -/

section ClaimC1

variable {F : Type} [LinearOrderedField F]

theorem WF_leafParticles (h : Heap F) :
    ∀ (t : BarnesHutNode F) (B : Bounds F), WF h B t → leafParticles t = particles t := by
  intro t
  induction t with
  | nil => intro B hw; rfl
  | node c part tl bl tr br ih_tl ih_bl ih_tr ih_br =>
    intro B hw
    rw [WF] at hw
    obtain ⟨-, -, hcase⟩ := hw
    rcases hcase with ⟨rfl, rfl, rfl, rfl, rfl⟩ | ⟨q, rfl, hq, rfl, rfl, rfl, rfl⟩ |
      ⟨rfl, hn, h1, h2, h3, h4⟩
    · simp [leafParticles, particles, BarnesHutNode.isNil]
    · simp [leafParticles, particles, BarnesHutNode.isNil]
    · have hne : tl.isNil = false := (isNil_false_iff tl).mpr (WF_ne_nil h _ _ h1)
      simp [leafParticles, particles, hne, ih_tl _ h1, ih_bl _ h2, ih_tr _ h3, ih_br _ h4]

theorem WF_CreateNode (h : Heap F) (leftX rightX botY topY : F) :
    WF h ⟨leftX, rightX, botY, topY⟩ (CreateNode leftX rightX botY topY none) :=
  WF_empty h _ ⟨rfl, rfl⟩

/-- C1, amended. Over exact arithmetic (an Archimedean ordered field: no
rounding, no overflow), for particles with pairwise distinct positions inside
the half-open bounds of an empty root `CreateNode(..., nil)`, the insertion
loop returns a tree whose leaves hold exactly the inserted references: as many
as were inserted, each of them in exactly one leaf. -/
theorem C1_insertion_keeps_every_particle [Archimedean F] (h : Heap F)
    (leftX rightX botY topY : F) (ps : List PRef)
    (hin : ∀ p ∈ ps, (Bounds.mk leftX rightX botY topY).Contains h p)
    (hdist : ps.Pairwise (fun p q => pos h p ≠ pos h q)) :
    ∃ fuel root, insertAll h fuel (CreateNode leftX rightX botY topY none) ps = .ok root ∧
      (leafParticles root).Perm ps ∧
      (leafParticles root).length = ps.length ∧
      ∀ p ∈ ps, (leafParticles root).count p = 1 := by
  obtain ⟨fuel, root, hins, hw, -, hcnt⟩ :=
    insertAll_WF h ⟨leftX, rightX, botY, topY⟩ ps (CreateNode leftX rightX botY topY none)
      (WF_CreateNode h leftX rightX botY topY) hin hdist
      (by intro p _ q hq; simp [CreateNode, particles] at hq)
  have hperm : (leafParticles root).Perm ps := by
    rw [WF_leafParticles h root _ hw]
    apply List.perm_iff_count.mpr
    intro a
    rw [hcnt a]
    simp [CreateNode, particles]
  have hnd : ps.Nodup := by
    apply hdist.imp
    intro a b hab heq
    exact hab (by rw [heq])
  refine ⟨fuel, root, hins, hperm, hperm.length_eq, ?_⟩
  intro p hp
  rw [hperm.count_eq]
  exact List.count_eq_one_of_mem hnd hp

/-- C1 amended, at the four corner particles in the root `[-2, 2) × [-2, 2)`. -/
theorem C1_insertion_keeps_every_particle_witness :
    ∃ fuel root, insertAll cornersHeap fuel (CreateNode (-2) 2 (-2) 2 none) [0, 1, 2, 3]
        = .ok root ∧
      (leafParticles root).Perm [0, 1, 2, 3] ∧
      (leafParticles root).length = ([0, 1, 2, 3] : List PRef).length ∧
      ∀ p ∈ ([0, 1, 2, 3] : List PRef), (leafParticles root).count p = 1 :=
  C1_insertion_keeps_every_particle cornersHeap (-2) 2 (-2) 2 [0, 1, 2, 3]
    (by
      intro p hp
      simp only [List.mem_cons, List.mem_singleton, List.not_mem_nil, or_false] at hp
      rcases hp with rfl | rfl | rfl | rfl <;>
        norm_num [Bounds.Contains, cornersHeap, NewParticle])
    (by
      simp only [List.pairwise_cons, List.mem_cons, List.mem_singleton, List.not_mem_nil]
      norm_num [pos, cornersHeap, NewParticle, Prod.ext_iff])

end ClaimC1

/-! ## The shape kept by every insertion -/

section RegularShape

variable {F : Type} [LinearOrderedField F]

theorem Regular_ne_nil (t : BarnesHutNode F) (hr : Regular t) : t ≠ .nil := by
  rintro rfl
  simp [Regular] at hr

theorem Regular_of_children (t : BarnesHutNode F) (ht : t ≠ .nil) (hp : t.part = none)
    (hch : ∀ Q, Regular (getChild t Q)) : Regular t := by
  cases t with
  | nil => exact absurd rfl ht
  | node c part tl bl tr br =>
    simp only [BarnesHutNode.part] at hp
    rw [Regular]
    exact Or.inr ⟨hp, hch .TL, hch .BL, hch .TR, hch .BR⟩

theorem Regular_children (t : BarnesHutNode F) (hr : Regular t) (Q0 : Quad)
    (hQ0 : getChild t Q0 ≠ .nil) : t.part = none ∧ ∀ Q, Regular (getChild t Q) := by
  cases t with
  | nil => simp [Regular] at hr
  | node c part tl bl tr br =>
    rw [Regular] at hr
    rcases hr with ⟨rfl, rfl, rfl, rfl, -⟩ | ⟨hp, h1, h2, h3, h4⟩
    · cases Q0 <;> exact absurd rfl hQ0
    · refine ⟨hp, ?_⟩
      intro Q
      cases Q <;> assumption

theorem Regular_freshChild (c : Cell F) (Q : Quad) : Regular (freshChild c Q) := by
  obtain ⟨cc, he, -, -, h1, h2, h3⟩ := freshChild_spec c Q
  rw [he, Regular]
  exact Or.inl ⟨rfl, rfl, rfl, rfl, fun _ => ⟨h1, h2, h3⟩⟩

theorem Regular_splitNode (c : Cell F) : Regular (splitNode c) := by
  rw [splitNode, Regular]
  exact Or.inr ⟨rfl, Regular_freshChild c _, Regular_freshChild c _, Regular_freshChild c _,
    Regular_freshChild c _⟩

theorem Regular_CreateNode (leftX rightX botY topY : F) :
    Regular (CreateNode leftX rightX botY topY none) := by
  rw [CreateNode, Regular]
  exact Or.inl ⟨rfl, rfl, rfl, rfl, fun _ => ⟨rfl, rfl, rfl⟩⟩

/-- Every successful insertion keeps the regular shape. -/
theorem InsertParticle_Regular (h : Heap F) :
    ∀ (fuel : Nat) (t : BarnesHutNode F) (p : PRef) (t' : BarnesHutNode F),
      InsertParticle h fuel t p = .ok t' → Regular t → Regular t' := by
  intro fuel
  induction fuel with
  | zero => intro t p t' H; simp [InsertParticle] at H
  | succ n ih =>
    intro t p t' H hr
    cases t with
    | nil => simp [Regular] at hr
    | node c part tl bl tr br =>
      have hr' := hr
      rw [Regular] at hr'
      rcases hr' with ⟨rfl, rfl, rfl, rfl, hz⟩ | ⟨rfl, h1, h2, h3, h4⟩
      · cases part with
        | none =>
          rw [InsertParticle_empty] at H
          cases H
          rw [Regular]
          exact Or.inl ⟨rfl, rfl, rfl, rfl, fun hp => by cases hp⟩
        | some q =>
          rw [InsertParticle_leaf_split] at H
          cases h1 : InsertParticle h n (splitNode c) q with
          | error e => simp [h1] at H
          | ok node2 =>
            simp only [h1] at H
            exact ih _ _ _ H (ih _ _ _ h1 (Regular_splitNode c))
      · obtain ⟨t, ht⟩ : ∃ t, t = BarnesHutNode.node c none tl bl tr br := ⟨_, rfl⟩
        have ht_ne : t ≠ .nil := by rw [ht]; simp
        have hchild : ∀ Q, Regular (getChild t Q) := by
          intro Q; subst ht; cases Q <;> assumption
        rw [← ht] at H
        rw [InsertParticle_node h n t p ht_ne (by rw [ht]; rfl) .TL
          (Regular_ne_nil _ (hchild .TL))] at H
        rw [orCreate_of_ne_nil _ _ (Regular_ne_nil _ (hchild _))] at H
        cases h1 : InsertParticle h n (getChild t (quadrant t.cell (h p).x (h p).y)) p with
        | error e => simp [h1] at H
        | ok r =>
          simp only [h1] at H
          cases H
          apply Regular_of_children _ (setChild_ne_nil _ _ _ ht_ne)
          · rw [setChild_part, ht]; rfl
          · intro Q
            by_cases hQ : Q = quadrant t.cell (h p).x (h p).y
            · rw [hQ, getChild_setChild_same _ _ _ ht_ne]
              exact ih _ _ _ h1 (hchild _)
            · rw [getChild_setChild_ne _ _ _ _ hQ]
              exact hchild Q

theorem insertAll_Regular (h : Heap F) (fuel : Nat) :
    ∀ (ps : List PRef) (t t' : BarnesHutNode F),
      insertAll h fuel t ps = .ok t' → Regular t → Regular t' := by
  intro ps
  induction ps with
  | nil =>
    intro t t' H hr
    simp only [insertAll] at H
    cases H
    exact hr
  | cons p ps ih =>
    intro t t' H hr
    rw [insertAll] at H
    cases h1 : InsertParticle h fuel t p with
    | error e => simp [h1] at H
    | ok t1 =>
      simp only [h1] at H
      exact ih _ _ H (InsertParticle_Regular h _ _ _ _ h1 hr)

/-- A tree built by the insertion loop from an empty root is regular. -/
theorem built_Regular (h : Heap F) (fuel : Nat) (leftX rightX botY topY : F)
    (ps : List PRef) (root : BarnesHutNode F)
    (hbuild : insertAll h fuel (CreateNode leftX rightX botY topY none) ps = .ok root) :
    Regular root :=
  insertAll_Regular h fuel ps _ _ hbuild (Regular_CreateNode leftX rightX botY topY)

theorem Regular_leafParticles :
    ∀ (t : BarnesHutNode F), Regular t → leafParticles t = particles t := by
  intro t
  induction t with
  | nil => intro _; rfl
  | node c part tl bl tr br ih_tl ih_bl ih_tr ih_br =>
    intro hr
    rw [Regular] at hr
    rcases hr with ⟨rfl, rfl, rfl, rfl, -⟩ | ⟨rfl, h1, h2, h3, h4⟩
    · simp [leafParticles, particles, BarnesHutNode.isNil]
    · have hne : tl.isNil = false := (isNil_false_iff tl).mpr (Regular_ne_nil _ h1)
      simp [leafParticles, particles, hne, ih_tl h1, ih_bl h2, ih_tr h3, ih_br h4]

end RegularShape

/-! ## C2: the serial aggregation -/

section ClaimC2

variable {F : Type} [LinearOrderedField F]

theorem CalcCenterOfMass_isNil (h : Heap F) (t : BarnesHutNode F) :
    (CalcCenterOfMass h t).isNil = t.isNil := by
  cases t with
  | nil => rfl
  | node c part tl bl tr br =>
    simp only [CalcCenterOfMass]
    split_ifs
    · cases part <;> rfl
    · rfl

theorem CalcCenterOfMass_leafParticles (h : Heap F) :
    ∀ t : BarnesHutNode F, leafParticles (CalcCenterOfMass h t) = leafParticles t := by
  intro t
  induction t with
  | nil => rfl
  | node c part tl bl tr br ih_tl ih_bl ih_tr ih_br =>
    simp only [CalcCenterOfMass]
    split_ifs with hc
    · cases part <;> simp [leafParticles, hc]
    · simp only [leafParticles, CalcCenterOfMass_isNil, hc, ih_tl, ih_bl, ih_tr, ih_br]

theorem self_mem_nodes (t : BarnesHutNode F) (ht : t ≠ .nil) : t ∈ nodes t := by
  cases t with
  | nil => exact absurd rfl ht
  | node c part tl bl tr br => simp [nodes]

theorem sumX_append (h : Heap F) (xs ys : List PRef) :
    sumX h (xs ++ ys) = sumX h xs + sumX h ys := by
  simp [sumX]

theorem sumY_append (h : Heap F) (xs ys : List PRef) :
    sumY h (xs ++ ys) = sumY h xs + sumY h ys := by
  simp [sumY]

/-- The share a correctly aggregated child adds to the reduction. -/
theorem accumulate_Aggregated (h : Heap F) (acc : F × F × F) (ch : BarnesHutNode F)
    (hne : ch ≠ .nil) (ha : Aggregated h ch) :
    accumulate acc ch = (acc.1 + ((leafParticles ch).length : F),
      acc.2.1 + sumX h (leafParticles ch), acc.2.2 + sumY h (leafParticles ch)) := by
  cases ch with
  | nil => exact absurd rfl hne
  | node cc part tl bl tr br =>
    obtain ⟨hm, hcom⟩ := ha
    simp only [BarnesHutNode.cell] at hm hcom
    rw [accumulate]
    split_ifs with hpos
    · rw [hm] at hpos
      have hlen : 0 < (leafParticles (BarnesHutNode.node cc part tl bl tr br)).length := by
        exact_mod_cast hpos
      obtain ⟨hx, hy⟩ := hcom hlen
      rw [hx, hy, hm, div_mul_cancel₀ _ (ne_of_gt hpos), div_mul_cancel₀ _ (ne_of_gt hpos)]
    · rw [hm] at hpos
      have hlen : (leafParticles (BarnesHutNode.node cc part tl bl tr br)).length = 0 := by
        by_contra hne0
        exact hpos (by exact_mod_cast Nat.pos_of_ne_zero hne0)
      have hnil := List.length_eq_zero.mp hlen
      rw [hnil]
      simp [sumX, sumY]

/-- After `CalcCenterOfMass` on a regular tree every node is correctly aggregated. -/
theorem CalcCenterOfMass_Aggregated (h : Heap F) :
    ∀ t : BarnesHutNode F, Regular t →
      ∀ n ∈ nodes (CalcCenterOfMass h t), Aggregated h n := by
  intro t
  induction t with
  | nil => intro hr; simp [Regular] at hr
  | node c part tl bl tr br ih_tl ih_bl ih_tr ih_br =>
    intro hr n hn
    rw [Regular] at hr
    rcases hr with ⟨rfl, rfl, rfl, rfl, hz⟩ | ⟨rfl, h1, h2, h3, h4⟩
    · cases part with
      | none =>
        obtain ⟨hz1, -, -⟩ := hz rfl
        simp only [CalcCenterOfMass, BarnesHutNode.isNil, Bool.and_self, if_true, nodes,
          List.append_nil, List.mem_singleton] at hn
        subst hn
        simp [Aggregated, leafParticles, BarnesHutNode.isNil, BarnesHutNode.cell, hz1]
      | some p =>
        simp only [CalcCenterOfMass, BarnesHutNode.isNil, Bool.and_self, if_true, nodes,
          List.append_nil, List.mem_singleton] at hn
        subst hn
        simp [Aggregated, leafParticles, BarnesHutNode.isNil, BarnesHutNode.cell, sumX, sumY]
    · have hne : tl.isNil = false := (isNil_false_iff tl).mpr (Regular_ne_nil _ h1)
      have n1 : CalcCenterOfMass h tl ≠ .nil := by
        rw [← isNil_false_iff, CalcCenterOfMass_isNil, isNil_false_iff]
        exact Regular_ne_nil _ h1
      have n2 : CalcCenterOfMass h bl ≠ .nil := by
        rw [← isNil_false_iff, CalcCenterOfMass_isNil, isNil_false_iff]
        exact Regular_ne_nil _ h2
      have n3 : CalcCenterOfMass h tr ≠ .nil := by
        rw [← isNil_false_iff, CalcCenterOfMass_isNil, isNil_false_iff]
        exact Regular_ne_nil _ h3
      have n4 : CalcCenterOfMass h br ≠ .nil := by
        rw [← isNil_false_iff, CalcCenterOfMass_isNil, isNil_false_iff]
        exact Regular_ne_nil _ h4
      have a1 := ih_tl h1 _ (self_mem_nodes _ n1)
      have a2 := ih_bl h2 _ (self_mem_nodes _ n2)
      have a3 := ih_tr h3 _ (self_mem_nodes _ n3)
      have a4 := ih_br h4 _ (self_mem_nodes _ n4)
      rw [CalcCenterOfMass] at hn
      simp only [hne, Bool.false_and, Bool.false_eq_true, if_false, nodes, List.mem_cons,
        List.mem_append] at hn
      rcases hn with rfl | hn | hn | hn | hn
      · rw [accumulate_Aggregated h _ _ n1 a1, accumulate_Aggregated h _ _ n3 a3,
          accumulate_Aggregated h _ _ n2 a2, accumulate_Aggregated h _ _ n4 a4]
        have hnil1 : (CalcCenterOfMass h tl).isNil = false := (isNil_false_iff _).mpr n1
        simp only [Aggregated, leafParticles, hnil1, Bool.false_and, Bool.false_eq_true,
          if_false, BarnesHutNode.cell, List.length_append, Nat.cast_add, sumX_append,
          sumY_append, zero_add]
        unfold storeCOM
        split_ifs with hpos
        · simp only []
          exact ⟨by ring, fun _ => ⟨by ring_nf, by ring_nf⟩⟩
        · simp only []
          refine ⟨by ring, fun hlen => ?_⟩
          exfalso
          apply hpos
          have : (0 : F) < ((((leafParticles (CalcCenterOfMass h tl)).length +
              ((leafParticles (CalcCenterOfMass h tr)).length +
              ((leafParticles (CalcCenterOfMass h bl)).length +
              (leafParticles (CalcCenterOfMass h br)).length)) : ℕ) : F)) := by
            exact_mod_cast hlen
          push_cast at this
          simp only [gt_iff_lt]
          linarith
      · exact ih_tl h1 n hn
      · exact ih_tr h3 n hn
      · exact ih_bl h2 n hn
      · exact ih_br h4 n hn

end ClaimC2

section ClaimC2Statement

variable {F : Type} [LinearOrderedField F]

/-- C2. Over exact arithmetic, in a tree built by the insertion loop from an
empty `CreateNode` root, after `CalcCenterOfMass` every node has `totalMass`
equal to the number of particles held in leaves of its subtree and, when that
number is positive, `(comX, comY)` equal to the arithmetic mean of their
positions. -/
theorem C2_center_of_mass_is_mean (h : Heap F) (fuel : Nat) (leftX rightX botY topY : F)
    (ps : List PRef) (root : BarnesHutNode F)
    (hbuild : insertAll h fuel (CreateNode leftX rightX botY topY none) ps = .ok root) :
    ∀ n ∈ nodes (CalcCenterOfMass h root),
      n.cell.totalMass = ((leafParticles n).length : F) ∧
      (0 < (leafParticles n).length →
        n.cell.comX = sumX h (leafParticles n) / ((leafParticles n).length : F) ∧
        n.cell.comY = sumY h (leafParticles n) / ((leafParticles n).length : F)) :=
  CalcCenterOfMass_Aggregated h root (built_Regular h fuel leftX rightX botY topY ps root hbuild)

theorem cornersTree_built :
    insertAll cornersHeap 3 (CreateNode (-2) 2 (-2) 2 none) [0, 1, 2, 3] = .ok cornersTree := by
  norm_num [insertAll, InsertParticle, CreateNode, orCreate, BarnesHutNode.isNil, cornersHeap,
    NewParticle, cornersTree]

/-- C2 at the four particles `(1,1)`, `(1,-1)`, `(-1,1)`, `(-1,-1)`: every node
is aggregated, and the root has `totalMass = 4` and centre of mass `(0, 0)`. -/
theorem C2_center_of_mass_is_mean_witness :
    (∀ n ∈ nodes (CalcCenterOfMass cornersHeap cornersTree),
      n.cell.totalMass = ((leafParticles n).length : ℚ) ∧
      (0 < (leafParticles n).length →
        n.cell.comX = sumX cornersHeap (leafParticles n) / ((leafParticles n).length : ℚ) ∧
        n.cell.comY = sumY cornersHeap (leafParticles n) / ((leafParticles n).length : ℚ))) ∧
    (CalcCenterOfMass cornersHeap cornersTree).cell.totalMass = 4 ∧
    (CalcCenterOfMass cornersHeap cornersTree).cell.comX = 0 ∧
    (CalcCenterOfMass cornersHeap cornersTree).cell.comY = 0 :=
  ⟨C2_center_of_mass_is_mean cornersHeap 3 (-2) 2 (-2) 2 [0, 1, 2, 3] cornersTree
      cornersTree_built,
    by norm_num [CalcCenterOfMass, cornersTree, BarnesHutNode.isNil, accumulate, storeCOM,
      cornersHeap, NewParticle, BarnesHutNode.cell],
    by norm_num [CalcCenterOfMass, cornersTree, BarnesHutNode.isNil, accumulate, storeCOM,
      cornersHeap, NewParticle, BarnesHutNode.cell],
    by norm_num [CalcCenterOfMass, cornersTree, BarnesHutNode.isNil, accumulate, storeCOM,
      cornersHeap, NewParticle, BarnesHutNode.cell]⟩

end ClaimC2Statement

/-! ## C3: the parallel aggregation, read sequentially -/

section ClaimC3

variable {F : Type} [LinearOrderedField F]

theorem accumulatePar_eq (acc : F × F × F) (ch : BarnesHutNode F) (hne : ch ≠ .nil) :
    accumulatePar acc ch = .ok (accumulate acc ch) := by
  cases ch with
  | nil => exact absurd rfl hne
  | node cc part tl bl tr br =>
    simp only [accumulatePar, accumulate]
    split_ifs <;> rfl

theorem CalcCenterOfMass_ne_nil (h : Heap F) (t : BarnesHutNode F) (ht : t ≠ .nil) :
    CalcCenterOfMass h t ≠ .nil := by
  rw [← isNil_false_iff, CalcCenterOfMass_isNil, isNil_false_iff]
  exact ht

/-- On a regular tree the parallel aggregation, read sequentially, returns the
tree the serial aggregation returns, whatever the admission counter. -/
theorem CalcCenterOfMassParallel_eq_serial (h : Heap F) (numThreads : Int) :
    ∀ t : BarnesHutNode F, Regular t → ∀ activeThreads : Int,
      CalcCenterOfMassParallel h activeThreads numThreads t = .ok (CalcCenterOfMass h t) := by
  intro t
  induction t with
  | nil => intro hr; simp [Regular] at hr
  | node c part tl bl tr br ih_tl ih_bl ih_tr ih_br =>
    intro hr a
    rw [Regular] at hr
    rcases hr with ⟨rfl, rfl, rfl, rfl, -⟩ | ⟨rfl, h1, h2, h3, h4⟩
    · cases part <;>
        simp [CalcCenterOfMassParallel, CalcCenterOfMass, BarnesHutNode.isNil]
    · have hne : tl.isNil = false := (isNil_false_iff tl).mpr (Regular_ne_nil _ h1)
      have e1 : (if a < numThreads then CalcCenterOfMassParallel h (a + 1) numThreads tl
          else CalcCenterOfMassParallel h a numThreads tl) = .ok (CalcCenterOfMass h tl) := by
        split_ifs <;> exact ih_tl h1 _
      have e2 : (if a < numThreads then CalcCenterOfMassParallel h (a + 1) numThreads tr
          else CalcCenterOfMassParallel h a numThreads tr) = .ok (CalcCenterOfMass h tr) := by
        split_ifs <;> exact ih_tr h3 _
      have e3 : (if a < numThreads then CalcCenterOfMassParallel h (a + 1) numThreads bl
          else CalcCenterOfMassParallel h a numThreads bl) = .ok (CalcCenterOfMass h bl) := by
        split_ifs <;> exact ih_bl h2 _
      have e4 : (if a < numThreads then CalcCenterOfMassParallel h (a + 1) numThreads br
          else CalcCenterOfMassParallel h a numThreads br) = .ok (CalcCenterOfMass h br) := by
        split_ifs <;> exact ih_br h4 _
      simp only [CalcCenterOfMassParallel, CalcCenterOfMass, hne, Bool.false_and,
        Bool.false_eq_true, if_false, e1, e2, e3, e4]
      rw [accumulatePar_eq _ _ (CalcCenterOfMass_ne_nil h _ (Regular_ne_nil _ h1))]
      simp only []
      rw [accumulatePar_eq _ _ (CalcCenterOfMass_ne_nil h _ (Regular_ne_nil _ h3))]
      simp only []
      rw [accumulatePar_eq _ _ (CalcCenterOfMass_ne_nil h _ (Regular_ne_nil _ h2))]
      simp only []
      rw [accumulatePar_eq _ _ (CalcCenterOfMass_ne_nil h _ (Regular_ne_nil _ h4))]

/-- C3. On a tree built by the insertion loop from an empty `CreateNode` root,
`CalcCenterOfMassParallel`, read sequentially (each child call completes before
the reduction, children reduced in the order topLeft, topRight, botLeft,
botRight), returns without fault the very tree `CalcCenterOfMass` returns: every
node has the same `totalMass`, `comX` and `comY`. -/
theorem C3_parallel_aggregation_equals_serial (h : Heap F) (fuel : Nat)
    (leftX rightX botY topY : F) (ps : List PRef) (root : BarnesHutNode F)
    (activeThreads numThreads : Int)
    (hbuild : insertAll h fuel (CreateNode leftX rightX botY topY none) ps = .ok root) :
    CalcCenterOfMassParallel h activeThreads numThreads root = .ok (CalcCenterOfMass h root) :=
  CalcCenterOfMassParallel_eq_serial h numThreads root
    (built_Regular h fuel leftX rightX botY topY ps root hbuild) activeThreads

/-- C3 at the four corner particles, with the counter and cap `RunSimulation`
passes for four threads. -/
theorem C3_parallel_aggregation_equals_serial_witness :
    CalcCenterOfMassParallel cornersHeap 1 4 cornersTree
      = .ok (CalcCenterOfMass cornersHeap cornersTree) :=
  C3_parallel_aggregation_equals_serial cornersHeap 3 (-2) 2 (-2) 2 [0, 1, 2, 3] cornersTree
    1 4 cornersTree_built

end ClaimC3

/-! ## The force traversal touches only the force of its own particle -/

section ForceFrame

variable {F : Type} [LinearOrderedField F]

theorem ForceByNode_other (sqrt : F → F) (h : Heap F) (p q : PRef) (c : Cell F)
    (hq : q ≠ p) : ForceByNode sqrt h p c q = h q := by
  simp [ForceByNode, Function.update_noteq hq]

theorem ForceByNode_self (sqrt : F → F) (h : Heap F) (p : PRef) (c : Cell F) :
    ForceByNode sqrt h p c p =
      { h p with
        fx := (h p).fx + (c.comX - (h p).x) * c.totalMass *
          (1 / sqrt ((c.comX - (h p).x) * (c.comX - (h p).x) +
            (c.comY - (h p).y) * (c.comY - (h p).y) + SOFTENING) *
           (1 / sqrt ((c.comX - (h p).x) * (c.comX - (h p).x) +
            (c.comY - (h p).y) * (c.comY - (h p).y) + SOFTENING)) *
           (1 / sqrt ((c.comX - (h p).x) * (c.comX - (h p).x) +
            (c.comY - (h p).y) * (c.comY - (h p).y) + SOFTENING)))
        fy := (h p).fy + c.totalMass * (c.comY - (h p).y) *
          (1 / sqrt ((c.comX - (h p).x) * (c.comX - (h p).x) +
            (c.comY - (h p).y) * (c.comY - (h p).y) + SOFTENING) *
           (1 / sqrt ((c.comX - (h p).x) * (c.comX - (h p).x) +
            (c.comY - (h p).y) * (c.comY - (h p).y) + SOFTENING)) *
           (1 / sqrt ((c.comX - (h p).x) * (c.comX - (h p).x) +
            (c.comY - (h p).y) * (c.comY - (h p).y) + SOFTENING))) } := by
  simp [ForceByNode]

theorem ForceByNode_local (sqrt : F → F) (h1 h2 : Heap F) (p : PRef) (c : Cell F)
    (he : h1 p = h2 p) : ForceByNode sqrt h1 p c p = ForceByNode sqrt h2 p c p := by
  rw [ForceByNode_self, ForceByNode_self, he]

/-- `ForceCalculation` leaves every other particle as it was. -/
theorem ForceCalculation_other (sqrt : F → F) (p q : PRef) (hq : q ≠ p) :
    ∀ (t : BarnesHutNode F) (h : Heap F), ForceCalculation sqrt h p t q = h q := by
  intro t
  induction t with
  | nil => intro h; rfl
  | node c part tl bl tr br ih_tl ih_bl ih_tr ih_br =>
    intro h
    simp only [ForceCalculation]
    split_ifs
    · rfl
    · exact ForceByNode_other sqrt h p q c hq
    · rw [ih_br, ih_bl, ih_tr, ih_tl]

/-- The result of `ForceCalculation` at its particle depends on the heap only
through that particle. -/
theorem ForceCalculation_local (sqrt : F → F) (p : PRef) :
    ∀ (t : BarnesHutNode F) (h1 h2 : Heap F), h1 p = h2 p →
      ForceCalculation sqrt h1 p t p = ForceCalculation sqrt h2 p t p := by
  intro t
  induction t with
  | nil => intro h1 h2 he; exact he
  | node c part tl bl tr br ih_tl ih_bl ih_tr ih_br =>
    intro h1 h2 he
    simp only [ForceCalculation, he]
    split_ifs
    · exact he
    · exact ForceByNode_local sqrt h1 h2 p c he
    · exact ih_br _ _ (ih_bl _ _ (ih_tr _ _ (ih_tl _ _ he)))

/-- `ForceCalculation` leaves the position and velocity of its particle as they were. -/
theorem ForceCalculation_frame (sqrt : F → F) (p : PRef) :
    ∀ (t : BarnesHutNode F) (h : Heap F),
      (ForceCalculation sqrt h p t p).x = (h p).x ∧
      (ForceCalculation sqrt h p t p).y = (h p).y ∧
      (ForceCalculation sqrt h p t p).vx = (h p).vx ∧
      (ForceCalculation sqrt h p t p).vy = (h p).vy := by
  intro t
  induction t with
  | nil => intro h; exact ⟨rfl, rfl, rfl, rfl⟩
  | node c part tl bl tr br ih_tl ih_bl ih_tr ih_br =>
    intro h
    simp only [ForceCalculation]
    split_ifs
    · exact ⟨rfl, rfl, rfl, rfl⟩
    · rw [ForceByNode_self]
      exact ⟨rfl, rfl, rfl, rfl⟩
    · obtain ⟨a1, a2, a3, a4⟩ := ih_tl h
      obtain ⟨b1, b2, b3, b4⟩ := ih_tr (ForceCalculation sqrt h p tl)
      obtain ⟨c1, c2, c3, c4⟩ := ih_bl (ForceCalculation sqrt (ForceCalculation sqrt h p tl) p tr)
      obtain ⟨d1, d2, d3, d4⟩ := ih_br (ForceCalculation sqrt
        (ForceCalculation sqrt (ForceCalculation sqrt h p tl) p tr) p bl)
      exact ⟨by rw [d1, c1, b1, a1], by rw [d2, c2, b2, a2], by rw [d3, c3, b3, a3],
        by rw [d4, c4, b4, a4]⟩

theorem CalcVelocity_other (sqrt : F → F) (h : Heap F) (p q : PRef) (root : BarnesHutNode F)
    (dt : F) (hq : q ≠ p) : CalcVelocity sqrt h p root dt q = h q := by
  simp only [CalcVelocity, Function.update_noteq hq]
  exact ForceCalculation_other sqrt p q hq root h

theorem CalcVelocity_local (sqrt : F → F) (h1 h2 : Heap F) (p : PRef)
    (root : BarnesHutNode F) (dt : F) (he : h1 p = h2 p) :
    CalcVelocity sqrt h1 p root dt p = CalcVelocity sqrt h2 p root dt p := by
  simp only [CalcVelocity, Function.update_same, ForceCalculation_local sqrt p root h1 h2 he]

/-- `CalcVelocityForAll` runs `CalcVelocity` on the particles of the subtree in
traversal order. -/
theorem CalcVelocityForAll_eq_foldl (sqrt : F → F) (root : BarnesHutNode F) (dt : F) :
    ∀ (t : BarnesHutNode F) (h : Heap F),
      CalcVelocityForAll sqrt root dt h t
        = (particles t).foldl (fun h p => CalcVelocity sqrt h p root dt) h := by
  intro t
  induction t with
  | nil => intro h; rfl
  | node c part tl bl tr br ih_tl ih_bl ih_tr ih_br =>
    intro h
    simp only [CalcVelocityForAll, particles, List.foldl_append]
    rw [ih_br, ih_bl, ih_tr, ih_tl]
    cases part <;> rfl

/-- Running `CalcVelocity` once on each particle of a duplicate-free list gives
each listed particle the result of its own step on the initial heap. -/
theorem foldl_CalcVelocity (sqrt : F → F) (root : BarnesHutNode F) (dt : F) (p : PRef) :
    ∀ (l : List PRef) (h : Heap F), l.Nodup →
      (l.foldl (fun h p => CalcVelocity sqrt h p root dt) h) p
        = if p ∈ l then CalcVelocity sqrt h p root dt p else h p := by
  intro l
  induction l with
  | nil => intro h _; simp
  | cons q l ih =>
    intro h hnd
    rw [List.nodup_cons] at hnd
    rw [List.foldl_cons, ih _ hnd.2]
    by_cases hqp : p = q
    · subst hqp
      simp [hnd.1]
    · simp only [List.mem_cons, hqp, false_or]
      split_ifs
      · exact CalcVelocity_local sqrt _ _ p root dt (CalcVelocity_other sqrt h q p root dt hqp)
      · exact CalcVelocity_other sqrt h q p root dt hqp

end ForceFrame

/-! ## C4: the velocity step -/

section ClaimC4

variable {F : Type} [LinearOrderedField F]

theorem update_zero_force (h : Heap F) (p : PRef) (hfx : (h p).fx = 0) (hfy : (h p).fy = 0) :
    Function.update h p { h p with fx := 0, fy := 0 } = h := by
  have : ({ h p with fx := 0, fy := 0 } : Particle F) = h p := by
    cases hp : h p with
    | mk x y vx vy fx fy =>
      rw [hp] at hfx hfy
      simp only at hfx hfy
      rw [hfx, hfy]
  rw [this, Function.update_eq_self]

theorem CalcVelocity_self (sqrt : F → F) (h : Heap F) (p : PRef) (root : BarnesHutNode F)
    (dt : F) (hfx : (h p).fx = 0) (hfy : (h p).fy = 0) :
    (CalcVelocity sqrt h p root dt p).vx = (h p).vx + dt * (netForce sqrt h p root).1 ∧
    (CalcVelocity sqrt h p root dt p).vy = (h p).vy + dt * (netForce sqrt h p root).2 := by
  obtain ⟨-, -, h3, h4⟩ := ForceCalculation_frame sqrt p root h
  simp only [CalcVelocity, Function.update_same, netForce, update_zero_force h p hfx hfy, h3, h4,
    and_self]

theorem pushChild_heap (w : Nat) (child : BarnesHutNode F) (s : Phase F) :
    (pushChild w child s).heap = s.heap := by
  unfold pushChild
  split_ifs <;> rfl

/-- C4. For a tree in which each particle is held by one node and a particle
`p` of it, all forces being zero on entry: `CalcVelocity` ends with
`p.vx = old p.vx + dt * Fx` and `p.vy = old p.vy + dt * Fy`, where `(Fx, Fy)` is
the force `ForceCalculation(p, root)` accumulates from zero; the same holds for
`p` after the whole serial phase `CalcVelocityForAll`; and
`processVelocitySubtree` on the node holding `p` changes the store exactly as
`CalcVelocity(p, root, dt)` does. -/
theorem C4_velocity_changes_by_dt_times_force (sqrt : F → F) (h : Heap F)
    (root : BarnesHutNode F) (dt : F) (p : PRef)
    (hp : p ∈ particles root) (hnd : (particles root).Nodup)
    (hf : ∀ q ∈ particles root, (h q).fx = 0 ∧ (h q).fy = 0) :
    ((CalcVelocity sqrt h p root dt p).vx = (h p).vx + dt * (netForce sqrt h p root).1 ∧
      (CalcVelocity sqrt h p root dt p).vy = (h p).vy + dt * (netForce sqrt h p root).2) ∧
    ((CalcVelocityForAll sqrt root dt h root p).vx
        = (h p).vx + dt * (netForce sqrt h p root).1 ∧
      (CalcVelocityForAll sqrt root dt h root p).vy
        = (h p).vy + dt * (netForce sqrt h p root).2) ∧
    (∀ (c : Cell F) (tl bl tr br : BarnesHutNode F) (threadNum : Nat) (s : Phase F),
      s.heap = h →
      (processVelocitySubtree sqrt root (.node c (some p) tl bl tr br) dt threadNum s).heap
        = CalcVelocity sqrt h p root dt) := by
  have hself := CalcVelocity_self sqrt h p root dt (hf p hp).1 (hf p hp).2
  refine ⟨hself, ?_, ?_⟩
  · rw [CalcVelocityForAll_eq_foldl, foldl_CalcVelocity sqrt root dt p _ h hnd, if_pos hp]
    exact hself
  · intro c tl bl tr br w s hs
    simp only [processVelocitySubtree, countTask, leafAction, pushChild_heap, hs]

/-- C4 at the aggregated four-corner tree and particle `0`, with `dt = 1/100`
and the identity in place of the square root. -/
theorem C4_velocity_changes_by_dt_times_force_witness :
    ((CalcVelocity id cornersHeap 0 (CalcCenterOfMass cornersHeap cornersTree) (1 / 100) 0).vx
        = (cornersHeap 0).vx + 1 / 100 *
          (netForce id cornersHeap 0 (CalcCenterOfMass cornersHeap cornersTree)).1 ∧
      (CalcVelocity id cornersHeap 0 (CalcCenterOfMass cornersHeap cornersTree) (1 / 100) 0).vy
        = (cornersHeap 0).vy + 1 / 100 *
          (netForce id cornersHeap 0 (CalcCenterOfMass cornersHeap cornersTree)).2) ∧
    ((CalcVelocityForAll id (CalcCenterOfMass cornersHeap cornersTree) (1 / 100) cornersHeap
          (CalcCenterOfMass cornersHeap cornersTree) 0).vx
        = (cornersHeap 0).vx + 1 / 100 *
          (netForce id cornersHeap 0 (CalcCenterOfMass cornersHeap cornersTree)).1 ∧
      (CalcVelocityForAll id (CalcCenterOfMass cornersHeap cornersTree) (1 / 100) cornersHeap
          (CalcCenterOfMass cornersHeap cornersTree) 0).vy
        = (cornersHeap 0).vy + 1 / 100 *
          (netForce id cornersHeap 0 (CalcCenterOfMass cornersHeap cornersTree)).2) ∧
    (∀ (c : Cell ℚ) (tl bl tr br : BarnesHutNode ℚ) (threadNum : Nat) (s : Phase ℚ),
      s.heap = cornersHeap →
      (processVelocitySubtree id (CalcCenterOfMass cornersHeap cornersTree)
          (.node c (some 0) tl bl tr br) (1 / 100) threadNum s).heap
        = CalcVelocity id cornersHeap 0 (CalcCenterOfMass cornersHeap cornersTree) (1 / 100)) :=
  C4_velocity_changes_by_dt_times_force id cornersHeap
    (CalcCenterOfMass cornersHeap cornersTree) (1 / 100) 0
    (by simp [particles, CalcCenterOfMass, cornersTree, BarnesHutNode.isNil])
    (by simp [particles, CalcCenterOfMass, cornersTree, BarnesHutNode.isNil])
    (by intro q _; simp [cornersHeap, NewParticle])

end ClaimC4

/-! ## C5: the position phase -/

section ClaimC5

variable {F : Type} [LinearOrderedField F]

theorem updatePosition_other (h : Heap F) (p q : PRef) (dt : F) (hq : q ≠ p) :
    updatePosition h p dt q = h q := by
  simp [updatePosition, Function.update_noteq hq]

theorem updatePosition_self (h : Heap F) (p : PRef) (dt : F) :
    updatePosition h p dt p =
      { x := (h p).x + (h p).vx * dt, y := (h p).y + (h p).vy * dt,
        vx := (h p).vx, vy := (h p).vy, fx := 0, fy := 0 } := by
  simp [updatePosition]

theorem foldl_updatePosition (dt : F) (p : PRef) :
    ∀ (l : List PRef) (h : Heap F), l.Nodup →
      (l.foldl (fun h p => updatePosition h p dt) h) p
        = if p ∈ l then updatePosition h p dt p else h p := by
  intro l
  induction l with
  | nil => intro h _; simp
  | cons q l ih =>
    intro h hnd
    rw [List.nodup_cons] at hnd
    rw [List.foldl_cons, ih _ hnd.2]
    by_cases hqp : p = q
    · subst hqp
      simp [hnd.1]
    · simp only [List.mem_cons, hqp, false_or]
      split_ifs
      · rw [updatePosition_self, updatePosition_self, updatePosition_other h q p dt hqp]
      · exact updatePosition_other h q p dt hqp

theorem Classified_leafParticles :
    ∀ t : BarnesHutNode F, Classified t → leafParticles t = particles t := by
  intro t
  induction t with
  | nil => intro _; rfl
  | node c part tl bl tr br ih_tl ih_bl ih_tr ih_br =>
    intro hc
    rw [Classified] at hc
    obtain ⟨h0, h1, h2, h3, h4⟩ := hc
    simp only [leafParticles, particles]
    split_ifs with hnil
    · simp only [Bool.and_eq_true, isNil_iff] at hnil
      obtain ⟨⟨⟨rfl, rfl⟩, rfl⟩, rfl⟩ := hnil
      simp [particles]
    · cases part with
      | none => simp [ih_tl h1, ih_bl h2, ih_tr h3, ih_br h4]
      | some q =>
        obtain ⟨rfl, rfl, rfl, rfl⟩ := h0 (by simp)
        simp [BarnesHutNode.isNil] at hnil

/-- On a classified tree `CalcNewPositions` updates the particles of the tree
in traversal order. -/
theorem CalcNewPositions_eq_foldl (dt : F) :
    ∀ (t : BarnesHutNode F) (h : Heap F), Classified t →
      CalcNewPositions h dt t = (particles t).foldl (fun h p => updatePosition h p dt) h := by
  intro t
  induction t with
  | nil => intro h _; rfl
  | node c part tl bl tr br ih_tl ih_bl ih_tr ih_br =>
    intro h hc
    rw [Classified] at hc
    obtain ⟨h0, h1, h2, h3, h4⟩ := hc
    cases part with
    | none =>
      simp only [CalcNewPositions, particles, Option.toList, List.nil_append, List.foldl_append]
      rw [ih_tl _ h1, ih_tr _ h3, ih_bl _ h2, ih_br _ h4]
    | some q =>
      obtain ⟨rfl, rfl, rfl, rfl⟩ := h0 (by simp)
      simp [CalcNewPositions, particles]

theorem pushChild_log (w : Nat) (child : BarnesHutNode F) (s : Phase F) :
    (pushChild w child s).log = s.log := by
  unfold pushChild
  split_ifs <;> rfl

theorem processPositionSubtree_heap (dt : F) (n : BarnesHutNode F) (w : Nat) (s : Phase F) :
    (processPositionSubtree dt n w s).heap
      = (n.part.toList).foldl (fun h p => updatePosition h p dt) s.heap := by
  cases n with
  | nil => rfl
  | node c part tl bl tr br =>
    cases part <;>
      simp [processPositionSubtree, countTask, leafAction, pushChild_heap, BarnesHutNode.part]

theorem foldl_processPositionSubtree_heap (dt : F) (w : Nat) :
    ∀ (l : List (BarnesHutNode F)) (s : Phase F),
      (l.foldl (fun s n => processPositionSubtree dt n w s) s).heap
        = (l.flatMap (fun n => n.part.toList)).foldl (fun h p => updatePosition h p dt) s.heap := by
  intro l
  induction l with
  | nil => intro s; rfl
  | cons n l ih =>
    intro s
    rw [List.foldl_cons, ih, processPositionSubtree_heap, List.flatMap_cons, List.foldl_append]

theorem nodes_bind_part :
    ∀ t : BarnesHutNode F, (nodes t).flatMap (fun n => n.part.toList) = particles t := by
  intro t
  induction t with
  | nil => rfl
  | node c part tl bl tr br ih_tl ih_bl ih_tr ih_br =>
    simp only [nodes, particles, List.flatMap_cons, List.flatMap_append]
    rw [ih_tl, ih_bl, ih_tr, ih_br]
    rfl

/-- C5. In a tree whose particle-bearing nodes are childless and whose leaves
hold each particle once, after one position phase (the serial
`CalcNewPositions(root, dt)`, and equally `processPositionSubtree` applied once
to every node, in any order) every particle `p` of the tree has
`x = old x + vx*dt`, `y = old y + vy*dt`, `vx`, `vy` unchanged and `fx = fy = 0`. -/
theorem C5_position_phase (h : Heap F) (root : BarnesHutNode F) (dt : F) (p : PRef)
    (hcl : Classified root) (hnd : (leafParticles root).Nodup) (hp : p ∈ leafParticles root) :
    CalcNewPositions h dt root p =
      { x := (h p).x + (h p).vx * dt, y := (h p).y + (h p).vy * dt,
        vx := (h p).vx, vy := (h p).vy, fx := 0, fy := 0 } ∧
    ∀ (order : List (BarnesHutNode F)) (threadNum : Nat) (s : Phase F),
      order.Perm (nodes root) → s.heap = h →
      (order.foldl (fun s n => processPositionSubtree dt n threadNum s) s).heap p =
        { x := (h p).x + (h p).vx * dt, y := (h p).y + (h p).vy * dt,
          vx := (h p).vx, vy := (h p).vy, fx := 0, fy := 0 } := by
  rw [Classified_leafParticles root hcl] at hnd hp
  constructor
  · rw [CalcNewPositions_eq_foldl dt root h hcl, foldl_updatePosition dt p _ h hnd, if_pos hp,
      updatePosition_self]
  · intro order w s hperm hs
    have hperm2 : (order.flatMap (fun n => n.part.toList)).Perm (particles root) := by
      rw [← nodes_bind_part root]
      exact hperm.flatMap_right _
    rw [foldl_processPositionSubtree_heap, foldl_updatePosition dt p _ _ (hperm2.nodup_iff.mpr hnd),
      if_pos (hperm2.mem_iff.mpr hp), updatePosition_self, hs]

/-- C5 at the four-corner tree and particle `0`, with `dt = 1/100`. -/
theorem C5_position_phase_witness :
    CalcNewPositions cornersHeap (1 / 100) cornersTree 0 =
      { x := (cornersHeap 0).x + (cornersHeap 0).vx * (1 / 100),
        y := (cornersHeap 0).y + (cornersHeap 0).vy * (1 / 100),
        vx := (cornersHeap 0).vx, vy := (cornersHeap 0).vy, fx := 0, fy := 0 } ∧
    ∀ (order : List (BarnesHutNode ℚ)) (threadNum : Nat) (s : Phase ℚ),
      order.Perm (nodes cornersTree) → s.heap = cornersHeap →
      (order.foldl (fun s n => processPositionSubtree (1 / 100) n threadNum s) s).heap 0 =
        { x := (cornersHeap 0).x + (cornersHeap 0).vx * (1 / 100),
          y := (cornersHeap 0).y + (cornersHeap 0).vy * (1 / 100),
          vx := (cornersHeap 0).vx, vy := (cornersHeap 0).vy, fx := 0, fy := 0 } :=
  C5_position_phase cornersHeap cornersTree (1 / 100) 0
    (by simp [Classified, cornersTree])
    (by simp [leafParticles, cornersTree, BarnesHutNode.isNil])
    (by simp [leafParticles, cornersTree, BarnesHutNode.isNil])

end ClaimC5

/-! ## Well-formed trees are determined by their particles -/

section Canonical

variable {F : Type} [LinearOrderedField F]

theorem child_contains (h : Heap F) (B : Bounds F) (Q : Quad) (p : PRef)
    (hc : (B.child Q).Contains h p) : B.Contains h p := by
  obtain ⟨h1, h2, h3, h4⟩ := hc
  cases Q <;> simp only [Bounds.child] at h1 h2 h3 h4 <;>
    refine ⟨?_, ?_, ?_, ?_⟩ <;> linarith

theorem child_disjoint (h : Heap F) (B : Bounds F) (Q Q' : Quad) (p : PRef) (hne : Q ≠ Q')
    (hc : (B.child Q).Contains h p) (hc' : (B.child Q').Contains h p) : False := by
  obtain ⟨h1, h2, h3, h4⟩ := hc
  obtain ⟨g1, g2, g3, g4⟩ := hc'
  cases Q <;> cases Q' <;> simp only [Bounds.child] at h1 h2 h3 h4 g1 g2 g3 g4 <;>
    first
    | exact hne rfl
    | linarith

theorem WF_inside (h : Heap F) :
    ∀ (t : BarnesHutNode F) (B : Bounds F), WF h B t → ∀ p ∈ particles t, B.Contains h p := by
  intro t
  induction t with
  | nil => intro B hw; simp [WF] at hw
  | node c part tl bl tr br ih_tl ih_bl ih_tr ih_br =>
    intro B hw p hp
    rw [WF] at hw
    obtain ⟨-, -, hcase⟩ := hw
    rcases hcase with ⟨rfl, rfl, rfl, rfl, rfl⟩ | ⟨q, rfl, hq, rfl, rfl, rfl, rfl⟩ |
      ⟨rfl, hn, h1, h2, h3, h4⟩
    · simp [particles] at hp
    · simp only [particles, Option.toList, List.append_nil, List.mem_singleton] at hp
      subst hp
      exact hq
    · simp only [particles, Option.toList, List.nil_append, List.mem_append] at hp
      rcases hp with hp | hp | hp | hp
      · exact child_contains h B _ p (ih_tl _ h1 p hp)
      · exact child_contains h B _ p (ih_tr _ h3 p hp)
      · exact child_contains h B _ p (ih_bl _ h2 p hp)
      · exact child_contains h B _ p (ih_br _ h4 p hp)

theorem count_eq_zero_of_not_contains (h : Heap F) (t : BarnesHutNode F) (B : Bounds F)
    (hw : WF h B t) (a : PRef) (ha : ¬ B.Contains h a) : (particles t).count a = 0 :=
  List.count_eq_zero_of_not_mem (fun hm => ha (WF_inside h t B hw a hm))

/-- In an internal node the particles of a child are the particles of the node
that lie in the bounds of that child. -/
theorem count_child (h : Heap F) (B : Bounds F) (c : Cell F) (tl bl tr br : BarnesHutNode F)
    (h1 : WF h (B.child .TL) tl) (h2 : WF h (B.child .BL) bl)
    (h3 : WF h (B.child .TR) tr) (h4 : WF h (B.child .BR) br) (Q : Quad) (a : PRef) :
    (particles (getChild (.node c none tl bl tr br) Q)).count a
      = if (B.child Q).Contains h a then (particles (.node c none tl bl tr br)).count a
        else 0 := by
  have hall : ∀ Q', WF h (B.child Q') (getChild (.node c none tl bl tr br) Q') := by
    intro Q'; cases Q' <;> assumption
  split_ifs with hin
  · have hz : ∀ Q', Q' ≠ Q →
        (particles (getChild (.node c none tl bl tr br) Q')).count a = 0 := by
      intro Q' hne
      apply count_eq_zero_of_not_contains h _ _ (hall Q')
      intro hin'
      exact child_disjoint h B Q' Q a hne hin' hin
    have e1 := hz .TL
    have e2 := hz .BL
    have e3 := hz .TR
    have e4 := hz .BR
    simp only [getChild] at e1 e2 e3 e4
    cases Q <;>
      simp only [getChild, particles, Option.toList, List.nil_append, List.count_append,
        e1, e2, e3, e4, ne_eq, not_false_eq_true, reduceCtorEq, Nat.add_zero, Nat.zero_add]
  · exact count_eq_zero_of_not_contains h _ _ (hall Q) a hin

theorem cell_skeleton_eq (c1 c2 : Cell F) (hb : c1.bounds = c2.bounds) (h1 : Centered c1)
    (h2 : Centered c2) :
    ({ c1 with totalMass := 0, comX := 0, comY := 0 } : Cell F)
      = { c2 with totalMass := 0, comX := 0, comY := 0 } := by
  obtain ⟨a1, a2⟩ := h1
  obtain ⟨b1, b2⟩ := h2
  simp only [Cell.bounds, Bounds.mk.injEq] at hb
  obtain ⟨e1, e2, e3, e4⟩ := hb
  cases c1
  cases c2
  simp only at a1 a2 b1 b2 e1 e2 e3 e4
  subst e1 e2 e3 e4
  simp only [Cell.mk.injEq, and_true, true_and]
  exact ⟨by rw [a1, b1], by rw [a2, b2]⟩

/-- Two well-formed trees over the same bounds that hold the same particles
are equal up to the aggregate fields. -/
theorem WF_unique (h : Heap F) :
    ∀ (t1 t2 : BarnesHutNode F) (B : Bounds F), WF h B t1 → WF h B t2 →
      (∀ a, (particles t1).count a = (particles t2).count a) →
      skeleton t1 = skeleton t2 := by
  intro t1
  induction t1 with
  | nil => intro t2 B hw; simp [WF] at hw
  | node c1 part1 tl1 bl1 tr1 br1 ih_tl ih_bl ih_tr ih_br =>
    intro t2 B hw1 hw2 hcnt
    cases t2 with
    | nil => simp [WF] at hw2
    | node c2 part2 tl2 bl2 tr2 br2 =>
      have hperm := List.perm_iff_count.mpr hcnt
      have hlen := hperm.length_eq
      have hw1' := hw1
      have hw2' := hw2
      rw [WF] at hw1' hw2'
      obtain ⟨hb1, hc1, hcase1⟩ := hw1'
      obtain ⟨hb2, hc2, hcase2⟩ := hw2'
      have hcell := cell_skeleton_eq c1 c2 (hb1.trans hb2.symm) hc1 hc2
      rcases hcase1 with ⟨rfl, rfl, rfl, rfl, rfl⟩ | ⟨q1, rfl, hq1, rfl, rfl, rfl, rfl⟩ |
        ⟨rfl, hn1, a1, a2, a3, a4⟩
      · rcases hcase2 with ⟨rfl, rfl, rfl, rfl, rfl⟩ | ⟨q2, rfl, hq2, rfl, rfl, rfl, rfl⟩ |
          ⟨rfl, hn2, b1, b2, b3, b4⟩
        · simp only [skeleton, hcell]
        · simp [particles] at hlen
        · simp only [particles, Option.toList, List.nil_append, List.append_nil,
            List.length_nil] at hlen
          omega
      · rcases hcase2 with ⟨rfl, rfl, rfl, rfl, rfl⟩ | ⟨q2, rfl, hq2, rfl, rfl, rfl, rfl⟩ |
          ⟨rfl, hn2, b1, b2, b3, b4⟩
        · simp [particles] at hlen
        · have : q1 = q2 := by
            have := hperm.mem_iff (a := q1)
            simp [particles] at this
            exact this
          subst this
          simp only [skeleton, hcell]
        · simp only [particles, Option.toList, List.nil_append, List.append_nil,
            List.length_singleton] at hlen
          omega
      · rcases hcase2 with ⟨rfl, rfl, rfl, rfl, rfl⟩ | ⟨q2, rfl, hq2, rfl, rfl, rfl, rfl⟩ |
          ⟨rfl, hn2, b1, b2, b3, b4⟩
        · simp only [particles, Option.toList, List.nil_append, List.append_nil,
            List.length_nil] at hlen
          omega
        · simp only [particles, Option.toList, List.nil_append, List.append_nil,
            List.length_singleton] at hlen
          omega
        · have hchild : ∀ Q a, (particles (getChild (.node c1 none tl1 bl1 tr1 br1) Q)).count a
              = (particles (getChild (.node c2 none tl2 bl2 tr2 br2) Q)).count a := by
            intro Q a
            rw [count_child h B c1 tl1 bl1 tr1 br1 a1 a2 a3 a4 Q a,
              count_child h B c2 tl2 bl2 tr2 br2 b1 b2 b3 b4 Q a, hcnt a]
          have e1 := ih_tl tl2 _ a1 b1 (hchild .TL)
          have e2 := ih_bl bl2 _ a2 b2 (hchild .BL)
          have e3 := ih_tr tr2 _ a3 b3 (hchild .TR)
          have e4 := ih_br br2 _ a4 b4 (hchild .BR)
          simp only [skeleton, hcell, e1, e2, e3, e4]

end Canonical

/-! ## C6: rebuilding the tree -/

section ClaimC6

variable {F : Type} [LinearOrderedField F]

theorem insertAll_append (h : Heap F) (fuel : Nat) :
    ∀ (xs ys : List PRef) (t : BarnesHutNode F),
      insertAll h fuel t (xs ++ ys)
        = match insertAll h fuel t xs with
          | .error e => .error e
          | .ok t1 => insertAll h fuel t1 ys := by
  intro xs
  induction xs with
  | nil => intro ys t; rfl
  | cons x xs ih =>
    intro ys t
    simp only [List.cons_append, insertAll]
    cases InsertParticle h fuel t x with
    | error e => rfl
    | ok t1 => exact ih ys t1

/-- On a classified tree `RecreateWithNewPos` inserts the particles of the old
tree into the new root in traversal order. -/
theorem RecreateWithNewPos_eq_insertAll (h : Heap F) (fuel : Nat) :
    ∀ (old : BarnesHutNode F), Classified old → ∀ newRoot : BarnesHutNode F,
      RecreateWithNewPos h fuel old newRoot = insertAll h fuel newRoot (particles old) := by
  intro old
  induction old with
  | nil => intro _ n; rfl
  | node c part tl bl tr br ih_tl ih_bl ih_tr ih_br =>
    intro hc n
    rw [Classified] at hc
    obtain ⟨h0, h1, h2, h3, h4⟩ := hc
    cases part with
    | some q =>
      obtain ⟨rfl, rfl, rfl, rfl⟩ := h0 (by simp)
      simp only [RecreateWithNewPos, particles, Option.toList, List.append_nil, insertAll]
      cases InsertParticle h fuel n q <;> rfl
    | none =>
      simp only [RecreateWithNewPos, particles, Option.toList, List.nil_append,
        insertAll_append, ih_tl h1, ih_tr h3, ih_bl h2, ih_br h4]

theorem WF_Classified (h : Heap F) :
    ∀ (t : BarnesHutNode F) (B : Bounds F), WF h B t → Classified t := by
  intro t
  induction t with
  | nil => intro B hw; simp [WF] at hw
  | node c part tl bl tr br ih_tl ih_bl ih_tr ih_br =>
    intro B hw
    rw [WF] at hw
    obtain ⟨-, -, hcase⟩ := hw
    rw [Classified]
    rcases hcase with ⟨rfl, rfl, rfl, rfl, rfl⟩ | ⟨q, rfl, hq, rfl, rfl, rfl, rfl⟩ |
      ⟨rfl, hn, h1, h2, h3, h4⟩
    · simp [Classified]
    · simp [Classified]
    · exact ⟨fun hne => absurd rfl hne, ih_tl _ h1, ih_bl _ h2, ih_tr _ h3, ih_br _ h4⟩

theorem particles_skeleton :
    ∀ t : BarnesHutNode F, particles (skeleton t) = particles t := by
  intro t
  induction t with
  | nil => rfl
  | node c part tl bl tr br ih_tl ih_bl ih_tr ih_br =>
    simp only [skeleton, particles, ih_tl, ih_bl, ih_tr, ih_br]

theorem skeleton_eq_nil (t : BarnesHutNode F) : skeleton t = .nil ↔ t = .nil := by
  cases t <;> simp [skeleton]

theorem skeleton_isNil (t : BarnesHutNode F) : (skeleton t).isNil = t.isNil := by
  cases t <;> rfl

theorem leafParticles_skeleton :
    ∀ t : BarnesHutNode F, leafParticles (skeleton t) = leafParticles t := by
  intro t
  induction t with
  | nil => rfl
  | node c part tl bl tr br ih_tl ih_bl ih_tr ih_br =>
    simp only [skeleton, leafParticles, skeleton_isNil, ih_tl, ih_bl, ih_tr, ih_br]

theorem WF_skeleton (h : Heap F) :
    ∀ (t : BarnesHutNode F) (B : Bounds F), WF h B (skeleton t) ↔ WF h B t := by
  intro t
  induction t with
  | nil => intro B; rfl
  | node c part tl bl tr br ih_tl ih_bl ih_tr ih_br =>
    intro B
    simp only [skeleton]
    rw [WF, WF]
    simp only [ih_tl, ih_bl, ih_tr, ih_br, particles_skeleton, skeleton_eq_nil]
    rfl

theorem skeleton_CalcCenterOfMass (h : Heap F) :
    ∀ t : BarnesHutNode F, skeleton (CalcCenterOfMass h t) = skeleton t := by
  intro t
  induction t with
  | nil => rfl
  | node c part tl bl tr br ih_tl ih_bl ih_tr ih_br =>
    simp only [CalcCenterOfMass]
    split_ifs
    · cases part <;> rfl
    · simp only [skeleton, ih_tl, ih_bl, ih_tr, ih_br, storeCOM]
      split_ifs <;> rfl

/-- C6. Let `old` be built by the insertion loop from an empty root out of
particles with pairwise distinct positions inside the root bounds, possibly
aggregated since (`aged` is `old` up to `totalMass, comX, comY`), and let no
position have changed. Then `RecreateWithNewPos(aged, new)` on a fresh empty
root `new` with the same bounds returns, and `new` holds the same particle
references in its leaves and has the identical shape: the same nodes with the
same bounds and pivots, the same children and the same particle at each leaf. -/
theorem C6_rebuild_round_trip [Archimedean F] (h : Heap F) (fuel0 : Nat)
    (leftX rightX botY topY : F) (ps : List PRef) (old aged : BarnesHutNode F)
    (hin : ∀ p ∈ ps, (Bounds.mk leftX rightX botY topY).Contains h p)
    (hdist : ps.Pairwise (fun p q => pos h p ≠ pos h q))
    (hbuild : insertAll h fuel0 (CreateNode leftX rightX botY topY none) ps = .ok old)
    (haged : skeleton aged = skeleton old) :
    ∃ fuel new,
      RecreateWithNewPos h fuel aged (CreateNode leftX rightX botY topY none) = .ok new ∧
      leafParticles new = leafParticles aged ∧
      skeleton new = skeleton aged := by
  -- the old tree is well formed and holds the inserted particles
  obtain ⟨f1, old1, hins1, hw1, -, hcnt1⟩ :=
    insertAll_WF h ⟨leftX, rightX, botY, topY⟩ ps (CreateNode leftX rightX botY topY none)
      (WF_CreateNode h leftX rightX botY topY) hin hdist
      (by intro p _ q hq; simp [CreateNode, particles] at hq)
  have hsame : old1 = old := by
    have e1 := insertAll_mono_le h (le_max_left f1 fuel0) _ _ _ hins1
    have e2 := insertAll_mono_le h (le_max_right f1 fuel0) _ _ _ hbuild
    rw [e1] at e2
    exact Except.ok.inj e2
  subst hsame
  have hwa : WF h ⟨leftX, rightX, botY, topY⟩ aged := by
    rw [← WF_skeleton, haged, WF_skeleton]; exact hw1
  have hpa : particles aged = particles old1 := by
    rw [← particles_skeleton aged, haged, particles_skeleton]
  have hperm : (particles aged).Perm ps := by
    rw [hpa]
    apply List.perm_iff_count.mpr
    intro a
    rw [hcnt1 a]
    simp [CreateNode, particles]
  -- reinsert its particles into the fresh root
  obtain ⟨f2, new, hins2, hw2, -, hcnt2⟩ :=
    insertAll_WF h ⟨leftX, rightX, botY, topY⟩ (particles aged)
      (CreateNode leftX rightX botY topY none) (WF_CreateNode h leftX rightX botY topY)
      (WF_inside h aged _ hwa) ((hperm.pairwise_iff (fun hne => Ne.symm hne)).mpr hdist)
      (by intro p _ q hq; simp [CreateNode, particles] at hq)
  have hskel : skeleton new = skeleton aged := by
    apply WF_unique h new aged _ hw2 hwa
    intro a
    rw [hcnt2 a]
    simp [CreateNode, particles]
  refine ⟨f2, new, ?_, ?_, hskel⟩
  · rw [RecreateWithNewPos_eq_insertAll h f2 aged (WF_Classified h aged _ hwa)]
    exact hins2
  · rw [← leafParticles_skeleton new, hskel, leafParticles_skeleton]

/-- C6 at the four-corner tree, rebuilt after aggregation. -/
theorem C6_rebuild_round_trip_witness :
    ∃ fuel new,
      RecreateWithNewPos cornersHeap fuel (CalcCenterOfMass cornersHeap cornersTree)
        (CreateNode (-2) 2 (-2) 2 none) = .ok new ∧
      leafParticles new = leafParticles (CalcCenterOfMass cornersHeap cornersTree) ∧
      skeleton new = skeleton (CalcCenterOfMass cornersHeap cornersTree) :=
  C6_rebuild_round_trip cornersHeap 3 (-2) 2 (-2) 2 [0, 1, 2, 3] cornersTree
    (CalcCenterOfMass cornersHeap cornersTree)
    (by
      intro p hp
      simp only [List.mem_cons, List.mem_singleton, List.not_mem_nil, or_false] at hp
      rcases hp with rfl | rfl | rfl | rfl <;>
        norm_num [Bounds.Contains, cornersHeap, NewParticle])
    (by
      simp only [List.pairwise_cons, List.mem_cons, List.mem_singleton, List.not_mem_nil]
      norm_num [pos, cornersHeap, NewParticle, Prod.ext_iff])
    cornersTree_built
    (skeleton_CalcCenterOfMass cornersHeap cornersTree)

end ClaimC6

/-! ## C7: termination of insertion -/

section ClaimC7

variable {F : Type} [LinearOrderedField F]

/-- A particle inserted into a leaf that holds a particle with the same
coordinates follows it into the same quadrant at every subdivision: no amount
of fuel lets the call return. -/
theorem insert_coincident_diverges (h : Heap F) (p q : PRef) (hpq : pos h p = pos h q) :
    ∀ (fuel : Nat) (c : Cell F),
      InsertParticle h fuel (.node c (some q) .nil .nil .nil .nil) p = .error .outOfFuel := by
  have hx : (h p).x = (h q).x := congrArg Prod.fst hpq
  have hy : (h p).y = (h q).y := congrArg Prod.snd hpq
  intro fuel
  induction fuel using Nat.strong_induction_on with
  | _ fuel ih =>
    intro c
    match fuel with
    | 0 => rfl
    | 1 =>
      rw [InsertParticle_leaf_split]
      rfl
    | 2 =>
      rw [InsertParticle_leaf_split]
      have hne : splitNode c ≠ .nil := by simp [splitNode]
      rw [InsertParticle_node h 0 (splitNode c) q hne rfl .TL
        (by rw [getChild_splitNode]; exact freshChild_ne_nil c _)]
      rfl
    | n + 3 =>
      obtain ⟨cc, hcc, -⟩ := freshChild_spec c (quadrant c (h q).x (h q).y)
      have hsplit_ne : splitNode c ≠ .nil := by simp [splitNode]
      rw [InsertParticle_leaf_split, insert_split_first h n c q cc hcc]
      simp only []
      have hq' : getChild (setChild (splitNode c) (quadrant c (h q).x (h q).y)
          (.node cc (some q) .nil .nil .nil .nil)) (quadrant c (h q).x (h q).y)
          = .node cc (some q) .nil .nil .nil .nil :=
        getChild_setChild_same _ _ _ hsplit_ne
      rw [InsertParticle_node h (n + 1) _ p (setChild_ne_nil _ _ _ hsplit_ne)
        (by rw [setChild_part]; rfl) (quadrant c (h q).x (h q).y) (by rw [hq']; simp)]
      have hcell : (setChild (splitNode c) (quadrant c (h q).x (h q).y)
          (.node cc (some q) .nil .nil .nil .nil)).cell = c := by
        rw [setChild_cell]; rfl
      rw [hcell, hx, hy, hq', orCreate_of_ne_nil _ _ (by simp), ih (n + 1) (by omega) cc]

/-- C7, refuted as stated. In the root `[-2, 2) × [-2, 2)`, inserting particle
`0` at `(0, 0)` gives a leaf; particle `1`, also at `(0, 0)` and so inside the
root bounds, can then not be inserted: the call runs out of every fuel. -/
theorem C7_insertion_not_total :
    InsertParticle coincidentHeap 1 (CreateNode (-2 : ℚ) 2 (-2) 2 none) 0
        = .ok (CreateNode (-2 : ℚ) 2 (-2) 2 (some 0)) ∧
    (Bounds.mk (-2 : ℚ) 2 (-2) 2).Contains coincidentHeap 1 ∧
    ∀ fuel, InsertParticle coincidentHeap fuel (CreateNode (-2 : ℚ) 2 (-2) 2 (some 0)) 1
        = .error .outOfFuel :=
  ⟨rfl, by norm_num [Bounds.Contains, coincidentHeap, NewParticle],
    fun fuel => insert_coincident_diverges coincidentHeap 1 0 rfl fuel _⟩

end ClaimC7

/-! ## The force traversal on the shapes insertion produces -/

section ForceShapes

variable {F : Type} [LinearOrderedField F]

theorem ForceCalculation_self (sqrt : F → F) (h : Heap F) (p : PRef) (c : Cell F)
    (tl bl tr br : BarnesHutNode F) :
    ForceCalculation sqrt h p (.node c (some p) tl bl tr br) = h := by
  simp [ForceCalculation]

theorem ForceCalculation_leaf (sqrt : F → F) (h : Heap F) (p q : PRef) (c : Cell F)
    (tl bl tr br : BarnesHutNode F) (hq : q ≠ p) :
    ForceCalculation sqrt h p (.node c (some q) tl bl tr br) = ForceByNode sqrt h p c := by
  simp [ForceCalculation, hq]

theorem ForceByNode_massless (sqrt : F → F) (h : Heap F) (p : PRef) (c : Cell F)
    (hm : c.totalMass = 0) : ForceByNode sqrt h p c = h := by
  funext q
  by_cases hq : q = p
  · subst hq
    rw [ForceByNode_self, hm]
    cases h q
    simp
  · exact ForceByNode_other sqrt h p q c hq

/-- An empty cell with `totalMass = 0` exerts no force. -/
theorem ForceCalculation_empty (sqrt : F → F) (h : Heap F) (p : PRef) (c : Cell F)
    (hm : c.totalMass = 0) :
    ForceCalculation sqrt h p (.node c none .nil .nil .nil .nil) = h := by
  simp only [ForceCalculation]
  split_ifs <;> first | rfl | exact ForceByNode_massless sqrt h p c hm

/-- A particle-free node that fails the θ test is opened: the traversal visits
its children in the order topLeft, topRight, botLeft, botRight. -/
theorem ForceCalculation_open (sqrt : F → F) (h : Heap F) (p : PRef) (c : Cell F)
    (tl bl tr br : BarnesHutNode F)
    (hθ : ¬ ((c.rightX - c.leftX) /
        sqrt (((h p).x - c.comX) * ((h p).x - c.comX) +
          ((h p).y - c.comY) * ((h p).y - c.comY) + SOFTENING) < THETA)) :
    ForceCalculation sqrt h p (.node c none tl bl tr br)
      = ForceCalculation sqrt (ForceCalculation sqrt (ForceCalculation sqrt
          (ForceCalculation sqrt h p tl) p tr) p bl) p br := by
  simp [ForceCalculation, hθ]

/-- Inserting into a leaf a particle that the pivot separates from the one it
holds: one subdivision, and each particle in the leaf of its quadrant. -/
theorem insert_leaf_separated (h : Heap F) (fuel : Nat) (c : Cell F) (p q : PRef) (Qp Qq : Quad)
    (hQq : quadrant c (h q).x (h q).y = Qq) (hQp : quadrant c (h p).x (h p).y = Qp)
    (hne : Qp ≠ Qq) :
    InsertParticle h (fuel + 3) (.node c (some q) .nil .nil .nil .nil) p
      = .ok (setChild (setChild (splitNode c) Qq
            (.node (freshChild c Qq).cell (some q) .nil .nil .nil .nil)) Qp
          (.node (freshChild c Qp).cell (some p) .nil .nil .nil .nil)) := by
  have hsplit_ne : splitNode c ≠ .nil := by simp [splitNode]
  have hfq : freshChild c Qq = .node (freshChild c Qq).cell none .nil .nil .nil .nil := by
    cases Qq <;> rfl
  have hfp : freshChild c Qp = .node (freshChild c Qp).cell none .nil .nil .nil .nil := by
    cases Qp <;> rfl
  rw [InsertParticle_leaf_split, ← hQq,
    insert_split_first h fuel c q _ (by rw [hQq]; exact hfq), hQq]
  simp only []
  have hq' : getChild (setChild (splitNode c) Qq
      (.node (freshChild c Qq).cell (some q) .nil .nil .nil .nil)) Qq
      = .node (freshChild c Qq).cell (some q) .nil .nil .nil .nil :=
    getChild_setChild_same _ _ _ hsplit_ne
  rw [InsertParticle_node h (fuel + 1) _ p (setChild_ne_nil _ _ _ hsplit_ne)
    (by rw [setChild_part]; rfl) Qq (by rw [hq']; simp)]
  have hcell : (setChild (splitNode c) Qq
      (.node (freshChild c Qq).cell (some q) .nil .nil .nil .nil)).cell = c := by
    rw [setChild_cell]; rfl
  rw [hcell, hQp, getChild_setChild_ne _ _ _ _ hne, getChild_splitNode,
    orCreate_of_ne_nil _ _ (freshChild_ne_nil c _), hfp, InsertParticle_empty]
  rw [← hfp]

end ForceShapes

/-! ## C8: two symmetric particles -/

section ClaimC8

theorem pairHeap_zero : (pairHeap : Heap ℝ) 0 = NewParticle (-1) 0 := rfl

theorem pairHeap_one : (pairHeap : Heap ℝ) 1 = NewParticle 1 0 := rfl

/-- In a root symmetric about the origin the insertion loop puts the two
particles in the leaves of `topLeft` and `topRight`. -/
theorem pairTree_built (L T : ℝ) :
    insertAll pairHeap 3 (CreateNode (-L) L (-T) T none) [0, 1] = .ok (pairTree (-L) L (-T) T) := by
  have hcx : -L + (L - -L) / 2 = 0 := by ring
  have hcy : -T + (T - -T) / 2 = 0 := by ring
  have hq : quadrant (CreateNode (-L) L (-T) T none).cell ((pairHeap : Heap ℝ) 0).x
      ((pairHeap : Heap ℝ) 0).y = .TL := by
    simp [quadrant, CreateNode, BarnesHutNode.cell, pairHeap_zero, NewParticle, hcx, hcy]
  have hp : quadrant (CreateNode (-L) L (-T) T none).cell ((pairHeap : Heap ℝ) 1).x
      ((pairHeap : Heap ℝ) 1).y = .TR := by
    simp [quadrant, CreateNode, BarnesHutNode.cell, pairHeap_one, NewParticle, hcx, hcy]
  have e1 : InsertParticle pairHeap 3 (CreateNode (-L) L (-T) T none) 0
      = .ok (.node (CreateNode (-L) L (-T) T none).cell (some 0) .nil .nil .nil .nil) :=
    InsertParticle_empty pairHeap 2 _ 0
  have e2 := insert_leaf_separated pairHeap 0 (CreateNode (-L) L (-T) T none).cell 1 0
    .TR .TL hq hp (by decide)
  simp only [insertAll, e1]
  rw [show (0 : ℕ) + 3 = 3 from rfl] at e2
  rw [e2]
  rfl

theorem inv_sqrt_cube (d : ℝ) (hd : 0 < d) :
    1 / Real.sqrt d * (1 / Real.sqrt d) * (1 / Real.sqrt d) = 1 / d ^ ((3 : ℝ) / 2) := by
  have h1 : d ^ ((3 : ℝ) / 2) = Real.sqrt d ^ 3 := by
    rw [Real.sqrt_eq_rpow, ← Real.rpow_natCast, ← Real.rpow_mul hd.le]
    norm_num
  have hs : 0 < Real.sqrt d := Real.sqrt_pos.mpr hd
  have h2 : Real.sqrt d ^ 3 = Real.sqrt d * d := by
    rw [pow_succ, pow_two, Real.mul_self_sqrt hd.le]
    ring
  rw [h1, h2]
  field_simp
  ring

/-- The aggregated two-particle tree, node by node. -/
theorem pairTree_aggregated (L T : ℝ) :
    ∃ cr c1 c3 : Cell ℝ,
      CalcCenterOfMass pairHeap (pairTree (-L) L (-T) T)
        = .node cr none (.node c1 (some 0) .nil .nil .nil .nil)
            (freshChild (CreateNode (-L) L (-T) T none).cell .BL)
            (.node c3 (some 1) .nil .nil .nil .nil)
            (freshChild (CreateNode (-L) L (-T) T none).cell .BR) ∧
      cr.comX = 0 ∧ cr.comY = 0 ∧ cr.rightX - cr.leftX = L - -L ∧
      c1.comX = -1 ∧ c1.comY = 0 ∧ c1.totalMass = 1 ∧
      c3.comX = 1 ∧ c3.comY = 0 ∧ c3.totalMass = 1 := by
  refine ⟨_, _, _, rfl, ?_, ?_, ?_, ?_, ?_, ?_, ?_, ?_, ?_⟩ <;>
    norm_num [CalcCenterOfMass, BarnesHutNode.isNil, storeCOM, accumulate, freshChild,
      CreateNode, BarnesHutNode.cell, pairHeap, NewParticle]

theorem sqrt_soft_bounds (x : ℝ) (hx0 : 0 ≤ x) (hx4 : x ≤ 3) :
    0 < Real.sqrt (x + SOFTENING) ∧ Real.sqrt (x + SOFTENING) ≤ 2 := by
  have hs : (0 : ℝ) < SOFTENING := by norm_num [SOFTENING]
  have hs1 : (SOFTENING : ℝ) ≤ 1 := by norm_num [SOFTENING]
  constructor
  · exact Real.sqrt_pos.mpr (by linarith)
  · rw [show (2 : ℝ) = Real.sqrt 4 by
      rw [show (4 : ℝ) = 2 ^ 2 by norm_num, Real.sqrt_sq (by norm_num)]]
    exact Real.sqrt_le_sqrt (by linarith)

/-- A cell at least as wide as `1` fails the θ test against a point mass at
squared distance at most `3`. -/
theorem theta_test_fails (S x : ℝ) (hS : 1 ≤ S) (hx0 : 0 ≤ x) (hx4 : x ≤ 3) :
    ¬ (S / Real.sqrt (x + SOFTENING) < THETA) := by
  obtain ⟨hpos, hle⟩ := sqrt_soft_bounds x hx0 hx4
  rw [div_lt_iff₀ hpos]
  norm_num [THETA]
  linarith

/-- The force on particle `0` of the aggregated two-particle tree. -/
theorem pair_force_zero (L T : ℝ) (hL : 1 < L) :
    ForceCalculation Real.sqrt pairHeap 0 (CalcCenterOfMass pairHeap (pairTree (-L) L (-T) T)) 0
      = { (pairHeap : Heap ℝ) 0 with
          fx := 2 / (4 + 1 / 1000000000) ^ ((3 : ℝ) / 2), fy := 0 } := by
  obtain ⟨cr, c1, c3, hagg, r1, r2, r3, a1, a2, a3, b1, b2, b3⟩ := pairTree_aggregated L T
  obtain ⟨cBL, eBL, -, -, mBL, -⟩ := freshChild_spec (CreateNode (-L) L (-T) T none).cell .BL
  obtain ⟨cBR, eBR, -, -, mBR, -⟩ := freshChild_spec (CreateNode (-L) L (-T) T none).cell .BR
  rw [hagg, eBL, eBR]
  have hθ : ¬ ((cr.rightX - cr.leftX) /
      Real.sqrt ((((pairHeap : Heap ℝ) 0).x - cr.comX) * (((pairHeap : Heap ℝ) 0).x - cr.comX) +
        (((pairHeap : Heap ℝ) 0).y - cr.comY) * (((pairHeap : Heap ℝ) 0).y - cr.comY)
          + SOFTENING) < THETA) := by
    rw [r1, r2, r3]
    apply theta_test_fails
    · linarith
    · exact add_nonneg (mul_self_nonneg _) (mul_self_nonneg _)
    · norm_num [pairHeap, NewParticle]
  rw [ForceCalculation_open Real.sqrt pairHeap 0 cr _ _ _ _ hθ, ForceCalculation_self,
    ForceCalculation_leaf Real.sqrt pairHeap 0 1 c3 _ _ _ _ (by decide),
    ForceCalculation_empty Real.sqrt _ 0 cBL mBL, ForceCalculation_empty Real.sqrt _ 0 cBR mBR,
    ForceByNode_self, b1, b2, b3]
  have hd : ((1 : ℝ) - ((pairHeap : Heap ℝ) 0).x) * (1 - ((pairHeap : Heap ℝ) 0).x) +
      (0 - ((pairHeap : Heap ℝ) 0).y) * (0 - ((pairHeap : Heap ℝ) 0).y) + SOFTENING
      = 4 + 1 / 1000000000 := by
    norm_num [pairHeap, NewParticle, SOFTENING]
  rw [hd, inv_sqrt_cube _ (by norm_num)]
  generalize ((4 : ℝ) + 1 / 1000000000) ^ ((3 : ℝ) / 2) = X
  norm_num [pairHeap, NewParticle]
  ring

/-- The force on particle `1` of the aggregated two-particle tree. -/
theorem pair_force_one (L T : ℝ) (hL : 1 < L) :
    ForceCalculation Real.sqrt pairHeap 1 (CalcCenterOfMass pairHeap (pairTree (-L) L (-T) T)) 1
      = { (pairHeap : Heap ℝ) 1 with
          fx := -(2 / (4 + 1 / 1000000000) ^ ((3 : ℝ) / 2)), fy := 0 } := by
  obtain ⟨cr, c1, c3, hagg, r1, r2, r3, a1, a2, a3, b1, b2, b3⟩ := pairTree_aggregated L T
  obtain ⟨cBL, eBL, -, -, mBL, -⟩ := freshChild_spec (CreateNode (-L) L (-T) T none).cell .BL
  obtain ⟨cBR, eBR, -, -, mBR, -⟩ := freshChild_spec (CreateNode (-L) L (-T) T none).cell .BR
  rw [hagg, eBL, eBR]
  have hθ : ¬ ((cr.rightX - cr.leftX) /
      Real.sqrt ((((pairHeap : Heap ℝ) 1).x - cr.comX) * (((pairHeap : Heap ℝ) 1).x - cr.comX) +
        (((pairHeap : Heap ℝ) 1).y - cr.comY) * (((pairHeap : Heap ℝ) 1).y - cr.comY)
          + SOFTENING) < THETA) := by
    rw [r1, r2, r3]
    apply theta_test_fails
    · linarith
    · exact add_nonneg (mul_self_nonneg _) (mul_self_nonneg _)
    · norm_num [pairHeap, NewParticle]
  rw [ForceCalculation_open Real.sqrt pairHeap 1 cr _ _ _ _ hθ,
    ForceCalculation_leaf Real.sqrt pairHeap 1 0 c1 _ _ _ _ (by decide),
    ForceCalculation_self,
    ForceCalculation_empty Real.sqrt _ 1 cBL mBL, ForceCalculation_empty Real.sqrt _ 1 cBR mBR,
    ForceByNode_self, a1, a2, a3]
  have hd : ((-1 : ℝ) - ((pairHeap : Heap ℝ) 1).x) * (-1 - ((pairHeap : Heap ℝ) 1).x) +
      (0 - ((pairHeap : Heap ℝ) 1).y) * (0 - ((pairHeap : Heap ℝ) 1).y) + SOFTENING
      = 4 + 1 / 1000000000 := by
    norm_num [pairHeap, NewParticle, SOFTENING]
  rw [hd, inv_sqrt_cube _ (by norm_num)]
  generalize ((4 : ℝ) + 1 / 1000000000) ^ ((3 : ℝ) / 2) = X
  norm_num [pairHeap, NewParticle]
  ring

theorem pair_particles (L T : ℝ) :
    particles (CalcCenterOfMass pairHeap (pairTree (-L) L (-T) T)) = [0, 1] := by
  obtain ⟨cr, c1, c3, hagg, -⟩ := pairTree_aggregated L T
  rw [hagg]
  simp [particles, particles_freshChild]

theorem pair_classified (L T : ℝ) :
    Classified (CalcCenterOfMass pairHeap (pairTree (-L) L (-T) T)) := by
  obtain ⟨cr, c1, c3, hagg, -⟩ := pairTree_aggregated L T
  obtain ⟨cBL, eBL, -⟩ := freshChild_spec (CreateNode (-L) L (-T) T none).cell .BL
  obtain ⟨cBR, eBR, -⟩ := freshChild_spec (CreateNode (-L) L (-T) T none).cell .BR
  rw [hagg, eBL, eBR]
  simp [Classified]

/-- The store after the velocity phase on the aggregated two-particle tree. -/
theorem pair_velocity_phase (L T : ℝ) (hL : 1 < L) :
    CalcVelocityForAll Real.sqrt (CalcCenterOfMass pairHeap (pairTree (-L) L (-T) T)) (1 / 100)
        pairHeap (CalcCenterOfMass pairHeap (pairTree (-L) L (-T) T)) 0
      = { x := -1, y := 0, vx := 1 / 100 * (2 / (4 + 1 / 1000000000) ^ ((3 : ℝ) / 2)), vy := 0,
          fx := 2 / (4 + 1 / 1000000000) ^ ((3 : ℝ) / 2), fy := 0 } ∧
    CalcVelocityForAll Real.sqrt (CalcCenterOfMass pairHeap (pairTree (-L) L (-T) T)) (1 / 100)
        pairHeap (CalcCenterOfMass pairHeap (pairTree (-L) L (-T) T)) 1
      = { x := 1, y := 0, vx := -(1 / 100 * (2 / (4 + 1 / 1000000000) ^ ((3 : ℝ) / 2))), vy := 0,
          fx := -(2 / (4 + 1 / 1000000000) ^ ((3 : ℝ) / 2)), fy := 0 } := by
  rw [CalcVelocityForAll_eq_foldl, pair_particles]
  constructor
  · rw [foldl_CalcVelocity Real.sqrt _ _ 0 [0, 1] pairHeap (by decide), if_pos (by decide)]
    simp only [CalcVelocity, Function.update_same, pair_force_zero L T hL]
    generalize ((4 : ℝ) + 1 / 1000000000) ^ ((3 : ℝ) / 2) = X
    norm_num [pairHeap, NewParticle]
  · rw [foldl_CalcVelocity Real.sqrt _ _ 1 [0, 1] pairHeap (by decide), if_pos (by decide)]
    simp only [CalcVelocity, Function.update_same, pair_force_one L T hL]
    generalize ((4 : ℝ) + 1 / 1000000000) ^ ((3 : ℝ) / 2) = X
    norm_num [pairHeap, NewParticle]

/-- C8. Two particles at `(-1, 0)` and `(1, 0)`, at rest and force-free, are
inserted into an empty root `[-L, L) × [-T, T)` with `L > 1` (pivot `(0, 0)`).
After aggregation and one velocity phase with `dt = 0.01` over the reals
(`SOFTENING = 1e-9`, `THETA = 0.5`) the particle at `(-1, 0)` has
`vx = 0.01 * 2 / (4 + 1e-9)^(3/2)`, the one at `(1, 0)` has the negative of it,
and both have `vy = 0`; after the position phase the two `x` coordinates are
strictly closer to each other than before. -/
theorem C8_two_symmetric_particles (L T : ℝ) (hL : 1 < L) :
    ∃ root : BarnesHutNode ℝ,
      insertAll pairHeap 3 (CreateNode (-L) L (-T) T none) [0, 1] = .ok root ∧
      (CalcVelocityForAll Real.sqrt (CalcCenterOfMass pairHeap root) (1 / 100) pairHeap
          (CalcCenterOfMass pairHeap root) 0).vx
        = 1 / 100 * (2 / (4 + 1 / 1000000000) ^ ((3 : ℝ) / 2)) ∧
      (CalcVelocityForAll Real.sqrt (CalcCenterOfMass pairHeap root) (1 / 100) pairHeap
          (CalcCenterOfMass pairHeap root) 1).vx
        = -(1 / 100 * (2 / (4 + 1 / 1000000000) ^ ((3 : ℝ) / 2))) ∧
      (CalcVelocityForAll Real.sqrt (CalcCenterOfMass pairHeap root) (1 / 100) pairHeap
          (CalcCenterOfMass pairHeap root) 0).vy = 0 ∧
      (CalcVelocityForAll Real.sqrt (CalcCenterOfMass pairHeap root) (1 / 100) pairHeap
          (CalcCenterOfMass pairHeap root) 1).vy = 0 ∧
      |(CalcNewPositions
            (CalcVelocityForAll Real.sqrt (CalcCenterOfMass pairHeap root) (1 / 100) pairHeap
              (CalcCenterOfMass pairHeap root))
            (1 / 100) (CalcCenterOfMass pairHeap root) 1).x -
          (CalcNewPositions
            (CalcVelocityForAll Real.sqrt (CalcCenterOfMass pairHeap root) (1 / 100) pairHeap
              (CalcCenterOfMass pairHeap root))
            (1 / 100) (CalcCenterOfMass pairHeap root) 0).x|
        < |((pairHeap : Heap ℝ) 1).x - ((pairHeap : Heap ℝ) 0).x| := by
  obtain ⟨v0, v1⟩ := pair_velocity_phase L T hL
  refine ⟨pairTree (-L) L (-T) T, pairTree_built L T, ?_, ?_, ?_, ?_, ?_⟩
  · rw [v0]
  · rw [v1]
  · rw [v0]
  · rw [v1]
  · rw [CalcNewPositions_eq_foldl _ _ _ (pair_classified L T), pair_particles,
      foldl_updatePosition _ 1 [0, 1] _ (by decide), if_pos (by decide),
      foldl_updatePosition _ 0 [0, 1] _ (by decide), if_pos (by decide),
      updatePosition_self, updatePosition_self, v0, v1]
    have hX : (1 : ℝ) ≤ ((4 : ℝ) + 1 / 1000000000) ^ ((3 : ℝ) / 2) :=
      Real.one_le_rpow (by norm_num) (by norm_num)
    generalize ((4 : ℝ) + 1 / 1000000000) ^ ((3 : ℝ) / 2) = X at hX
    have hF1 : 0 < 2 / X := by positivity
    have hF2 : 2 / X ≤ 2 := by
      rw [div_le_iff₀ (by linarith)]
      linarith
    simp only [pairHeap, NewParticle]
    norm_num
    rw [abs_lt]
    constructor <;> nlinarith

/-- C8 in the root `[-2, 2) × [-2, 2)`. -/
theorem C8_two_symmetric_particles_witness :
    ∃ root : BarnesHutNode ℝ,
      insertAll pairHeap 3 (CreateNode (-2) 2 (-2) 2 none) [0, 1] = .ok root ∧
      (CalcVelocityForAll Real.sqrt (CalcCenterOfMass pairHeap root) (1 / 100) pairHeap
          (CalcCenterOfMass pairHeap root) 0).vx
        = 1 / 100 * (2 / (4 + 1 / 1000000000) ^ ((3 : ℝ) / 2)) ∧
      (CalcVelocityForAll Real.sqrt (CalcCenterOfMass pairHeap root) (1 / 100) pairHeap
          (CalcCenterOfMass pairHeap root) 1).vx
        = -(1 / 100 * (2 / (4 + 1 / 1000000000) ^ ((3 : ℝ) / 2))) ∧
      (CalcVelocityForAll Real.sqrt (CalcCenterOfMass pairHeap root) (1 / 100) pairHeap
          (CalcCenterOfMass pairHeap root) 0).vy = 0 ∧
      (CalcVelocityForAll Real.sqrt (CalcCenterOfMass pairHeap root) (1 / 100) pairHeap
          (CalcCenterOfMass pairHeap root) 1).vy = 0 ∧
      |(CalcNewPositions
            (CalcVelocityForAll Real.sqrt (CalcCenterOfMass pairHeap root) (1 / 100) pairHeap
              (CalcCenterOfMass pairHeap root))
            (1 / 100) (CalcCenterOfMass pairHeap root) 1).x -
          (CalcNewPositions
            (CalcVelocityForAll Real.sqrt (CalcCenterOfMass pairHeap root) (1 / 100) pairHeap
              (CalcCenterOfMass pairHeap root))
            (1 / 100) (CalcCenterOfMass pairHeap root) 0).x|
        < |((pairHeap : Heap ℝ) 1).x - ((pairHeap : Heap ℝ) 0).x| :=
  C8_two_symmetric_particles 2 2 (by norm_num)

end ClaimC8

/-! ## C9: a single particle stays where it is -/

section ClaimC9

variable {F : Type} [LinearOrderedField F]

theorem setPC_heap (w : Nat) (c : PC F) (s : Phase F) : (setPC w c s).heap = s.heap := rfl

theorem procStep_heap (act : Heap F → PRef → Heap F) (w : Nat) (node : BarnesHutNode F)
    (k : Nat) (s : Phase F) :
    (procStep act w node k s).heap = s.heap ∨
      ∃ q, (procStep act w node k s).heap = act s.heap q := by
  cases node with
  | nil => left; rfl
  | node c part tl bl tr br =>
    match k with
    | 0 => left; simp [procStep, setPC_heap, pushChild_heap]
    | 1 => left; simp [procStep, setPC_heap, pushChild_heap]
    | 2 => left; simp [procStep, setPC_heap, pushChild_heap]
    | 3 => left; simp [procStep, setPC_heap, pushChild_heap]
    | 4 =>
      cases part with
      | none => left; rfl
      | some q => right; exact ⟨q, rfl⟩
    | n + 5 => left; rfl

/-- A step of a worker leaves the store as it was or applies the update of the
phase to one particle. -/
theorem workerStep_heap (act : Heap F → PRef → Heap F) (numThreads : Nat) (nParticles : Int)
    (w : Nat) (s : Phase F) :
    (workerStep act numThreads nParticles w s).heap = s.heap ∨
      ∃ q, (workerStep act numThreads nParticles w s).heap = act s.heap q := by
  unfold workerStep
  split
  · left
    simp only [loopStep]
    split_ifs <;> rfl
  · left
    simp only [stealStep]
    split_ifs <;> rfl
  · left
    simp only [checkStep]
    split_ifs <;> rfl
  · exact procStep_heap act _ _ _ s
  · left; rfl

/-- A property of one particle that every update of the phase keeps is kept by
every interleaving of the workers. -/
theorem runWorkers_heap_inv (act : Heap F → PRef → Heap F) (numThreads : Nat)
    (nParticles : Int) (p : PRef) (z : Particle F)
    (hact : ∀ (h : Heap F) (q : PRef), h p = z → act h q p = z) :
    ∀ (sched : List Nat) (s : Phase F), s.heap p = z →
      (runWorkers act numThreads nParticles sched s).heap p = z := by
  intro sched
  induction sched with
  | nil => intro s hs; exact hs
  | cons w sched ih =>
    intro s hs
    simp only [runWorkers, List.foldl_cons]
    apply ih
    split_ifs
    · rcases workerStep_heap act numThreads nParticles w s with e | ⟨q, e⟩
      · rw [e]; exact hs
      · rw [e]; exact hact _ q hs
    · exact hs

theorem CalcVelocity_at_rest (sqrt : F → F) (h : Heap F) (p q : PRef) (c : Cell F) (dt : F)
    (hp : h p = NewParticle 0 0) :
    CalcVelocity sqrt h q (.node c (some p) .nil .nil .nil .nil) dt p = NewParticle 0 0 := by
  by_cases hq : p = q
  · subst hq
    simp [CalcVelocity, ForceCalculation_self, hp, NewParticle]
  · rw [CalcVelocity_other sqrt h q p _ dt hq, hp]

theorem updatePosition_at_rest (h : Heap F) (p q : PRef) (dt : F)
    (hp : h p = NewParticle 0 0) : updatePosition h q dt p = NewParticle 0 0 := by
  by_cases hq : p = q
  · subst hq
    simp [updatePosition, hp, NewParticle]
  · rw [updatePosition_other h q p dt hq, hp]

/-- One call of `RunSimulation` on the single leaf holding a particle at rest at
the origin: if it returns, the particle is as before and the tree is the leaf,
aggregated. -/
theorem RunSimulation_single (sqrt : F → F) (h : Heap F) (p : PRef) (c : Cell F)
    (numThreads : Nat) (dt : F) (nParticles : Int) (schedV schedP : List Nat)
    (h1 : Heap F) (root1 : BarnesHutNode F) (hp : h p = NewParticle 0 0)
    (hrun : RunSimulation sqrt h (.node c (some p) .nil .nil .nil .nil) numThreads dt
      nParticles schedV schedP = .ok (h1, root1)) :
    h1 p = NewParticle 0 0 ∧
    root1 = .node { c with totalMass := 1, comX := (h p).x, comY := (h p).y } (some p)
      .nil .nil .nil .nil := by
  unfold RunSimulation at hrun
  simp only [CalcCenterOfMassParallel, BarnesHutNode.isNil, Bool.and_self, if_true] at hrun
  split_ifs at hrun with h0 hV hP
  simp only [Except.ok.injEq, Prod.mk.injEq] at hrun
  obtain ⟨e1, e2⟩ := hrun
  refine ⟨?_, e2.symm⟩
  rw [← e1]
  apply runWorkers_heap_inv _ _ _ p _ (fun h q hh => updatePosition_at_rest h p q dt hh)
  show (runWorkers _ numThreads nParticles schedV _).heap p = NewParticle 0 0
  apply runWorkers_heap_inv _ _ _ p _ (fun h q hh => CalcVelocity_at_rest sqrt h p q _ dt hh)
  exact hp

/-- With one worker, eleven steps carry a phase on a single leaf from start to
the return of the worker. -/
theorem single_leaf_phase_done (act : Heap F → PRef → Heap F) (h : Heap F) (p : PRef)
    (c : Cell F) :
    phaseDone 1 (runWorkers act 1 1 (List.replicate 11 0)
      (startPhase h (.node c (some p) .nil .nil .nil .nil))) = true := by
  rfl

theorem RunSimulation_single_runs (sqrt : F → F) (h : Heap F) (p : PRef) (c : Cell F) (dt : F) :
    ∃ h1, RunSimulation sqrt h (.node c (some p) .nil .nil .nil .nil) 1 dt 1
        (List.replicate 11 0) (List.replicate 11 0)
      = .ok (h1, .node { c with totalMass := 1, comX := (h p).x, comY := (h p).y } (some p)
          .nil .nil .nil .nil) := by
  unfold RunSimulation
  simp only [CalcCenterOfMassParallel, BarnesHutNode.isNil, Bool.and_self, if_true,
    single_leaf_phase_done, one_ne_zero, if_false]
  exact ⟨_, rfl⟩

/-- The main loop on the single leaf holding a particle at rest at the origin:
whatever the number of workers and their interleavings, a run that returns
leaves the particle and the tree as they were. -/
theorem mainLoop_single (sqrt : F → F) (leftX rightX botY topY : F) (numThreads : Nat)
    (dt : F) (nParticles : Int) (fuel : Nat) (p : PRef) :
    ∀ (scheds : List (List Nat × List Nat)) (h h' : Heap F) (root' : BarnesHutNode F),
      h p = NewParticle 0 0 →
      mainLoop sqrt leftX rightX botY topY numThreads dt nParticles fuel scheds h
        (CreateNode leftX rightX botY topY (some p)) = .ok (h', root') →
      h' p = NewParticle 0 0 ∧ root' = CreateNode leftX rightX botY topY (some p) := by
  intro scheds
  induction scheds with
  | nil =>
    intro h h' root' hp hrun
    simp only [mainLoop, Except.ok.injEq, Prod.mk.injEq] at hrun
    obtain ⟨rfl, rfl⟩ := hrun
    exact ⟨hp, rfl⟩
  | cons sc rest ih =>
    intro h h' root' hp hrun
    obtain ⟨schedV, schedP⟩ := sc
    rw [mainLoop] at hrun
    cases hsim : RunSimulation sqrt h (CreateNode leftX rightX botY topY (some p)) numThreads dt
        nParticles schedV schedP with
    | error e => simp [hsim] at hrun
    | ok res =>
      obtain ⟨h1, root1⟩ := res
      obtain ⟨hp1, hroot1⟩ := RunSimulation_single sqrt h p _ numThreads dt nParticles
        schedV schedP h1 root1 hp hsim
      simp only [hsim, hroot1, RecreateWithNewPos] at hrun
      cases fuel with
      | zero => simp [InsertParticle] at hrun
      | succ n =>
        simp only [CreateNode, InsertParticle_empty] at hrun
        exact ih h1 h' root' hp1 hrun

/-- With one worker the main loop on the single leaf returns after any number
of iterations. -/
theorem mainLoop_single_runs (sqrt : F → F) (leftX rightX botY topY : F) (dt : F) (p : PRef) :
    ∀ (k : Nat) (h : Heap F), ∃ h',
      mainLoop sqrt leftX rightX botY topY 1 dt 1 1
        (List.replicate k (List.replicate 11 0, List.replicate 11 0)) h
        (CreateNode leftX rightX botY topY (some p))
      = .ok (h', CreateNode leftX rightX botY topY (some p)) := by
  intro k
  induction k with
  | zero => intro h; exact ⟨h, rfl⟩
  | succ k ih =>
    intro h
    obtain ⟨h1, hsim⟩ := RunSimulation_single_runs sqrt h p
      (CreateNode leftX rightX botY topY (some p)).cell dt
    obtain ⟨h', hrest⟩ := ih h1
    refine ⟨h', ?_⟩
    rw [List.replicate_succ, mainLoop]
    have hsim' : RunSimulation sqrt h (CreateNode leftX rightX botY topY (some p)) 1 dt 1
        (List.replicate 11 0) (List.replicate 11 0) = .ok (h1, _) := hsim
    simp only [hsim', RecreateWithNewPos]
    have hins : InsertParticle h1 1 (CreateNode leftX rightX botY topY none) p
        = .ok (CreateNode leftX rightX botY topY (some p)) := InsertParticle_empty h1 0 _ p
    simp only [hins]
    exact hrest

/-- C9. Let the tree be the single leaf that holds a particle `p` created by
`NewParticle(0, 0)`, and let `k` iterations of the main loop run (each one:
aggregation, velocity phase, position phase, rebuild into a fresh root with the
same bounds), with any `dt`. Whatever the number of workers and their
interleavings, a run that returns leaves `p` with position, velocity and force
`(0, 0)` and the tree as it was; with one worker such a run exists; and
`ForceCalculation` returns the store unchanged on the leaf holding `p` itself. -/
theorem C9_single_particle_stays_at_rest (sqrt : F → F) (leftX rightX botY topY dt : F)
    (h : Heap F) (p : PRef) (k : Nat) (hp : h p = NewParticle 0 0) :
    (∀ (numThreads fuel : Nat) (scheds : List (List Nat × List Nat)) (h' : Heap F)
        (root' : BarnesHutNode F), scheds.length = k →
      mainLoop sqrt leftX rightX botY topY numThreads dt 1 fuel scheds h
        (CreateNode leftX rightX botY topY (some p)) = .ok (h', root') →
      h' p = NewParticle 0 0 ∧ root' = CreateNode leftX rightX botY topY (some p)) ∧
    (∃ h', mainLoop sqrt leftX rightX botY topY 1 dt 1 1
        (List.replicate k (List.replicate 11 0, List.replicate 11 0)) h
        (CreateNode leftX rightX botY topY (some p))
      = .ok (h', CreateNode leftX rightX botY topY (some p)) ∧ h' p = NewParticle 0 0) ∧
    (∀ (g : Heap F) (c : Cell F) (tl bl tr br : BarnesHutNode F),
      ForceCalculation sqrt g p (.node c (some p) tl bl tr br) = g) := by
  refine ⟨?_, ?_, ?_⟩
  · intro numThreads fuel scheds h' root' _ hrun
    exact mainLoop_single sqrt leftX rightX botY topY numThreads dt 1 fuel p scheds h h' root'
      hp hrun
  · obtain ⟨h', hrun⟩ := mainLoop_single_runs sqrt leftX rightX botY topY dt p k h
    exact ⟨h', hrun, (mainLoop_single sqrt leftX rightX botY topY 1 dt 1 1 p _ h h' _ hp hrun).1⟩
  · intro g c tl bl tr br
    exact ForceCalculation_self sqrt g p c tl bl tr br

/-- C9 for three iterations with `dt = 1/100` in the root `[-2, 2) × [-2, 2)`. -/
theorem C9_single_particle_stays_at_rest_witness :
    (∀ (numThreads fuel : Nat) (scheds : List (List Nat × List Nat)) (h' : Heap ℚ)
        (root' : BarnesHutNode ℚ), scheds.length = 3 →
      mainLoop id (-2) 2 (-2) 2 numThreads (1 / 100) 1 fuel scheds coincidentHeap
        (CreateNode (-2) 2 (-2) 2 (some 0)) = .ok (h', root') →
      h' 0 = NewParticle 0 0 ∧ root' = CreateNode (-2) 2 (-2) 2 (some 0)) ∧
    (∃ h', mainLoop id (-2) 2 (-2) 2 1 (1 / 100) 1 1
        (List.replicate 3 (List.replicate 11 0, List.replicate 11 0)) coincidentHeap
        (CreateNode (-2) 2 (-2) 2 (some 0))
      = .ok (h', CreateNode (-2) 2 (-2) 2 (some 0)) ∧ h' 0 = NewParticle 0 0) ∧
    (∀ (g : Heap ℚ) (c : Cell ℚ) (tl bl tr br : BarnesHutNode ℚ),
      ForceCalculation id g 0 (.node c (some 0) tl bl tr br) = g) :=
  C9_single_particle_stays_at_rest id (-2) 2 (-2) 2 (1 / 100) coincidentHeap 0 3 rfl

end ClaimC9

/-! ## The work-stealing scheduler under every interleaving -/

section Scheduler

variable {F : Type} [LinearOrderedField F]

theorem sum_update_range {α M : Type} [AddCommMonoid M] (T : Nat) (f : Nat → α) (g : α → M)
    (w : Nat) (hw : w < T) (b : α) :
    (∑ i ∈ Finset.range T, g (Function.update f w b i)) + g (f w)
      = (∑ i ∈ Finset.range T, g (f i)) + g b := by
  have hmem : w ∈ Finset.range T := Finset.mem_range.mpr hw
  rw [← Finset.add_sum_erase _ _ hmem,
    ← Finset.add_sum_erase (Finset.range T) (fun i => g (f i)) hmem]
  have hrest : ∑ i ∈ (Finset.range T).erase w, g (Function.update f w b i)
      = ∑ i ∈ (Finset.range T).erase w, g (f i) := by
    apply Finset.sum_congr rfl
    intro i hi
    rw [Function.update_noteq (Finset.ne_of_mem_erase hi)]
  rw [hrest, Function.update_same]
  abel

theorem wrapInt32_add (x y : Int) : wrapInt32 (wrapInt32 x + y) = wrapInt32 (x + y) := by
  unfold wrapInt32
  omega

theorem wrapInt32_of_range (x : Int) (h0 : 0 ≤ x) (h1 : x < 2147483648) : wrapInt32 x = x := by
  unfold wrapInt32
  omega

theorem PopFront_found (d : Deque F) (hf : d.PopFront.2.1 = true) (a : PRef) :
    d.held.count a = (particles d.PopFront.1.Node).count a + d.PopFront.2.2.held.count a := by
  cases d with
  | mk tasks =>
    cases tasks with
    | nil => simp [Deque.PopFront] at hf
    | cons t rest => simp [Deque.PopFront, Deque.held, List.count_append]

theorem PopFront_not_found (d : Deque F) (hf : d.PopFront.2.1 = false) : d.tasks = [] := by
  cases d with
  | mk tasks =>
    cases tasks with
    | nil => rfl
    | cons t rest => simp [Deque.PopFront] at hf

theorem PopBack_found (d : Deque F) (hf : d.PopBack.2.1 = true) (a : PRef) :
    d.held.count a = (particles d.PopBack.1.Node).count a + d.PopBack.2.2.held.count a ∧
      d.tasks ≠ [] := by
  cases d with
  | mk tasks =>
    cases hrev : tasks.reverse with
    | nil => simp [Deque.PopBack, hrev] at hf
    | cons t rest =>
      have htasks : tasks = rest.reverse ++ [t] := by
        rw [← List.reverse_reverse tasks, hrev, List.reverse_cons]
      subst htasks
      simp [Deque.PopBack, Deque.held, List.count_append]
      omega

theorem PopBack_not_found (d : Deque F) (hf : d.PopBack.2.1 = false) : d.tasks = [] := by
  cases d with
  | mk tasks =>
    cases hrev : tasks.reverse with
    | nil => simpa using hrev
    | cons t rest => simp [Deque.PopBack, hrev] at hf

theorem held_proc_zero (n : BarnesHutNode F) (a : PRef) :
    (PC.held (.proc n 0)).count a = (particles n).count a := by
  cases n with
  | nil => rfl
  | node c part tl bl tr br =>
    simp only [PC.held, particles, List.count_append]
    simp
    omega

/-- The invariant after a step that moves worker `w` to the control point `c`,
replaces the deque of `v` by `d`, and sets the log and the counter. -/
theorem SchedInv_update (T : Nat) (root : BarnesHutNode F) (s : Phase F)
    (hinv : SchedInv T root s) (w v : Nat) (hw : w < T) (hv : v < T) (c : PC F) (d : Deque F)
    (log' : List PRef) (cnt' : Int) (heap' : Heap F)
    (h2 : ∀ a, log'.count a + d.held.count a + c.held.count a
      = s.log.count a + (s.deques v).held.count a + (s.pc w).held.count a)
    (δ : Int) (hδ : δ = ((log'.length : Int) - s.log.length) - (c.uncounted - (s.pc w).uncounted))
    (h1 : cnt' = wrapInt32 (s.tasksProcessed + δ))
    (h3 : c.idle = true → (Function.update s.deques v d w).tasks = [])
    (h3' : v ≠ w → (s.pc v).idle = true → d.tasks = []) :
    SchedInv T root
      { heap := heap', deques := Function.update s.deques v d, tasksProcessed := cnt',
        pc := Function.update s.pc w c, log := log' } := by
  obtain ⟨i2, i1, i3⟩ := hinv
  refine ⟨?_, ?_, ?_⟩
  · intro a
    have e1 := sum_update_range T s.deques (fun x => x.held.count a) v hv d
    have e2 := sum_update_range T s.pc (fun x => x.held.count a) w hw c
    have e3 := i2 a
    have e4 := h2 a
    simp only at e1 e2 ⊢
    omega
  · have e2 := sum_update_range T s.pc (fun x => x.uncounted) w hw c
    simp only at e2 ⊢
    rw [h1, i1, hδ]
    unfold wrapInt32
    omega
  · intro u hu hidle
    simp only at hidle ⊢
    by_cases huw : u = w
    · subst huw
      rw [Function.update_same] at hidle
      exact h3 hidle
    · rw [Function.update_noteq huw] at hidle
      by_cases huv : u = v
      · subst huv
        rw [Function.update_same]
        exact h3' huw hidle
      · rw [Function.update_noteq huv]
        exact i3 u hu hidle

theorem counter_same (T : Nat) (root : BarnesHutNode F) (s : Phase F)
    (hinv : SchedInv T root s) : s.tasksProcessed = wrapInt32 (s.tasksProcessed + 0) := by
  have h1 := hinv.2.1
  generalize (s.log.length : Int) - ∑ w ∈ Finset.range T, (s.pc w).uncounted = X at h1
  rw [h1]
  unfold wrapInt32
  omega

/-- The invariant after a step that only moves worker `w`. -/
theorem SchedInv_setPC (T : Nat) (root : BarnesHutNode F) (s : Phase F)
    (hinv : SchedInv T root s) (w : Nat) (hw : w < T) (c : PC F)
    (h2 : ∀ a, c.held.count a = (s.pc w).held.count a)
    (h1 : c.uncounted = (s.pc w).uncounted)
    (h3 : c.idle = true → (s.deques w).tasks = []) :
    SchedInv T root (setPC w c s) := by
  have key := SchedInv_update T root s hinv w w hw hw c (s.deques w) s.log s.tasksProcessed
    s.heap (by intro a; rw [h2 a]) 0 (by rw [h1]; ring) (counter_same T root s hinv)
    (by rw [Function.update_eq_self]; exact h3) (fun hne => absurd rfl hne)
  rw [Function.update_eq_self] at key
  exact key

/-- The invariant after a push of a child by worker `w`. -/
theorem SchedInv_pushChild (T : Nat) (root : BarnesHutNode F) (s : Phase F)
    (hinv : SchedInv T root s) (w : Nat) (hw : w < T) (child : BarnesHutNode F) (c : PC F)
    (h2 : ∀ a, c.held.count a + (particles child).count a = (s.pc w).held.count a)
    (h1 : c.uncounted = (s.pc w).uncounted) (h3 : c.idle = false) :
    SchedInv T root (setPC w c (pushChild w child s)) := by
  unfold pushChild
  split_ifs with hnil
  · rw [isNil_iff] at hnil
    subst hnil
    apply SchedInv_setPC T root s hinv w hw c _ h1 (by rw [h3]; intro hf; cases hf)
    intro a
    have := h2 a
    simpa [particles] using this
  · exact SchedInv_update T root s hinv w w hw hw c _ s.log s.tasksProcessed s.heap
      (by
        intro a
        have := h2 a
        simp only [Deque.PushFront, Deque.held, List.flatMap_cons, List.count_append] at this ⊢
        omega)
      0 (by rw [h1]; ring) (counter_same T root s hinv)
      (by rw [h3]; intro hf; cases hf) (fun hne => absurd rfl hne)

theorem uncounted_proc_lt (n : BarnesHutNode F) (k : Nat) (hk : k < 5) :
    PC.uncounted (.proc n k) = 0 := by
  cases n with
  | nil => rfl
  | node c part tl bl tr br =>
    simp only [PC.uncounted]
    rw [if_neg (by omega)]

/-- Every step of a worker keeps the invariant of the phase. -/
theorem workerStep_SchedInv (act : Heap F → PRef → Heap F) (T : Nat) (n : Int)
    (root : BarnesHutNode F) (w : Nat) (hw : w < T) (s : Phase F)
    (hinv : SchedInv T root s) : SchedInv T root (workerStep act T n w s) := by
  have i3 := hinv.2.2
  unfold workerStep
  split
  · -- at the head of the loop
    rename_i hpc
    simp only [loopStep]
    split_ifs with hf
    · exact SchedInv_update T root s hinv w w hw hw _ _ s.log s.tasksProcessed s.heap
        (by
          intro a
          rw [held_proc_zero, hpc, PopFront_found _ hf a]
          simp only [PC.held, List.count_nil]
          omega)
        0 (by rw [uncounted_proc_lt _ 0 (by omega), hpc]; simp [PC.uncounted])
        (counter_same T root s hinv)
        (by intro hf; cases hf) (fun hne => absurd rfl hne)
    · apply SchedInv_setPC T root s hinv w hw
      · intro a; rw [hpc]; rfl
      · rw [hpc]; rfl
      · intro _
        exact PopFront_not_found _ (by simpa using hf)
  · -- in stealTask
    rename_i i hpc
    have hidle : (s.deques w).tasks = [] := i3 w hw (by rw [hpc]; rfl)
    simp only [stealStep]
    split_ifs with hi hvw hf hnil
    · apply SchedInv_setPC T root s hinv w hw
      · intro a; rw [hpc]; rfl
      · rw [hpc]; rfl
      · intro _; exact hidle
    · have hv : (w + i) % T < T := Nat.mod_lt _ (by omega)
      obtain ⟨-, hne⟩ := PopBack_found _ hf 0
      refine SchedInv_update T root s hinv w ((w + i) % T) hw hv _ _ s.log s.tasksProcessed
        s.heap ?_ 0 ?_ (counter_same T root s hinv) ?_ ?_
      · intro a
        rw [hpc, (PopBack_found _ hf a).1]
        rw [isNil_iff] at hnil
        rw [hnil]
        simp [PC.held, particles]
      · rw [hpc]
        simp [PC.uncounted]
      · intro _
        rw [Function.update_noteq (Ne.symm hvw)]
        exact hidle
      · intro _ hvidle
        exact absurd (i3 _ hv hvidle) hne
    · have hv : (w + i) % T < T := Nat.mod_lt _ (by omega)
      obtain ⟨-, hne⟩ := PopBack_found _ hf 0
      refine SchedInv_update T root s hinv w ((w + i) % T) hw hv _ _ s.log s.tasksProcessed
        s.heap ?_ 0 ?_ (counter_same T root s hinv) ?_ ?_
      · intro a
        rw [hpc, (PopBack_found _ hf a).1, held_proc_zero]
        simp only [PC.held, List.count_nil]
        omega
      · rw [hpc, uncounted_proc_lt _ 0 (by omega)]
        simp [PC.uncounted]
      · intro hf'
        cases hf'
      · intro _ hvidle
        exact absurd (i3 _ hv hvidle) hne
    · apply SchedInv_setPC T root s hinv w hw
      · intro a; rw [hpc]; rfl
      · rw [hpc]; rfl
      · intro _; exact hidle
    · apply SchedInv_setPC T root s hinv w hw
      · intro a; rw [hpc]; rfl
      · rw [hpc]; rfl
      · intro _; exact hidle
  · -- at the test of the counter
    rename_i hpc
    have hidle : (s.deques w).tasks = [] := i3 w hw (by rw [hpc]; rfl)
    simp only [checkStep]
    split_ifs
    · apply SchedInv_setPC T root s hinv w hw
      · intro a; rw [hpc]; rfl
      · rw [hpc]; rfl
      · intro _; exact hidle
    · apply SchedInv_setPC T root s hinv w hw
      · intro a; rw [hpc]; rfl
      · rw [hpc]; rfl
      · intro hf; cases hf
  · -- in the subtree processor
    rename_i node k hpc
    cases node with
    | nil =>
      apply SchedInv_setPC T root s hinv w hw
      · intro a; rw [hpc]; rfl
      · rw [hpc]; rfl
      · intro hf; cases hf
    | node c part tl bl tr br =>
      match k with
      | 0 =>
        refine SchedInv_pushChild T root s hinv w hw tl
          (.proc (.node c part tl bl tr br) 1) ?_ ?_ rfl
        · intro a
          rw [hpc]
          simp only [PC.held, List.count_append]
          simp
          omega
        · rw [hpc]; rfl
      | 1 =>
        refine SchedInv_pushChild T root s hinv w hw tr
          (.proc (.node c part tl bl tr br) 2) ?_ ?_ rfl
        · intro a
          rw [hpc]
          simp only [PC.held, List.count_append]
          simp
          omega
        · rw [hpc]; rfl
      | 2 =>
        refine SchedInv_pushChild T root s hinv w hw bl
          (.proc (.node c part tl bl tr br) 3) ?_ ?_ rfl
        · intro a
          rw [hpc]
          simp only [PC.held, List.count_append]
          simp
          omega
        · rw [hpc]; rfl
      | 3 =>
        refine SchedInv_pushChild T root s hinv w hw br
          (.proc (.node c part tl bl tr br) 4) ?_ ?_ rfl
        · intro a
          rw [hpc]
          simp only [PC.held, List.count_append]
          simp
          omega
        · rw [hpc]; rfl
      | 4 =>
        cases part with
        | none =>
          apply SchedInv_setPC T root s hinv w hw
          · intro a; rw [hpc]; simp [PC.held]
          · rw [hpc]; rfl
          · intro hf; cases hf
        | some p =>
          have key := SchedInv_update T root s hinv w w hw hw
            (.proc (.node c (some p) tl bl tr br) 5) (s.deques w) (s.log ++ [p])
            s.tasksProcessed (act s.heap p)
            (by
              intro a
              rw [hpc]
              simp [PC.held, List.count_append]
              omega)
            0 (by rw [hpc]; simp [PC.uncounted]) (counter_same T root s hinv)
            (by intro hf; cases hf) (fun hne => absurd rfl hne)
          rw [Function.update_eq_self] at key
          exact key
      | m + 5 =>
        have key := SchedInv_update T root s hinv w w hw hw .loop (s.deques w) s.log
          (wrapInt32 (s.tasksProcessed + 1)) s.heap
          (by
            intro a
            rw [hpc]
            simp [PC.held])
          1 (by rw [hpc]; simp [PC.uncounted]) rfl
          (by intro hf; cases hf) (fun hne => absurd rfl hne)
        rw [Function.update_eq_self] at key
        exact key
  · exact hinv

end Scheduler

section PhaseEnd

variable {F : Type} [LinearOrderedField F]

/-- The state in which the workers of a phase start satisfies the invariant. -/
theorem startPhase_SchedInv (T : Nat) (hT : 1 ≤ T) (h : Heap F) (root : BarnesHutNode F) :
    SchedInv T root (startPhase h root) := by
  refine ⟨?_, ?_, ?_⟩
  · intro a
    have hsum : ∑ i ∈ Finset.range T, ((startPhase h root).deques i).held.count a
        = (particles root).count a := by
      rw [Finset.sum_eq_single 0]
      · simp [startPhase, NewDeque, Deque.PushFront, Deque.held]
      · intro i _ hi
        simp [startPhase, NewDeque, Deque.held, hi]
      · intro h0
        exact absurd (Finset.mem_range.mpr (by omega)) h0
    rw [hsum]
    simp [startPhase, PC.held]
  · simp [startPhase, PC.uncounted, wrapInt32]
  · intro w _ hidle
    simp [startPhase, PC.idle] at hidle

/-- Every interleaving of the workers keeps the invariant of the phase. -/
theorem runWorkers_SchedInv (act : Heap F → PRef → Heap F) (T : Nat) (n : Int)
    (root : BarnesHutNode F) :
    ∀ (sched : List Nat) (s : Phase F), SchedInv T root s →
      SchedInv T root (runWorkers act T n sched s) := by
  intro sched
  induction sched with
  | nil => intro s hs; exact hs
  | cons w sched ih =>
    intro s hs
    simp only [runWorkers, List.foldl_cons]
    apply ih
    split_ifs with hw
    · exact workerStep_SchedInv act T n root w hw s hs
    · exact hs

theorem isDone_iff (c : PC F) : c.isDone = true ↔ c = .done := by
  cases c <;> simp [PC.isDone]

/-- When all workers have returned, the log holds the particles of the tree
and the counter their number. -/
theorem SchedInv_done (T : Nat) (root : BarnesHutNode F) (s : Phase F)
    (hinv : SchedInv T root s) (hdone : phaseDone T s = true) :
    s.tasksProcessed = wrapInt32 ((particles root).length : Int) ∧
      s.log.Perm (particles root) := by
  obtain ⟨i2, i1, i3⟩ := hinv
  have hall : ∀ w, w < T → s.pc w = .done := by
    intro w hw
    simp only [phaseDone, List.all_eq_true, List.mem_range] at hdone
    exact (isDone_iff _).mp (hdone w hw)
  have hperm : s.log.Perm (particles root) := by
    apply List.perm_iff_count.mpr
    intro a
    have hD : ∑ i ∈ Finset.range T, (s.deques i).held.count a = 0 := by
      apply Finset.sum_eq_zero
      intro i hi
      have hi' := Finset.mem_range.mp hi
      have := i3 i hi' (by rw [hall i hi']; rfl)
      simp [Deque.held, this]
    have hP : ∑ w ∈ Finset.range T, (s.pc w).held.count a = 0 := by
      apply Finset.sum_eq_zero
      intro w hw
      rw [hall w (Finset.mem_range.mp hw)]
      rfl
    have := i2 a
    omega
  have hU : ∑ w ∈ Finset.range T, (s.pc w).uncounted = 0 := by
    apply Finset.sum_eq_zero
    intro w hw
    rw [hall w (Finset.mem_range.mp hw)]
    rfl
  refine ⟨?_, hperm⟩
  rw [i1, hU, hperm.length_eq]
  simp

end PhaseEnd

/-! ## C11: the softening term keeps every divisor away from zero -/

section ClaimC11

theorem SOFTENING_pos {F : Type} [LinearOrderedField F] : (0 : F) < SOFTENING := by
  unfold SOFTENING
  positivity

theorem ForceCalculation_unfold {F : Type} [LinearOrderedField F] (sqrt : F → F) (h : Heap F)
    (p : PRef) (c : Cell F) (part : Option PRef) (tl bl tr br : BarnesHutNode F) :
    ForceCalculation sqrt h p (.node c part tl bl tr br)
      = if part = some p then h
        else if (c.rightX - c.leftX) / sqrt (distSqrCalc h p c) < THETA ∨ part ≠ none then
          ForceByNode sqrt h p c
        else
          ForceCalculation sqrt (ForceCalculation sqrt (ForceCalculation sqrt
            (ForceCalculation sqrt h p tl) p tr) p bl) p br := by
  simp only [ForceCalculation, distSqrCalc]

theorem ForceByNode_unfold {F : Type} [LinearOrderedField F] (sqrt : F → F) (h : Heap F)
    (p : PRef) (c : Cell F) :
    ForceByNode sqrt h p c
      = Function.update h p
          { h p with
            fx := (h p).fx + (c.comX - (h p).x) * c.totalMass *
              (1 / sqrt (distSqrByNode h p c) * (1 / sqrt (distSqrByNode h p c)) *
                (1 / sqrt (distSqrByNode h p c)))
            fy := (h p).fy + c.totalMass * (c.comY - (h p).y) *
              (1 / sqrt (distSqrByNode h p c) * (1 / sqrt (distSqrByNode h p c)) *
                (1 / sqrt (distSqrByNode h p c))) } := by
  simp only [ForceByNode, distSqrByNode]

/-- C11. Over the reals, for every particle and every node: `SOFTENING` is
`1e-9 > 0`; the squared distances `dx*dx + dy*dy + SOFTENING` of `ForceByNode`
and of `ForceCalculation` are at least `SOFTENING` (and equal to it when the
centre of mass of the node is the position of the particle); so their square
roots are strictly positive, and the divisors of `1.0 / Sqrt(distSqr)` and of
`S / D`, which are these square roots, are not zero. -/
theorem C11_softening_excludes_division_by_zero (h : Heap ℝ) (p : PRef) (c : Cell ℝ) :
    ((SOFTENING : ℝ) = 1 / 1000000000 ∧ (0 : ℝ) < SOFTENING) ∧
    (SOFTENING ≤ distSqrByNode h p c ∧ SOFTENING ≤ distSqrCalc h p c) ∧
    (c.comX = (h p).x → c.comY = (h p).y →
      distSqrByNode h p c = SOFTENING ∧ distSqrCalc h p c = SOFTENING) ∧
    (0 < Real.sqrt (distSqrByNode h p c) ∧ 0 < Real.sqrt (distSqrCalc h p c)) ∧
    (Real.sqrt (distSqrByNode h p c) ≠ 0 ∧ Real.sqrt (distSqrCalc h p c) ≠ 0) ∧
    (ForceByNode Real.sqrt h p c
      = Function.update h p
          { h p with
            fx := (h p).fx + (c.comX - (h p).x) * c.totalMass *
              (1 / Real.sqrt (distSqrByNode h p c) * (1 / Real.sqrt (distSqrByNode h p c)) *
                (1 / Real.sqrt (distSqrByNode h p c)))
            fy := (h p).fy + c.totalMass * (c.comY - (h p).y) *
              (1 / Real.sqrt (distSqrByNode h p c) * (1 / Real.sqrt (distSqrByNode h p c)) *
                (1 / Real.sqrt (distSqrByNode h p c))) }) ∧
    (∀ (part : Option PRef) (tl bl tr br : BarnesHutNode ℝ),
      ForceCalculation Real.sqrt h p (.node c part tl bl tr br)
        = if part = some p then h
          else if (c.rightX - c.leftX) / Real.sqrt (distSqrCalc h p c) < THETA ∨ part ≠ none then
            ForceByNode Real.sqrt h p c
          else
            ForceCalculation Real.sqrt (ForceCalculation Real.sqrt (ForceCalculation Real.sqrt
              (ForceCalculation Real.sqrt h p tl) p tr) p bl) p br) := by
  have hs : (0 : ℝ) < SOFTENING := SOFTENING_pos
  have h1 : SOFTENING ≤ distSqrByNode h p c := by
    unfold distSqrByNode
    nlinarith [mul_self_nonneg (c.comX - (h p).x), mul_self_nonneg (c.comY - (h p).y)]
  have h2 : SOFTENING ≤ distSqrCalc h p c := by
    unfold distSqrCalc
    nlinarith [mul_self_nonneg ((h p).x - c.comX), mul_self_nonneg ((h p).y - c.comY)]
  have p1 : 0 < Real.sqrt (distSqrByNode h p c) := Real.sqrt_pos.mpr (lt_of_lt_of_le hs h1)
  have p2 : 0 < Real.sqrt (distSqrCalc h p c) := Real.sqrt_pos.mpr (lt_of_lt_of_le hs h2)
  refine ⟨⟨rfl, hs⟩, ⟨h1, h2⟩, ?_, ⟨p1, p2⟩, ⟨ne_of_gt p1, ne_of_gt p2⟩,
    ForceByNode_unfold Real.sqrt h p c, ?_⟩
  · intro hx hy
    simp [distSqrByNode, distSqrCalc, hx, hy]
  · intro part tl bl tr br
    exact ForceCalculation_unfold Real.sqrt h p c part tl bl tr br

end ClaimC11

/-! ## C12: aggregation of an empty node -/

section ClaimC12

variable {F : Type} [LinearOrderedField F]

/-- C12, refuted as stated. An empty node that holds `totalMass = 5` and centre
of mass `(1, 1)` before the call holds them after `CalcCenterOfMass`, and after
`CalcCenterOfMassParallel`, too: neither writes to an empty node. -/
theorem C12_empty_node_keeps_stale_aggregates :
    (CalcCenterOfMass cornersHeap staleEmptyNode).cell.totalMass = 5 ∧
    (CalcCenterOfMass cornersHeap staleEmptyNode).cell.comX = 1 ∧
    (CalcCenterOfMass cornersHeap staleEmptyNode).cell.comY = 1 ∧
    CalcCenterOfMassParallel cornersHeap 1 1 staleEmptyNode = .ok staleEmptyNode :=
  ⟨rfl, rfl, rfl, rfl⟩

/-- C12, amended. `CalcCenterOfMass` and the sequentially read
`CalcCenterOfMassParallel` return an empty node (no particle, no children) as
it is; so an empty node whose `totalMass`, `comX` and `comY` are zero before
the call has `totalMass = 0` and centre of mass `(0, 0)` after it. -/
theorem C12_empty_node_with_zero_aggregates (h : Heap F) (c : Cell F)
    (activeThreads numThreads : Int)
    (hm : c.totalMass = 0) (hx : c.comX = 0) (hy : c.comY = 0) :
    CalcCenterOfMass h (.node c none .nil .nil .nil .nil) = .node c none .nil .nil .nil .nil ∧
    CalcCenterOfMassParallel h activeThreads numThreads (.node c none .nil .nil .nil .nil)
      = .ok (.node c none .nil .nil .nil .nil) ∧
    (CalcCenterOfMass h (.node c none .nil .nil .nil .nil)).cell.totalMass = 0 ∧
    (CalcCenterOfMass h (.node c none .nil .nil .nil .nil)).cell.comX = 0 ∧
    (CalcCenterOfMass h (.node c none .nil .nil .nil .nil)).cell.comY = 0 :=
  ⟨rfl, rfl, hm, hx, hy⟩

/-- C12 amended, at the empty tree `CreateNode(-2, 2, -2, 2, nil)`. -/
theorem C12_empty_node_with_zero_aggregates_witness :
    CalcCenterOfMass cornersHeap (CreateNode (-2) 2 (-2) 2 none)
      = CreateNode (-2) 2 (-2) 2 none ∧
    CalcCenterOfMassParallel cornersHeap 1 4 (CreateNode (-2) 2 (-2) 2 none)
      = .ok (CreateNode (-2) 2 (-2) 2 none) ∧
    (CalcCenterOfMass cornersHeap (CreateNode (-2) 2 (-2) 2 none)).cell.totalMass = 0 ∧
    (CalcCenterOfMass cornersHeap (CreateNode (-2) 2 (-2) 2 none)).cell.comX = 0 ∧
    (CalcCenterOfMass cornersHeap (CreateNode (-2) 2 (-2) 2 none)).cell.comY = 0 :=
  C12_empty_node_with_zero_aggregates cornersHeap (CreateNode (-2 : ℚ) 2 (-2) 2 none).cell 1 4
    rfl rfl rfl

end ClaimC12

/-! ## C14: `stealTask` -/

section ClaimC14

variable {F : Type} [LinearOrderedField F]

theorem PopBack_snoc (d : Deque F) (rest : List (Task F)) (t : Task F)
    (hd : d.tasks = rest ++ [t]) : d.PopBack = (t, true, { tasks := rest }) := by
  cases d with
  | mk tasks =>
    simp only at hd
    subst hd
    simp [Deque.PopBack]

theorem PopBack_nil (d : Deque F) (hd : d.tasks = []) : d.PopBack.2.1 = false := by
  cases d with
  | mk tasks =>
    simp only at hd
    subst hd
    rfl

theorem PopBack_cases (d : Deque F) :
    d.tasks = [] ∨ ∃ rest t, d.tasks = rest ++ [t] := by
  rcases List.eq_nil_or_concat d.tasks with h | ⟨rest, t, h⟩
  · exact Or.inl h
  · exact Or.inr ⟨rest, t, by rw [h, List.concat_eq_append]⟩

theorem victim_ne_self (T me i : Nat) (hme : me < T) (h1 : 1 ≤ i) (hi : i < T) :
    (me + i) % T ≠ me := by
  by_cases h : me + i < T
  · rw [Nat.mod_eq_of_lt h]; omega
  · rw [Nat.mod_eq_sub_mod (by omega), Nat.mod_eq_of_lt (by omega)]; omega

theorem victim_surj (T me v : Nat) (hme : me < T) (hv : v < T) (hne : v ≠ me) :
    ∃ i, 1 ≤ i ∧ i < T ∧ (me + i) % T = v := by
  by_cases h : me < v
  · exact ⟨v - me, by omega, by omega, by
      rw [show me + (v - me) = v by omega, Nat.mod_eq_of_lt hv]⟩
  · exact ⟨v + T - me, by omega, by omega, by
      rw [show me + (v + T - me) = v + T by omega, Nat.add_mod_right, Nat.mod_eq_of_lt hv]⟩

/-- The loop of `stealTask`: either every victim from iteration `i` on is the
worker itself or empty, and the null task is returned with the deques as they
were; or there is a first victim with a task, whose back task is returned and
removed. -/
theorem stealLoop_spec (me T : Nat) :
    ∀ (n i : Nat) (deques : Nat → Deque F),
      (stealLoop me T n i deques = ({ Node := .nil }, deques) ∧
        ∀ j, i ≤ j → j < i + n → (me + j) % T = me ∨ (deques ((me + j) % T)).tasks = []) ∨
      (∃ i0 rest t, i ≤ i0 ∧ i0 < i + n ∧ (me + i0) % T ≠ me ∧
        (∀ j, i ≤ j → j < i0 → (me + j) % T = me ∨ (deques ((me + j) % T)).tasks = []) ∧
        (deques ((me + i0) % T)).tasks = rest ++ [t] ∧
        stealLoop me T n i deques
          = (t, Function.update deques ((me + i0) % T) { tasks := rest })) := by
  intro n
  induction n with
  | zero =>
    intro i deques
    left
    exact ⟨rfl, fun j h1 h2 => by omega⟩
  | succ n ih =>
    intro i deques
    simp only [stealLoop]
    split_ifs with hv hf
    · rcases ih (i + 1) deques with ⟨e, hall⟩ | ⟨i0, rest, t, a1, a2, a3, a4, a5, a6⟩
      · left
        refine ⟨e, ?_⟩
        intro j h1 h2
        by_cases hj : j = i
        · subst hj; exact Or.inl hv
        · exact hall j (by omega) (by omega)
      · right
        refine ⟨i0, rest, t, by omega, by omega, a3, ?_, a5, a6⟩
        intro j h1 h2
        by_cases hj : j = i
        · subst hj; exact Or.inl hv
        · exact a4 j (by omega) h2
    · right
      rcases PopBack_cases (deques ((me + i) % T)) with hnil | ⟨rest, t, hsn⟩
      · rw [PopBack_nil _ hnil] at hf
        cases hf
      · refine ⟨i, rest, t, le_refl _, by omega, hv, fun j h1 h2 => by omega, hsn, ?_⟩
        rw [PopBack_snoc _ rest t hsn]
    · have hnil : (deques ((me + i) % T)).tasks = [] := by
        rcases PopBack_cases (deques ((me + i) % T)) with hnil | ⟨rest, t, hsn⟩
        · exact hnil
        · rw [PopBack_snoc _ rest t hsn] at hf
          simp at hf
      rcases ih (i + 1) deques with ⟨e, hall⟩ | ⟨i0, rest, t, a1, a2, a3, a4, a5, a6⟩
      · left
        refine ⟨e, ?_⟩
        intro j h1 h2
        by_cases hj : j = i
        · subst hj; exact Or.inr hnil
        · exact hall j (by omega) (by omega)
      · right
        refine ⟨i0, rest, t, by omega, by omega, a3, ?_, a5, a6⟩
        intro j h1 h2
        by_cases hj : j = i
        · subst hj; exact Or.inr hnil
        · exact a4 j (by omega) h2

theorem update_deque_ne (deques : Nat → Deque F) (v : Nat) (rest : List (Task F)) (t : Task F)
    (hd : (deques v).tasks = rest ++ [t]) :
    Function.update deques v { tasks := rest } ≠ deques := by
  intro he
  have := congrFun he v
  rw [Function.update_same] at this
  rw [← this] at hd
  simp only at hd
  have hl := congrArg List.length hd
  simp at hl

/-- C14. For `T ≥ 1` workers, a worker `me < T` and any state of the deques,
`stealTask(me, deques, T)`
* returns the back task of the victim `(me + i) mod T` and removes exactly it,
  when that victim is the first non-empty one in the order
  `(me+1) mod T, …, (me+T-1) mod T`;
* returns the null task and leaves all deques as they are when all these
  victims are empty;
* leaves deque `me` as it is;
* returns the null task with all deques unchanged exactly when every other
  deque is empty, which is always so for `T = 1`. -/
theorem C14_stealTask_takes_from_first_victim (T me : Nat) (hT : 1 ≤ T) (hme : me < T)
    (deques : Nat → Deque F) :
    (∀ i rest t, 1 ≤ i → i < T →
      (∀ j, 1 ≤ j → j < i → (deques ((me + j) % T)).tasks = []) →
      (deques ((me + i) % T)).tasks = rest ++ [t] →
      stealTask me deques T
        = (t, Function.update deques ((me + i) % T) { tasks := rest })) ∧
    ((∀ i, 1 ≤ i → i < T → (deques ((me + i) % T)).tasks = []) →
      stealTask me deques T = ({ Node := .nil }, deques)) ∧
    (stealTask me deques T).2 me = deques me ∧
    (((stealTask me deques T).1.Node = .nil ∧ (stealTask me deques T).2 = deques) ↔
      ∀ v, v < T → v ≠ me → (deques v).tasks = []) ∧
    (T = 1 → stealTask me deques T = ({ Node := .nil }, deques)) := by
  have hspec := stealLoop_spec me T T 0 deques
  simp only [Nat.zero_add] at hspec
  have hzero : (me + 0) % T = me := by rw [Nat.add_zero, Nat.mod_eq_of_lt hme]
  have hA : ∀ i rest t, 1 ≤ i → i < T →
      (∀ j, 1 ≤ j → j < i → (deques ((me + j) % T)).tasks = []) →
      (deques ((me + i) % T)).tasks = rest ++ [t] →
      stealTask me deques T
        = (t, Function.update deques ((me + i) % T) { tasks := rest }) := by
    intro i rest t h1 hi hbefore hsn
    rcases hspec with ⟨-, hall⟩ | ⟨i0, rest0, t0, -, a2, a3, a4, a5, a6⟩
    · rcases hall i (Nat.zero_le _) hi with hv | hnil
      · exact absurd hv (victim_ne_self T me i hme h1 hi)
      · rw [hnil] at hsn
        simp at hsn
    · have hi0 : 1 ≤ i0 := by
        by_contra hlt
        have : i0 = 0 := by omega
        subst this
        exact a3 hzero
      have heq : i0 = i := by
        rcases Nat.lt_trichotomy i0 i with hlt | heq | hgt
        · have := hbefore i0 hi0 hlt
          rw [this] at a5
          simp at a5
        · exact heq
        · rcases a4 i (Nat.zero_le _) hgt with hv | hnil
          · exact absurd hv (victim_ne_self T me i hme h1 hi)
          · rw [hnil] at hsn
            simp at hsn
      subst heq
      rw [a5] at hsn
      obtain ⟨e1, e2⟩ := List.append_inj' hsn rfl
      simp only [List.cons.injEq, and_true] at e2
      subst e1 e2
      exact a6
  have hB : (∀ i, 1 ≤ i → i < T → (deques ((me + i) % T)).tasks = []) →
      stealTask me deques T = ({ Node := .nil }, deques) := by
    intro hall
    rcases hspec with ⟨e, -⟩ | ⟨i0, rest0, t0, -, a2, a3, a4, a5, a6⟩
    · exact e
    · have hi0 : 1 ≤ i0 := by
        by_contra hlt
        have : i0 = 0 := by omega
        subst this
        exact a3 hzero
      have := hall i0 hi0 a2
      rw [this] at a5
      simp at a5
  refine ⟨hA, hB, ?_, ?_, ?_⟩
  · rcases hspec with ⟨e, -⟩ | ⟨i0, rest0, t0, -, a2, a3, a4, a5, a6⟩
    · unfold stealTask
      rw [e]
    · unfold stealTask
      rw [a6]
      exact Function.update_noteq (Ne.symm a3) _ _
  · constructor
    · rintro ⟨-, hsame⟩ v hv hne
      rcases hspec with ⟨-, hall⟩ | ⟨i0, rest0, t0, -, a2, a3, a4, a5, a6⟩
      · obtain ⟨i, h1, hi, hiv⟩ := victim_surj T me v hme hv hne
        rcases hall i (Nat.zero_le _) hi with hself | hnil
        · exact absurd hself (victim_ne_self T me i hme h1 hi)
        · rw [hiv] at hnil
          exact hnil
      · unfold stealTask at hsame
        rw [a6] at hsame
        exact absurd hsame (update_deque_ne deques _ rest0 t0 a5)
    · intro hall
      have := hB (fun i h1 hi => hall _ (Nat.mod_lt _ (by omega)) (victim_ne_self T me i hme h1 hi))
      rw [this]
      exact ⟨rfl, rfl⟩
  · intro h1
    exact hB (fun i hi1 hiT => by omega)

/-- C14 for worker `1` of three, when only deque `0` holds a task (the root of
the four-corner tree). -/
theorem C14_stealTask_takes_from_first_victim_witness :
    (∀ i rest t, 1 ≤ i → i < 3 →
      (∀ j, 1 ≤ j → j < i →
        ((startPhase cornersHeap cornersTree).deques ((1 + j) % 3)).tasks = []) →
      ((startPhase cornersHeap cornersTree).deques ((1 + i) % 3)).tasks = rest ++ [t] →
      stealTask 1 (startPhase cornersHeap cornersTree).deques 3
        = (t, Function.update (startPhase cornersHeap cornersTree).deques ((1 + i) % 3)
            { tasks := rest })) ∧
    ((∀ i, 1 ≤ i → i < 3 →
        ((startPhase cornersHeap cornersTree).deques ((1 + i) % 3)).tasks = []) →
      stealTask 1 (startPhase cornersHeap cornersTree).deques 3
        = ({ Node := .nil }, (startPhase cornersHeap cornersTree).deques)) ∧
    (stealTask 1 (startPhase cornersHeap cornersTree).deques 3).2 1
      = (startPhase cornersHeap cornersTree).deques 1 ∧
    (((stealTask 1 (startPhase cornersHeap cornersTree).deques 3).1.Node = .nil ∧
        (stealTask 1 (startPhase cornersHeap cornersTree).deques 3).2
          = (startPhase cornersHeap cornersTree).deques) ↔
      ∀ v, v < 3 → v ≠ 1 → ((startPhase cornersHeap cornersTree).deques v).tasks = []) ∧
    ((3 : Nat) = 1 → stealTask 1 (startPhase cornersHeap cornersTree).deques 3
      = ({ Node := .nil }, (startPhase cornersHeap cornersTree).deques)) :=
  C14_stealTask_takes_from_first_victim 3 1 (by decide) (by decide)
    (startPhase cornersHeap cornersTree).deques

end ClaimC14

/-! ## Placement by the quadrant rule -/

section Placement

variable {F : Type} [LinearOrderedField F]

/-- In a well-formed tree every particle is placed by the quadrant rule. -/
theorem WF_Placed (h : Heap F) :
    ∀ (t : BarnesHutNode F) (B : Bounds F), WF h B t → ∀ p ∈ particles t, Placed h p t := by
  intro t
  induction t with
  | nil => intro B hw; simp [WF] at hw
  | node c part tl bl tr br ih_tl ih_bl ih_tr ih_br =>
    intro B hw p hp
    rw [WF] at hw
    obtain ⟨hb, ⟨hcx, hcy⟩, hcase⟩ := hw
    subst hb
    rw [Placed]
    rcases hcase with ⟨rfl, rfl, rfl, rfl, rfl⟩ | ⟨q, rfl, hq, rfl, rfl, rfl, rfl⟩ |
      ⟨rfl, hn, h1, h2, h3, h4⟩
    · simp [particles] at hp
    · simp only [particles, Option.toList, List.append_nil, List.mem_singleton] at hp
      subst hp
      obtain ⟨a1, a2, a3, a4⟩ := hq
      exact Or.inl ⟨rfl, rfl, rfl, rfl, rfl, a1, a2, a3, a4⟩
    · right
      refine ⟨rfl, ?_⟩
      simp only [particles, Option.toList, List.nil_append, List.mem_append] at hp
      rcases hp with hp | hp | hp | hp
      · obtain ⟨a1, a2, a3, a4⟩ := WF_inside h tl _ h1 p hp
        simp only [Bounds.child, Cell.bounds] at a1 a2 a3 a4
        exact Or.inl ⟨by rw [hcx]; exact a2, by rw [hcy]; exact a3, ih_tl _ h1 p hp⟩
      · obtain ⟨a1, a2, a3, a4⟩ := WF_inside h tr _ h3 p hp
        simp only [Bounds.child, Cell.bounds] at a1 a2 a3 a4
        exact Or.inr (Or.inr (Or.inl ⟨by rw [hcx]; exact a1, by rw [hcy]; exact a3,
          ih_tr _ h3 p hp⟩))
      · obtain ⟨a1, a2, a3, a4⟩ := WF_inside h bl _ h2 p hp
        simp only [Bounds.child, Cell.bounds] at a1 a2 a3 a4
        exact Or.inr (Or.inl ⟨by rw [hcx]; exact a2, by rw [hcy]; exact a4, ih_bl _ h2 p hp⟩)
      · obtain ⟨a1, a2, a3, a4⟩ := WF_inside h br _ h4 p hp
        simp only [Bounds.child, Cell.bounds] at a1 a2 a3 a4
        have hx : c.centerX ≤ (h p).x := by rw [hcx]; exact a1
        have hy : (h p).y < c.centerY := by rw [hcy]; exact a4
        refine Or.inr (Or.inr (Or.inr ⟨?_, ?_, ?_, ih_br _ h4 p hp⟩))
        · intro hc; exact absurd hc.1 (not_lt.mpr hx)
        · intro hc; exact absurd hc.1 (not_lt.mpr hx)
        · intro hc; exact absurd hy (not_lt.mpr hc.2)

/-- A tree built by the insertion loop out of particles with pairwise distinct
positions inside the root bounds is well formed and holds those particles. -/
theorem built_WF [Archimedean F] (h : Heap F) (fuel0 : Nat) (leftX rightX botY topY : F)
    (ps : List PRef) (root : BarnesHutNode F)
    (hin : ∀ p ∈ ps, (Bounds.mk leftX rightX botY topY).Contains h p)
    (hdist : ps.Pairwise (fun p q => pos h p ≠ pos h q))
    (hbuild : insertAll h fuel0 (CreateNode leftX rightX botY topY none) ps = .ok root) :
    WF h ⟨leftX, rightX, botY, topY⟩ root ∧ (particles root).Perm ps := by
  obtain ⟨f1, root1, hins1, hw1, -, hcnt1⟩ :=
    insertAll_WF h ⟨leftX, rightX, botY, topY⟩ ps (CreateNode leftX rightX botY topY none)
      (WF_CreateNode h leftX rightX botY topY) hin hdist
      (by intro p _ q hq; simp [CreateNode, particles] at hq)
  have hsame : root1 = root := by
    have e1 := insertAll_mono_le h (le_max_left f1 fuel0) _ _ _ hins1
    have e2 := insertAll_mono_le h (le_max_right f1 fuel0) _ _ _ hbuild
    rw [e1] at e2
    exact Except.ok.inj e2
  subst hsame
  refine ⟨hw1, ?_⟩
  apply List.perm_iff_count.mpr
  intro a
  rw [hcnt1 a]
  simp [CreateNode, particles]

theorem corners_inside :
    ∀ p ∈ ([0, 1, 2, 3] : List PRef), (Bounds.mk (-2 : ℚ) 2 (-2) 2).Contains cornersHeap p := by
  intro p hp
  simp only [List.mem_cons, List.mem_singleton, List.not_mem_nil, or_false] at hp
  rcases hp with rfl | rfl | rfl | rfl <;>
    norm_num [Bounds.Contains, cornersHeap, NewParticle]

theorem corners_distinct :
    ([0, 1, 2, 3] : List PRef).Pairwise (fun p q => pos cornersHeap p ≠ pos cornersHeap q) := by
  simp only [List.pairwise_cons, List.mem_cons, List.mem_singleton, List.not_mem_nil]
  norm_num [pos, cornersHeap, NewParticle, Prod.ext_iff]

end Placement

/-! ## Coincident particles -/

section Coincident

variable {F : Type} [LinearOrderedField F]

/-- In a well-formed internal node a particle is held by the child in the
quadrant the quadrant rule selects for its position. -/
theorem mem_quadrant_child (h : Heap F) (B : Bounds F) (c : Cell F)
    (tl bl tr br : BarnesHutNode F) (hb : c.bounds = B) (hc : Centered c)
    (h1 : WF h (B.child .TL) tl) (h2 : WF h (B.child .BL) bl)
    (h3 : WF h (B.child .TR) tr) (h4 : WF h (B.child .BR) br)
    (q : PRef) (hq : q ∈ particles (BarnesHutNode.node c none tl bl tr br)) :
    q ∈ particles (getChild (.node c none tl bl tr br) (quadrant c (h q).x (h q).y)) := by
  have hwf : ∀ Q, WF h (B.child Q) (getChild (.node c none tl bl tr br) Q) := by
    intro Q; cases Q <;> assumption
  have hex : ∃ Q, q ∈ particles (getChild (.node c none tl bl tr br) Q) := by
    simp only [particles, Option.toList, List.nil_append, List.mem_append] at hq
    rcases hq with hq | hq | hq | hq
    · exact ⟨.TL, hq⟩
    · exact ⟨.TR, hq⟩
    · exact ⟨.BL, hq⟩
    · exact ⟨.BR, hq⟩
  obtain ⟨Q, hQ⟩ := hex
  have hin : (B.child Q).Contains h q := WF_inside h _ _ (hwf Q) q hQ
  have hinB : c.bounds.Contains h q := by rw [hb]; exact child_contains h B Q q hin
  have hin' := contains_child h c q hc hinB
  rw [hb] at hin'
  by_cases hQq : Q = quadrant c (h q).x (h q).y
  · rw [← hQq]; exact hQ
  · exact absurd (child_disjoint h B _ _ q hQq hin hin') id

/-- A particle inserted into a well-formed tree that holds a particle with
the same coordinates follows it down to its leaf and is never separated from
it there: the call runs out of every fuel. -/
theorem insert_WF_coincident_diverges (h : Heap F) (p q : PRef) (hpq : pos h p = pos h q) :
    ∀ (t : BarnesHutNode F) (B : Bounds F), WF h B t → q ∈ particles t →
      ∀ fuel, InsertParticle h fuel t p = .error .outOfFuel := by
  have hx : (h p).x = (h q).x := congrArg Prod.fst hpq
  have hy : (h p).y = (h q).y := congrArg Prod.snd hpq
  intro t
  induction t with
  | nil => intro B hw; simp [WF] at hw
  | node c part tl bl tr br ih_tl ih_bl ih_tr ih_br =>
    intro B hw hq fuel
    have hw' := hw
    rw [WF] at hw'
    obtain ⟨hb, hc, hcase⟩ := hw'
    rcases hcase with ⟨rfl, rfl, rfl, rfl, rfl⟩ | ⟨q', rfl, hq', rfl, rfl, rfl, rfl⟩ |
      ⟨rfl, hn, h1, h2, h3, h4⟩
    · simp [particles] at hq
    · simp only [particles, Option.toList, List.append_nil, List.mem_singleton] at hq
      subst hq
      exact insert_coincident_diverges h p q hpq fuel c
    · cases fuel with
      | zero => rfl
      | succ n =>
        have hmem := mem_quadrant_child h B c tl bl tr br hb hc h1 h2 h3 h4 q hq
        have hne : getChild (.node c none tl bl tr br) (quadrant c (h q).x (h q).y) ≠ .nil := by
          intro he; rw [he] at hmem; simp [particles] at hmem
        rw [InsertParticle_node h n (.node c none tl bl tr br) p (by simp) rfl _ hne]
        simp only [BarnesHutNode.cell]
        rw [hx, hy, orCreate_of_ne_nil _ _ hne]
        have hdiv : InsertParticle h n
            (getChild (.node c none tl bl tr br) (quadrant c (h q).x (h q).y)) p
              = .error .outOfFuel := by
          cases hQ : quadrant c (h q).x (h q).y with
          | TL => rw [hQ] at hmem; exact ih_tl _ h1 hmem n
          | BL => rw [hQ] at hmem; exact ih_bl _ h2 hmem n
          | TR => rw [hQ] at hmem; exact ih_tr _ h3 hmem n
          | BR => rw [hQ] at hmem; exact ih_br _ h4 hmem n
        rw [hdiv]

/-- When the insertion loop returns on a well-formed tree, the particles it
inserted have pairwise distinct positions, distinct from those the tree held. -/
theorem insertAll_distinct [Archimedean F] (h : Heap F) (B : Bounds F) (fuel : Nat) :
    ∀ (ps : List PRef) (t root : BarnesHutNode F), WF h B t →
      (∀ p ∈ ps, B.Contains h p) → insertAll h fuel t ps = .ok root →
      ps.Pairwise (fun p q => pos h p ≠ pos h q) ∧
        ∀ p ∈ ps, ∀ q ∈ particles t, pos h q ≠ pos h p := by
  intro ps
  induction ps with
  | nil => intro t root _ _ _; simp
  | cons p ps ih =>
    intro t root hw hin hbuild
    rw [insertAll] at hbuild
    cases h1 : InsertParticle h fuel t p with
    | error e => simp [h1] at hbuild
    | ok t1 =>
      simp only [h1] at hbuild
      have hnew : ∀ q ∈ particles t, pos h q ≠ pos h p := by
        intro q hq heq
        have := insert_WF_coincident_diverges h p q heq.symm t B hw hq fuel
        rw [h1] at this
        cases this
      obtain ⟨f2, t2, hins2, hw2, -, hcnt2⟩ :=
        insert_WF h p t B hw (hin p (List.mem_cons_self _ _)) hnew
      have hsame : t2 = t1 := by
        have e1 := InsertParticle_mono_le h (le_max_left f2 fuel) hins2
        have e2 := InsertParticle_mono_le h (le_max_right f2 fuel) h1
        rw [e1] at e2
        exact Except.ok.inj e2
      subst hsame
      have hmem : ∀ a, a ∈ particles t2 ↔ a ∈ p :: particles t := by
        intro a
        exact (List.perm_iff_count.mpr hcnt2).mem_iff
      obtain ⟨hpw, hold⟩ := ih t2 root hw2
        (fun a ha => hin a (List.mem_cons_of_mem _ ha)) hbuild
      refine ⟨List.pairwise_cons.mpr ⟨?_, hpw⟩, ?_⟩
      · intro a ha
        exact hold a ha p ((hmem p).mpr (List.mem_cons_self _ _))
      · intro a ha q hq
        rcases List.mem_cons.mp ha with rfl | ha
        · exact hnew q hq
        · exact hold a ha q ((hmem q).mpr (List.mem_cons_of_mem _ hq))

/-- A tree the insertion loop returns from an empty root, out of particles
inside the root bounds, is well formed and holds those particles, whose
positions are pairwise distinct. -/
theorem built_WF_distinct [Archimedean F] (h : Heap F) (fuel0 : Nat)
    (leftX rightX botY topY : F) (ps : List PRef) (root : BarnesHutNode F)
    (hin : ∀ p ∈ ps, (Bounds.mk leftX rightX botY topY).Contains h p)
    (hbuild : insertAll h fuel0 (CreateNode leftX rightX botY topY none) ps = .ok root) :
    WF h ⟨leftX, rightX, botY, topY⟩ root ∧ (particles root).Perm ps ∧
      ps.Pairwise (fun p q => pos h p ≠ pos h q) := by
  obtain ⟨hd, -⟩ := insertAll_distinct h ⟨leftX, rightX, botY, topY⟩ fuel0 ps _ root
    (WF_CreateNode h leftX rightX botY topY) hin hbuild
  obtain ⟨hw, hperm⟩ := built_WF h fuel0 leftX rightX botY topY ps root hin hd hbuild
  exact ⟨hw, hperm, hd⟩

end Coincident

/-! ## C15: every particle sits in the leaf the quadrant rule leads to -/

section ClaimC15

variable {F : Type} [LinearOrderedField F]

/-- C15. Over exact arithmetic, in a tree the insertion loop has built from an
empty root out of particles inside the half-open root bounds, every particle
held by a leaf lies inside the half-open bounds stored in that leaf, and the
path from the root to the leaf follows the quadrant rule at every internal
node: `topLeft` when `x < centerX` and `y ≥ centerY`, `botLeft` when
`x < centerX` and `y < centerY`, `topRight` when `x ≥ centerX` and
`y ≥ centerY`, `botRight` otherwise. Every inserted particle is held by such a
leaf. -/
theorem C15_particles_placed_by_quadrant_rule [Archimedean F] (h : Heap F) (fuel : Nat)
    (leftX rightX botY topY : F) (ps : List PRef) (root : BarnesHutNode F)
    (hin : ∀ p ∈ ps, (Bounds.mk leftX rightX botY topY).Contains h p)
    (hbuild : insertAll h fuel (CreateNode leftX rightX botY topY none) ps = .ok root) :
    (∀ p ∈ leafParticles root, Placed h p root) ∧ (leafParticles root).Perm ps := by
  obtain ⟨hw, hperm, -⟩ := built_WF_distinct h fuel leftX rightX botY topY ps root hin hbuild
  rw [WF_leafParticles h root _ hw]
  exact ⟨fun p hp => WF_Placed h root _ hw p hp, hperm⟩

/-- C15 at the four-corner tree. -/
theorem C15_particles_placed_by_quadrant_rule_witness :
    (∀ p ∈ leafParticles cornersTree, Placed cornersHeap p cornersTree) ∧
      (leafParticles cornersTree).Perm [0, 1, 2, 3] :=
  C15_particles_placed_by_quadrant_rule cornersHeap 3 (-2) 2 (-2) 2 [0, 1, 2, 3] cornersTree
    corners_inside cornersTree_built

end ClaimC15

/-! ## C18: insertion terminates exactly when no held particle coincides -/

section ClaimC18

variable {F : Type} [LinearOrderedField F]

/-- C18. Over exact arithmetic, for a tree the insertion loop has built from
an empty root out of particles inside the half-open root bounds, and a
particle `p` inside those bounds: `InsertParticle(root, p)` returns (some
recursion depth suffices) if and only if no particle held in the tree has the
coordinates of `p`; and when one has, the call exceeds every recursion depth,
without any other fault. -/
theorem C18_insertion_terminates_iff_no_coincidence [Archimedean F] (h : Heap F) (fuel0 : Nat)
    (leftX rightX botY topY : F) (ps : List PRef) (root : BarnesHutNode F) (p : PRef)
    (hin : ∀ q ∈ ps, (Bounds.mk leftX rightX botY topY).Contains h q)
    (hbuild : insertAll h fuel0 (CreateNode leftX rightX botY topY none) ps = .ok root)
    (hp : (Bounds.mk leftX rightX botY topY).Contains h p) :
    ((∃ fuel root', InsertParticle h fuel root p = .ok root') ↔
        ∀ q ∈ particles root, pos h q ≠ pos h p) ∧
      ((∃ q ∈ particles root, pos h q = pos h p) →
        ∀ fuel, InsertParticle h fuel root p = .error .outOfFuel) := by
  obtain ⟨hw, -, -⟩ := built_WF_distinct h fuel0 leftX rightX botY topY ps root hin hbuild
  have hdiv : (∃ q ∈ particles root, pos h q = pos h p) →
      ∀ fuel, InsertParticle h fuel root p = .error .outOfFuel := by
    rintro ⟨q, hq, heq⟩ fuel
    exact insert_WF_coincident_diverges h p q heq.symm root _ hw hq fuel
  refine ⟨⟨?_, ?_⟩, hdiv⟩
  · rintro ⟨fuel, root', hins⟩ q hq heq
    rw [hdiv ⟨q, hq, heq⟩ fuel] at hins
    cases hins
  · intro hnew
    obtain ⟨fuel, root', hins, -⟩ := insert_WF h p root _ hw hp hnew
    exact ⟨fuel, root', hins⟩

/-- C18 at the leaf that holds the corner particle `0`, for the particle `1`
at another corner. -/
theorem C18_insertion_terminates_iff_no_coincidence_witness :
    ((∃ fuel root', InsertParticle cornersHeap fuel (CreateNode (-2 : ℚ) 2 (-2) 2 (some 0)) 1
          = .ok root') ↔
        ∀ q ∈ particles (CreateNode (-2 : ℚ) 2 (-2) 2 (some 0)),
          pos cornersHeap q ≠ pos cornersHeap 1) ∧
      ((∃ q ∈ particles (CreateNode (-2 : ℚ) 2 (-2) 2 (some 0)),
          pos cornersHeap q = pos cornersHeap 1) →
        ∀ fuel, InsertParticle cornersHeap fuel (CreateNode (-2 : ℚ) 2 (-2) 2 (some 0)) 1
          = .error .outOfFuel) :=
  C18_insertion_terminates_iff_no_coincidence cornersHeap 1 (-2) 2 (-2) 2 [0]
    (CreateNode (-2) 2 (-2) 2 (some 0)) 1
    (by
      intro q hq
      simp only [List.mem_singleton] at hq
      subst hq
      norm_num [Bounds.Contains, cornersHeap, NewParticle])
    rfl
    (by norm_num [Bounds.Contains, cornersHeap, NewParticle])

end ClaimC18

/-! ## C16: the classification of nodes is an invariant of insertion -/

section ClaimC16

variable {F : Type} [LinearOrderedField F]

/-- The recursive predicate `Classified` says of every node of the tree that
it has no children when it holds a particle. -/
theorem Classified_iff_nodes :
    ∀ t : BarnesHutNode F,
      Classified t ↔ ∀ n ∈ nodes t, n.part ≠ none → ∀ Q, getChild n Q = .nil := by
  intro t
  induction t with
  | nil => simp [Classified, nodes]
  | node c part tl bl tr br ih_tl ih_bl ih_tr ih_br =>
    rw [Classified, ih_tl, ih_bl, ih_tr, ih_br]
    simp only [nodes, List.mem_cons, List.mem_append]
    constructor
    · rintro ⟨h0, h1, h2, h3, h4⟩ n hn
      rcases hn with rfl | hn | hn | hn | hn
      · intro hp Q
        obtain ⟨rfl, rfl, rfl, rfl⟩ := h0 hp
        cases Q <;> rfl
      · exact h1 n hn
      · exact h3 n hn
      · exact h2 n hn
      · exact h4 n hn
    · intro H
      refine ⟨?_, fun n hn => H n (Or.inr (Or.inl hn)),
        fun n hn => H n (Or.inr (Or.inr (Or.inr (Or.inl hn)))),
        fun n hn => H n (Or.inr (Or.inr (Or.inl hn))),
        fun n hn => H n (Or.inr (Or.inr (Or.inr (Or.inr hn))))⟩
      intro hp
      have := H _ (Or.inl rfl) hp
      exact ⟨this .TL, this .BL, this .TR, this .BR⟩

theorem Classified_freshChild (c : Cell F) (Q : Quad) : Classified (freshChild c Q) := by
  obtain ⟨cc, he, -⟩ := freshChild_spec c Q
  rw [he]
  simp [Classified]

theorem Classified_getChild (t : BarnesHutNode F) (hc : Classified t) (Q : Quad) :
    Classified (getChild t Q) := by
  cases t with
  | nil => simp [getChild, Classified]
  | node c part tl bl tr br =>
    rw [Classified] at hc
    obtain ⟨-, h1, h2, h3, h4⟩ := hc
    cases Q <;> assumption

theorem Classified_setChild (c : Cell F) (tl bl tr br : BarnesHutNode F)
    (hc : Classified (.node c none tl bl tr br)) (Q : Quad) (r : BarnesHutNode F)
    (hr : Classified r) : Classified (setChild (.node c none tl bl tr br) Q r) := by
  rw [Classified] at hc
  obtain ⟨-, h1, h2, h3, h4⟩ := hc
  cases Q <;> rw [setChild, Classified] <;>
    exact ⟨fun hp => absurd rfl hp, by assumption, by assumption, by assumption, by assumption⟩

/-- Every successful insertion keeps the classification. -/
theorem InsertParticle_Classified (h : Heap F) :
    ∀ (fuel : Nat) (t : BarnesHutNode F) (p : PRef) (t' : BarnesHutNode F),
      InsertParticle h fuel t p = .ok t' → Classified t → Classified t' := by
  intro fuel
  induction fuel with
  | zero => intro t p t' H; simp [InsertParticle] at H
  | succ n ih =>
    intro t p t' H hc
    cases t with
    | nil => simp [InsertParticle] at H
    | node c part tl bl tr br =>
      cases part with
      | some q =>
        rw [InsertParticle_leaf] at H
        cases h1 : InsertParticle h n (.node c none (freshChild c .TL) (freshChild c .BL)
            (freshChild c .TR) (freshChild c .BR)) q with
        | error e => simp [h1] at H
        | ok node2 =>
          simp only [h1] at H
          refine ih _ _ _ H (ih _ _ _ h1 ?_)
          rw [Classified]
          exact ⟨fun hp => absurd rfl hp, Classified_freshChild c _, Classified_freshChild c _,
            Classified_freshChild c _, Classified_freshChild c _⟩
      | none =>
        by_cases hne : tl = .nil ∧ tr = .nil ∧ bl = .nil ∧ br = .nil
        · obtain ⟨rfl, rfl, rfl, rfl⟩ := hne
          rw [InsertParticle_empty] at H
          cases H
          simp [Classified]
        · rw [InsertParticle_internal h _ c p tl bl tr br hne] at H
          cases h1 : InsertParticle h n
              (orCreate (getChild (.node c none tl bl tr br) (quadrant c (h p).x (h p).y))
                (freshChild c (quadrant c (h p).x (h p).y))) p with
          | error e => simp [h1] at H
          | ok r =>
            simp only [h1] at H
            cases H
            apply Classified_setChild c tl bl tr br hc
            apply ih _ _ _ h1
            unfold orCreate
            split_ifs
            · exact Classified_freshChild c _
            · exact Classified_getChild _ hc _

theorem insertAll_Classified (h : Heap F) (fuel : Nat) :
    ∀ (ps : List PRef) (t t' : BarnesHutNode F),
      insertAll h fuel t ps = .ok t' → Classified t → Classified t' := by
  intro ps
  induction ps with
  | nil =>
    intro t t' H hc
    simp only [insertAll] at H
    cases H
    exact hc
  | cons p ps ih =>
    intro t t' H hc
    rw [insertAll] at H
    cases h1 : InsertParticle h fuel t p with
    | error e => simp [h1] at H
    | ok t1 =>
      simp only [h1] at H
      exact ih _ _ H (InsertParticle_Classified h _ _ _ _ h1 hc)

/-- C16. If every node of a tree has no children when it holds a particle, and
`InsertParticle` returns on the tree, then every node of the tree it returns
has no children when it holds a particle. The result of `CreateNode` has the
property, whatever particle it is given, and so has every tree the insertion
loop builds from an empty root: there a particle is held only by a childless
node. -/
theorem C16_classification_is_invariant (h : Heap F) (fuel : Nat) (t t' : BarnesHutNode F)
    (p : PRef)
    (hcls : ∀ n ∈ nodes t, n.part ≠ none → ∀ Q, getChild n Q = .nil)
    (hins : InsertParticle h fuel t p = .ok t') :
    (∀ n ∈ nodes t', n.part ≠ none → ∀ Q, getChild n Q = .nil) ∧
    (∀ (leftX rightX botY topY : F) (particle : Option PRef),
      ∀ n ∈ nodes (CreateNode leftX rightX botY topY particle),
        n.part ≠ none → ∀ Q, getChild n Q = .nil) ∧
    (∀ (fuel0 : Nat) (leftX rightX botY topY : F) (ps : List PRef) (root : BarnesHutNode F),
      insertAll h fuel0 (CreateNode leftX rightX botY topY none) ps = .ok root →
        ∀ n ∈ nodes root, n.part ≠ none → ∀ Q, getChild n Q = .nil) := by
  have hcreate : ∀ (leftX rightX botY topY : F) (particle : Option PRef),
      Classified (CreateNode leftX rightX botY topY particle) := by
    intro leftX rightX botY topY particle
    simp [CreateNode, Classified]
  refine ⟨?_, ?_, ?_⟩
  · exact (Classified_iff_nodes t').mp
      (InsertParticle_Classified h fuel t p t' hins ((Classified_iff_nodes t).mpr hcls))
  · intro leftX rightX botY topY particle
    exact (Classified_iff_nodes _).mp (hcreate leftX rightX botY topY particle)
  · intro fuel0 leftX rightX botY topY ps root hbuild
    exact (Classified_iff_nodes root).mp
      (insertAll_Classified h fuel0 ps _ root hbuild (hcreate leftX rightX botY topY none))

theorem rightColumnTree_insert :
    InsertParticle cornersHeap 3 (CreateNode (-2 : ℚ) 2 (-2) 2 (some 0)) 1
      = .ok rightColumnTree := by
  norm_num [InsertParticle, CreateNode, orCreate, BarnesHutNode.isNil, cornersHeap,
    NewParticle, rightColumnTree]

/-- C16 at the root leaf that holds the corner particle `0`, split by the
insertion of the corner particle `1`. -/
theorem C16_classification_is_invariant_witness :
    (∀ n ∈ nodes rightColumnTree, n.part ≠ none → ∀ Q, getChild n Q = .nil) ∧
    (∀ (leftX rightX botY topY : ℚ) (particle : Option PRef),
      ∀ n ∈ nodes (CreateNode leftX rightX botY topY particle),
        n.part ≠ none → ∀ Q, getChild n Q = .nil) ∧
    (∀ (fuel0 : Nat) (leftX rightX botY topY : ℚ) (ps : List PRef) (root : BarnesHutNode ℚ),
      insertAll cornersHeap fuel0 (CreateNode leftX rightX botY topY none) ps = .ok root →
        ∀ n ∈ nodes root, n.part ≠ none → ∀ Q, getChild n Q = .nil) :=
  C16_classification_is_invariant cornersHeap 3 (CreateNode (-2) 2 (-2) 2 (some 0))
    rightColumnTree 1
    (by
      intro n hn _ Q
      simp only [CreateNode, nodes, List.append_nil, List.mem_singleton] at hn
      subst hn
      cases Q <;> rfl)
    rightColumnTree_insert

end ClaimC16

/-! ## C20: four children or none -/

section ClaimC20

variable {F : Type} [LinearOrderedField F]

/-- In a regular tree every node has no child or all four. -/
theorem Regular_four_or_none :
    ∀ t : BarnesHutNode F, Regular t →
      ∀ n ∈ nodes t, (∀ Q, getChild n Q = .nil) ∨ (∀ Q, getChild n Q ≠ .nil) := by
  intro t
  induction t with
  | nil => intro hr; simp [Regular] at hr
  | node c part tl bl tr br ih_tl ih_bl ih_tr ih_br =>
    intro hr n hn
    rw [Regular] at hr
    simp only [nodes, List.mem_cons, List.mem_append] at hn
    rcases hr with ⟨rfl, rfl, rfl, rfl, -⟩ | ⟨rfl, h1, h2, h3, h4⟩
    · simp only [nodes, List.not_mem_nil, or_false] at hn
      subst hn
      left
      intro Q
      cases Q <;> rfl
    · rcases hn with rfl | hn | hn | hn | hn
      · right
        intro Q
        cases Q
        · exact Regular_ne_nil _ h1
        · exact Regular_ne_nil _ h2
        · exact Regular_ne_nil _ h3
        · exact Regular_ne_nil _ h4
      · exact ih_tl h1 n hn
      · exact ih_tr h3 n hn
      · exact ih_bl h2 n hn
      · exact ih_br h4 n hn

/-- On a regular tree the statements `if child == nil { child = CreateNode(...) }`
never run: insertion without them gives the same result. -/
theorem InsertParticleNoCreate_eq (h : Heap F) :
    ∀ (fuel : Nat) (t : BarnesHutNode F) (p : PRef), Regular t →
      InsertParticleNoCreate h fuel t p = InsertParticle h fuel t p := by
  intro fuel
  induction fuel with
  | zero => intro t p _; rfl
  | succ n ih =>
    intro t p hr
    cases t with
    | nil => simp [Regular] at hr
    | node c part tl bl tr br =>
      have hr' := hr
      rw [Regular] at hr'
      rcases hr' with ⟨rfl, rfl, rfl, rfl, hz⟩ | ⟨rfl, h1, h2, h3, h4⟩
      · cases part with
        | none => simp [InsertParticle, InsertParticleNoCreate, BarnesHutNode.isNil]
        | some q =>
          have hs := Regular_splitNode c
          simp only [splitNode, freshChild] at hs
          simp only [InsertParticle, InsertParticleNoCreate, Option.isNone_some, Bool.false_and,
            Bool.false_eq_true, if_false]
          rw [ih _ q hs]
          cases h1 : InsertParticle h n (.node c none
              (CreateNode c.leftX (c.leftX + (c.rightX - c.leftX) / 2)
                (c.botY + (c.topY - c.botY) / 2) c.topY none)
              (CreateNode c.leftX (c.leftX + (c.rightX - c.leftX) / 2) c.botY
                (c.botY + (c.topY - c.botY) / 2) none)
              (CreateNode (c.leftX + (c.rightX - c.leftX) / 2) c.rightX
                (c.botY + (c.topY - c.botY) / 2) c.topY none)
              (CreateNode (c.leftX + (c.rightX - c.leftX) / 2) c.rightX c.botY
                (c.botY + (c.topY - c.botY) / 2) none)) q with
          | error e => rfl
          | ok node2 => exact ih _ p (InsertParticle_Regular h _ _ _ _ h1 hs)
      · have n1 := Regular_ne_nil _ h1
        have n2 := Regular_ne_nil _ h2
        have n3 := Regular_ne_nil _ h3
        have n4 := Regular_ne_nil _ h4
        have hcond : (Option.isNone (none : Option PRef) && tl.isNil && tr.isNil && bl.isNil
            && br.isNil) = false := by
          simp [(isNil_false_iff tl).mpr n1]
        simp only [InsertParticle, InsertParticleNoCreate, hcond, Bool.false_eq_true, if_false,
          orCreate_of_ne_nil _ _ n1, orCreate_of_ne_nil _ _ n2, orCreate_of_ne_nil _ _ n3,
          orCreate_of_ne_nil _ _ n4, ih _ p h1, ih _ p h2, ih _ p h3, ih _ p h4]

/-- C20. In a tree the insertion loop has built from an empty root, every node
has either no child or all four children `topLeft`, `botLeft`, `topRight`,
`botRight`, and a node that has children holds no particle; on such a tree
`InsertParticle` never takes one of its four branches
`if child == nil { child = CreateNode(...) }`: with these statements removed
it computes the same result, for every particle and every recursion depth. -/
theorem C20_four_children_or_none (h : Heap F) (fuel : Nat) (leftX rightX botY topY : F)
    (ps : List PRef) (root : BarnesHutNode F)
    (hbuild : insertAll h fuel (CreateNode leftX rightX botY topY none) ps = .ok root) :
    (∀ n ∈ nodes root, (∀ Q, getChild n Q = .nil) ∨ (∀ Q, getChild n Q ≠ .nil)) ∧
    (∀ n ∈ nodes root, (∃ Q, getChild n Q ≠ .nil) → n.part = none) ∧
    (∀ (fuel1 : Nat) (p : PRef),
      InsertParticleNoCreate h fuel1 root p = InsertParticle h fuel1 root p) := by
  have hr := built_Regular h fuel leftX rightX botY topY ps root hbuild
  have hcls : Classified root :=
    insertAll_Classified h fuel ps _ root hbuild (by simp [CreateNode, Classified])
  refine ⟨Regular_four_or_none root hr, ?_, fun fuel1 p => InsertParticleNoCreate_eq h fuel1 root p hr⟩
  rintro n hn ⟨Q, hQ⟩
  by_contra hp
  exact hQ ((Classified_iff_nodes root).mp hcls n hn hp Q)

/-- C20 at the four-corner tree. -/
theorem C20_four_children_or_none_witness :
    (∀ n ∈ nodes cornersTree, (∀ Q, getChild n Q = .nil) ∨ (∀ Q, getChild n Q ≠ .nil)) ∧
    (∀ n ∈ nodes cornersTree, (∃ Q, getChild n Q ≠ .nil) → n.part = none) ∧
    (∀ (fuel1 : Nat) (p : PRef),
      InsertParticleNoCreate cornersHeap fuel1 cornersTree p
        = InsertParticle cornersHeap fuel1 cornersTree p) :=
  C20_four_children_or_none cornersHeap 3 (-2) 2 (-2) 2 [0, 1, 2, 3] cornersTree
    cornersTree_built

end ClaimC20

/-! ## C17: the velocity and position steps write particle fields only -/

section ClaimC17

variable {F : Type} [LinearOrderedField F]

theorem pushChild_tasks (w : Nat) (child : BarnesHutNode F) (s : Phase F) (i : Nat)
    (t : Task F) (ht : t ∈ ((pushChild w child s).deques i).tasks) :
    t ∈ (s.deques i).tasks ∨ t.Node = child := by
  unfold pushChild at ht
  split_ifs at ht with hnil
  · exact Or.inl ht
  · by_cases hi : i = w
    · subst hi
      simp only [Function.update_same, Deque.PushFront, List.mem_cons] at ht
      rcases ht with rfl | ht
      · exact Or.inr rfl
      · exact Or.inl ht
    · simp only [Function.update_noteq hi] at ht
      exact Or.inl ht

theorem pushChildren_tasks (w : Nat) (c : Cell F) (part : Option PRef)
    (tl bl tr br : BarnesHutNode F) (s : Phase F) (i : Nat) (t : Task F)
    (ht : t ∈ ((pushChild w br (pushChild w bl (pushChild w tr (pushChild w tl s)))).deques i).tasks) :
    t ∈ (s.deques i).tasks ∨ ∃ Q, t.Node = getChild (.node c part tl bl tr br) Q := by
  rcases pushChild_tasks w br _ i t ht with ht | ht
  · rcases pushChild_tasks w bl _ i t ht with ht | ht
    · rcases pushChild_tasks w tr _ i t ht with ht | ht
      · rcases pushChild_tasks w tl _ i t ht with ht | ht
        · exact Or.inl ht
        · exact Or.inr ⟨.TL, ht⟩
      · exact Or.inr ⟨.TR, ht⟩
    · exact Or.inr ⟨.BL, ht⟩
  · exact Or.inr ⟨.BR, ht⟩

theorem processPositionSubtree_tasks (dt : F) (node : BarnesHutNode F) (w : Nat) (s : Phase F)
    (i : Nat) (t : Task F) (ht : t ∈ ((processPositionSubtree dt node w s).deques i).tasks) :
    t ∈ (s.deques i).tasks ∨ ∃ Q, t.Node = getChild node Q := by
  cases node with
  | nil => exact Or.inl ht
  | node c part tl bl tr br =>
    cases part with
    | none => exact pushChildren_tasks w c none tl bl tr br s i t ht
    | some p => exact pushChildren_tasks w c (some p) tl bl tr br s i t ht

theorem processVelocitySubtree_tasks (sqrt : F → F) (root : BarnesHutNode F) (dt : F)
    (node : BarnesHutNode F) (w : Nat) (s : Phase F)
    (i : Nat) (t : Task F)
    (ht : t ∈ ((processVelocitySubtree sqrt root node dt w s).deques i).tasks) :
    t ∈ (s.deques i).tasks ∨ ∃ Q, t.Node = getChild node Q := by
  cases node with
  | nil => exact Or.inl ht
  | node c part tl bl tr br =>
    cases part with
    | none => exact pushChildren_tasks w c none tl bl tr br s i t ht
    | some p => exact pushChildren_tasks w c (some p) tl bl tr br s i t ht

theorem processVelocitySubtree_heap (sqrt : F → F) (root : BarnesHutNode F) (dt : F)
    (n : BarnesHutNode F) (w : Nat) (s : Phase F) :
    (processVelocitySubtree sqrt root n dt w s).heap
      = match n.part with
        | some p => CalcVelocity sqrt s.heap p root dt
        | none => s.heap := by
  cases n with
  | nil => rfl
  | node c part tl bl tr br =>
    cases part <;>
      simp [processVelocitySubtree, countTask, leafAction, pushChild_heap, BarnesHutNode.part]

theorem processPositionSubtree_heap_part (dt : F) (n : BarnesHutNode F) (w : Nat)
    (s : Phase F) :
    (processPositionSubtree dt n w s).heap
      = match n.part with
        | some p => updatePosition s.heap p dt
        | none => s.heap := by
  cases n with
  | nil => rfl
  | node c part tl bl tr br =>
    cases part <;>
      simp [processPositionSubtree, countTask, leafAction, pushChild_heap, BarnesHutNode.part]

/-- C17. The velocity and position steps write fields of one particle and
nothing else. `ForceByNode(p, node)` and `ForceCalculation(p, root)` leave every
particle other than `p` as it was, and `p.x, p.y, p.vx, p.vy` too;
`CalcVelocity(p, root, dt)` leaves every particle other than `p` as it was, and
`p.x, p.y` too. The position update of a particle leaves every other particle
as it was, and `p.vx, p.vy` too. `processVelocitySubtree` and
`processPositionSubtree` on a node change the particle store as `CalcVelocity`,
respectively the position update, on the particle of that node does (not at
all when it holds none), and the tasks they queue carry the children of the
node as they are. The tree is an argument of each of these functions and no
part of what they return: the source functions assign to no field of a node. -/
theorem C17_velocity_and_position_steps_frame (sqrt : F → F) (h : Heap F) (p : PRef)
    (root : BarnesHutNode F) (dt : F) :
    (∀ (c : Cell F),
      (∀ q, q ≠ p → ForceByNode sqrt h p c q = h q) ∧
      (ForceByNode sqrt h p c p).x = (h p).x ∧ (ForceByNode sqrt h p c p).y = (h p).y ∧
      (ForceByNode sqrt h p c p).vx = (h p).vx ∧ (ForceByNode sqrt h p c p).vy = (h p).vy) ∧
    ((∀ q, q ≠ p → ForceCalculation sqrt h p root q = h q) ∧
      (ForceCalculation sqrt h p root p).x = (h p).x ∧
      (ForceCalculation sqrt h p root p).y = (h p).y ∧
      (ForceCalculation sqrt h p root p).vx = (h p).vx ∧
      (ForceCalculation sqrt h p root p).vy = (h p).vy) ∧
    ((∀ q, q ≠ p → CalcVelocity sqrt h p root dt q = h q) ∧
      (CalcVelocity sqrt h p root dt p).x = (h p).x ∧
      (CalcVelocity sqrt h p root dt p).y = (h p).y) ∧
    ((∀ q, q ≠ p → updatePosition h p dt q = h q) ∧
      (updatePosition h p dt p).vx = (h p).vx ∧ (updatePosition h p dt p).vy = (h p).vy) ∧
    (∀ (node : BarnesHutNode F) (w : Nat) (s : Phase F),
      (processVelocitySubtree sqrt root node dt w s).heap
        = (match node.part with
          | some p => CalcVelocity sqrt s.heap p root dt
          | none => s.heap) ∧
      (∀ i, ∀ t ∈ ((processVelocitySubtree sqrt root node dt w s).deques i).tasks,
        t ∈ (s.deques i).tasks ∨ ∃ Q, t.Node = getChild node Q) ∧
      (processPositionSubtree dt node w s).heap
        = (match node.part with
          | some p => updatePosition s.heap p dt
          | none => s.heap) ∧
      (∀ i, ∀ t ∈ ((processPositionSubtree dt node w s).deques i).tasks,
        t ∈ (s.deques i).tasks ∨ ∃ Q, t.Node = getChild node Q)) := by
  refine ⟨?_, ?_, ?_, ?_, ?_⟩
  · intro c
    refine ⟨fun q hq => ForceByNode_other sqrt h p q c hq, ?_⟩
    rw [ForceByNode_self]
    exact ⟨rfl, rfl, rfl, rfl⟩
  · exact ⟨fun q hq => ForceCalculation_other sqrt p q hq root h,
      ForceCalculation_frame sqrt p root h⟩
  · obtain ⟨hx, hy, -, -⟩ := ForceCalculation_frame sqrt p root h
    refine ⟨fun q hq => CalcVelocity_other sqrt h p q root dt hq, ?_, ?_⟩
    · simp only [CalcVelocity, Function.update_same, hx]
    · simp only [CalcVelocity, Function.update_same, hy]
  · refine ⟨fun q hq => updatePosition_other h p q dt hq, ?_, ?_⟩ <;>
      rw [updatePosition_self]
  · intro node w s
    exact ⟨processVelocitySubtree_heap sqrt root dt node w s,
      fun i t ht => processVelocitySubtree_tasks sqrt root dt node w s i t ht,
      processPositionSubtree_heap_part dt node w s,
      fun i t ht => processPositionSubtree_tasks dt node w s i t ht⟩

end ClaimC17

/-! ## The linked list of `Deque` holds a sequence of tasks -/

section LinkedList

variable {F : Type} [LinearOrderedField F]

theorem mirror_mirror (d : LinkedDeque F) : d.mirror.mirror = d := rfl

theorem PushBack_eq_mirror (d : LinkedDeque F) (t : Task F) :
    d.PushBack t = (d.mirror.PushFront t).mirror := by
  cases d with
  | mk mem fresh head tail size =>
    cases tail with
    | none =>
      simp only [LinkedDeque.PushBack, LinkedDeque.PushFront, LinkedDeque.mirror,
        LinkedDeque.mk.injEq, and_true, true_and]
      funext a
      by_cases ha : a = fresh
      · subst ha; simp
      · simp [Function.update_noteq ha]
    | some tl =>
      simp only [LinkedDeque.PushBack, LinkedDeque.PushFront, LinkedDeque.mirror,
        LinkedDeque.mk.injEq, and_true, true_and]
      funext a
      by_cases hat : a = tl
      · subst hat
        by_cases ha : a = fresh
        · subst ha; simp
        · simp [Function.update_noteq ha]
      · by_cases ha : a = fresh
        · subst ha; simp [Function.update_noteq hat]
        · simp [Function.update_noteq ha, Function.update_noteq hat]

theorem PopBack_eq_mirror (d : LinkedDeque F) :
    d.PopBack = (d.mirror.PopFront.1, d.mirror.PopFront.2.1, d.mirror.PopFront.2.2.mirror) := by
  cases d with
  | mk mem fresh head tail size =>
    cases tail with
    | none => rfl
    | some tl =>
      cases hp : (mem tl).prev with
      | none => simp [LinkedDeque.PopBack, LinkedDeque.PopFront, LinkedDeque.mirror, hp]
      | some pv =>
        simp only [LinkedDeque.PopBack, LinkedDeque.PopFront, LinkedDeque.mirror, hp,
          Prod.mk.injEq, LinkedDeque.mk.injEq, and_true, true_and]
        funext a
        by_cases ha : a = pv
        · subst ha; simp
        · simp [Function.update_noteq ha]

theorem Linked_mirror (mem : Nat → DNode F) (addrs : List Nat) (hl : Linked mem addrs) :
    Linked (fun a => { task := (mem a).task, next := (mem a).prev, prev := (mem a).next })
      addrs.reverse := by
  intro l1 a l2 he
  have he' : addrs = l2.reverse ++ a :: l1.reverse := by
    have := congrArg List.reverse he
    simpa using this
  obtain ⟨h1, h2⟩ := hl _ _ _ he'
  simp only [h1, h2, List.getLast?_reverse, List.head?_reverse, and_self]

theorem Spine_mirror (d : LinkedDeque F) (addrs : List Nat) (hs : d.Spine addrs) :
    d.mirror.Spine addrs.reverse := by
  obtain ⟨hnd, hlt, hh, ht, hl, hsz⟩ := hs
  refine ⟨List.nodup_reverse.mpr hnd, ?_, ?_, ?_, Linked_mirror d.mem addrs hl, ?_⟩
  · intro a ha
    exact hlt a (List.mem_reverse.mp ha)
  · simp only [LinkedDeque.mirror, ht, List.head?_reverse]
  · simp only [LinkedDeque.mirror, hh, List.getLast?_reverse]
  · simp only [LinkedDeque.mirror, hsz, List.length_reverse]

theorem Refines_mirror (d : LinkedDeque F) (s : Deque F) (hr : Refines d s) :
    Refines d.mirror { tasks := s.tasks.reverse } := by
  obtain ⟨addrs, hs, ht⟩ := hr
  refine ⟨addrs.reverse, Spine_mirror d addrs hs, ?_⟩
  simp only [ht, LinkedDeque.mirror, List.map_reverse]

theorem PushFront_Spine (d : LinkedDeque F) (t : Task F) (addrs : List Nat)
    (hs : d.Spine addrs) :
    (d.PushFront t).Spine (d.fresh :: addrs) ∧ ((d.PushFront t).mem d.fresh).task = t ∧
      ∀ a ∈ addrs, ((d.PushFront t).mem a).task = (d.mem a).task := by
  obtain ⟨hnd, hlt, hh, ht, hl, hsz⟩ := hs
  have hfresh : d.fresh ∉ addrs := fun hm => absurd (hlt _ hm) (lt_irrefl _)
  have hsize : wrapInt32 (d.size + 1) = wrapInt32 ((d.fresh :: addrs).length : Nat) := by
    rw [hsz, wrapInt32_add, List.length_cons]
    push_cast
    rfl
  have hlt' : ∀ a ∈ d.fresh :: addrs, a < d.fresh + 1 := by
    intro a ha
    rcases List.mem_cons.mp ha with rfl | ha
    · exact Nat.lt_succ_self _
    · exact Nat.lt_succ_of_lt (hlt a ha)
  cases addrs with
  | nil =>
    simp only [List.head?_nil] at hh
    simp only [LinkedDeque.PushFront, hh]
    refine ⟨⟨List.nodup_cons.mpr ⟨hfresh, hnd⟩, hlt', rfl, rfl, ?_, hsize⟩, ?_, ?_⟩
    · intro l1 a l2 he
      rcases List.cons_eq_append_iff.mp he with ⟨rfl, he2⟩ | ⟨l1', rfl, he2⟩
      · obtain ⟨rfl, rfl⟩ := List.cons.inj he2
        simp
      · simp at he2
    · simp
    · intro a ha; simp at ha
  | cons hd rest =>
    simp only [List.head?_cons] at hh
    have hhd : hd ≠ d.fresh := fun he => hfresh (he ▸ List.mem_cons_self _ _)
    simp only [LinkedDeque.PushFront, hh]
    refine ⟨⟨List.nodup_cons.mpr ⟨hfresh, hnd⟩, hlt', rfl, ?_, ?_, hsize⟩, ?_, ?_⟩
    · rw [ht]; simp [List.getLast?_cons_cons]
    · intro l1 a l2 he
      rcases List.cons_eq_append_iff.mp he with ⟨rfl, he2⟩ | ⟨l1', rfl, he2⟩
      · obtain ⟨rfl, rfl⟩ := List.cons.inj he2
        simp [Function.update_noteq hhd.symm]
      · rcases List.cons_eq_append_iff.mp he2 with ⟨rfl, he3⟩ | ⟨l1'', rfl, he3⟩
        · obtain ⟨rfl, rfl⟩ := List.cons.inj he3
          obtain ⟨-, h2⟩ := hl [] a l2 rfl
          simp [Function.update_noteq hhd, h2]
        · have hmem : a ∈ rest := by rw [he3]; simp
          have hahd : a ≠ hd := by
            rintro rfl
            exact (List.nodup_cons.mp hnd).1 hmem
          have hafr : a ≠ d.fresh := by
            rintro rfl
            exact hfresh (List.mem_cons_of_mem _ hmem)
          obtain ⟨h1, h2⟩ := hl (hd :: l1'') a l2 (by rw [he3]; rfl)
          simp only [Function.update_noteq hahd, Function.update_noteq hafr, h1, h2,
            List.getLast?_cons_cons, and_self]
    · simp [Function.update_noteq hhd.symm]
    · intro a ha
      have hafr : a ≠ d.fresh := by
        rintro rfl
        exact hfresh ha
      by_cases hahd : a = hd
      · subst hahd; simp [Function.update_noteq hafr]
      · simp [Function.update_noteq hahd, Function.update_noteq hafr]

theorem PopFront_nil (d : LinkedDeque F) (hs : d.Spine []) :
    d.PopFront = ({ Node := .nil }, false, d) := by
  obtain ⟨-, -, hh, -⟩ := hs
  simp only [List.head?_nil] at hh
  simp only [LinkedDeque.PopFront, hh]

theorem PopFront_Spine (d : LinkedDeque F) (a : Nat) (rest : List Nat)
    (hs : d.Spine (a :: rest)) :
    d.PopFront.1 = (d.mem a).task ∧ d.PopFront.2.1 = true ∧ d.PopFront.2.2.Spine rest ∧
      ∀ b, (d.PopFront.2.2.mem b).task = (d.mem b).task := by
  obtain ⟨hnd, hlt, hh, ht, hl, hsz⟩ := hs
  simp only [List.head?_cons] at hh
  have hsize : wrapInt32 (d.size - 1) = wrapInt32 (rest.length : Nat) := by
    rw [hsz, sub_eq_add_neg, wrapInt32_add, List.length_cons]
    push_cast
    congr 1
    ring
  have hlt' : ∀ b ∈ rest, b < d.fresh := fun b hb => hlt b (List.mem_cons_of_mem _ hb)
  obtain ⟨-, hnext⟩ := hl [] a rest rfl
  cases rest with
  | nil =>
    simp only [List.head?_nil] at hnext
    simp only [LinkedDeque.PopFront, hh, hnext]
    refine ⟨trivial, trivial, ⟨List.nodup_nil, hlt', rfl, rfl, ?_, hsize⟩, fun _ => trivial⟩
    intro l1 x l2 he
    simp at he
  | cons nx rest' =>
    simp only [List.head?_cons] at hnext
    simp only [LinkedDeque.PopFront, hh, hnext]
    refine ⟨trivial, trivial, ⟨(List.nodup_cons.mp hnd).2, hlt', rfl, ?_, ?_, hsize⟩, ?_⟩
    · rw [ht]; simp [List.getLast?_cons_cons]
    · intro l1 x l2 he
      rcases List.cons_eq_append_iff.mp he with ⟨rfl, he2⟩ | ⟨l1', rfl, he2⟩
      · obtain ⟨rfl, rfl⟩ := List.cons.inj he2
        obtain ⟨-, h2⟩ := hl [a] x l2 rfl
        simp [h2]
      · have hmem : x ∈ rest' := by rw [he2]; simp
        have hxn : x ≠ nx := by
          rintro rfl
          exact (List.nodup_cons.mp (List.nodup_cons.mp hnd).2).1 hmem
        obtain ⟨h1, h2⟩ := hl (a :: nx :: l1') x l2 (by rw [he2]; rfl)
        simp only [Function.update_noteq hxn, h1, h2, List.getLast?_cons_cons, and_self]
    · intro b
      by_cases hb : b = nx
      · subst hb; simp
      · simp [Function.update_noteq hb]

theorem Refines_New : Refines (NewLinkedDeque : LinkedDeque F) NewDeque :=
  ⟨[], ⟨List.nodup_nil, by simp, rfl, rfl, by intro l1 a l2 he; simp at he, rfl⟩, rfl⟩

theorem Refines_PushFront (d : LinkedDeque F) (s : Deque F) (t : Task F) (hr : Refines d s) :
    Refines (d.PushFront t) (s.PushFront t) := by
  obtain ⟨addrs, hs, ht⟩ := hr
  obtain ⟨hs', h1, h2⟩ := PushFront_Spine d t addrs hs
  refine ⟨d.fresh :: addrs, hs', ?_⟩
  simp only [Deque.PushFront, ht, List.map_cons, h1, List.cons.injEq, true_and]
  exact (List.map_congr_left h2).symm

theorem Refines_of_mirror (d : LinkedDeque F) (s : Deque F)
    (hr : Refines d.mirror { tasks := s.tasks.reverse }) : Refines d s := by
  have := Refines_mirror d.mirror _ hr
  simpa [mirror_mirror] using this

theorem Refines_PushBack (d : LinkedDeque F) (s : Deque F) (t : Task F) (hr : Refines d s) :
    Refines (d.PushBack t) (s.PushBack t) := by
  apply Refines_of_mirror
  rw [PushBack_eq_mirror, mirror_mirror]
  have := Refines_PushFront d.mirror _ t (Refines_mirror d s hr)
  simpa [Deque.PushFront, Deque.PushBack] using this

theorem Refines_PopFront (d : LinkedDeque F) (s : Deque F) (hr : Refines d s) :
    d.PopFront.1 = s.PopFront.1 ∧ d.PopFront.2.1 = s.PopFront.2.1 ∧
      Refines d.PopFront.2.2 s.PopFront.2.2 ∧ (s.tasks = [] → d.PopFront.2.2 = d) := by
  obtain ⟨addrs, hs, ht⟩ := hr
  cases addrs with
  | nil =>
    simp only [List.map_nil] at ht
    rw [PopFront_nil d hs]
    simp only [Deque.PopFront, ht]
    exact ⟨trivial, trivial, ⟨[], hs, by simp [ht]⟩, fun _ => trivial⟩
  | cons a rest =>
    obtain ⟨h1, h2, h3, h4⟩ := PopFront_Spine d a rest hs
    simp only [List.map_cons] at ht
    simp only [Deque.PopFront, ht]
    refine ⟨h1, h2, ⟨rest, h3, ?_⟩, fun hne => by simp at hne⟩
    exact List.map_congr_left (fun b _ => (h4 b).symm)

theorem PopBack_reverse (s : Deque F) :
    s.PopBack.1 = (Deque.mk s.tasks.reverse).PopFront.1 ∧
    s.PopBack.2.1 = (Deque.mk s.tasks.reverse).PopFront.2.1 ∧
    (s.tasks = [] → s.PopBack.2.2 = s) ∧
    (s.tasks ≠ [] →
      s.PopBack.2.2 = { tasks := (Deque.mk s.tasks.reverse).PopFront.2.2.tasks.reverse }) := by
  cases s with
  | mk tasks =>
    simp only [Deque.PopBack, Deque.PopFront]
    cases hrev : tasks.reverse with
    | nil =>
      have : tasks = [] := by simpa using hrev
      simp [this]
    | cons t rest =>
      have : tasks ≠ [] := by
        rintro rfl
        simp at hrev
      simp [this]

theorem Refines_PopBack (d : LinkedDeque F) (s : Deque F) (hr : Refines d s) :
    d.PopBack.1 = s.PopBack.1 ∧ d.PopBack.2.1 = s.PopBack.2.1 ∧
      Refines d.PopBack.2.2 s.PopBack.2.2 ∧ (s.tasks = [] → d.PopBack.2.2 = d) := by
  obtain ⟨h1, h2, h3, h4⟩ := Refines_PopFront d.mirror _ (Refines_mirror d s hr)
  obtain ⟨g1, g2, g3, g4⟩ := PopBack_reverse s
  rw [PopBack_eq_mirror, g1, g2]
  refine ⟨h1, h2, ?_, ?_⟩
  · by_cases hne : s.tasks = []
    · have hd := h4 (by simp [hne])
      simp only [hd, mirror_mirror, g3 hne]
      exact hr
    · rw [g4 hne]
      apply Refines_of_mirror
      simpa [mirror_mirror] using h3
  · intro hne
    have hd := h4 (by simp [hne])
    simp only [hd, mirror_mirror]

theorem Refines_Len (d : LinkedDeque F) (s : Deque F) (hr : Refines d s)
    (hlen : s.tasks.length < 2147483648) : d.Len = s.Len := by
  obtain ⟨addrs, ⟨-, -, -, -, -, hsz⟩, ht⟩ := hr
  have hl : s.tasks.length = addrs.length := by rw [ht, List.length_map]
  rw [LinkedDeque.Len, Deque.Len, hsz, hl]
  apply wrapInt32_of_range
  · exact Int.natCast_nonneg _
  · rw [hl] at hlen
    exact_mod_cast hlen

theorem call_Refines (d : LinkedDeque F) (s : Deque F) (op : DequeOp F) (hr : Refines d s)
    (hlen : s.tasks.length < 2147483648) :
    (d.call op).1 = (s.call op).1 ∧ Refines (d.call op).2 (s.call op).2 ∧
      (s.call op).2.tasks.length ≤ s.tasks.length + 1 := by
  cases op with
  | pushFront t =>
    exact ⟨rfl, Refines_PushFront d s t hr, by simp [Deque.call, Deque.PushFront]⟩
  | pushBack t =>
    exact ⟨rfl, Refines_PushBack d s t hr, by simp [Deque.call, Deque.PushBack]⟩
  | popFront =>
    obtain ⟨h1, h2, h3, -⟩ := Refines_PopFront d s hr
    refine ⟨by simp only [LinkedDeque.call, Deque.call, h1, h2], h3, ?_⟩
    cases s with
    | mk tasks =>
      cases tasks with
      | nil => simp [Deque.call, Deque.PopFront]
      | cons t rest => simp [Deque.call, Deque.PopFront]; omega
  | popBack =>
    obtain ⟨h1, h2, h3, -⟩ := Refines_PopBack d s hr
    refine ⟨by simp only [LinkedDeque.call, Deque.call, h1, h2], h3, ?_⟩
    rcases PopBack_cases s with hnil | ⟨rest, t, hsn⟩
    · obtain ⟨-, -, g3, -⟩ := PopBack_reverse s
      simp only [Deque.call, g3 hnil]
      omega
    · simp only [Deque.call, PopBack_snoc s rest t hsn, hsn, List.length_append,
        List.length_singleton]
      omega
  | len =>
    exact ⟨by simp only [LinkedDeque.call, Deque.call, Refines_Len d s hr hlen], hr,
      Nat.le_succ _⟩

theorem run_Refines :
    ∀ (ops : List (DequeOp F)) (d : LinkedDeque F) (s : Deque F), Refines d s →
      s.tasks.length + ops.length < 2147483648 →
      (d.run ops).1 = (s.run ops).1 ∧ Refines (d.run ops).2 (s.run ops).2 := by
  intro ops
  induction ops with
  | nil => intro d s hr _; exact ⟨rfl, hr⟩
  | cons op ops ih =>
    intro d s hr hlen
    simp only [List.length_cons] at hlen
    obtain ⟨h1, h2, h3⟩ := call_Refines d s op hr (by omega)
    obtain ⟨g1, g2⟩ := ih _ _ h2 (by omega)
    simp only [LinkedDeque.run, Deque.run, h1, g1, true_and]
    exact g2

theorem foldl_PushFront_Refines :
    ∀ (ts : List (Task F)) (d : LinkedDeque F) (s : Deque F), Refines d s →
      Refines (ts.foldl LinkedDeque.PushFront d) { tasks := ts.reverse ++ s.tasks } := by
  intro ts
  induction ts with
  | nil => intro d s hr; exact hr
  | cons t ts ih =>
    intro d s hr
    have := ih _ _ (Refines_PushFront d s t hr)
    simpa [Deque.PushFront] using this

end LinkedList

/-! ## C19: a single worker drains the tree -/

section ClaimC19

variable {F : Type} [LinearOrderedField F]

theorem run_succ (act : Heap F → PRef → Heap F) (nP : Int) (k : Nat) (s : Phase F) :
    runWorkers act 1 nP (List.replicate (k + 1) 0) s
      = runWorkers act 1 nP (List.replicate k 0) (workerStep act 1 nP 0 s) := by
  simp [runWorkers, List.replicate_succ]

theorem taken_succ (act : Heap F → PRef → Heap F) (nP : Int) (k : Nat) (s : Phase F) :
    tasksTaken act 1 nP (List.replicate (k + 1) 0) s
      = takenAt 1 0 s ++ tasksTaken act 1 nP (List.replicate k 0) (workerStep act 1 nP 0 s) := by
  simp [tasksTaken, List.replicate_succ]

theorem run_add (act : Heap F → PRef → Heap F) (nP : Int) (k1 k2 : Nat) (s : Phase F) :
    runWorkers act 1 nP (List.replicate (k1 + k2) 0) s
      = runWorkers act 1 nP (List.replicate k2 0)
          (runWorkers act 1 nP (List.replicate k1 0) s) := by
  unfold runWorkers
  rw [List.replicate_add, List.foldl_append]

theorem taken_add (act : Heap F → PRef → Heap F) (nP : Int) (k2 : Nat) :
    ∀ (k1 : Nat) (s : Phase F),
      tasksTaken act 1 nP (List.replicate (k1 + k2) 0) s
        = tasksTaken act 1 nP (List.replicate k1 0) s
          ++ tasksTaken act 1 nP (List.replicate k2 0)
              (runWorkers act 1 nP (List.replicate k1 0) s) := by
  intro k1
  induction k1 with
  | zero => intro s; simp [tasksTaken, runWorkers]
  | succ n ih =>
    intro s
    rw [Nat.add_right_comm, taken_succ, taken_succ, run_succ, ih, List.append_assoc]

theorem Reaches_zero (act : Heap F → PRef → Heap F) (nP : Int) (s : Phase F)
    (rest : List (Task F)) (hpc : s.pc 0 = .loop) (hd : (s.deques 0).tasks = rest) :
    Reaches act nP s 0 rest [] [] := by
  exact ⟨hpc, hd, by simp [runWorkers], rfl, rfl, rfl⟩

theorem Reaches_trans (act : Heap F → PRef → Heap F) (nP : Int) (s : Phase F) (k1 k2 : Nat)
    (rest1 rest2 : List (Task F)) (ps1 ps2 : List PRef) (ns1 ns2 : List (BarnesHutNode F))
    (h1 : Reaches act nP s k1 rest1 ps1 ns1)
    (h2 : Reaches act nP (runWorkers act 1 nP (List.replicate k1 0) s) k2 rest2 ps2 ns2) :
    Reaches act nP s (k1 + k2) rest2 (ps1 ++ ps2) (ns1 ++ ns2) := by
  obtain ⟨a1, a2, a3, a4, a5, a6⟩ := h1
  obtain ⟨b1, b2, b3, b4, b5, b6⟩ := h2
  unfold Reaches
  rw [run_add, taken_add]
  refine ⟨b1, b2, ?_, ?_, ?_, ?_⟩
  · rw [b3, a3, List.append_assoc]
  · rw [b4, a4, List.foldl_append]
  · rw [b5, a5, List.length_append, Nat.add_comm, Function.iterate_add_apply]
  · rw [a6, b6]

theorem view_setPC_pushChild (c' : PC F) (child : BarnesHutNode F) (s : Phase F) :
    workerView (setPC 0 c' (pushChild 0 child s))
      = (c', optTask child ++ (s.deques 0).tasks, s.log, s.heap, s.tasksProcessed) := by
  unfold pushChild optTask
  split_ifs <;> simp [setPC, workerView, Deque.PushFront]

theorem view_loop_pop (act : Heap F → PRef → Heap F) (nP : Int) (s : Phase F) (t : Task F)
    (rest : List (Task F)) (lg : List PRef) (hp : Heap F) (tp : Int)
    (hv : workerView s = (.loop, t :: rest, lg, hp, tp)) :
    workerView (workerStep act 1 nP 0 s) = (.proc t.Node 0, rest, lg, hp, tp) ∧
      takenAt 1 0 s = [t.Node] := by
  simp only [workerView, Prod.mk.injEq] at hv
  obtain ⟨hpc, hd, hl, hh, ht⟩ := hv
  have hpop : (s.deques 0).PopFront = (t, true, { tasks := rest }) := by
    simp only [Deque.PopFront, hd]
  simp [workerStep, hpc, loopStep, hpop, setPC, workerView, takenAt, hl, hh, ht]

theorem view_loop_empty (act : Heap F → PRef → Heap F) (nP : Int) (s : Phase F)
    (lg : List PRef) (hp : Heap F) (tp : Int)
    (hv : workerView s = (.loop, [], lg, hp, tp)) :
    workerView (workerStep act 1 nP 0 s) = (.steal 0, [], lg, hp, tp) ∧
      takenAt 1 0 s = [] := by
  simp only [workerView, Prod.mk.injEq] at hv
  obtain ⟨hpc, hd, hl, hh, ht⟩ := hv
  have hpop : (s.deques 0).PopFront = ({ Node := .nil }, false, s.deques 0) := by
    simp only [Deque.PopFront, hd]
  simp [workerStep, hpc, loopStep, hpop, setPC, workerView, takenAt, hl, hh, ht, hd]

theorem view_steal (act : Heap F → PRef → Heap F) (nP : Int) (s : Phase F) (i : Nat)
    (q : List (Task F)) (lg : List PRef) (hp : Heap F) (tp : Int)
    (hv : workerView s = (.steal i, q, lg, hp, tp)) :
    workerView (workerStep act 1 nP 0 s)
      = (if i < 1 then .steal (i + 1) else .check, q, lg, hp, tp) ∧
      takenAt 1 0 s = [] := by
  simp only [workerView, Prod.mk.injEq] at hv
  obtain ⟨hpc, hd, hl, hh, ht⟩ := hv
  by_cases hi : i < 1
  · simp [workerStep, hpc, stealStep, hi, Nat.mod_one, setPC, workerView, takenAt, hl, hh, ht, hd]
  · simp [workerStep, hpc, stealStep, hi, setPC, workerView, takenAt, hl, hh, ht, hd]

theorem view_check (act : Heap F → PRef → Heap F) (nP : Int) (s : Phase F)
    (q : List (Task F)) (lg : List PRef) (hp : Heap F) (tp : Int)
    (hv : workerView s = (.check, q, lg, hp, tp)) (hge : tp ≥ wrapInt32 nP) :
    workerView (workerStep act 1 nP 0 s) = (.done, q, lg, hp, tp) ∧ takenAt 1 0 s = [] := by
  simp only [workerView, Prod.mk.injEq] at hv
  obtain ⟨hpc, hd, hl, hh, ht⟩ := hv
  have hge' : s.tasksProcessed ≥ wrapInt32 nP := by rw [ht]; exact hge
  have hstep : workerStep act 1 nP 0 s = setPC 0 .done s := by
    simp only [workerStep, hpc, checkStep, hge', if_true]
  rw [hstep]
  simp [setPC, workerView, takenAt, hpc, hl, hh, ht, hd]

theorem view_push (act : Heap F → PRef → Heap F) (nP : Int) (s : Phase F) (c : Cell F)
    (part : Option PRef) (tl bl tr br : BarnesHutNode F) (k : Nat) (hk : k < 4)
    (q : List (Task F)) (lg : List PRef) (hp : Heap F) (tp : Int)
    (hv : workerView s = (.proc (.node c part tl bl tr br) k, q, lg, hp, tp)) :
    workerView (workerStep act 1 nP 0 s)
      = (.proc (.node c part tl bl tr br) (k + 1),
          optTask (match k with | 0 => tl | 1 => tr | 2 => bl | _ => br) ++ q, lg, hp, tp) ∧
      takenAt 1 0 s = [] := by
  simp only [workerView, Prod.mk.injEq] at hv
  obtain ⟨hpc, hd, hl, hh, ht⟩ := hv
  have ht0 : takenAt 1 0 s = [] := by simp [takenAt, hpc]
  refine ⟨?_, ht0⟩
  match k, hk with
  | 0, _ => simp only [workerStep, hpc, procStep, view_setPC_pushChild, hd, hl, hh, ht]
  | 1, _ => simp only [workerStep, hpc, procStep, view_setPC_pushChild, hd, hl, hh, ht]
  | 2, _ => simp only [workerStep, hpc, procStep, view_setPC_pushChild, hd, hl, hh, ht]
  | 3, _ => simp only [workerStep, hpc, procStep, view_setPC_pushChild, hd, hl, hh, ht]

theorem view_update (act : Heap F → PRef → Heap F) (nP : Int) (s : Phase F) (c : Cell F)
    (p : PRef) (tl bl tr br : BarnesHutNode F)
    (q : List (Task F)) (lg : List PRef) (hp : Heap F) (tp : Int)
    (hv : workerView s = (.proc (.node c (some p) tl bl tr br) 4, q, lg, hp, tp)) :
    workerView (workerStep act 1 nP 0 s)
      = (.proc (.node c (some p) tl bl tr br) 5, q, lg ++ [p], act hp p, tp) ∧
      takenAt 1 0 s = [] := by
  simp only [workerView, Prod.mk.injEq] at hv
  obtain ⟨hpc, hd, hl, hh, ht⟩ := hv
  simp [workerStep, hpc, procStep, leafAction, setPC, workerView, takenAt, hl, hh, ht, hd]

theorem view_count (act : Heap F → PRef → Heap F) (nP : Int) (s : Phase F) (c : Cell F)
    (part : Option PRef) (tl bl tr br : BarnesHutNode F)
    (q : List (Task F)) (lg : List PRef) (hp : Heap F) (tp : Int)
    (hv : workerView s = (.proc (.node c part tl bl tr br) 5, q, lg, hp, tp)) :
    workerView (workerStep act 1 nP 0 s) = (.loop, q, lg, hp, wrapInt32 (tp + 1)) ∧
      takenAt 1 0 s = [] := by
  simp only [workerView, Prod.mk.injEq] at hv
  obtain ⟨hpc, hd, hl, hh, ht⟩ := hv
  simp [workerStep, hpc, procStep, countTask, setPC, workerView, takenAt, hl, hh, ht, hd]

theorem view_skip (act : Heap F → PRef → Heap F) (nP : Int) (s : Phase F) (c : Cell F)
    (tl bl tr br : BarnesHutNode F)
    (q : List (Task F)) (lg : List PRef) (hp : Heap F) (tp : Int)
    (hv : workerView s = (.proc (.node c none tl bl tr br) 4, q, lg, hp, tp)) :
    workerView (workerStep act 1 nP 0 s) = (.loop, q, lg, hp, tp) ∧ takenAt 1 0 s = [] := by
  simp only [workerView, Prod.mk.injEq] at hv
  obtain ⟨hpc, hd, hl, hh, ht⟩ := hv
  simp [workerStep, hpc, procStep, setPC, workerView, takenAt, hl, hh, ht, hd]

theorem run_zero (act : Heap F → PRef → Heap F) (nP : Int) (s : Phase F) :
    runWorkers act 1 nP (List.replicate 0 0) s = s := rfl

theorem taken_zero (act : Heap F → PRef → Heap F) (nP : Int) (s : Phase F) :
    tasksTaken act 1 nP (List.replicate 0 0) s = [] := rfl

/-- One task of a non-nil node, from the head of the loop: the worker takes
it, pushes the children that exist, updates and counts the particle if the
node holds one, and is back at the head of the loop. -/
theorem Reaches_node (act : Heap F → PRef → Heap F) (nP : Int) (s : Phase F) (c : Cell F)
    (part : Option PRef) (tl bl tr br : BarnesHutNode F) (rest : List (Task F))
    (hpc : s.pc 0 = .loop)
    (hd : (s.deques 0).tasks = { Node := .node c part tl bl tr br } :: rest) :
    ∃ k, Reaches act nP s k (optTask br ++ (optTask bl ++ (optTask tr ++ (optTask tl ++ rest))))
      part.toList [.node c part tl bl tr br] := by
  have hv0 : workerView s
      = (.loop, { Node := .node c part tl bl tr br } :: rest, s.log, s.heap,
          s.tasksProcessed) := by
    simp only [workerView, hpc, hd]
  obtain ⟨v1, t1⟩ := view_loop_pop act nP s _ _ _ _ _ hv0
  obtain ⟨v2, t2⟩ := view_push act nP _ c part tl bl tr br 0 (by omega) _ _ _ _ v1
  obtain ⟨v3, t3⟩ := view_push act nP _ c part tl bl tr br 1 (by omega) _ _ _ _ v2
  obtain ⟨v4, t4⟩ := view_push act nP _ c part tl bl tr br 2 (by omega) _ _ _ _ v3
  obtain ⟨v5, t5⟩ := view_push act nP _ c part tl bl tr br 3 (by omega) _ _ _ _ v4
  cases part with
  | none =>
    obtain ⟨v6, t6⟩ := view_skip act nP _ c tl bl tr br _ _ _ _ v5
    refine ⟨6, ?_⟩
    unfold Reaches
    simp only [run_succ, taken_succ, run_zero, taken_zero, t1, t2, t3, t4, t5, t6]
    simp only [workerView, Prod.mk.injEq] at v6
    obtain ⟨a1, a2, a3, a4, a5⟩ := v6
    exact ⟨a1, a2, by simp [a3], by simp [a4], by simp [a5], rfl⟩
  | some p =>
    obtain ⟨v6, t6⟩ := view_update act nP _ c p tl bl tr br _ _ _ _ v5
    obtain ⟨v7, t7⟩ := view_count act nP _ c (some p) tl bl tr br _ _ _ _ v6
    refine ⟨7, ?_⟩
    unfold Reaches
    simp only [run_succ, taken_succ, run_zero, taken_zero, t1, t2, t3, t4, t5, t6, t7]
    simp only [workerView, Prod.mk.injEq] at v7
    obtain ⟨a1, a2, a3, a4, a5⟩ := v7
    exact ⟨a1, a2, by simp [a3], by simp [a4], by simp [a5], rfl⟩

/-- The worker drains the subtree of a task: from the head of the loop with
the task of `t` (if `t` is not nil) in front of `rest`, it comes back to the
head of the loop with `rest`, having taken every node of `t` and updated and
counted every particle of `t`. -/
theorem Reaches_subtree (act : Heap F → PRef → Heap F) (nP : Int) :
    ∀ (t : BarnesHutNode F) (s : Phase F) (rest : List (Task F)), s.pc 0 = .loop →
      (s.deques 0).tasks = optTask t ++ rest →
      ∃ k, Reaches act nP s k rest (workerParticles t) (workerNodes t) := by
  intro t
  induction t with
  | nil =>
    intro s rest hpc hd
    exact ⟨0, Reaches_zero act nP s rest hpc (by simpa [optTask, BarnesHutNode.isNil] using hd)⟩
  | node c part tl bl tr br ih_tl ih_bl ih_tr ih_br =>
    intro s rest hpc hd
    simp only [optTask, BarnesHutNode.isNil, Bool.false_eq_true, if_false, List.singleton_append]
      at hd
    obtain ⟨k0, r0⟩ := Reaches_node act nP s c part tl bl tr br rest hpc hd
    obtain ⟨k1, r1⟩ := ih_br _ _ r0.1 r0.2.1
    have r01 := Reaches_trans act nP s k0 k1 _ _ _ _ _ _ r0 r1
    obtain ⟨k2, r2⟩ := ih_bl _ _ r01.1 r01.2.1
    have r02 := Reaches_trans act nP s (k0 + k1) k2 _ _ _ _ _ _ r01 r2
    obtain ⟨k3, r3⟩ := ih_tr _ _ r02.1 r02.2.1
    have r03 := Reaches_trans act nP s (k0 + k1 + k2) k3 _ _ _ _ _ _ r02 r3
    obtain ⟨k4, r4⟩ := ih_tl _ _ r03.1 r03.2.1
    have r04 := Reaches_trans act nP s (k0 + k1 + k2 + k3) k4 _ _ _ _ _ _ r03 r4
    refine ⟨k0 + k1 + k2 + k3 + k4, ?_⟩
    simpa [workerParticles, workerNodes, List.append_assoc] using r04

/-- With its deque empty and the counter at `nParticles`, the single worker
finds nothing to steal, passes the test on the counter and returns. -/
theorem Reaches_exit (act : Heap F → PRef → Heap F) (nP : Int) (s : Phase F)
    (hpc : s.pc 0 = .loop) (hd : (s.deques 0).tasks = [])
    (hge : s.tasksProcessed ≥ wrapInt32 nP) :
    workerView (runWorkers act 1 nP (List.replicate 4 0) s)
        = (.done, [], s.log, s.heap, s.tasksProcessed) ∧
      tasksTaken act 1 nP (List.replicate 4 0) s = [] := by
  have hv0 : workerView s = (.loop, [], s.log, s.heap, s.tasksProcessed) := by
    simp only [workerView, hpc, hd]
  obtain ⟨v1, t1⟩ := view_loop_empty act nP s _ _ _ hv0
  obtain ⟨v2, t2⟩ := view_steal act nP _ 0 _ _ _ _ v1
  simp only [Nat.lt_one_iff, if_true, zero_add] at v2
  obtain ⟨v3, t3⟩ := view_steal act nP _ 1 _ _ _ _ v2
  simp only [lt_self_iff_false, if_false] at v3
  obtain ⟨v4, t4⟩ := view_check act nP _ _ _ _ _ v3 hge
  simp only [run_succ, taken_succ, run_zero, taken_zero, t1, t2, t3, t4, v4, List.append_nil,
    and_self]

theorem iterate_count (n : Nat) :
    ∀ x : Int, 0 ≤ x → x + n < 2147483648 → (fun x => wrapInt32 (x + 1))^[n] x = x + n := by
  induction n with
  | zero => intro x _ _; simp
  | succ m ih =>
    intro x h0 h1
    push_cast at h1
    rw [Function.iterate_succ_apply, wrapInt32_of_range (x + 1) (by omega) (by omega),
      ih (x + 1) (by omega) (by omega)]
    push_cast
    ring

theorem perm_reverse4 {α : Type} (a b c d a' b' c' d' : List α) (ha : a.Perm a')
    (hb : b.Perm b') (hc : c.Perm c') (hd : d.Perm d') :
    (d ++ (c ++ (b ++ a))).Perm (a' ++ (b' ++ (c' ++ d'))) := by
  have h1 : (d ++ (c ++ (b ++ a))).Perm (d' ++ (c' ++ (b' ++ a'))) :=
    hd.append (hc.append (hb.append ha))
  have h2 : (d' ++ (c' ++ (b' ++ a'))).Perm ((c' ++ (b' ++ a')) ++ d') := List.perm_append_comm
  have h3 : (c' ++ (b' ++ a')).Perm ((b' ++ a') ++ c') := List.perm_append_comm
  have h4 : (b' ++ a').Perm (a' ++ b') := List.perm_append_comm
  have h5 : ((c' ++ (b' ++ a')) ++ d').Perm (((a' ++ b') ++ c') ++ d') :=
    (h3.trans (h4.append_right c')).append_right d'
  have h6 : (((a' ++ b') ++ c') ++ d') = a' ++ (b' ++ (c' ++ d')) := by
    simp only [List.append_assoc]
  exact h1.trans (h2.trans (h6 ▸ h5))

theorem workerParticles_perm :
    ∀ t : BarnesHutNode F, (workerParticles t).Perm (particles t) := by
  intro t
  induction t with
  | nil => exact List.Perm.refl _
  | node c part tl bl tr br ih_tl ih_bl ih_tr ih_br =>
    simp only [workerParticles, particles]
    exact (perm_reverse4 _ _ _ _ _ _ _ _ ih_tl ih_tr ih_bl ih_br).append_left _

theorem workerNodes_perm :
    ∀ t : BarnesHutNode F, (workerNodes t).Perm (nodes t) := by
  intro t
  induction t with
  | nil => exact List.Perm.refl _
  | node c part tl bl tr br ih_tl ih_bl ih_tr ih_br =>
    simp only [workerNodes, nodes]
    exact (perm_reverse4 _ _ _ _ _ _ _ _ ih_tl ih_tr ih_bl ih_br).cons _

theorem length_flatMap_toList {α β : Type} (f : α → Option β) :
    ∀ l : List α,
      (l.flatMap (fun a => (f a).toList)).length = (l.filter (fun a => (f a).isSome)).length := by
  intro l
  induction l with
  | nil => rfl
  | cons a l ih =>
    rw [List.flatMap_cons, List.length_append, ih]
    cases hfa : f a
    · simp [List.filter_cons, hfa]
    · simp [List.filter_cons, hfa]
      omega

/-- C19. With a single worker, whose deque holds the root task, on a tree the
insertion loop has built that holds exactly `nParticles` particles (fewer than
`2^31`, the range of the `int32` counter), the worker loop of a phase
terminates: after some number of steps the worker has returned. Until then it
has taken every node of the tree from its deque exactly once, has applied the
update of the phase (`act`: `CalcVelocity` in `calcVelocityWorker`, the position
update in `updatePositionWorker`) exactly once to each particle, and has
incremented `tasksProcessed` once per node that holds a particle, so that it
ends with `tasksProcessed = nParticles` and an empty deque. With
`nParticles = 0` it ends with the particle store as it was. -/
theorem C19_single_worker_drains_tree (act : Heap F → PRef → Heap F) (h : Heap F)
    (fuel : Nat) (leftX rightX botY topY : F) (ps : List PRef) (root : BarnesHutNode F)
    (nParticles : Nat)
    (hbuild : insertAll h fuel (CreateNode leftX rightX botY topY none) ps = .ok root)
    (hcount : (particles root).length = nParticles) (hlt : nParticles < 2147483648) :
    ∃ k : Nat,
      phaseDone 1 (runWorkers act 1 nParticles (List.replicate k 0) (startPhase h root)) = true ∧
      (tasksTaken act 1 nParticles (List.replicate k 0) (startPhase h root)).Perm (nodes root) ∧
      (runWorkers act 1 nParticles (List.replicate k 0) (startPhase h root)).log.Perm
        (particles root) ∧
      (runWorkers act 1 nParticles (List.replicate k 0) (startPhase h root)).heap
        = (runWorkers act 1 nParticles (List.replicate k 0) (startPhase h root)).log.foldl act h ∧
      (runWorkers act 1 nParticles (List.replicate k 0) (startPhase h root)).tasksProcessed
        = nParticles ∧
      (runWorkers act 1 nParticles (List.replicate k 0) (startPhase h root)).tasksProcessed
        = ((nodes root).filter (fun n => n.part.isSome)).length ∧
      ((runWorkers act 1 nParticles (List.replicate k 0) (startPhase h root)).deques 0).tasks
        = [] ∧
      (nParticles = 0 →
        (runWorkers act 1 nParticles (List.replicate k 0) (startPhase h root)).heap = h) := by
  have hne : root ≠ .nil :=
    Regular_ne_nil _ (built_Regular h fuel leftX rightX botY topY ps root hbuild)
  have hopt : optTask root = [{ Node := root }] := by
    simp [optTask, (isNil_false_iff root).mpr hne]
  obtain ⟨k, r1, r2, r3, r4, r5, r6⟩ := Reaches_subtree act nParticles root
    (startPhase h root) [] rfl (by simp [startPhase, Deque.PushFront, NewDeque, hopt])
  have hlen : (workerParticles root).length = nParticles := by
    rw [(workerParticles_perm root).length_eq, hcount]
  have htp : (runWorkers act 1 nParticles (List.replicate k 0) (startPhase h root)).tasksProcessed
      = nParticles := by
    rw [r5, hlen]
    have := iterate_count nParticles 0 (le_refl _) (by simp only [zero_add]; exact_mod_cast hlt)
    simpa [startPhase] using this
  obtain ⟨v, tk⟩ := Reaches_exit act nParticles _ r1 r2
    (by rw [htp, wrapInt32_of_range _ (Int.natCast_nonneg _) (by exact_mod_cast hlt)])
  rw [← run_add] at v
  simp only [workerView, Prod.mk.injEq] at v
  obtain ⟨a1, a2, a3, a4, a5⟩ := v
  have hlog : (runWorkers act 1 nParticles (List.replicate (k + 4) 0) (startPhase h root)).log
      = workerParticles root := by
    rw [a3, r3]; rfl
  have hheap : (runWorkers act 1 nParticles (List.replicate (k + 4) 0) (startPhase h root)).heap
      = (workerParticles root).foldl act h := by
    rw [a4, r4]; rfl
  refine ⟨k + 4, ?_, ?_, ?_, ?_, ?_, ?_, a2, ?_⟩
  · simp [phaseDone, a1, PC.isDone]
  · rw [taken_add, tk, r6, List.append_nil]
    exact workerNodes_perm root
  · rw [hlog]
    exact workerParticles_perm root
  · rw [hlog, hheap]
  · rw [a5, htp]
  · rw [a5, htp, ← hcount, ← nodes_bind_part root, length_flatMap_toList]
  · intro h0
    have hnil : workerParticles root = [] := List.length_eq_zero.mp (by rw [hlen, h0])
    rw [hheap, hnil]
    rfl

/-- C19 at the four-corner tree, for the position phase with `dt = 1`. -/
theorem C19_single_worker_drains_tree_witness :
    ∃ k : Nat,
      phaseDone 1 (runWorkers (fun h p => updatePosition h p 1) 1 (4 : Nat)
        (List.replicate k 0) (startPhase cornersHeap cornersTree)) = true ∧
      (tasksTaken (fun h p => updatePosition h p 1) 1 (4 : Nat) (List.replicate k 0)
        (startPhase cornersHeap cornersTree)).Perm (nodes cornersTree) ∧
      (runWorkers (fun h p => updatePosition h p 1) 1 (4 : Nat) (List.replicate k 0)
        (startPhase cornersHeap cornersTree)).log.Perm (particles cornersTree) ∧
      (runWorkers (fun h p => updatePosition h p 1) 1 (4 : Nat) (List.replicate k 0)
        (startPhase cornersHeap cornersTree)).heap
        = (runWorkers (fun h p => updatePosition h p 1) 1 (4 : Nat) (List.replicate k 0)
            (startPhase cornersHeap cornersTree)).log.foldl
              (fun h p => updatePosition h p 1) cornersHeap ∧
      (runWorkers (fun h p => updatePosition h p 1) 1 (4 : Nat) (List.replicate k 0)
        (startPhase cornersHeap cornersTree)).tasksProcessed = (4 : Nat) ∧
      (runWorkers (fun h p => updatePosition h p 1) 1 (4 : Nat) (List.replicate k 0)
        (startPhase cornersHeap cornersTree)).tasksProcessed
        = ((nodes cornersTree).filter (fun n => n.part.isSome)).length ∧
      ((runWorkers (fun h p => updatePosition h p 1) 1 (4 : Nat) (List.replicate k 0)
        (startPhase cornersHeap cornersTree)).deques 0).tasks = [] ∧
      ((4 : Nat) = 0 →
        (runWorkers (fun h p => updatePosition h p 1) 1 (4 : Nat) (List.replicate k 0)
          (startPhase cornersHeap cornersTree)).heap = cornersHeap) :=
  C19_single_worker_drains_tree (fun h p => updatePosition h p 1) cornersHeap 3 (-2) 2 (-2) 2
    [0, 1, 2, 3] cornersTree 4 cornersTree_built rfl (by decide)

end ClaimC19

/-! ## C21: the unguarded reads of `CalcCenterOfMassParallel` -/

section ClaimC21

variable {F : Type} [LinearOrderedField F]

theorem accumulatePar_nil (acc : F × F × F) :
    accumulatePar acc (.nil : BarnesHutNode F) = .error .nilDeref := rfl

theorem accumulatePar_node (acc : F × F × F) (cc : Cell F) (part : Option PRef)
    (tl bl tr br : BarnesHutNode F) :
    accumulatePar acc (.node cc part tl bl tr br)
      = .ok (accumulate acc (.node cc part tl bl tr br)) :=
  accumulatePar_eq acc _ (by simp)

/-- The reduction step of `CalcCenterOfMassParallel` at a node that has a
child, given that each child call faults by a nil dereference or returns a
node exactly when it was given one: the call faults by a nil dereference, or
all four children are present and it returns a node. -/
theorem CalcCenterOfMassParallel_step (h : Heap F) (numThreads : Int) (c : Cell F)
    (part : Option PRef) (tl bl tr br : BarnesHutNode F)
    (ih_tl : ∀ a : Int, CalcCenterOfMassParallel h a numThreads tl = .error .nilDeref ∨
      ∃ t', CalcCenterOfMassParallel h a numThreads tl = .ok t' ∧ t'.isNil = tl.isNil)
    (ih_bl : ∀ a : Int, CalcCenterOfMassParallel h a numThreads bl = .error .nilDeref ∨
      ∃ t', CalcCenterOfMassParallel h a numThreads bl = .ok t' ∧ t'.isNil = bl.isNil)
    (ih_tr : ∀ a : Int, CalcCenterOfMassParallel h a numThreads tr = .error .nilDeref ∨
      ∃ t', CalcCenterOfMassParallel h a numThreads tr = .ok t' ∧ t'.isNil = tr.isNil)
    (ih_br : ∀ a : Int, CalcCenterOfMassParallel h a numThreads br = .error .nilDeref ∨
      ∃ t', CalcCenterOfMassParallel h a numThreads br = .ok t' ∧ t'.isNil = br.isNil)
    (hcond : ¬ (tl.isNil && tr.isNil && bl.isNil && br.isNil) = true) (a : Int) :
    CalcCenterOfMassParallel h a numThreads (.node c part tl bl tr br) = .error .nilDeref ∨
      (tl.isNil = false ∧ tr.isNil = false ∧ bl.isNil = false ∧ br.isNil = false ∧
        ∃ t', CalcCenterOfMassParallel h a numThreads (.node c part tl bl tr br) = .ok t' ∧
          t'.isNil = false) := by
  have e1 : (if a < numThreads then CalcCenterOfMassParallel h (a + 1) numThreads tl
      else CalcCenterOfMassParallel h a numThreads tl) = .error .nilDeref ∨
      ∃ t', (if a < numThreads then CalcCenterOfMassParallel h (a + 1) numThreads tl
        else CalcCenterOfMassParallel h a numThreads tl) = .ok t' ∧ t'.isNil = tl.isNil := by
    split_ifs <;> exact ih_tl _
  have e2 : (if a < numThreads then CalcCenterOfMassParallel h (a + 1) numThreads tr
      else CalcCenterOfMassParallel h a numThreads tr) = .error .nilDeref ∨
      ∃ t', (if a < numThreads then CalcCenterOfMassParallel h (a + 1) numThreads tr
        else CalcCenterOfMassParallel h a numThreads tr) = .ok t' ∧ t'.isNil = tr.isNil := by
    split_ifs <;> exact ih_tr _
  have e3 : (if a < numThreads then CalcCenterOfMassParallel h (a + 1) numThreads bl
      else CalcCenterOfMassParallel h a numThreads bl) = .error .nilDeref ∨
      ∃ t', (if a < numThreads then CalcCenterOfMassParallel h (a + 1) numThreads bl
        else CalcCenterOfMassParallel h a numThreads bl) = .ok t' ∧ t'.isNil = bl.isNil := by
    split_ifs <;> exact ih_bl _
  have e4 : (if a < numThreads then CalcCenterOfMassParallel h (a + 1) numThreads br
      else CalcCenterOfMassParallel h a numThreads br) = .error .nilDeref ∨
      ∃ t', (if a < numThreads then CalcCenterOfMassParallel h (a + 1) numThreads br
        else CalcCenterOfMassParallel h a numThreads br) = .ok t' ∧ t'.isNil = br.isNil := by
    split_ifs <;> exact ih_br _
  simp only [CalcCenterOfMassParallel, hcond, Bool.false_eq_true, if_false]
  rcases e1 with e1 | ⟨tl1, e1, n1⟩
  · left; simp only [e1]
  rcases e2 with e2 | ⟨tr1, e2, n2⟩
  · left; simp only [e1, e2]
  rcases e3 with e3 | ⟨bl1, e3, n3⟩
  · left; simp only [e1, e2, e3]
  rcases e4 with e4 | ⟨br1, e4, n4⟩
  · left; simp only [e1, e2, e3, e4]
  simp only [e1, e2, e3, e4]
  cases tl1 with
  | nil => left; rfl
  | node c1 p1 a1 b1 c1' d1 =>
  cases tr1 with
  | nil => left; simp only [accumulatePar_node, accumulatePar_nil]
  | node c2 p2 a2 b2 c2' d2 =>
  cases bl1 with
  | nil => left; simp only [accumulatePar_node, accumulatePar_nil]
  | node c3 p3 a3 b3 c3' d3 =>
  cases br1 with
  | nil => left; simp only [accumulatePar_node, accumulatePar_nil]
  | node c4 p4 a4 b4 c4' d4 =>
    right
    simp only [accumulatePar_node]
    exact ⟨n1.symm, n2.symm, n3.symm, n4.symm, _, rfl, rfl⟩

/-- The only fault of `CalcCenterOfMassParallel` is the read of a field of an
absent child, and a call that returns gives back a node exactly when it was
given one. -/
theorem CalcCenterOfMassParallel_cases (h : Heap F) (numThreads : Int) :
    ∀ (t : BarnesHutNode F) (a : Int),
      CalcCenterOfMassParallel h a numThreads t = .error .nilDeref ∨
      ∃ t', CalcCenterOfMassParallel h a numThreads t = .ok t' ∧ t'.isNil = t.isNil := by
  intro t
  induction t with
  | nil => intro a; exact Or.inr ⟨.nil, rfl, rfl⟩
  | node c part tl bl tr br ih_tl ih_bl ih_tr ih_br =>
    intro a
    by_cases hcond : (tl.isNil && tr.isNil && bl.isNil && br.isNil) = true
    · right
      cases part with
      | none =>
        exact ⟨.node c none tl bl tr br,
          by simp only [CalcCenterOfMassParallel, hcond, if_true], rfl⟩
      | some p =>
        exact ⟨.node { c with totalMass := 1, comX := (h p).x, comY := (h p).y } (some p)
          tl bl tr br, by simp only [CalcCenterOfMassParallel, hcond, if_true], rfl⟩
    · rcases CalcCenterOfMassParallel_step h numThreads c part tl bl tr br ih_tl ih_bl ih_tr
        ih_br hcond a with he | ⟨-, -, -, -, t', he, hn⟩
      · exact Or.inl he
      · exact Or.inr ⟨t', he, hn⟩

/-- At a node with some but not all children `CalcCenterOfMassParallel` reads a
field of an absent child (here or below). -/
theorem CalcCenterOfMassParallel_partial (h : Heap F) (numThreads : Int) (c : Cell F)
    (part : Option PRef) (tl bl tr br : BarnesHutNode F) (a : Int)
    (hsome : tl ≠ .nil ∨ tr ≠ .nil ∨ bl ≠ .nil ∨ br ≠ .nil)
    (hnot : tl = .nil ∨ tr = .nil ∨ bl = .nil ∨ br = .nil) :
    CalcCenterOfMassParallel h a numThreads (.node c part tl bl tr br) = .error .nilDeref := by
  have hcond : ¬ (tl.isNil && tr.isNil && bl.isNil && br.isNil) = true := by
    simp only [Bool.and_eq_true, isNil_iff]
    rintro ⟨⟨⟨r1, r2⟩, r3⟩, r4⟩
    rcases hsome with hs | hs | hs | hs
    · exact hs r1
    · exact hs r2
    · exact hs r3
    · exact hs r4
  rcases CalcCenterOfMassParallel_step h numThreads c part tl bl tr br
    (CalcCenterOfMassParallel_cases h numThreads tl) (CalcCenterOfMassParallel_cases h numThreads bl)
    (CalcCenterOfMassParallel_cases h numThreads tr) (CalcCenterOfMassParallel_cases h numThreads br)
    hcond a with he | ⟨n1, n2, n3, n4, -⟩
  · exact he
  · rw [isNil_false_iff] at n1 n2 n3 n4
    rcases hnot with hn | hn | hn | hn
    · exact absurd hn n1
    · exact absurd hn n2
    · exact absurd hn n3
    · exact absurd hn n4

theorem Regular_nodes :
    ∀ t : BarnesHutNode F, Regular t → ∀ n ∈ nodes t, Regular n := by
  intro t
  induction t with
  | nil => intro hr; simp [Regular] at hr
  | node c part tl bl tr br ih_tl ih_bl ih_tr ih_br =>
    intro hr n hn
    have hr' := hr
    rw [Regular] at hr'
    simp only [nodes, List.mem_cons, List.mem_append] at hn
    rcases hr' with ⟨rfl, rfl, rfl, rfl, -⟩ | ⟨rfl, h1, h2, h3, h4⟩
    · simp only [nodes, List.not_mem_nil, or_false] at hn
      subst hn
      exact hr
    · rcases hn with rfl | hn | hn | hn | hn
      · exact hr
      · exact ih_tl h1 n hn
      · exact ih_tr h3 n hn
      · exact ih_bl h2 n hn
      · exact ih_br h4 n hn

/-- C21. On a tree the insertion loop has built from an empty root,
`CalcCenterOfMassParallel` (read sequentially, for every value of the counter
and of the cap) reads no field of an absent child: it returns a tree, and at
every node of the tree either no child is present, where the reads
`node.topLeft.totalMass`, ..., `node.botRight.totalMass` are not reached, or all
four are. On a node with some but not all children, built or not, the call
does read a field of an absent child: it faults by a nil dereference. -/
theorem C21_no_nil_dereference_on_built_trees (h : Heap F) (fuel : Nat)
    (leftX rightX botY topY : F) (ps : List PRef) (root : BarnesHutNode F)
    (hbuild : insertAll h fuel (CreateNode leftX rightX botY topY none) ps = .ok root) :
    (∀ activeThreads numThreads : Int,
      (∃ root', CalcCenterOfMassParallel h activeThreads numThreads root = .ok root') ∧
      CalcCenterOfMassParallel h activeThreads numThreads root ≠ .error .nilDeref) ∧
    (∀ n ∈ nodes root,
      (∀ Q, getChild n Q = .nil) ∨
      ((∀ Q, getChild n Q ≠ .nil) ∧ ∀ activeThreads numThreads : Int,
        CalcCenterOfMassParallel h activeThreads numThreads n ≠ .error .nilDeref)) ∧
    (∀ (c : Cell F) (part : Option PRef) (tl bl tr br : BarnesHutNode F)
      (activeThreads numThreads : Int),
      (tl ≠ .nil ∨ tr ≠ .nil ∨ bl ≠ .nil ∨ br ≠ .nil) →
      (tl = .nil ∨ tr = .nil ∨ bl = .nil ∨ br = .nil) →
      CalcCenterOfMassParallel h activeThreads numThreads (.node c part tl bl tr br)
        = .error .nilDeref) := by
  have hr := built_Regular h fuel leftX rightX botY topY ps root hbuild
  refine ⟨?_, ?_, ?_⟩
  · intro a n
    rw [CalcCenterOfMassParallel_eq_serial h n root hr a]
    exact ⟨⟨_, rfl⟩, by simp⟩
  · intro n hn
    rcases Regular_four_or_none root hr n hn with hnone | hall
    · exact Or.inl hnone
    · refine Or.inr ⟨hall, ?_⟩
      intro a m
      rw [CalcCenterOfMassParallel_eq_serial h m n (Regular_nodes root hr n hn) a]
      simp
  · intro c part tl bl tr br a n hsome hnot
    exact CalcCenterOfMassParallel_partial h n c part tl bl tr br a hsome hnot

/-- C21 at the four-corner tree, with the counter and cap `RunSimulation`
passes for four threads, and at a root whose only child is `topLeft`. -/
theorem C21_no_nil_dereference_on_built_trees_witness :
    (∃ root', CalcCenterOfMassParallel cornersHeap 1 4 cornersTree = .ok root') ∧
    CalcCenterOfMassParallel cornersHeap 1 4 cornersTree ≠ .error .nilDeref ∧
    CalcCenterOfMassParallel cornersHeap 1 4 lopsidedTree = .error .nilDeref :=
  ⟨((C21_no_nil_dereference_on_built_trees cornersHeap 3 (-2) 2 (-2) 2 [0, 1, 2, 3] cornersTree
      cornersTree_built).1 1 4).1,
    ((C21_no_nil_dereference_on_built_trees cornersHeap 3 (-2) 2 (-2) 2 [0, 1, 2, 3] cornersTree
      cornersTree_built).1 1 4).2,
    (C21_no_nil_dereference_on_built_trees cornersHeap 3 (-2) 2 (-2) 2 [0, 1, 2, 3] cornersTree
      cornersTree_built).2.2 _ _ _ _ _ _ 1 4 (Or.inl (by simp)) (Or.inr (Or.inl rfl))⟩

end ClaimC21

/-! ## C22: the tree does not depend on the order of insertion -/

section ClaimC22

variable {F : Type} [LinearOrderedField F]

theorem skeleton_freshChild (c : Cell F) (Q : Quad) :
    skeleton (freshChild c Q) = freshChild c Q := by
  cases Q <;> rfl

theorem skeleton_setChild (t : BarnesHutNode F) (Q : Quad) (r : BarnesHutNode F) :
    skeleton (setChild t Q r) = setChild (skeleton t) Q (skeleton r) := by
  cases t with
  | nil => rfl
  | node c part tl bl tr br => cases Q <;> rfl

theorem skeleton_getChild (t : BarnesHutNode F) (Q : Quad) :
    skeleton (getChild t Q) = getChild (skeleton t) Q := by
  cases t with
  | nil => rfl
  | node c part tl bl tr br => cases Q <;> rfl

/-- Insertion writes no aggregate field: a tree whose aggregates are all zero
keeps them zero. -/
theorem InsertParticle_skeleton_fixed (h : Heap F) :
    ∀ (fuel : Nat) (t : BarnesHutNode F) (p : PRef) (t' : BarnesHutNode F),
      InsertParticle h fuel t p = .ok t' → skeleton t = t → skeleton t' = t' := by
  intro fuel
  induction fuel with
  | zero => intro t p t' H; simp [InsertParticle] at H
  | succ n ih =>
    intro t p t' H hfix
    cases t with
    | nil => simp [InsertParticle] at H
    | node c part tl bl tr br =>
      have hc : ({ c with totalMass := 0, comX := 0, comY := 0 } : Cell F) = c := by
        simp only [skeleton, BarnesHutNode.node.injEq] at hfix
        exact hfix.1
      cases part with
      | some q =>
        rw [InsertParticle_leaf] at H
        cases h1 : InsertParticle h n (.node c none (freshChild c .TL) (freshChild c .BL)
            (freshChild c .TR) (freshChild c .BR)) q with
        | error e => simp [h1] at H
        | ok node2 =>
          simp only [h1] at H
          refine ih _ _ _ H (ih _ _ _ h1 ?_)
          rw [skeleton, skeleton_freshChild, skeleton_freshChild, skeleton_freshChild,
            skeleton_freshChild, hc]
      | none =>
        by_cases hne : tl = .nil ∧ tr = .nil ∧ bl = .nil ∧ br = .nil
        · obtain ⟨rfl, rfl, rfl, rfl⟩ := hne
          rw [InsertParticle_empty] at H
          cases H
          simp only [skeleton, hc]
        · rw [InsertParticle_internal h _ c p tl bl tr br hne] at H
          cases h1 : InsertParticle h n
              (orCreate (getChild (.node c none tl bl tr br) (quadrant c (h p).x (h p).y))
                (freshChild c (quadrant c (h p).x (h p).y))) p with
          | error e => simp [h1] at H
          | ok r =>
            simp only [h1] at H
            cases H
            rw [skeleton_setChild, hfix]
            congr 1
            apply ih _ _ _ h1
            unfold orCreate
            split_ifs
            · exact skeleton_freshChild c _
            · rw [skeleton_getChild, hfix]

theorem insertAll_skeleton_fixed (h : Heap F) (fuel : Nat) :
    ∀ (ps : List PRef) (t t' : BarnesHutNode F),
      insertAll h fuel t ps = .ok t' → skeleton t = t → skeleton t' = t' := by
  intro ps
  induction ps with
  | nil =>
    intro t t' H hfix
    simp only [insertAll] at H
    cases H
    exact hfix
  | cons p ps ih =>
    intro t t' H hfix
    rw [insertAll] at H
    cases h1 : InsertParticle h fuel t p with
    | error e => simp [h1] at H
    | ok t1 =>
      simp only [h1] at H
      exact ih _ _ H (InsertParticle_skeleton_fixed h _ _ _ _ h1 hfix)

/-- C22. Over exact arithmetic, let `tree` be built by the insertion loop from
an empty root out of particles inside the half-open root bounds, and let `p`
and `q` lie inside these bounds, at positions that differ from each other and
from that of every particle in `tree`. Then inserting `p` and then `q` into
`tree` returns, inserting `q` and then `p` returns, and the two trees are the
same: the same nodes with the same fields, children and particles. And the
insertion loop returns `tree` itself for every permutation of the particles it
was built from. -/
theorem C22_insertion_order_independent [Archimedean F] (h : Heap F) (fuel0 : Nat)
    (leftX rightX botY topY : F) (ps : List PRef) (tree : BarnesHutNode F) (p q : PRef)
    (hin : ∀ x ∈ ps, (Bounds.mk leftX rightX botY topY).Contains h x)
    (hbuild : insertAll h fuel0 (CreateNode leftX rightX botY topY none) ps = .ok tree)
    (hp : (Bounds.mk leftX rightX botY topY).Contains h p)
    (hq : (Bounds.mk leftX rightX botY topY).Contains h q)
    (hpq : pos h p ≠ pos h q)
    (hnew : ∀ x ∈ particles tree, pos h x ≠ pos h p ∧ pos h x ≠ pos h q) :
    (∃ fuel result, insertAll h fuel tree [p, q] = .ok result ∧
      insertAll h fuel tree [q, p] = .ok result) ∧
    (∀ ps' : List PRef, ps'.Perm ps →
      ∃ fuel, insertAll h fuel (CreateNode leftX rightX botY topY none) ps' = .ok tree) := by
  obtain ⟨hw, hperm, hd⟩ := built_WF_distinct h fuel0 leftX rightX botY topY ps tree hin hbuild
  have hroot : skeleton (CreateNode leftX rightX botY topY none)
      = CreateNode leftX rightX botY topY (none : Option PRef) := rfl
  have hfix : skeleton tree = tree := insertAll_skeleton_fixed h fuel0 ps _ _ hbuild hroot
  constructor
  · obtain ⟨f1, r1, e1, w1, -, c1⟩ := insertAll_WF h ⟨leftX, rightX, botY, topY⟩ [p, q] tree hw
      (by
        intro x hx
        simp only [List.mem_cons, List.mem_singleton, List.not_mem_nil, or_false] at hx
        rcases hx with rfl | rfl
        · exact hp
        · exact hq)
      (by simp [hpq])
      (by
        intro x hx y hy
        simp only [List.mem_cons, List.mem_singleton, List.not_mem_nil, or_false] at hx
        rcases hx with rfl | rfl
        · exact (hnew y hy).1
        · exact (hnew y hy).2)
    obtain ⟨f2, r2, e2, w2, -, c2⟩ := insertAll_WF h ⟨leftX, rightX, botY, topY⟩ [q, p] tree hw
      (by
        intro x hx
        simp only [List.mem_cons, List.mem_singleton, List.not_mem_nil, or_false] at hx
        rcases hx with rfl | rfl
        · exact hq
        · exact hp)
      (by simp [Ne.symm hpq])
      (by
        intro x hx y hy
        simp only [List.mem_cons, List.mem_singleton, List.not_mem_nil, or_false] at hx
        rcases hx with rfl | rfl
        · exact (hnew y hy).2
        · exact (hnew y hy).1)
    have hsk : skeleton r1 = skeleton r2 := by
      apply WF_unique h r1 r2 _ w1 w2
      intro a
      rw [c1 a, c2 a]
      simp only [List.cons_append, List.nil_append, List.count_cons]
      omega
    have hr : r1 = r2 := by
      rw [← insertAll_skeleton_fixed h f1 _ _ _ e1 hfix, hsk,
        insertAll_skeleton_fixed h f2 _ _ _ e2 hfix]
    subst hr
    exact ⟨max f1 f2, r1, insertAll_mono_le h (le_max_left f1 f2) _ _ _ e1,
      insertAll_mono_le h (le_max_right f1 f2) _ _ _ e2⟩
  · intro ps' hperm'
    have hin' : ∀ x ∈ ps', (Bounds.mk leftX rightX botY topY).Contains h x :=
      fun x hx => hin x (hperm'.mem_iff.mp hx)
    have hd' : ps'.Pairwise (fun p q => pos h p ≠ pos h q) :=
      (hperm'.pairwise_iff (fun hne => Ne.symm hne)).mpr hd
    obtain ⟨f, r, e, w, -, c⟩ := insertAll_WF h ⟨leftX, rightX, botY, topY⟩ ps'
      (CreateNode leftX rightX botY topY none) (WF_CreateNode h leftX rightX botY topY) hin' hd'
      (by intro x _ y hy; simp [CreateNode, particles] at hy)
    have hsk : skeleton r = skeleton tree := by
      apply WF_unique h r tree _ w hw
      intro a
      rw [c a, hperm.count_eq a, ← hperm'.count_eq a]
      simp [CreateNode, particles]
    have hr : r = tree := by
      rw [← insertAll_skeleton_fixed h f _ _ _ e hroot, hsk, hfix]
    subst hr
    exact ⟨f, e⟩

theorem rightColumnTree_built :
    insertAll cornersHeap 3 (CreateNode (-2) 2 (-2) 2 none) [0, 1] = .ok rightColumnTree := by
  norm_num [insertAll, InsertParticle, CreateNode, orCreate, BarnesHutNode.isNil, cornersHeap,
    NewParticle, rightColumnTree]

theorem corners_either_order :
    insertAll cornersHeap 2 rightColumnTree [2, 3] = .ok cornersTree ∧
    insertAll cornersHeap 2 rightColumnTree [3, 2] = .ok cornersTree := by
  constructor <;>
    norm_num [insertAll, InsertParticle, CreateNode, orCreate, BarnesHutNode.isNil, cornersHeap,
      NewParticle, rightColumnTree, cornersTree]

/-- C22 at the tree that holds the corner particles `0` and `1`, for the
corner particles `2` and `3`: both orders give the four-corner tree. -/
theorem C22_insertion_order_independent_witness :
    ((∃ fuel result, insertAll cornersHeap fuel rightColumnTree [2, 3] = .ok result ∧
        insertAll cornersHeap fuel rightColumnTree [3, 2] = .ok result) ∧
      (∀ ps' : List PRef, ps'.Perm [0, 1] →
        ∃ fuel, insertAll cornersHeap fuel (CreateNode (-2) 2 (-2) 2 none) ps'
          = .ok rightColumnTree)) ∧
    insertAll cornersHeap 2 rightColumnTree [2, 3] = .ok cornersTree ∧
    insertAll cornersHeap 2 rightColumnTree [3, 2] = .ok cornersTree :=
  ⟨C22_insertion_order_independent cornersHeap 3 (-2) 2 (-2) 2 [0, 1] rightColumnTree 2 3
      (by
        intro x hx
        simp only [List.mem_cons, List.mem_singleton, List.not_mem_nil, or_false] at hx
        rcases hx with rfl | rfl <;> norm_num [Bounds.Contains, cornersHeap, NewParticle])
      rightColumnTree_built
      (by norm_num [Bounds.Contains, cornersHeap, NewParticle])
      (by norm_num [Bounds.Contains, cornersHeap, NewParticle])
      (by norm_num [pos, cornersHeap, NewParticle, Prod.ext_iff])
      (by
        intro x hx
        simp only [rightColumnTree, particles, Option.toList, List.nil_append, List.append_nil,
          List.singleton_append, List.mem_cons, List.mem_singleton, List.not_mem_nil,
          or_false] at hx
        rcases hx with rfl | rfl <;> norm_num [pos, cornersHeap, NewParticle, Prod.ext_iff]),
    corners_either_order.1, corners_either_order.2⟩

end ClaimC22

/-! ## C13: the linked list of `Deque` behaves as a sequence of tasks -/

section ClaimC13

variable {F : Type} [LinearOrderedField F]

theorem Refines_LenInt32 (d : LinkedDeque F) (s : Deque F) (hr : Refines d s) :
    d.Len = s.LenInt32 := by
  obtain ⟨addrs, ⟨-, -, -, -, -, hsz⟩, ht⟩ := hr
  rw [LinkedDeque.Len, Deque.LenInt32, hsz, ht, List.length_map]

theorem callInt32_Refines (d : LinkedDeque F) (s : Deque F) (op : DequeOp F)
    (hr : Refines d s) :
    (d.call op).1 = (s.callInt32 op).1 ∧ Refines (d.call op).2 (s.callInt32 op).2 := by
  cases op with
  | pushFront t => exact ⟨rfl, Refines_PushFront d s t hr⟩
  | pushBack t => exact ⟨rfl, Refines_PushBack d s t hr⟩
  | popFront =>
    obtain ⟨h1, h2, h3, -⟩ := Refines_PopFront d s hr
    exact ⟨by simp only [LinkedDeque.call, Deque.callInt32, h1, h2], h3⟩
  | popBack =>
    obtain ⟨h1, h2, h3, -⟩ := Refines_PopBack d s hr
    exact ⟨by simp only [LinkedDeque.call, Deque.callInt32, h1, h2], h3⟩
  | len =>
    exact ⟨by simp only [LinkedDeque.call, Deque.callInt32, Refines_LenInt32 d s hr], hr⟩

theorem runInt32_Refines :
    ∀ (ops : List (DequeOp F)) (d : LinkedDeque F) (s : Deque F), Refines d s →
      (d.run ops).1 = (s.runInt32 ops).1 ∧ Refines (d.run ops).2 (s.runInt32 ops).2 := by
  intro ops
  induction ops with
  | nil => intro d s hr; exact ⟨rfl, hr⟩
  | cons op ops ih =>
    intro d s hr
    obtain ⟨h1, h2⟩ := callInt32_Refines d s op hr
    obtain ⟨g1, g2⟩ := ih _ _ h2
    simp only [LinkedDeque.run, Deque.runInt32, h1, g1, true_and]
    exact g2

/-- While fewer than `2^31` tasks are queued before each call, the calls on
the linked list return what the calls on the sequence return, `Len` being the
number of tasks. -/
theorem run_Refines_queued :
    ∀ (ops : List (DequeOp F)) (d : LinkedDeque F) (s : Deque F), Refines d s →
      (∀ k, k < ops.length → (s.run (ops.take k)).2.tasks.length < 2147483648) →
      (d.run ops).1 = (s.run ops).1 ∧ Refines (d.run ops).2 (s.run ops).2 := by
  intro ops
  induction ops with
  | nil => intro d s hr _; exact ⟨rfl, hr⟩
  | cons op ops ih =>
    intro d s hr hq
    have h0 : s.tasks.length < 2147483648 := by
      simpa [Deque.run] using hq 0 (by simp)
    obtain ⟨h1, h2, -⟩ := call_Refines d s op hr h0
    obtain ⟨g1, g2⟩ := ih _ _ h2 (by
      intro k hk
      have := hq (k + 1) (by simpa using hk)
      simpa [Deque.run] using this)
    simp only [LinkedDeque.run, Deque.run, h1, g1, true_and]
    exact g2

/-- C13, refuted as stated. After `2^31` calls of `PushFront` on a new deque
the linked list holds a sequence of `2^31` tasks, and `Len` returns `-2^31`:
the field `size` is an `int32`. -/
theorem C13_len_wraps_beyond_int32 :
    Refines ((List.replicate 2147483648 ({ Node := .nil } : Task ℚ)).foldl
        LinkedDeque.PushFront NewLinkedDeque)
      { tasks := List.replicate 2147483648 { Node := .nil } } ∧
    (Deque.mk (List.replicate 2147483648 ({ Node := .nil } : Task ℚ))).tasks.length
      = 2147483648 ∧
    (Deque.mk (List.replicate 2147483648 ({ Node := .nil } : Task ℚ))).Len = 2147483648 ∧
    ((List.replicate 2147483648 ({ Node := .nil } : Task ℚ)).foldl
        LinkedDeque.PushFront NewLinkedDeque).Len = -2147483648 := by
  have hr := foldl_PushFront_Refines (List.replicate 2147483648 ({ Node := .nil } : Task ℚ))
    _ _ (Refines_New : Refines (NewLinkedDeque : LinkedDeque ℚ) NewDeque)
  have hr' : Refines ((List.replicate 2147483648 ({ Node := .nil } : Task ℚ)).foldl
        LinkedDeque.PushFront NewLinkedDeque)
      { tasks := List.replicate 2147483648 { Node := .nil } } := by
    simpa only [List.reverse_replicate, NewDeque, List.append_nil] using hr
  refine ⟨hr', List.length_replicate _ _, ?_, ?_⟩
  · simp only [Deque.Len, List.length_replicate]
    rfl
  · rw [Refines_LenInt32 _ _ hr']
    simp only [Deque.LenInt32, List.length_replicate]
    unfold wrapInt32
    norm_num

/-- C13, amended. The doubly linked list of the source behaves as the sequence
of the tasks it holds, from `head` to `tail`, under every sequence of calls.
On the sequence, `PushFront` prepends, `PushBack` appends, `PopFront` removes
and returns the first task, `PopBack` removes and returns the last task, and
both pops return `(Task{}, false)` on the empty sequence, which they leave as
it is. For a linked list `d` that holds the sequence `s` and every sequence of
calls `ops`, of any length: the calls on `d` return what the calls on `s`
return, where `Len` returns the number of tasks as an `int32`, and `d` then
holds the resulting sequence; `Len` on `d` is the number of tasks of `s`
wrapped to `int32`, which is that number itself when it is below `2^31`; so
while fewer than `2^31` tasks are queued before each call, the calls on `d`
return what the calls on `s` return with `Len` the number of tasks. A pop on a
linked list that holds no task leaves every field of it unchanged. Hence a
`PopFront` right after `PushFront(t)` returns `t` and restores the sequence,
and after `PushFront` of `t1, ..., tn` on a new deque `PopFront` returns `tn`
and `PopBack` returns `t1`. -/
theorem C13_deque_behaves_as_sequence_with_int32_len (d : LinkedDeque F) (s : Deque F)
    (ops : List (DequeOp F)) (hr : Refines d s) :
    (∀ (s : Deque F) (t : Task F),
      (s.PushFront t).tasks = t :: s.tasks ∧ (s.PushBack t).tasks = s.tasks ++ [t] ∧
      (∀ rest, s.tasks = t :: rest → s.PopFront = (t, true, { tasks := rest })) ∧
      (∀ rest, s.tasks = rest ++ [t] → s.PopBack = (t, true, { tasks := rest })) ∧
      (s.tasks = [] → s.PopFront = ({ Node := .nil }, false, s) ∧
        s.PopBack = ({ Node := .nil }, false, s)) ∧
      s.Len = s.tasks.length ∧ s.LenInt32 = wrapInt32 s.tasks.length) ∧
    ((d.run ops).1 = (s.runInt32 ops).1 ∧ Refines (d.run ops).2 (s.runInt32 ops).2) ∧
    (d.Len = wrapInt32 s.tasks.length ∧
      (s.tasks.length < 2147483648 → d.Len = s.tasks.length)) ∧
    ((∀ k, k < ops.length → (s.run (ops.take k)).2.tasks.length < 2147483648) →
      (d.run ops).1 = (s.run ops).1 ∧ Refines (d.run ops).2 (s.run ops).2) ∧
    (s.tasks = [] →
      d.PopFront = ({ Node := .nil }, false, d) ∧ d.PopBack = ({ Node := .nil }, false, d)) ∧
    (∀ t : Task F,
      (d.PushFront t).PopFront.1 = t ∧ (d.PushFront t).PopFront.2.1 = true ∧
        Refines (d.PushFront t).PopFront.2.2 s) ∧
    (∀ (t1 : Task F) (ts : List (Task F)),
      (((t1 :: ts).foldl LinkedDeque.PushFront NewLinkedDeque).PopFront.1
          = (t1 :: ts).getLast (List.cons_ne_nil t1 ts) ∧
        ((t1 :: ts).foldl LinkedDeque.PushFront NewLinkedDeque).PopFront.2.1 = true) ∧
      (((t1 :: ts).foldl LinkedDeque.PushFront NewLinkedDeque).PopBack.1 = t1 ∧
        ((t1 :: ts).foldl LinkedDeque.PushFront NewLinkedDeque).PopBack.2.1 = true)) := by
  refine ⟨?_, runInt32_Refines ops d s hr, ?_, run_Refines_queued ops d s hr, ?_, ?_, ?_⟩
  · intro s t
    refine ⟨rfl, rfl, ?_, fun rest hs => PopBack_snoc s rest t hs, ?_, rfl, rfl⟩
    · intro rest hs
      cases s with
      | mk tasks =>
        simp only at hs
        subst hs
        rfl
    · intro hs
      cases s with
      | mk tasks =>
        simp only at hs
        subst hs
        exact ⟨rfl, rfl⟩
  · refine ⟨Refines_LenInt32 d s hr, fun hlen => ?_⟩
    rw [Refines_Len d s hr hlen]
    rfl
  · intro hs
    obtain ⟨h1, h2, -, h4⟩ := Refines_PopFront d s hr
    obtain ⟨g1, g2, -, g4⟩ := Refines_PopBack d s hr
    cases s with
    | mk tasks =>
      simp only at hs
      subst hs
      constructor
      · refine Prod.ext ?_ (Prod.ext ?_ ?_)
        · exact h1
        · exact h2
        · exact h4 rfl
      · refine Prod.ext ?_ (Prod.ext ?_ ?_)
        · exact g1
        · exact g2
        · exact g4 rfl
  · intro t
    obtain ⟨h1, h2, h3, -⟩ := Refines_PopFront _ _ (Refines_PushFront d s t hr)
    exact ⟨h1, h2, h3⟩
  · intro t1 ts
    have hr := foldl_PushFront_Refines (t1 :: ts) _ _
      (Refines_New : Refines (NewLinkedDeque : LinkedDeque F) NewDeque)
    obtain ⟨h1, h2, -, -⟩ := Refines_PopFront _ _ hr
    obtain ⟨g1, g2, -, -⟩ := Refines_PopBack _ _ hr
    have hb : (Deque.mk ((t1 :: ts).reverse ++ (NewDeque : Deque F).tasks)).PopBack
        = (t1, true, { tasks := ts.reverse }) :=
      PopBack_snoc _ ts.reverse t1 (by simp [NewDeque])
    rw [hb] at g1 g2
    refine ⟨⟨?_, ?_⟩, g1, g2⟩
    · rw [h1]
      cases hrev : (t1 :: ts).reverse with
      | nil => simp at hrev
      | cons x xs =>
        have hx : (t1 :: ts).getLast (List.cons_ne_nil t1 ts) = x := by
          have := List.head_reverse (l := t1 :: ts) (by simp)
          simp only [hrev, List.head_cons] at this
          exact this.symm
        rw [hx]
        simp [Deque.PopFront, NewDeque]
    · rw [h2]
      cases hrev : (t1 :: ts).reverse with
      | nil => simp at hrev
      | cons x xs => simp [Deque.PopFront, NewDeque, hrev]

/-- C13 amended, at a new deque and three pushes followed by four pops, with
`Len` before and after the pops: the linked list returns what the sequence
returns. -/
theorem C13_deque_behaves_as_sequence_with_int32_len_witness :
    Refines (NewLinkedDeque : LinkedDeque ℚ) NewDeque ∧
    ((NewLinkedDeque : LinkedDeque ℚ).run dequeCalls).1
      = ((NewDeque : Deque ℚ).runInt32 dequeCalls).1 ∧
    ((NewLinkedDeque : LinkedDeque ℚ).run dequeCalls).1
      = [.pushed, .pushed, .pushed, .length 3, .popped { Node := rightColumnTree } true,
          .popped { Node := staleEmptyNode } true, .popped { Node := cornersTree } true,
          .popped { Node := .nil } false, .length 0] :=
  ⟨Refines_New,
    (C13_deque_behaves_as_sequence_with_int32_len NewLinkedDeque NewDeque dequeCalls
      Refines_New).2.1.1, rfl⟩

end ClaimC13

/-! ## C7, amended: insertion over exact arithmetic -/

section ClaimC7Amended

variable {F : Type} [LinearOrderedField F]

/-- C7, amended. Over exact arithmetic (an Archimedean ordered field: no
rounding, no overflow), on a tree the insertion loop has built from an empty
root out of particles inside the root bounds, and for a particle `p` inside
the root bounds: if the position of `p` differs from the position of every
inserted particle, `InsertParticle(root, p)` returns a tree (no fault, some
recursion depth suffices); if `p` has exactly the coordinates of an inserted
particle, the call never returns: it exceeds every recursion depth. -/
theorem C7_insertion_total_on_distinct_positions [Archimedean F] (h : Heap F) (fuel0 : Nat)
    (leftX rightX botY topY : F) (ps : List PRef) (root : BarnesHutNode F) (p : PRef)
    (hin : ∀ q ∈ ps, (Bounds.mk leftX rightX botY topY).Contains h q)
    (hbuild : insertAll h fuel0 (CreateNode leftX rightX botY topY none) ps = .ok root)
    (hp : (Bounds.mk leftX rightX botY topY).Contains h p) :
    ((∀ q ∈ ps, pos h q ≠ pos h p) → ∃ fuel root', InsertParticle h fuel root p = .ok root') ∧
    ((∃ q ∈ ps, pos h q = pos h p) →
      ∀ fuel, InsertParticle h fuel root p = .error .outOfFuel) := by
  obtain ⟨hw, hperm, -⟩ := built_WF_distinct h fuel0 leftX rightX botY topY ps root hin hbuild
  constructor
  · intro hnew
    obtain ⟨fuel, root', hins, -⟩ := insert_WF h p root _ hw hp
      (fun q hq => hnew q (hperm.mem_iff.mp hq))
    exact ⟨fuel, root', hins⟩
  · rintro ⟨q, hq, heq⟩ fuel
    exact insert_WF_coincident_diverges h p q heq.symm root _ hw (hperm.mem_iff.mpr hq) fuel

/-- C7 amended, at the leaf holding the corner particle `0` and the particle
`1` at another corner, which is inserted. -/
theorem C7_insertion_total_on_distinct_positions_witness :
    (((∀ q ∈ ([0] : List PRef), pos cornersHeap q ≠ pos cornersHeap 1) →
        ∃ fuel root', InsertParticle cornersHeap fuel (CreateNode (-2 : ℚ) 2 (-2) 2 (some 0)) 1
          = .ok root') ∧
      ((∃ q ∈ ([0] : List PRef), pos cornersHeap q = pos cornersHeap 1) →
        ∀ fuel, InsertParticle cornersHeap fuel (CreateNode (-2 : ℚ) 2 (-2) 2 (some 0)) 1
          = .error .outOfFuel)) ∧
    (∃ fuel root', InsertParticle cornersHeap fuel (CreateNode (-2 : ℚ) 2 (-2) 2 (some 0)) 1
      = .ok root') :=
  ⟨C7_insertion_total_on_distinct_positions cornersHeap 1 (-2) 2 (-2) 2 [0]
      (CreateNode (-2) 2 (-2) 2 (some 0)) 1
      (by
        intro q hq
        simp only [List.mem_singleton] at hq
        subst hq
        norm_num [Bounds.Contains, cornersHeap, NewParticle])
      rfl
      (by norm_num [Bounds.Contains, cornersHeap, NewParticle]),
    (C7_insertion_total_on_distinct_positions cornersHeap 1 (-2) 2 (-2) 2 [0]
      (CreateNode (-2) 2 (-2) 2 (some 0)) 1
      (by
        intro q hq
        simp only [List.mem_singleton] at hq
        subst hq
        norm_num [Bounds.Contains, cornersHeap, NewParticle])
      rfl
      (by norm_num [Bounds.Contains, cornersHeap, NewParticle])).1
      (by
        intro q hq
        simp only [List.mem_singleton] at hq
        subst hq
        norm_num [pos, cornersHeap, NewParticle, Prod.ext_iff])⟩

end ClaimC7Amended

/-! ## C1: insertion over `float64` overflow -/

section ClaimC1Overflow

variable {F : Type} [LinearOrderedField F]

/-- Over exact arithmetic `CreateNodeOn` is `CreateNode`. -/
theorem CreateNodeOn_exact (leftX rightX botY topY : F) (particle : Option PRef) :
    CreateNodeOn exactArith leftX rightX botY topY particle
      = CreateNode leftX rightX botY topY particle := rfl

/-- Over exact arithmetic `InsertParticleOn` is `InsertParticle`. -/
theorem InsertParticleOn_exact (h : Heap F) :
    ∀ (fuel : Nat) (t : BarnesHutNode F) (p : PRef),
      InsertParticleOn exactArith h fuel t p = InsertParticle h fuel t p := by
  intro fuel
  induction fuel with
  | zero => intro t p; rfl
  | succ n ih =>
    intro t p
    cases t with
    | nil => rfl
    | node c part tl bl tr br =>
      cases part with
      | some q =>
        simp only [InsertParticleOn, InsertParticle, ih, CreateNodeOn_exact]
        rfl
      | none =>
        simp only [InsertParticleOn, InsertParticle, ih, CreateNodeOn_exact]
        simp only [exactArith, Bool.and_eq_true, decide_eq_true_eq]

/-- Over exact arithmetic `insertAllOn` is `insertAll`. -/
theorem insertAllOn_exact (h : Heap F) (fuel : Nat) :
    ∀ (ps : List PRef) (t : BarnesHutNode F),
      insertAllOn exactArith h fuel t ps = insertAll h fuel t ps := by
  intro ps
  induction ps with
  | nil => intro t; rfl
  | cons p ps ih =>
    intro t
    rw [insertAllOn, insertAll, InsertParticleOn_exact]
    cases InsertParticle h fuel t p with
    | error e => rfl
    | ok t1 => exact ih t1

theorem overflow_pivot :
    Float64.add (.fin (-(2 ^ 1023)))
      (Float64.half (Float64.sub (.fin (2 ^ 1023)) (.fin (-(2 ^ 1023))))) = .pinf := by
  have h2 : Float64.ofRat (2 ^ 1023 + - -(2 ^ 1023)) = .pinf := by
    unfold Float64.ofRat
    norm_num
  simp only [Float64.sub, Float64.neg, Float64.add, h2, Float64.half]

theorem inf_pivot (a : ℚ) :
    Float64.add (.fin a) (Float64.half (Float64.sub .pinf (.fin a))) = .pinf := rfl

theorem InsertParticleOn_empty {N : Type} (A : Arith N) (h : Heap N) (k : Nat)
    (leftX rightX botY topY : N) (p : PRef) :
    InsertParticleOn A h (k + 1) (CreateNodeOn A leftX rightX botY topY none) p
      = .ok (CreateNodeOn A leftX rightX botY topY (some p)) := rfl

theorem InsertParticleOn_leaf {N : Type} (A : Arith N) (h : Heap N) (k : Nat) (c : Cell N)
    (q p : PRef) :
    InsertParticleOn A h (k + 1) (.node c (some q) .nil .nil .nil .nil) p
      = match InsertParticleOn A h k
            (.node c none
              (CreateNodeOn A c.leftX (A.add c.leftX (A.half (A.sub c.rightX c.leftX)))
                (A.add c.botY (A.half (A.sub c.topY c.botY))) c.topY none)
              (CreateNodeOn A c.leftX (A.add c.leftX (A.half (A.sub c.rightX c.leftX)))
                c.botY (A.add c.botY (A.half (A.sub c.topY c.botY))) none)
              (CreateNodeOn A (A.add c.leftX (A.half (A.sub c.rightX c.leftX))) c.rightX
                (A.add c.botY (A.half (A.sub c.topY c.botY))) c.topY none)
              (CreateNodeOn A (A.add c.leftX (A.half (A.sub c.rightX c.leftX))) c.rightX
                c.botY (A.add c.botY (A.half (A.sub c.topY c.botY))) none)) q with
        | .error e => .error e
        | .ok node2 => InsertParticleOn A h k node2 p := by
  simp [InsertParticleOn]

theorem InsertParticleOn_botLeft {N : Type} (A : Arith N) (h : Heap N) (k : Nat) (c : Cell N)
    (tl tr br : BarnesHutNode N) (leftX rightX botY topY : N) (part : Option PRef) (p : PRef)
    (h1 : (A.lt (h p).x c.centerX && A.ge (h p).y c.centerY) = false)
    (h2 : (A.lt (h p).x c.centerX && A.lt (h p).y c.centerY) = true) :
    InsertParticleOn A h (k + 1)
        (.node c none tl (CreateNodeOn A leftX rightX botY topY part) tr br) p
      = match InsertParticleOn A h k (CreateNodeOn A leftX rightX botY topY part) p with
        | .error e => .error e
        | .ok bl1 => .ok (.node c none tl bl1 tr br) := by
  have hbl : (CreateNodeOn A leftX rightX botY topY part).isNil = false := rfl
  have hor : ∀ x, orCreate (CreateNodeOn A leftX rightX botY topY part) x
      = CreateNodeOn A leftX rightX botY topY part := by
    intro x
    simp [orCreate, hbl]
  simp [InsertParticleOn, hbl, h1, h2, hor]

/-- A leaf whose pivot and whose subdivision point are `+Inf` in both
coordinates, holding particle `0`: particle `1` follows particle `0` into the
`botLeft` quadrant, which is such a leaf again. -/
theorem overflow_leaf_diverges :
    ∀ (fuel : Nat) (c : Cell Float64) (a b : ℚ),
      c.leftX = .fin a → c.botY = .fin b → c.centerX = .pinf → c.centerY = .pinf →
      Float64.add c.leftX (Float64.half (Float64.sub c.rightX c.leftX)) = .pinf →
      Float64.add c.botY (Float64.half (Float64.sub c.topY c.botY)) = .pinf →
      InsertParticleOn float64Arith overflowHeap fuel
        (.node c (some 0) .nil .nil .nil .nil) 1 = .error .outOfFuel := by
  intro fuel
  induction fuel using Nat.strong_induction_on with
  | _ fuel ih =>
    intro c a b hl hb hcx hcy hax hay
    have c0 : (float64Arith.lt (overflowHeap 0).x c.centerX
        && float64Arith.ge (overflowHeap 0).y c.centerY) = false := by
      rw [hcx, hcy]; rfl
    have c0' : (float64Arith.lt (overflowHeap 0).x c.centerX
        && float64Arith.lt (overflowHeap 0).y c.centerY) = true := by
      rw [hcx, hcy]; rfl
    have c1 : (float64Arith.lt (overflowHeap 1).x c.centerX
        && float64Arith.ge (overflowHeap 1).y c.centerY) = false := by
      rw [hcx, hcy]; rfl
    have c1' : (float64Arith.lt (overflowHeap 1).x c.centerX
        && float64Arith.lt (overflowHeap 1).y c.centerY) = true := by
      rw [hcx, hcy]; rfl
    match fuel with
    | 0 => rfl
    | 1 =>
      rw [InsertParticleOn_leaf]
      rfl
    | 2 =>
      rw [InsertParticleOn_leaf, InsertParticleOn_botLeft _ _ _ _ _ _ _ _ _ _ _ _ _ c0 c0']
      rfl
    | n + 3 =>
      rw [InsertParticleOn_leaf, InsertParticleOn_botLeft _ _ _ _ _ _ _ _ _ _ _ _ _ c0 c0',
        InsertParticleOn_empty]
      simp only []
      rw [InsertParticleOn_botLeft _ _ _ _ _ _ _ _ _ _ _ _ _ c1 c1']
      have hnext := ih (n + 1) (by omega)
        ⟨.pinf, .pinf, .fin 0, .fin 0, .fin 0, .fin a, .pinf, .pinf, .fin b⟩ a b rfl rfl rfl rfl
        rfl rfl
      have hcell : CreateNodeOn float64Arith c.leftX
          (float64Arith.add c.leftX (float64Arith.half (float64Arith.sub c.rightX c.leftX)))
          c.botY (float64Arith.add c.botY (float64Arith.half (float64Arith.sub c.topY c.botY)))
          (some 0)
          = .node ⟨.pinf, .pinf, .fin 0, .fin 0, .fin 0, .fin a, .pinf, .pinf, .fin b⟩ (some 0)
              .nil .nil .nil .nil := by
        show CreateNodeOn float64Arith c.leftX
          (Float64.add c.leftX (Float64.half (Float64.sub c.rightX c.leftX)))
          c.botY (Float64.add c.botY (Float64.half (Float64.sub c.topY c.botY))) (some 0) = _
        rw [hax, hay, hl, hb]
        rfl
      rw [hcell, hnext]

/-- C1, refuted as stated. In `float64`, rounding left out, take the empty root
`CreateNode(-2^1023, 2^1023, -2^1023, 2^1023, nil)` and the particles `0` at
`(-1, 0)` and `1` at `(1, 0)`: distinct positions inside the half-open bounds.
`rightX - leftX` overflows to `+Inf`, so the pivot of the root is
`(+Inf, +Inf)`. The first insertion returns; the second never does: it exceeds
every recursion depth, both particles being sent to `botLeft` at every
subdivision. So the insertion loop returns no tree. -/
theorem C1_insertion_never_returns_at_float64_overflow :
    (overflowHeap 0).x ≠ (overflowHeap 1).x ∧
    (∀ p ∈ ([0, 1] : List PRef),
      Float64.ge (overflowHeap p).x (.fin (-(2 ^ 1023))) = true ∧
      Float64.lt (overflowHeap p).x (.fin (2 ^ 1023)) = true ∧
      Float64.ge (overflowHeap p).y (.fin (-(2 ^ 1023))) = true ∧
      Float64.lt (overflowHeap p).y (.fin (2 ^ 1023)) = true) ∧
    CreateNodeOn float64Arith (.fin (-(2 ^ 1023))) (.fin (2 ^ 1023)) (.fin (-(2 ^ 1023)))
        (.fin (2 ^ 1023)) none
      = .node ⟨.pinf, .pinf, .fin 0, .fin 0, .fin 0, .fin (-(2 ^ 1023)), .fin (2 ^ 1023),
          .fin (2 ^ 1023), .fin (-(2 ^ 1023))⟩ none .nil .nil .nil .nil ∧
    InsertParticleOn float64Arith overflowHeap 1
        (CreateNodeOn float64Arith (.fin (-(2 ^ 1023))) (.fin (2 ^ 1023)) (.fin (-(2 ^ 1023)))
          (.fin (2 ^ 1023)) none) 0
      = .ok (CreateNodeOn float64Arith (.fin (-(2 ^ 1023))) (.fin (2 ^ 1023))
          (.fin (-(2 ^ 1023))) (.fin (2 ^ 1023)) (some 0)) ∧
    (∀ fuel, InsertParticleOn float64Arith overflowHeap fuel
        (CreateNodeOn float64Arith (.fin (-(2 ^ 1023))) (.fin (2 ^ 1023)) (.fin (-(2 ^ 1023)))
          (.fin (2 ^ 1023)) (some 0)) 1 = .error .outOfFuel) ∧
    (∀ fuel root, insertAllOn float64Arith overflowHeap fuel
        (CreateNodeOn float64Arith (.fin (-(2 ^ 1023))) (.fin (2 ^ 1023)) (.fin (-(2 ^ 1023)))
          (.fin (2 ^ 1023)) none) [0, 1] ≠ .ok root) := by
  have hnode : ∀ part : Option PRef,
      CreateNodeOn float64Arith (.fin (-(2 ^ 1023))) (.fin (2 ^ 1023))
        (.fin (-(2 ^ 1023))) (.fin (2 ^ 1023)) part
      = .node ⟨.pinf, .pinf, .fin 0, .fin 0, .fin 0, .fin (-(2 ^ 1023)), .fin (2 ^ 1023),
          .fin (2 ^ 1023), .fin (-(2 ^ 1023))⟩ part .nil .nil .nil .nil := by
    intro part
    show BarnesHutNode.node
      ⟨Float64.add (.fin (-(2 ^ 1023)))
          (Float64.half (Float64.sub (.fin (2 ^ 1023)) (.fin (-(2 ^ 1023))))),
        Float64.add (.fin (-(2 ^ 1023)))
          (Float64.half (Float64.sub (.fin (2 ^ 1023)) (.fin (-(2 ^ 1023))))),
        .fin 0, .fin 0, .fin 0, .fin (-(2 ^ 1023)), .fin (2 ^ 1023), .fin (2 ^ 1023),
        .fin (-(2 ^ 1023))⟩ part .nil .nil .nil .nil = _
    rw [overflow_pivot]
  have hroot := hnode none
  have hdiv : ∀ fuel, InsertParticleOn float64Arith overflowHeap fuel
      (CreateNodeOn float64Arith (.fin (-(2 ^ 1023))) (.fin (2 ^ 1023)) (.fin (-(2 ^ 1023)))
        (.fin (2 ^ 1023)) (some 0)) 1 = .error .outOfFuel := by
    intro fuel
    rw [hnode (some 0)]
    exact overflow_leaf_diverges fuel _ _ _ rfl rfl rfl rfl overflow_pivot overflow_pivot
  refine ⟨?_, ?_, hroot, rfl, hdiv, ?_⟩
  · simp only [overflowHeap, if_true, one_ne_zero, if_false, ne_eq, Float64.fin.injEq]
    norm_num
  · intro p hp
    simp only [List.mem_cons, List.mem_singleton, List.not_mem_nil, or_false] at hp
    rcases hp with rfl | rfl <;>
      simp [overflowHeap, Float64.ge, Float64.lt] <;> norm_num
  · intro fuel root
    cases fuel with
    | zero => simp [insertAllOn, InsertParticleOn]
    | succ k =>
      rw [insertAllOn, InsertParticleOn_empty]
      simp only [insertAllOn, hdiv (k + 1)]
      simp

end ClaimC1Overflow

/-! ## C10: every fair interleaving ends the phase -/

section Liveness

variable {F : Type} [LinearOrderedField F]

theorem stateAt_zero (act : Heap F → PRef → Heap F) (T : Nat) (n : Int) (σ : Nat → Nat)
    (s : Phase F) : stateAt act T n σ s 0 = s := rfl

theorem stateAt_succ (act : Heap F → PRef → Heap F) (T : Nat) (n : Int) (σ : Nat → Nat)
    (s : Phase F) (i : Nat) :
    stateAt act T n σ s (i + 1)
      = if σ i < T then workerStep act T n (σ i) (stateAt act T n σ s i)
        else stateAt act T n σ s i := by
  simp only [stateAt, runWorkers, List.range_succ, List.map_append, List.map_cons, List.map_nil,
    List.foldl_append, List.foldl_cons, List.foldl_nil]

theorem taskCost_pos (t : Task F) : 0 < taskCost t := by
  unfold taskCost
  split_ifs with hn
  · omega
  · cases ht : t.Node with
    | nil => simp [ht, BarnesHutNode.isNil] at hn
    | node c part tl bl tr br => simp only [subtreeCost]; omega

theorem Deque.cost_eq_zero (d : Deque F) (h0 : d.cost = 0) : d.tasks = [] := by
  cases d with
  | mk tasks =>
    cases tasks with
    | nil => rfl
    | cons t rest =>
      have := taskCost_pos t
      simp only [Deque.cost, List.map_cons, List.sum_cons] at h0
      omega

theorem cost_proc_zero (node : BarnesHutNode F) :
    PC.cost (.proc node 0) + 1 = taskCost { Node := node } := by
  cases node with
  | nil => rfl
  | node c part tl bl tr br =>
    simp only [PC.cost, taskCost, BarnesHutNode.isNil, subtreeCost]
    simp
    omega

theorem cost_proc_task (t : Task F) : PC.cost (.proc t.Node 0) + 1 = taskCost t := by
  cases t with
  | mk node => exact cost_proc_zero node

theorem cost_proc_pos (node : BarnesHutNode F) (k : Nat) : 0 < PC.cost (.proc node k) := by
  cases node with
  | nil => simp [PC.cost]
  | node c part tl bl tr br =>
    match k with
    | 0 => simp only [PC.cost]; omega
    | 1 => simp only [PC.cost]; omega
    | 2 => simp only [PC.cost]; omega
    | 3 => simp only [PC.cost]; omega
    | 4 => simp only [PC.cost]; omega
    | m + 5 => simp [PC.cost]

theorem PopFront_cost (d : Deque F) (hf : d.PopFront.2.1 = true) :
    d.cost = taskCost d.PopFront.1 + d.PopFront.2.2.cost := by
  cases d with
  | mk tasks =>
    cases tasks with
    | nil => simp [Deque.PopFront] at hf
    | cons t rest => simp [Deque.PopFront, Deque.cost]

theorem PopBack_cost (d : Deque F) (hf : d.PopBack.2.1 = true) :
    d.cost = taskCost d.PopBack.1 + d.PopBack.2.2.cost := by
  rcases PopBack_cases d with hnil | ⟨rest, t, hsn⟩
  · rw [PopBack_nil d hnil] at hf
    cases hf
  · rw [PopBack_snoc d rest t hsn]
    simp only [Deque.cost, hsn, List.map_append, List.sum_append, List.map_cons, List.map_nil,
      List.sum_cons, List.sum_nil]
    omega

/-- The work left after a step that moves worker `w` to the control point `c`
and replaces the deque of `v` by `d`. -/
theorem workLeft_update (T : Nat) (s s' : Phase F) (w v : Nat) (hw : w < T) (hv : v < T)
    (c : PC F) (d : Deque F) (hpc : s'.pc = Function.update s.pc w c)
    (hdq : s'.deques = Function.update s.deques v d) :
    workLeft T s' + ((s.deques v).cost + (s.pc w).cost) = workLeft T s + (d.cost + c.cost) := by
  have e1 := sum_update_range T s.deques (fun x => x.cost) v hv d
  have e2 := sum_update_range T s.pc (fun x => x.cost) w hw c
  simp only [workLeft, hpc, hdq] at e1 e2 ⊢
  omega

theorem pushChild_cost (w : Nat) (child : BarnesHutNode F) (s : Phase F) :
    ∃ d, (pushChild w child s).deques = Function.update s.deques w d ∧
      (pushChild w child s).pc = s.pc ∧ d.cost = subtreeCost child + (s.deques w).cost := by
  unfold pushChild
  split_ifs with hnil
  · rw [isNil_iff] at hnil
    subst hnil
    exact ⟨s.deques w, (Function.update_eq_self _ _).symm, rfl, by simp [subtreeCost]⟩
  · refine ⟨(s.deques w).PushFront { Node := child }, rfl, rfl, ?_⟩
    simp [Deque.PushFront, Deque.cost, taskCost, hnil]

/-- The effect of one step of worker `w` on the work left: the step takes one
deque `v` from `s.deques v` to `d` and the worker to the control point `c`, and
either it uses up work, or it changes no deque and the worker had no work. -/
theorem workerStep_cost (act : Heap F → PRef → Heap F) (T : Nat) (n : Int) (w : Nat)
    (hw : w < T) (s : Phase F) :
    ∃ v c d, v < T ∧ (workerStep act T n w s).pc = Function.update s.pc w c ∧
      (workerStep act T n w s).deques = Function.update s.deques v d ∧
      ((d.cost + c.cost + 1 ≤ (s.deques v).cost + (s.pc w).cost) ∨
        (d = s.deques v ∧ c.cost = 0 ∧ (s.pc w).cost = 0 ∧
          (s.pc w = .loop → (s.deques w).tasks = []))) := by
  have idle : ∀ c : PC F, c.cost = 0 → (s.pc w).cost = 0 →
      (s.pc w = .loop → (s.deques w).tasks = []) →
      ∃ v c' d, v < T ∧ (setPC w c s).pc = Function.update s.pc w c' ∧
        (setPC w c s).deques = Function.update s.deques v d ∧
        ((d.cost + c'.cost + 1 ≤ (s.deques v).cost + (s.pc w).cost) ∨
          (d = s.deques v ∧ c'.cost = 0 ∧ (s.pc w).cost = 0 ∧
            (s.pc w = .loop → (s.deques w).tasks = []))) := by
    intro c hc hp hl
    exact ⟨w, c, s.deques w, hw, rfl, (Function.update_eq_self _ _).symm,
      Or.inr ⟨rfl, hc, hp, hl⟩⟩
  unfold workerStep
  split
  · -- at the head of the loop
    rename_i hpc
    simp only [loopStep]
    split_ifs with hf
    · refine ⟨w, .proc (s.deques w).PopFront.1.Node 0, (s.deques w).PopFront.2.2, hw, rfl, rfl,
        Or.inl ?_⟩
      have e1 := PopFront_cost _ hf
      have e2 := cost_proc_task (s.deques w).PopFront.1
      rw [hpc]
      simp only [PC.cost] at e1 e2 ⊢
      omega
    · exact idle _ rfl (by rw [hpc]; rfl)
        (fun _ => PopFront_not_found _ (by simpa using hf))
  · -- in stealTask
    rename_i i hpc
    have hp0 : (s.pc w).cost = 0 := by rw [hpc]; rfl
    have hl0 : s.pc w = .loop → (s.deques w).tasks = [] := by
      intro hl; rw [hpc] at hl; cases hl
    simp only [stealStep]
    split_ifs with hi hvw hf hnil
    · exact idle _ rfl hp0 hl0
    · have hv : (w + i) % T < T := Nat.mod_lt _ (by omega)
      refine ⟨(w + i) % T, .check, (s.deques ((w + i) % T)).PopBack.2.2, hv, rfl, rfl,
        Or.inl ?_⟩
      have e1 := PopBack_cost _ hf
      have e2 : taskCost (s.deques ((w + i) % T)).PopBack.1 = 2 := by
        simp [taskCost, hnil]
      simp only [PC.cost] at e1 ⊢
      omega
    · have hv : (w + i) % T < T := Nat.mod_lt _ (by omega)
      refine ⟨(w + i) % T, .proc (s.deques ((w + i) % T)).PopBack.1.Node 0,
        (s.deques ((w + i) % T)).PopBack.2.2, hv, rfl, rfl, Or.inl ?_⟩
      have e1 := PopBack_cost _ hf
      have e2 := cost_proc_task (s.deques ((w + i) % T)).PopBack.1
      omega
    · exact idle _ rfl hp0 hl0
    · exact idle _ rfl hp0 hl0
  · -- at the test of the counter
    rename_i hpc
    have hp0 : (s.pc w).cost = 0 := by rw [hpc]; rfl
    have hl0 : s.pc w = .loop → (s.deques w).tasks = [] := by
      intro hl; rw [hpc] at hl; cases hl
    simp only [checkStep]
    split_ifs
    · exact idle _ rfl hp0 hl0
    · exact idle _ rfl hp0 hl0
  · -- in the subtree processor
    rename_i node k hpc
    have push : ∀ (child : BarnesHutNode F) (c : PC F),
        c.cost + subtreeCost child + 1 ≤ (s.pc w).cost →
        ∃ v c' d, v < T ∧ (setPC w c (pushChild w child s)).pc = Function.update s.pc w c' ∧
          (setPC w c (pushChild w child s)).deques = Function.update s.deques v d ∧
          ((d.cost + c'.cost + 1 ≤ (s.deques v).cost + (s.pc w).cost) ∨
            (d = s.deques v ∧ c'.cost = 0 ∧ (s.pc w).cost = 0 ∧
              (s.pc w = .loop → (s.deques w).tasks = []))) := by
      intro child c hle
      obtain ⟨d, hd, hp, hcost⟩ := pushChild_cost w child s
      refine ⟨w, c, d, hw, ?_, ?_, Or.inl ?_⟩
      · simp only [setPC, hp]
      · simp only [setPC, hd]
      · omega
    have only : ∀ (s' : Phase F) (c : PC F), s'.pc = s.pc → s'.deques = s.deques →
        c.cost + 1 ≤ (s.pc w).cost →
        ∃ v c' d, v < T ∧ (setPC w c s').pc = Function.update s.pc w c' ∧
          (setPC w c s').deques = Function.update s.deques v d ∧
          ((d.cost + c'.cost + 1 ≤ (s.deques v).cost + (s.pc w).cost) ∨
            (d = s.deques v ∧ c'.cost = 0 ∧ (s.pc w).cost = 0 ∧
              (s.pc w = .loop → (s.deques w).tasks = []))) := by
      intro s' c hp hd hle
      refine ⟨w, c, s.deques w, hw, ?_, ?_, Or.inl ?_⟩
      · simp only [setPC, hp]
      · simp only [setPC, hd]
        exact (Function.update_eq_self _ _).symm
      · omega
    cases node with
    | nil =>
      exact only s .loop rfl rfl (by rw [hpc]; simp [PC.cost])
    | node c part tl bl tr br =>
      match k with
      | 0 =>
        exact push tl _ (by rw [hpc]; simp only [PC.cost]; omega)
      | 1 =>
        exact push tr _ (by rw [hpc]; simp only [PC.cost]; omega)
      | 2 =>
        exact push bl _ (by rw [hpc]; simp only [PC.cost]; omega)
      | 3 =>
        exact push br _ (by rw [hpc]; simp only [PC.cost]; omega)
      | 4 =>
        cases part with
        | none =>
          exact only s .loop rfl rfl (by rw [hpc]; simp [PC.cost])
        | some p =>
          exact only (leafAction act p s) _ rfl rfl (by rw [hpc]; simp [PC.cost])
      | m + 5 =>
        exact only (countTask s) .loop rfl rfl (by rw [hpc]; simp [PC.cost])
  · rename_i hpc
    refine ⟨w, .done, s.deques w, hw, ?_, (Function.update_eq_self _ _).symm,
      Or.inr ⟨rfl, rfl, by rw [hpc]; rfl, ?_⟩⟩
    · rw [← hpc, Function.update_eq_self]
    · intro hl; rw [hpc] at hl; cases hl

theorem workLeft_le (act : Heap F → PRef → Heap F) (T : Nat) (n : Int) (w : Nat) (hw : w < T)
    (s : Phase F) : workLeft T (workerStep act T n w s) ≤ workLeft T s := by
  obtain ⟨v, c, d, hv, hpc, hdq, hcost⟩ := workerStep_cost act T n w hw s
  have e := workLeft_update T s _ w v hw hv c d hpc hdq
  rcases hcost with h1 | ⟨h1, h2, h3, -⟩
  · omega
  · rw [h1, h2, h3] at e
    omega

theorem workLeft_lt (act : Heap F → PRef → Heap F) (T : Nat) (n : Int) (w : Nat) (hw : w < T)
    (s : Phase F) (hwork : HasWork s w) :
    workLeft T (workerStep act T n w s) < workLeft T s := by
  obtain ⟨v, c, d, hv, hpc, hdq, hcost⟩ := workerStep_cost act T n w hw s
  have e := workLeft_update T s _ w v hw hv c d hpc hdq
  rcases hcost with h1 | ⟨-, -, h3, h4⟩
  · omega
  · rcases hwork with hp | ⟨hl, hne⟩
    · omega
    · exact absurd (h4 hl) hne

theorem workerStep_pc_other (act : Heap F → PRef → Heap F) (T : Nat) (n : Int) (w : Nat)
    (hw : w < T) (s : Phase F) (u : Nat) (hu : u ≠ w) :
    (workerStep act T n w s).pc u = s.pc u := by
  obtain ⟨v, c, d, -, hpc, -, -⟩ := workerStep_cost act T n w hw s
  rw [hpc, Function.update_noteq hu]

theorem HasWork_keeps (act : Heap F → PRef → Heap F) (T : Nat) (n : Int) (w : Nat)
    (hw : w < T) (s : Phase F) (u : Nat) (hu : u ≠ w) (hwork : HasWork s u)
    (hnot : ¬ workLeft T (workerStep act T n w s) < workLeft T s) :
    HasWork (workerStep act T n w s) u := by
  obtain ⟨v, c, d, hv, hpc, hdq, hcost⟩ := workerStep_cost act T n w hw s
  have e := workLeft_update T s _ w v hw hv c d hpc hdq
  rcases hcost with h1 | ⟨h1, -, -, -⟩
  · exact absurd (by omega) hnot
  · have hdq' : (workerStep act T n w s).deques = s.deques := by
      rw [hdq, h1, Function.update_eq_self]
    unfold HasWork
    rw [hpc, Function.update_noteq hu, hdq']
    exact hwork

theorem exists_HasWork (T : Nat) (root : BarnesHutNode F) (s : Phase F)
    (hinv : SchedInv T root s) (hpos : 0 < workLeft T s) : ∃ u, u < T ∧ HasWork s u := by
  by_cases hpc : ∃ w, w < T ∧ 0 < (s.pc w).cost
  · obtain ⟨w, hw, hc⟩ := hpc
    exact ⟨w, hw, Or.inl hc⟩
  · have hz : ∑ w ∈ Finset.range T, (s.pc w).cost = 0 := by
      apply Finset.sum_eq_zero
      intro w hw
      by_contra hne
      exact hpc ⟨w, Finset.mem_range.mp hw, Nat.pos_of_ne_zero hne⟩
    have hd : ∑ i ∈ Finset.range T, (s.deques i).cost ≠ 0 := by
      unfold workLeft at hpos
      omega
    obtain ⟨i, hi, hne⟩ := Finset.exists_ne_zero_of_sum_ne_zero hd
    have hi' := Finset.mem_range.mp hi
    have htasks : (s.deques i).tasks ≠ [] := by
      intro he
      exact hne (by simp [Deque.cost, he])
    refine ⟨i, hi', ?_⟩
    have hnidle : (s.pc i).idle ≠ true := fun hidle => htasks (hinv.2.2 i hi' hidle)
    cases hpci : s.pc i with
    | loop => exact Or.inr ⟨hpci, htasks⟩
    | steal j => rw [hpci] at hnidle; exact absurd rfl hnidle
    | check => rw [hpci] at hnidle; exact absurd rfl hnidle
    | proc node k => exact Or.inl (by rw [hpci]; exact cost_proc_pos node k)
    | done => rw [hpci] at hnidle; exact absurd rfl hnidle

theorem stateAt_SchedInv (act : Heap F → PRef → Heap F) (T : Nat) (n : Int) (σ : Nat → Nat)
    (root : BarnesHutNode F) (s : Phase F) (hinv : SchedInv T root s) (i : Nat) :
    SchedInv T root (stateAt act T n σ s i) :=
  runWorkers_SchedInv act T n root _ s hinv

theorem stateAt_workLeft_succ (act : Heap F → PRef → Heap F) (T : Nat) (n : Int)
    (σ : Nat → Nat) (s : Phase F) (i : Nat) :
    workLeft T (stateAt act T n σ s (i + 1)) ≤ workLeft T (stateAt act T n σ s i) := by
  rw [stateAt_succ]
  split_ifs with hlt
  · exact workLeft_le act T n _ hlt _
  · exact le_refl _

theorem stateAt_workLeft_mono (act : Heap F → PRef → Heap F) (T : Nat) (n : Int)
    (σ : Nat → Nat) (s : Phase F) (i : Nat) :
    ∀ d, workLeft T (stateAt act T n σ s (i + d)) ≤ workLeft T (stateAt act T n σ s i) := by
  intro d
  induction d with
  | zero => exact le_refl _
  | succ d ih => exact le_trans (stateAt_workLeft_succ act T n σ s (i + d)) ih

/-- A worker that has work uses up work at its next step at the latest. -/
theorem work_progress (act : Heap F → PRef → Heap F) (T : Nat) (n : Int) (σ : Nat → Nat)
    (s : Phase F) (u : Nat) (hu : u < T) :
    ∀ (d i : Nat), HasWork (stateAt act T n σ s i) u → σ (i + d) = u →
      ∃ k, i < k ∧ workLeft T (stateAt act T n σ s k) < workLeft T (stateAt act T n σ s i) := by
  intro d
  induction d with
  | zero =>
    intro i hwork hσ
    simp only [Nat.add_zero] at hσ
    refine ⟨i + 1, Nat.lt_succ_self i, ?_⟩
    rw [stateAt_succ, hσ, if_pos hu]
    exact workLeft_lt act T n u hu _ hwork
  | succ d ih =>
    intro i hwork hσ
    by_cases hlt : workLeft T (stateAt act T n σ s (i + 1)) < workLeft T (stateAt act T n σ s i)
    · exact ⟨i + 1, Nat.lt_succ_self i, hlt⟩
    · have hwork' : HasWork (stateAt act T n σ s (i + 1)) u := by
        rw [stateAt_succ] at hlt ⊢
        split_ifs at hlt ⊢ with hv
        · by_cases huv : u = σ i
          · rw [← huv] at hlt
            exact absurd (workLeft_lt act T n u hu _ hwork) hlt
          · exact HasWork_keeps act T n _ hv _ u huv hwork hlt
        · exact hwork
      obtain ⟨k, hk, hless⟩ := ih (i + 1) hwork' (by rw [← hσ]; congr 1; omega)
      exact ⟨k, by omega, lt_of_lt_of_le hless (stateAt_workLeft_succ act T n σ s i)⟩

/-- Under a fair interleaving the work left reaches zero. -/
theorem work_done (act : Heap F → PRef → Heap F) (T : Nat) (n : Int) (σ : Nat → Nat)
    (hfair : Fair T σ) (root : BarnesHutNode F) (s : Phase F) (hinv : SchedInv T root s) :
    ∀ (m i : Nat), workLeft T (stateAt act T n σ s i) ≤ m →
      ∃ k, i ≤ k ∧ workLeft T (stateAt act T n σ s k) = 0 := by
  intro m
  induction m with
  | zero => intro i hle; exact ⟨i, le_refl i, Nat.le_zero.mp hle⟩
  | succ m ih =>
    intro i hle
    by_cases h0 : workLeft T (stateAt act T n σ s i) = 0
    · exact ⟨i, le_refl i, h0⟩
    · obtain ⟨u, hu, hwork⟩ := exists_HasWork T root _
        (stateAt_SchedInv act T n σ root s hinv i) (Nat.pos_of_ne_zero h0)
      obtain ⟨j, hij, hσ⟩ := hfair u hu i
      obtain ⟨k, hk, hless⟩ := work_progress act T n σ s u hu (j - i) i hwork
        (by rw [← hσ]; congr 1; omega)
      obtain ⟨k', hk', hz⟩ := ih k (by omega)
      exact ⟨k', by omega, hz⟩

theorem workLeft_zero (T : Nat) (s : Phase F) (h0 : workLeft T s = 0) :
    (∀ v, v < T → (s.deques v).tasks = []) ∧ (∀ w, w < T → (s.pc w).cost = 0) := by
  unfold workLeft at h0
  have h1 : ∑ i ∈ Finset.range T, (s.deques i).cost = 0 := by omega
  have h2 : ∑ w ∈ Finset.range T, (s.pc w).cost = 0 := by omega
  constructor
  · intro v hv
    exact Deque.cost_eq_zero _ (Finset.sum_eq_zero_iff.mp h1 v (Finset.mem_range.mpr hv))
  · intro w hw
    exact Finset.sum_eq_zero_iff.mp h2 w (Finset.mem_range.mpr hw)

/-- When no work is left, the log holds the particles of the tree and the
counter their number. -/
theorem SchedInv_quiet (T : Nat) (root : BarnesHutNode F) (s : Phase F)
    (hinv : SchedInv T root s) (h0 : workLeft T s = 0) :
    s.tasksProcessed = wrapInt32 ((particles root).length : Int) ∧
      s.log.Perm (particles root) := by
  obtain ⟨i2, i1, -⟩ := hinv
  obtain ⟨hdq, hpc⟩ := workLeft_zero T s h0
  have hnp : ∀ w, w < T → (s.pc w).held = [] ∧ (s.pc w).uncounted = 0 := by
    intro w hw
    have hc := hpc w hw
    cases hpcw : s.pc w with
    | proc node k =>
      rw [hpcw] at hc
      have := cost_proc_pos node k
      omega
    | loop => exact ⟨rfl, rfl⟩
    | steal j => exact ⟨rfl, rfl⟩
    | check => exact ⟨rfl, rfl⟩
    | done => exact ⟨rfl, rfl⟩
  have hperm : s.log.Perm (particles root) := by
    apply List.perm_iff_count.mpr
    intro a
    have hD : ∑ i ∈ Finset.range T, (s.deques i).held.count a = 0 := by
      apply Finset.sum_eq_zero
      intro i hi
      have := hdq i (Finset.mem_range.mp hi)
      simp [Deque.held, this]
    have hP : ∑ w ∈ Finset.range T, (s.pc w).held.count a = 0 := by
      apply Finset.sum_eq_zero
      intro w hw
      rw [(hnp w (Finset.mem_range.mp hw)).1]
      rfl
    have := i2 a
    omega
  have hU : ∑ w ∈ Finset.range T, (s.pc w).uncounted = 0 := by
    apply Finset.sum_eq_zero
    intro w hw
    exact (hnp w (Finset.mem_range.mp hw)).2
  refine ⟨?_, hperm⟩
  rw [i1, hU, hperm.length_eq]
  simp

/-- When no work is left, a step of a worker moves that worker only, and
nearer to its return. -/
theorem workerStep_quiet (act : Heap F → PRef → Heap F) (T : Nat) (n : Int) (w : Nat)
    (hw : w < T) (s : Phase F) (h0 : workLeft T s = 0)
    (hcount : s.tasksProcessed = wrapInt32 n) :
    ∃ c, (workerStep act T n w s).pc = Function.update s.pc w c ∧
      c.dist T ≤ (s.pc w).dist T ∧ (s.pc w ≠ .done → c.dist T < (s.pc w).dist T) := by
  obtain ⟨hdq, hpc⟩ := workLeft_zero T s h0
  have hc := hpc w hw
  unfold workerStep
  cases hpcw : s.pc w with
  | loop =>
    refine ⟨.steal 0, ?_, ?_, ?_⟩
    · simp [loopStep, Deque.PopFront, hdq w hw, setPC]
    · simp only [PC.dist]; omega
    · intro _; simp only [PC.dist]; omega
  | steal i =>
    by_cases hi : i < T
    · refine ⟨.steal (i + 1), ?_, ?_, ?_⟩
      · simp only [stealStep, if_pos hi]
        have hnone : ((s.deques ((w + i) % T)).PopBack).2.1 = false := by
          simp [Deque.PopBack, hdq ((w + i) % T) (Nat.mod_lt _ (by omega))]
        split_ifs with hv hf hnil
        · rfl
        · rw [hnone] at hf
          exact absurd hf (by decide)
        · rw [hnone] at hf
          exact absurd hf (by decide)
        · rfl
      · simp only [PC.dist]; omega
      · intro _; simp only [PC.dist]; omega
    · refine ⟨.check, ?_, ?_, ?_⟩
      · simp only [stealStep, if_neg hi, setPC]
      · simp only [PC.dist]; omega
      · intro _; simp only [PC.dist]; omega
  | check =>
    refine ⟨.done, ?_, ?_, ?_⟩
    · simp only [checkStep, hcount, ge_iff_le, le_refl, if_true, setPC]
    · simp only [PC.dist]; omega
    · intro _; simp only [PC.dist]; omega
  | proc node k =>
    rw [hpcw] at hc
    have := cost_proc_pos node k
    omega
  | done =>
    refine ⟨.done, ?_, le_refl _, fun hne => absurd rfl hne⟩
    simp only
    rw [← hpcw, Function.update_eq_self]

theorem dist_eq_zero (T : Nat) (c : PC F) (h0 : c.dist T = 0) : c = .done := by
  cases c with
  | done => rfl
  | loop => simp only [PC.dist] at h0; omega
  | steal i => simp only [PC.dist] at h0; omega
  | check => simp only [PC.dist] at h0; omega
  | proc node k => simp only [PC.dist] at h0; omega

theorem stepsToReturn_quiet (act : Heap F → PRef → Heap F) (T : Nat) (n : Int) (w : Nat)
    (hw : w < T) (s : Phase F) (h0 : workLeft T s = 0)
    (hcount : s.tasksProcessed = wrapInt32 n) :
    stepsToReturn T (workerStep act T n w s) ≤ stepsToReturn T s ∧
      (s.pc w ≠ .done → stepsToReturn T (workerStep act T n w s) < stepsToReturn T s) := by
  obtain ⟨c, hpc, hle, hlt⟩ := workerStep_quiet act T n w hw s h0 hcount
  have e : (∑ i ∈ Finset.range T, (Function.update s.pc w c i).dist T) + (s.pc w).dist T
      = (∑ i ∈ Finset.range T, (s.pc i).dist T) + c.dist T :=
    sum_update_range T s.pc (fun x => x.dist T) w hw c
  unfold stepsToReturn
  rw [hpc]
  constructor
  · omega
  · intro hne
    have := hlt hne
    omega

theorem stateAt_quiet (act : Heap F → PRef → Heap F) (T : Nat) (n : Int) (σ : Nat → Nat)
    (root : BarnesHutNode F) (s : Phase F) (hinv : SchedInv T root s)
    (hn : n = ((particles root).length : Int)) (i : Nat)
    (h0 : workLeft T (stateAt act T n σ s i) = 0) :
    (stateAt act T n σ s i).tasksProcessed = wrapInt32 n := by
  have hq := (SchedInv_quiet T root _ (stateAt_SchedInv act T n σ root s hinv i) h0).1
  rw [hq, hn]

theorem stateAt_stepsToReturn_succ (act : Heap F → PRef → Heap F) (T : Nat) (n : Int)
    (σ : Nat → Nat) (root : BarnesHutNode F) (s : Phase F) (hinv : SchedInv T root s)
    (hn : n = ((particles root).length : Int)) (i : Nat)
    (h0 : workLeft T (stateAt act T n σ s i) = 0) :
    stepsToReturn T (stateAt act T n σ s (i + 1)) ≤ stepsToReturn T (stateAt act T n σ s i) := by
  rw [stateAt_succ]
  split_ifs with hlt
  · exact (stepsToReturn_quiet act T n _ hlt _ h0
      (stateAt_quiet act T n σ root s hinv hn i h0)).1
  · exact le_refl _

theorem stateAt_workLeft_zero_succ (act : Heap F → PRef → Heap F) (T : Nat) (n : Int)
    (σ : Nat → Nat) (s : Phase F) (i : Nat) (h0 : workLeft T (stateAt act T n σ s i) = 0) :
    workLeft T (stateAt act T n σ s (i + 1)) = 0 :=
  Nat.le_zero.mp (h0 ▸ stateAt_workLeft_succ act T n σ s i)

/-- When no work is left, a worker that has not returned moves nearer to its
return at its next step at the latest. -/
theorem return_progress (act : Heap F → PRef → Heap F) (T : Nat) (n : Int) (σ : Nat → Nat)
    (root : BarnesHutNode F) (s : Phase F) (hinv : SchedInv T root s)
    (hn : n = ((particles root).length : Int)) (u : Nat) (hu : u < T) :
    ∀ (d i : Nat), workLeft T (stateAt act T n σ s i) = 0 →
      (stateAt act T n σ s i).pc u ≠ .done → σ (i + d) = u →
      ∃ k, i < k ∧ workLeft T (stateAt act T n σ s k) = 0 ∧
        stepsToReturn T (stateAt act T n σ s k) < stepsToReturn T (stateAt act T n σ s i) := by
  intro d
  induction d with
  | zero =>
    intro i h0 hne hσ
    simp only [Nat.add_zero] at hσ
    refine ⟨i + 1, Nat.lt_succ_self i, stateAt_workLeft_zero_succ act T n σ s i h0, ?_⟩
    rw [stateAt_succ, hσ, if_pos hu]
    exact (stepsToReturn_quiet act T n u hu _ h0
      (stateAt_quiet act T n σ root s hinv hn i h0)).2 hne
  | succ d ih =>
    intro i h0 hne hσ
    have h0' := stateAt_workLeft_zero_succ act T n σ s i h0
    by_cases hlt : stepsToReturn T (stateAt act T n σ s (i + 1))
        < stepsToReturn T (stateAt act T n σ s i)
    · exact ⟨i + 1, Nat.lt_succ_self i, h0', hlt⟩
    · have hne' : (stateAt act T n σ s (i + 1)).pc u ≠ .done := by
        rw [stateAt_succ] at hlt ⊢
        split_ifs at hlt ⊢ with hv
        · by_cases huv : u = σ i
          · rw [← huv] at hlt
            exact absurd ((stepsToReturn_quiet act T n u hu _ h0
              (stateAt_quiet act T n σ root s hinv hn i h0)).2 hne) hlt
          · rw [workerStep_pc_other act T n _ hv _ u huv]
            exact hne
        · exact hne
      obtain ⟨k, hk, hz, hless⟩ := ih (i + 1) h0' hne' (by rw [← hσ]; congr 1; omega)
      exact ⟨k, by omega, hz, lt_of_lt_of_le hless
        (stateAt_stepsToReturn_succ act T n σ root s hinv hn i h0)⟩

/-- Under a fair interleaving, once no work is left every worker returns. -/
theorem return_done (act : Heap F → PRef → Heap F) (T : Nat) (n : Int) (σ : Nat → Nat)
    (hfair : Fair T σ) (root : BarnesHutNode F) (s : Phase F) (hinv : SchedInv T root s)
    (hn : n = ((particles root).length : Int)) :
    ∀ (m i : Nat), workLeft T (stateAt act T n σ s i) = 0 →
      stepsToReturn T (stateAt act T n σ s i) ≤ m →
      ∃ k, i ≤ k ∧ stepsToReturn T (stateAt act T n σ s k) = 0 := by
  intro m
  induction m with
  | zero => intro i _ hle; exact ⟨i, le_refl i, Nat.le_zero.mp hle⟩
  | succ m ih =>
    intro i h0 hle
    by_cases hz : stepsToReturn T (stateAt act T n σ s i) = 0
    · exact ⟨i, le_refl i, hz⟩
    · obtain ⟨u, hu, hne⟩ := Finset.exists_ne_zero_of_sum_ne_zero hz
      have hu' := Finset.mem_range.mp hu
      have hnd : (stateAt act T n σ s i).pc u ≠ .done := by
        intro hd
        rw [hd] at hne
        exact hne rfl
      obtain ⟨j, hij, hσ⟩ := hfair u hu' i
      obtain ⟨k, hk, hz', hless⟩ := return_progress act T n σ root s hinv hn u hu' (j - i) i
        h0 hnd (by rw [← hσ]; congr 1; omega)
      obtain ⟨k', hk', hfin⟩ := ih k hz' (by omega)
      exact ⟨k', by omega, hfin⟩

theorem phaseDone_of_stepsToReturn (T : Nat) (s : Phase F) (h0 : stepsToReturn T s = 0) :
    phaseDone T s = true := by
  simp only [phaseDone, List.all_eq_true, List.mem_range]
  intro w hw
  have := Finset.sum_eq_zero_iff.mp h0 w (Finset.mem_range.mpr hw)
  rw [dist_eq_zero T _ this]
  rfl

/-- A phase in which all workers have returned stays as it is. -/
theorem stateAt_done_stable (act : Heap F → PRef → Heap F) (T : Nat) (n : Int) (σ : Nat → Nat)
    (s : Phase F) (i : Nat) (hdone : phaseDone T (stateAt act T n σ s i) = true) :
    ∀ d, stateAt act T n σ s (i + d) = stateAt act T n σ s i := by
  intro d
  induction d with
  | zero => rfl
  | succ d ih =>
    rw [← Nat.add_assoc, stateAt_succ, ih]
    split_ifs with hlt
    · simp only [phaseDone, List.all_eq_true, List.mem_range] at hdone
      have hd := (isDone_iff _).mp (hdone _ hlt)
      unfold workerStep
      rw [hd]
    · rfl

/-- Under every fair interleaving the workers of a phase all return, and stay
returned: from the start of the phase on a tree of `n` particles there is a
number of steps after which `wg.Wait()` has returned. -/
theorem phase_ends (act : Heap F → PRef → Heap F) (T : Nat) (hT : 1 ≤ T) (n : Int)
    (σ : Nat → Nat) (hfair : Fair T σ) (h : Heap F) (root : BarnesHutNode F)
    (hn : n = ((particles root).length : Int)) :
    ∃ N, ∀ M, N ≤ M →
      phaseDone T (runWorkers act T n ((List.range M).map σ) (startPhase h root)) = true := by
  have hinv := startPhase_SchedInv T hT h root
  obtain ⟨k, -, hk⟩ := work_done act T n σ hfair root _ hinv _ 0 (le_refl _)
  obtain ⟨N, -, hN⟩ := return_done act T n σ hfair root _ hinv hn _ k hk (le_refl _)
  have hdone := phaseDone_of_stepsToReturn T _ hN
  refine ⟨N, fun M hM => ?_⟩
  have := stateAt_done_stable act T n σ (startPhase h root) N hdone (M - N)
  rw [show N + (M - N) = M by omega] at this
  show phaseDone T (stateAt act T n σ (startPhase h root) M) = true
  rw [this]
  exact hdone

/-- Fairness is needed: a worker that never takes a step stays at the head of
its loop, so the phase does not end. -/
theorem never_scheduled_never_returns (act : Heap F → PRef → Heap F) (T : Nat) (n : Int)
    (σ : Nat → Nat) (h : Heap F) (root : BarnesHutNode F) (w : Nat) (hw : w < T)
    (hnever : ∀ i, σ i ≠ w) :
    ∀ M, phaseDone T (runWorkers act T n ((List.range M).map σ) (startPhase h root)) = false := by
  have hpc : ∀ M, (stateAt act T n σ (startPhase h root) M).pc w = .loop := by
    intro M
    induction M with
    | zero => rfl
    | succ M ih =>
      rw [stateAt_succ]
      split_ifs with hlt
      · rw [workerStep_pc_other act T n _ hlt _ w (fun e => hnever M e.symm)]
        exact ih
      · exact ih
  intro M
  cases hd : phaseDone T (runWorkers act T n ((List.range M).map σ) (startPhase h root)) with
  | false => rfl
  | true =>
    simp only [phaseDone, List.all_eq_true, List.mem_range] at hd
    have h1 := (isDone_iff _).mp (hd w hw)
    have h2 := hpc M
    unfold stateAt at h2
    rw [h1] at h2
    exact PC.noConfusion h2

end Liveness
section ClaimC10

variable {F : Type} [LinearOrderedField F]

/-- C10. In a phase of `RunSimulation` (`act` is the particle update of the
phase: `CalcVelocity` in the velocity phase, the position update in the
position phase) with `numThreads ≥ 1` workers on a tree that holds exactly
`nParticles` particles, a number in the range of the `int32` counter:
* for every finite interleaving `sched` of the workers after which all of them
  have returned, `tasksProcessed` equals `nParticles` and the particles updated
  in the phase are those of the tree, each updated as often as the tree holds
  it (exactly once when it is held once);
* the phase ends: in every infinite interleaving `sched` in which each worker
  takes a step again and again, there is a number `N` of steps after which all
  workers have returned, and after `N` or more steps `tasksProcessed` equals
  `nParticles` and the particles updated are those of the tree. -/
theorem C10_tasksProcessed_equals_nParticles (act : Heap F → PRef → Heap F)
    (numThreads : Nat) (nParticles : Int) (h : Heap F) (root : BarnesHutNode F)
    (hT : 1 ≤ numThreads)
    (hn : nParticles = ((particles root).length : Int)) (h32 : nParticles < 2147483648) :
    (∀ sched : List Nat,
      phaseDone numThreads
        (runWorkers act numThreads nParticles sched (startPhase h root)) = true →
      (runWorkers act numThreads nParticles sched (startPhase h root)).tasksProcessed
          = nParticles ∧
        (runWorkers act numThreads nParticles sched (startPhase h root)).log.Perm
          (particles root)) ∧
    (∀ sched : Nat → Nat, Fair numThreads sched →
      ∃ N, ∀ M, N ≤ M →
        phaseDone numThreads (runWorkers act numThreads nParticles
          ((List.range M).map sched) (startPhase h root)) = true ∧
        (runWorkers act numThreads nParticles
          ((List.range M).map sched) (startPhase h root)).tasksProcessed = nParticles ∧
        (runWorkers act numThreads nParticles
          ((List.range M).map sched) (startPhase h root)).log.Perm (particles root)) := by
  have hend : ∀ sched : List Nat,
      phaseDone numThreads
        (runWorkers act numThreads nParticles sched (startPhase h root)) = true →
      (runWorkers act numThreads nParticles sched (startPhase h root)).tasksProcessed
          = nParticles ∧
        (runWorkers act numThreads nParticles sched (startPhase h root)).log.Perm
          (particles root) := by
    intro sched hdone
    have hinv := runWorkers_SchedInv act numThreads nParticles root sched _
      (startPhase_SchedInv numThreads hT h root)
    obtain ⟨hc, hp⟩ := SchedInv_done numThreads root _ hinv hdone
    refine ⟨?_, hp⟩
    rw [hc, ← hn]
    exact wrapInt32_of_range nParticles (by rw [hn]; exact Int.natCast_nonneg _) h32
  refine ⟨hend, ?_⟩
  intro sched hfair
  obtain ⟨N, hN⟩ := phase_ends act numThreads hT nParticles sched hfair h root hn
  exact ⟨N, fun M hM => ⟨hN M hM, hend _ (hN M hM)⟩⟩

set_option maxRecDepth 100000 in
/-- C10 at the position phase of the four-corner tree with two workers: after
the 52 steps in which the workers take steps in turn (worker `1` steals) both
have returned and the counter is 4; and the endless interleaving in which
they take steps in turn ends the phase with the counter at 4. -/
theorem C10_tasksProcessed_equals_nParticles_witness :
    ((runWorkers (fun h p => updatePosition h p (1 / 100)) 2 4
        ((List.replicate 26 [0, 1]).flatten) (startPhase cornersHeap cornersTree)).tasksProcessed
        = 4 ∧
      (runWorkers (fun h p => updatePosition h p (1 / 100)) 2 4
        ((List.replicate 26 [0, 1]).flatten) (startPhase cornersHeap cornersTree)).log.Perm
        (particles cornersTree)) ∧
    (∃ N, ∀ M, N ≤ M →
      phaseDone 2 (runWorkers (fun h p => updatePosition h p (1 / 100)) 2 4
        ((List.range M).map (fun i => i % 2)) (startPhase cornersHeap cornersTree)) = true ∧
      (runWorkers (fun h p => updatePosition h p (1 / 100)) 2 4
        ((List.range M).map (fun i => i % 2))
        (startPhase cornersHeap cornersTree)).tasksProcessed = 4 ∧
      (runWorkers (fun h p => updatePosition h p (1 / 100)) 2 4
        ((List.range M).map (fun i => i % 2))
        (startPhase cornersHeap cornersTree)).log.Perm (particles cornersTree)) :=
  ⟨(C10_tasksProcessed_equals_nParticles (fun h p => updatePosition h p (1 / 100)) 2 4
      cornersHeap cornersTree (by decide) (by decide) (by decide)).1
      ((List.replicate 26 [0, 1]).flatten) (by decide),
    (C10_tasksProcessed_equals_nParticles (fun h p => updatePosition h p (1 / 100)) 2 4
      cornersHeap cornersTree (by decide) (by decide) (by decide)).2 (fun i => i % 2)
      (fun w hw i => ⟨2 * i + w, by omega, by show (2 * i + w) % 2 = w; omega⟩)⟩

end ClaimC10

end BarnesHut
